import Mathlib

/-!
# co6: generator driver, combinators and the promise primitive they run on

A shallow embedding of `src/index.js`.  JavaScript values are a first-order
datatype; generator objects and promises live in a store indexed by natural
numbers, and every function of the source becomes a function that threads the
store (`World`).  The promise primitive (`module.exports.Promise`) is external to
the repository; it is modelled here after the ECMAScript job semantics: settled
promises schedule their reactions on a first-in-first-out job queue.
-/

namespace Co6

/-! ## Values -/

/-- JavaScript values that the driver can meet.  `state done value` is the
result object of `it.next` / `it.throw`; `generator`, `iterator` and `promise`
are references into the store. -/
inductive Value where
  | undefined
  | null
  | bool (b : Bool)
  | num (n : Int)
  | nan
  | str (s : String)
  | error (msg : String)
  | func (f : Nat)
  | state (done : Bool) (value : Value)
  | array (items : List Value)
  | generator (g : Nat)
  | iterator (i : Nat)
  | promise (p : Nat)

/-- The error raised by the host when a missing method is called. -/
def typeError : Value := Value.error "TypeError"

/-! ## Classifier (`src/index.js` lines 140-176) -/

/-- `isGenerator(v)`: truthy iff the constructor of `v` is named
`GeneratorFunction`. -/
def isGenerator : Value → Bool
  | .generator _ => true
  | _ => false

/-- `isIterator(v)`: truthy iff `v` has function-valued `next` and `throw`. -/
def isIterator : Value → Bool
  | .iterator _ => true
  | _ => false

/-- `isPromise(x)`: truthy iff `x` has a function-valued `then`. -/
def isPromise : Value → Bool
  | .promise _ => true
  | _ => false

/-- `isYieldableArray(v)`: truthy iff `v` is an array all of whose elements are
generators, iterators or promises. -/
def isYieldableArray : Value → Bool
  | .array items => items.all (fun i => isGenerator i || isIterator i || isPromise i)
  | _ => false

/-! ## Stepped computations -/

/-- One resumption of a stepped computation: `it.next(v)` or `it.throw(e)`. -/
inductive Resume where
  | next (v : Value)
  | throw (e : Value)

/-- What a resumption does: suspend with a yielded value, terminate with a
return value, or fail with a thrown value. -/
inductive Outcome where
  | yield (v : Value)
  | ret (v : Value)
  | raise (e : Value)

/-- The behaviour of a stepped computation: the outcome of its latest
resumption as a function of all resumptions it has received so far. -/
abbrev Script := List Resume → Outcome

/-- A stepped computation in the store: its behaviour and the resumptions it
has received. -/
structure IterObj where
  script : Script
  history : List Resume

/-! ## The promise primitive -/

/-- The functions that the source hands to the promise primitive, and the
primitive's own resolving functions.
* `spawnNext it` is the closure `next` of `spawn`, closed over `it`;
* `itThrow it` is `it.throw.bind(it)`;
* `parallelTask task` is `function() { return task; }` of `parallel`;
* `seriesTask value` is the closure of `series`;
* `resolveFn p`, `rejectFn p` are the resolving functions of promise `p`;
* `identity`, `thrower` stand for an omitted handler; `identity` is also
  `function(result) { return result; }` of `main`;
* `mainLog` is the rejection handler of `main`,
  `function(err) { console.log(err.stack || err); }`. -/
inductive Handler where
  | spawnNext (it : Value)
  | itThrow (it : Value)
  | parallelTask (task : Value)
  | seriesTask (value : Value)
  | resolveFn (p : Nat)
  | rejectFn (p : Nat)
  | identity
  | thrower
  | mainLog

/-- A continuation attached by `then`, with the promise `then` returned. -/
structure Reaction where
  onFulfilled : Handler
  onRejected : Handler
  derived : Nat

/-- The three states of a promise. -/
inductive PState where
  | pending (reactions : List Reaction)
  | fulfilled (v : Value)
  | rejected (e : Value)

/-- A queued job: run a handler and settle the derived promise with its result,
or make promise `p` follow the promise `thenable`. -/
inductive Job where
  | reaction (h : Handler) (arg : Value) (derived : Nat)
  | resolveThenable (p : Nat) (thenable : Nat)

/-- Observable events, in the order in which they happen. -/
inductive Event where
  | instantiate (g : Nat) (i : Nat)
  | step (i : Nat) (v : Value)
  | raise (i : Nat) (e : Value)
  | settled (p : Nat)
  | logged (v : Value)

/-- The store: generator functions, generator objects, promises, the job queue
and the log of events. -/
structure World where
  gens : Nat → Script
  iters : Nat → IterObj
  nextIter : Nat
  promises : Nat → PState
  nextPromise : Nat
  queue : List Job
  log : List Event

/-- The result of running synchronous code: a value or a thrown value. -/
inductive Completion (α : Type) where
  | normal (a : α)
  | throw (e : Value)

/-- Pointwise update of a store component. -/
def setAt {α : Type} (f : Nat → α) (i : Nat) (a : α) : Nat → α :=
  fun j => if j = i then a else f j

/-- A fresh promise in the given state. -/
def newPromise (w : World) (st : PState) : World × Nat :=
  ({ w with promises := setAt w.promises w.nextPromise st,
            nextPromise := w.nextPromise + 1 }, w.nextPromise)

/-- Append jobs to the job queue. -/
def enqueue (w : World) (js : List Job) : World :=
  { w with queue := w.queue ++ js }

/-- Modelled from the spec: the external future primitive (pending, fulfilled,
rejected; monotonic once settled).  Fulfil a pending promise and schedule its
fulfilment continuations; a settled promise is left alone. -/
def fulfillPromise (w : World) (p : Nat) (v : Value) : World :=
  match w.promises p with
  | .pending rs =>
      { w with promises := setAt w.promises p (.fulfilled v),
               queue := w.queue ++ rs.map (fun r => Job.reaction r.onFulfilled v r.derived),
               log := w.log ++ [Event.settled p] }
  | _ => w

/-- Modelled from the spec: the external future primitive.  Reject a pending
promise and schedule its rejection continuations. -/
def rejectPromise (w : World) (p : Nat) (e : Value) : World :=
  match w.promises p with
  | .pending rs =>
      { w with promises := setAt w.promises p (.rejected e),
               queue := w.queue ++ rs.map (fun r => Job.reaction r.onRejected e r.derived),
               log := w.log ++ [Event.settled p] }
  | _ => w

/-- Modelled from the spec: the external future primitive.  Resolve promise `p`
with `x`: a promise `x` is followed (in a later job), any other value fulfils
`p`. -/
def resolvePromise (w : World) (p : Nat) (x : Value) : World :=
  match x with
  | .promise t =>
      if t = p then rejectPromise w p typeError
      else enqueue w [Job.resolveThenable p t]
  | _ => fulfillPromise w p x

/-- Modelled from the spec: the external future primitive, `p.then(onFulfilled,
onRejected)`.  Returns a new promise; the continuation is stored while `p` is
pending and queued as a job when `p` is settled. -/
def promiseThen (w : World) (p : Nat) (onF onR : Handler) : World × Nat :=
  let d := w.nextPromise
  let w1 : World := { w with promises := setAt w.promises d (.pending []),
                             nextPromise := d + 1 }
  match w.promises p with
  | .pending rs =>
      ({ w1 with promises := setAt w1.promises p (.pending (rs ++ [⟨onF, onR, d⟩])) }, d)
  | .fulfilled v => (enqueue w1 [Job.reaction onF v d], d)
  | .rejected e => (enqueue w1 [Job.reaction onR e d], d)

/-- Modelled from the spec: the external future primitive, `Promise.resolve(x)`:
a promise is returned as it is, any other value gives a new fulfilled
promise. -/
def promiseResolve (w : World) (x : Value) : World × Value :=
  match x with
  | .promise p => (w, .promise p)
  | _ => let r := newPromise w (.fulfilled x); (r.1, .promise r.2)

/-! ## Stepping -/

/-- The call `it.next(v)`: the state object `{done, value}` as a pair, or the
thrown value.  A value without a `next` method throws a `TypeError`. -/
def iterNext (w : World) (it : Value) (v : Value) : World × Completion (Bool × Value) :=
  match it with
  | .iterator i =>
      let h := (w.iters i).history ++ [Resume.next v]
      let w1 : World := { w with iters := setAt w.iters i ⟨(w.iters i).script, h⟩,
                                 log := w.log ++ [Event.step i v] }
      match (w.iters i).script h with
      | .yield x => (w1, .normal (false, x))
      | .ret x => (w1, .normal (true, x))
      | .raise e => (w1, .throw e)
  | _ => (w, .throw typeError)

/-- The call `it.throw(e)` (the bound function `it.throw.bind(it)`): the state
object it returns, as a value, or the thrown value. -/
def iterThrow (w : World) (it : Value) (e : Value) : World × Completion Value :=
  match it with
  | .iterator i =>
      let h := (w.iters i).history ++ [Resume.throw e]
      let w1 : World := { w with iters := setAt w.iters i ⟨(w.iters i).script, h⟩,
                                 log := w.log ++ [Event.raise i e] }
      match (w.iters i).script h with
      | .yield x => (w1, .normal (.state false x))
      | .ret x => (w1, .normal (.state true x))
      | .raise e1 => (w1, .throw e1)
  | _ => (w, .throw typeError)

/-- The call `it()` of a generator function: a fresh, unstarted generator
object. -/
def instantiate (w : World) (it : Value) : World × Value :=
  match it with
  | .generator g =>
      ({ w with iters := setAt w.iters w.nextIter ⟨w.gens g, []⟩,
                nextIter := w.nextIter + 1,
                log := w.log ++ [Event.instantiate g w.nextIter] }, .iterator w.nextIter)
  | _ => (w, it)

/-! ## Driver and combinators (`src/index.js` lines 42-52, 100-124) -/

/-- The `then` method called on a value known to be a promise. -/
def valueThen (w : World) (x : Value) (onF onR : Handler) : World × Value :=
  match x with
  | .promise p => let r := promiseThen w p onF onR; (r.1, .promise r.2)
  | _ => (w, .undefined)

/-- `spawn(it)`: instantiate a generator, then
`Promise.resolve().then(function next(value) ...)`. -/
def spawn (w : World) (it : Value) : World × Value :=
  let r1 := if isGenerator it then instantiate w it else (w, it)
  let r2 := promiseResolve r1.1 .undefined
  valueThen r2.1 r2.2 (.spawnNext r1.2) .thrower

/-- The body of `arr.forEach` in `parallel`. -/
def parallelStep (acc : World × Value) (value : Value) : World × Value :=
  let r := if isPromise value then (acc.1, value) else spawn acc.1 value
  valueThen r.1 acc.2 (.parallelTask r.2) .thrower

/-- `parallel(arr)`. -/
def parallel (w : World) (arr : List Value) : World × Value :=
  arr.foldl parallelStep (promiseResolve w .undefined)

/-- The body of `arr.forEach` in `series`. -/
def seriesStep (acc : World × Value) (value : Value) : World × Value :=
  valueThen acc.1 acc.2 (.seriesTask value) .thrower

/-- `series(arr)`. -/
def series (w : World) (arr : List Value) : World × Value :=
  arr.foldl seriesStep (promiseResolve w .undefined)

/-- `main(gen)` (`src/index.js` lines 29-35):
`spawn(gen).then(function(result) { return result; }, function(err) { ... })`. -/
def main (w : World) (gen : Value) : World × Value :=
  let r := spawn w gen
  valueThen r.1 r.2 .identity .mainLog

/-- The value of `err.stack || err` for a value that has properties: the stack
trace of an error (a non-empty string, here its message), the value itself
otherwise. -/
def stackOrSelf : Value → Value
  | .error msg => .str msg
  | v => v

/-- The elements of an array value. -/
def arrayItems : Value → List Value
  | .array items => items
  | _ => []

/-- The closure `next(value)` of `spawn`, closed over `it`.  The fuel bounds the
depth of the synchronous recursion `next(x)`; `none` means the fuel ran out. -/
def next : Nat → World → Value → Value → Option (World × Completion Value)
  | 0, _, _, _ => none
  | fuel + 1, w, it, value =>
      match iterNext w it value with
      | (w1, .throw e) => some (w1, .throw e)
      | (w1, .normal (done, x)) =>
          if done then
            let r := promiseResolve w1 x
            some (r.1, .normal r.2)
          else
            let r2 := if isGenerator x || isIterator x then spawn w1 x else (w1, x)
            let r3 := if isYieldableArray r2.2 then parallel r2.1 (arrayItems r2.2) else r2
            if isPromise r3.2 then
              let r4 := valueThen r3.1 r3.2 (.spawnNext it) (.itThrow it)
              some (r4.1, .normal r4.2)
            else next fuel r3.1 it r3.2

/-! ## Running jobs -/

/-- Call a handler with one argument. -/
def runHandler (fuel : Nat) (w : World) (h : Handler) (arg : Value) :
    Option (World × Completion Value) :=
  match h with
  | .spawnNext it => next fuel w it arg
  | .itThrow it => some (iterThrow w it arg)
  | .parallelTask task => some (w, .normal task)
  | .seriesTask value =>
      if isPromise value then some (w, .normal value)
      else let r := spawn w value; some (r.1, .normal r.2)
  | .resolveFn p => some (resolvePromise w p arg, .normal .undefined)
  | .rejectFn p => some (rejectPromise w p arg, .normal .undefined)
  | .identity => some (w, .normal arg)
  | .thrower => some (w, .throw arg)
  | .mainLog =>
      match arg with
      | .undefined => some (w, .throw typeError)
      | .null => some (w, .throw typeError)
      | _ => some ({ w with log := w.log ++ [Event.logged (stackOrSelf arg)] }, .normal .undefined)

/-- Modelled from the spec: the external future primitive.  Run one job: a
reaction job calls its handler and resolves the derived promise with the
returned value, or rejects it with the thrown value. -/
def runJob (fuel : Nat) (w : World) (j : Job) : Option World :=
  match j with
  | .reaction h arg d =>
      match runHandler fuel w h arg with
      | none => none
      | some (w1, .normal r) => some (resolvePromise w1 d r)
      | some (w1, .throw e) => some (rejectPromise w1 d e)
  | .resolveThenable p t => some (promiseThen w t (.resolveFn p) (.rejectFn p)).1

/-- Modelled from the spec: the external future primitive runs continuations in
first-in-first-out order.  Take the oldest job off the queue and run it. -/
def tick (fuel : Nat) (w : World) : Option World :=
  match w.queue with
  | [] => some w
  | j :: rest => runJob fuel { w with queue := rest } j

/-- Run `n` jobs, oldest first. -/
def drain (fuel : Nat) : Nat → World → Option World
  | 0, w => some w
  | n + 1, w =>
      match tick fuel w with
      | none => none
      | some w1 => drain fuel n w1

/-! ## Vocabulary of the statements -/

/-- A plain yielded value: neither a computation, a stepped computation, an
async result nor a task collection. -/
def isPlain (v : Value) : Bool :=
  !(isGenerator v || isIterator v || isPromise v || isYieldableArray v)

/-- A promise state other than pending. -/
def PState.isSettled : PState → Bool
  | .pending _ => false
  | _ => true

/-- One suspension point of a stepped computation: it yields a plain value, or
it yields promise `p`, which is fulfilled with `val`. -/
inductive Item where
  | plain (v : Value)
  | await (p : Nat) (val : Value)

/-- How the run of a stepped computation ends: it returns `r`, it throws `e`,
or it yields promise `p`, which is rejected with `e`, and answers the injected
failure with `out`. -/
inductive Terminal where
  | ret (r : Value)
  | raise (e : Value)
  | fail (p : Nat) (e : Value) (out : Outcome)

/-- The resumption by which the driver answers a suspension point. -/
def Item.resume : Item → Resume
  | .plain v => .next v
  | .await _ val => .next val

/-- The resumption, if any, by which the driver answers the terminal step. -/
def Terminal.resumes : Terminal → List Resume
  | .fail _ e _ => [.throw e]
  | _ => []

/-- All resumptions after the first one. -/
def resumesOf (items : List Item) (t : Terminal) : List Resume :=
  items.map Item.resume ++ t.resumes

/-- The script `s`, having received the resumptions `h`, goes through the
suspension points `items`, each answered as the driver answers it, and then
ends as `t` says. -/
def follows (s : Script) : List Resume → List Item → Terminal → Prop
  | h, [], .ret r => s h = .ret r
  | h, [], .raise e => s h = .raise e
  | h, [], .fail p e out => s h = .yield (.promise p) ∧ s (h ++ [.throw e]) = out
  | h, .plain v :: rest, t => s h = .yield v ∧ follows s (h ++ [.next v]) rest t
  | h, .await p val :: rest, t =>
      s h = .yield (.promise p) ∧ follows s (h ++ [.next val]) rest t

/-- The script `s`, having received the resumptions `h`, yields the values
`xs`, each fed back by `next`, and then yields `y`. -/
def yieldsAfter (s : Script) : List Resume → List Value → Value → Prop
  | h, [], y => s h = .yield y
  | h, x :: xs, y => s h = .yield x ∧ yieldsAfter s (h ++ [.next x]) xs y

/-- The store agrees with the suspension points: plain values are plain, the
awaited promises exist (below `n`) and are settled as stated, and a returned
value is not itself a promise. -/
def Ready (n : Nat) (promises : Nat → PState) : List Item → Terminal → Prop
  | [], .ret r => isPromise r = false
  | [], .raise _ => True
  | [], .fail p e _ => p < n ∧ promises p = .rejected e
  | .plain v :: rest, t => isPlain v = true ∧ Ready n promises rest t
  | .await p val :: rest, t => (p < n ∧ promises p = .fulfilled val) ∧ Ready n promises rest t

/-- The state in which the terminal step leaves the promise of the driver. -/
def Terminal.result : Terminal → PState
  | .ret r => .fulfilled r
  | .raise e => .rejected e
  | .fail _ _ (.yield x) => .fulfilled (.state false x)
  | .fail _ _ (.ret x) => .fulfilled (.state true x)
  | .fail _ _ (.raise e) => .rejected e

/-- The jobs scheduled for the continuations `rs` of a promise that settles
as `st`. -/
def reactionJobs (st : PState) (rs : List Reaction) : List Job :=
  match st with
  | .fulfilled v => rs.map (fun r => Job.reaction r.onFulfilled v r.derived)
  | .rejected e => rs.map (fun r => Job.reaction r.onRejected e r.derived)
  | .pending _ => []

/-- Number of jobs, after the one that resumes the computation, until the
promise that follows the driver is settled. -/
def chainTicks : List Item → Terminal → Nat
  | [], .ret _ => 4
  | [], .raise _ => 2
  | [], .fail _ _ _ => 5
  | .plain _ :: rest, t => chainTicks rest t
  | .await _ _ :: rest, t => chainTicks rest t + 3

/-- Number of jobs, after the first one, until the promise of the driver is
settled. -/
def topTicks : List Item → Terminal → Nat
  | [], .ret _ => 2
  | [], .raise _ => 0
  | [], .fail _ _ _ => 3
  | .plain _ :: rest, t => topTicks rest t
  | .await _ _ :: rest, t => chainTicks rest t + 1

/-- The store after the calls `it.next(x)` for `x` in `xs`, as far as the
computation `i` and the log go. -/
def fed (w : World) (i : Nat) (xs : List Value) : World :=
  { w with iters := setAt w.iters i ⟨(w.iters i).script, (w.iters i).history ++ xs.map Resume.next⟩,
           log := w.log ++ xs.map (Event.step i) }

/-- The body of `next` after the call `it.next(value)`, with the recursive call
as a parameter. -/
def nextBody (rec : World → Value → Option (World × Completion Value)) (it : Value)
    (r : World × Completion (Bool × Value)) : Option (World × Completion Value) :=
  match r with
  | (w1, .throw e) => some (w1, .throw e)
  | (w1, .normal (done, x)) =>
      if done then
        let r := promiseResolve w1 x
        some (r.1, .normal r.2)
      else
        let r2 := if isGenerator x || isIterator x then spawn w1 x else (w1, x)
        let r3 := if isYieldableArray r2.2 then parallel r2.1 (arrayItems r2.2) else r2
        if isPromise r3.2 then
          let r4 := valueThen r3.1 r3.2 (.spawnNext it) (.itThrow it)
          some (r4.1, .normal r4.2)
        else rec r3.1 r3.2

/-- The state object of `it.next` for each outcome of the script. -/
def outcomeNext : Outcome → Completion (Bool × Value)
  | .yield x => .normal (false, x)
  | .ret x => .normal (true, x)
  | .raise e => .throw e

/-- What a run of the driver leaves behind: promise `d` of the driver and the
promise `dprev` that follows it are settled as `st`, the continuations `rs` of
`dprev` are scheduled, older promises and other computations are untouched,
every promise created meanwhile is settled, and computation `i` has received the
resumptions `rsm`. -/
def ChainPost (W W' : World) (i d dprev : Nat) (st : PState) (rs : List Reaction)
    (rsm : List Resume) : Prop :=
  W'.queue = reactionJobs st rs ∧
  W'.promises dprev = st ∧ W'.promises d = st ∧
  (∀ q, q < W.nextPromise → q ≠ d → q ≠ dprev → W'.promises q = W.promises q) ∧
  W.nextPromise ≤ W'.nextPromise ∧
  (∀ q, W.nextPromise ≤ q → q < W'.nextPromise → (W'.promises q).isSettled = true) ∧
  (W'.iters i).history = (W.iters i).history ++ rsm ∧
  (W'.iters i).script = (W.iters i).script ∧
  (∀ j, j ≠ i → W'.iters j = W.iters j) ∧
  W'.nextIter = W.nextIter ∧ W'.gens = W.gens

/-- What a resumed driver leaves behind: the promise `d` that the resumption
settles, the promise `P` that follows it and the promise `tau` of the following
are settled, the continuations `rs` of `P` are scheduled, and the rest is as in
`ChainPost`. -/
def ResumePost (W W' : World) (i d P tau : Nat) (st : PState) (rs : List Reaction)
    (rsm : List Resume) : Prop :=
  W'.queue = reactionJobs st rs ∧
  W'.promises P = st ∧ W'.promises d = st ∧ W'.promises tau = .fulfilled .undefined ∧
  (∀ q, q < W.nextPromise → q ≠ d → q ≠ P → q ≠ tau → W'.promises q = W.promises q) ∧
  W.nextPromise ≤ W'.nextPromise ∧
  (∀ q, W.nextPromise ≤ q → q < W'.nextPromise → (W'.promises q).isSettled = true) ∧
  (W'.iters i).history = (W.iters i).history ++ rsm ∧
  (W'.iters i).script = (W.iters i).script ∧
  (∀ j, j ≠ i → W'.iters j = W.iters j) ∧
  W'.nextIter = W.nextIter ∧ W'.gens = W.gens

/-- A driver suspended on the pending promise `p`: `p` holds the continuation
of the driver with derived promise `d1`, `d1` is followed by the promise `d` of
the driver through `tau`, and nothing is left to run. -/
def SuspendPost (W W' : World) (i p d d1 tau : Nat) (rs : List Reaction)
    (rsm : List Resume) : Prop :=
  W'.queue = [] ∧
  W'.promises p =
    .pending [⟨.spawnNext (.iterator i), .itThrow (.iterator i), d1⟩] ∧
  W'.promises d1 = .pending [⟨.resolveFn d, .rejectFn d, tau⟩] ∧
  W'.promises d = .pending rs ∧
  W'.promises tau = .pending [] ∧
  (∀ q, q < W.nextPromise → q ≠ p → W'.promises q = W.promises q) ∧
  W'.nextPromise = tau + 1 ∧
  (W'.iters i).history = (W.iters i).history ++ rsm ∧
  (W'.iters i).script = (W.iters i).script ∧
  (∀ j, j ≠ i → W'.iters j = W.iters j) ∧
  W'.nextIter = W.nextIter ∧ W'.gens = W.gens

/-- What the drive of an inner computation `j` leaves behind when the outer
driver waits for it: the promise `pc` of the inner driver is settled as `st`,
the job `job` that resumes the outer computation is the only one queued, and the
promise `d1` on which the outer driver continues is followed by the promise `dO`
of the outer driver through `tau`. -/
def NestedPost (W W' : World) (j pc d1 dO tau : Nat) (st : PState) (job : Job)
    (rsm : List Resume) : Prop :=
  W'.queue = [job] ∧
  W'.promises pc = st ∧
  W'.promises d1 = .pending [⟨.resolveFn dO, .rejectFn dO, tau⟩] ∧
  W'.promises tau = .pending [] ∧
  (∀ q, q < W.nextPromise → q ≠ pc → q ≠ d1 → W'.promises q = W.promises q) ∧
  W.nextPromise ≤ tau ∧ tau < W'.nextPromise ∧
  (W'.iters j).history = (W.iters j).history ++ rsm ∧
  (∀ k, k ≠ j → W'.iters k = W.iters k) ∧
  W'.nextIter = W.nextIter ∧ W'.gens = W.gens

/-- A store with no promise, no computation and nothing to run. -/
def emptyWorld : World :=
  { gens := fun _ _ => .ret .undefined,
    iters := fun _ => ⟨fun _ => .ret .undefined, []⟩,
    nextIter := 0,
    promises := fun _ => .pending [],
    nextPromise := 0,
    queue := [],
    log := [] }

/-- A store with one promise, number 0, in state `st`, and one unstarted
computation, number 0, with script `s`. -/
def oneTaskWorld (s : Script) (st : PState) : World :=
  { emptyWorld with
    iters := setAt emptyWorld.iters 0 ⟨s, []⟩, nextIter := 1,
    promises := setAt emptyWorld.promises 0 st, nextPromise := 1 }

/-- A computation that awaits promise 0, catches its failure, yields 1 and
returns 2: `try { yield p } catch (e) { yield 1; return 2 }`. -/
def recoverScript : Script
  | [.next _] => .yield (.promise 0)
  | [.next _, .throw _] => .yield (.num 1)
  | [.next _, .throw _, .next _] => .ret (.num 2)
  | _ => .ret .undefined

/-- A computation that awaits promise 0, catches its failure and returns 5:
`try { yield p } catch (e) { return 5 }`. -/
def swallowScript : Script
  | [.next _] => .yield (.promise 0)
  | [.next _, .throw _] => .ret (.num 5)
  | _ => .ret .undefined

/-- A computation that yields 1, yields 2 and returns 3. -/
def countScript : Script
  | [.next _] => .yield (.num 1)
  | [.next _, .next _] => .yield (.num 2)
  | [.next _, .next _, .next _] => .ret (.num 3)
  | _ => .ret .undefined

/-- A computation that awaits promise 0 and lets its failure escape. -/
def escapeScript : Script
  | [.next _] => .yield (.promise 0)
  | _ => .raise (.error "boom")

/-- A computation that yields 1, awaits promise 0 and then throws `boom`. -/
def throwLateScript : Script
  | [.next _] => .yield (.num 1)
  | [.next _, .next _] => .yield (.promise 0)
  | _ => .raise (.error "boom")

/-- A store with two unstarted computations, numbers 0 and 1, and no promise. -/
def twoTaskWorld (s0 s1 : Script) : World :=
  { emptyWorld with
    iters := setAt (setAt emptyWorld.iters 0 ⟨s0, []⟩) 1 ⟨s1, []⟩, nextIter := 2 }

/-- A computation that yields computation 1 and returns what it is resumed
with: `return yield it1`. -/
def delegateScript : Script
  | [.next _] => .yield (.iterator 1)
  | [.next _, .next v] => .ret v
  | _ => .ret .undefined

/-- A computation that returns 7 at once. -/
def sevenScript : Script := fun _ => .ret (.num 7)

/-! ## Vocabulary of the statements about `parallel` -/

/-- The chain of `then` calls that `parallel` builds, from the chain promise `c`
on: `c` is pending and holds the continuation that returns the next task, whose
derived promise is the next chain promise; the last chain promise holds no
continuation. -/
def Chained (P : Nat → PState) : Nat → List Nat → Prop
  | c, [] => P c = .pending []
  | c, t :: rest =>
      P c = .pending [⟨.parallelTask (.promise t), .thrower, c + 1⟩] ∧ Chained P (c + 1) rest

/-- No promise older than `N`, `skip` apart, holds a continuation. -/
def Quiet (N : Nat) (P : Nat → PState) (skip : Option Nat) : Prop :=
  ∀ q, q < N → some q ≠ skip → ∀ rs, P q = .pending rs → rs = []

/-- The chain of `parallel` at rest, read off the store: `c` is the chain
promise that is resolved with the head task.  Either the head task is fulfilled,
`c` has its value and the rest of the chain is at rest; or the head task is
rejected and so is every chain promise from `c` on; or the head task is pending
and holds the continuation that will settle `c`, and the chain from `c` on is
untouched. -/
def Quiescent (N B L : Nat) (P : Nat → PState) : Nat → List Nat → Prop
  | _, [] => Quiet N P none
  | c, t :: rest =>
      match P t with
      | .fulfilled x => P c = .fulfilled x ∧ Quiescent N B L P (c + 1) rest
      | .rejected e => (∀ k, k ≤ rest.length → P (c + k) = .rejected e) ∧ Quiet N P none
      | .pending rs =>
          ∃ tau, rs = [⟨.resolveFn c, .rejectFn c, tau⟩] ∧ B ≤ tau ∧ tau < L ∧
            P tau = .pending [] ∧ Chained P c rest ∧ Quiet N P (some t)

/-- The value with which the chain of `parallel` over `tasks` ends, read off
the states of the tasks: the first task that is not fulfilled decides; when all
are fulfilled, the value of the last one, and `v` when there is no task; while
the deciding task is pending, so is the chain. -/
def chainOutcome (P : Nat → PState) : Value → List Nat → PState
  | v, [] => .fulfilled v
  | _, t :: rest =>
      match P t with
      | .fulfilled x => chainOutcome P x rest
      | .rejected e => .rejected e
      | .pending _ => .pending []

/-- An external settlement of a promise: fulfilment with a value or rejection
with an error. -/
inductive Settle where
  | fulfil (q : Nat) (x : Value)
  | reject (q : Nat) (e : Value)

/-- The promise an external settlement is about. -/
def Settle.target : Settle → Nat
  | .fulfil q _ => q
  | .reject q _ => q

/-- The state in which an external settlement puts its promise. -/
def Settle.state : Settle → PState
  | .fulfil _ x => .fulfilled x
  | .reject _ e => .rejected e

/-- An external settlement is admissible: it is about a promise older than `N`
and does not fulfil with a promise. -/
def Settle.ok (N : Nat) : Settle → Prop
  | .fulfil q x => q < N ∧ isPromise x = false
  | .reject q _ => q < N

/-- Apply an external settlement to the store. -/
def settle (w : World) : Settle → World
  | .fulfil q x => fulfillPromise w q x
  | .reject q e => rejectPromise w q e

/-- Settle promises from outside, one after the other, running up to `m` jobs
after each settlement. -/
def runEvents (fuel m : Nat) : World → List Settle → Option World
  | w, [] => some w
  | w, ev :: evs =>
      match drain fuel m (settle w ev) with
      | none => none
      | some w1 => runEvents fuel m w1 evs

/-- The conditions on the store under which the chain of `parallel` is
followed: the tasks are older than `N`, the chain promises are between `N` and
`B`, every promise in use is below the allocation mark, and no old promise is
fulfilled with a promise. -/
def ParSide (N B : Nat) (W : World) (c : Nat) (tasks : List Nat) : Prop :=
  (∀ t ∈ tasks, t < N) ∧ N < c ∧ c + tasks.length ≤ B ∧ B ≤ W.nextPromise ∧
  (∀ q, q < N → ∀ x, W.promises q = .fulfilled x → isPromise x = false)

/-- Promises are monotonic between two stores: a settled promise below the
allocation mark keeps its state, an old pending promise stays pending, and the
allocation mark does not decrease. -/
def Stable (N : Nat) (W W' : World) : Prop :=
  W.nextPromise ≤ W'.nextPromise ∧
  (∀ q, q < W.nextPromise → (W.promises q).isSettled = true → W'.promises q = W.promises q) ∧
  (∀ q, q < N → (W.promises q).isSettled = false → (W'.promises q).isSettled = false)


/-- The state of promise `q`, in state `st` at first, after the external
settlements `evs`: the first settlement about `q` decides, unless `q` was
settled already. -/
def settledAs (q : Nat) : PState → List Settle → PState
  | st, [] => st
  | st, ev :: evs =>
      if st.isSettled then st else if ev.target = q then ev.state else settledAs q st evs

/-- Two promise states are settled alike: both pending, or equal. -/
def SameState (st st' : PState) : Prop :=
  st.isSettled = st'.isSettled ∧ (st.isSettled = true → st = st')

/-- The store `P` agrees with the expected states `S` on the promises older
than `N`: an expected settled state is the state in the store, and a promise
expected to be pending is pending. -/
def Agrees (N : Nat) (P S : Nat → PState) : Prop :=
  ∀ q, q < N → SameState (S q) (P q)

/-- A computation that awaits promise 0 and then throws `first`. -/
def lateFailScript : Script
  | [.next _] => .yield (.promise 0)
  | _ => .raise (.error "first")

/-- A computation that throws `second` at once. -/
def failScript : Script := fun _ => .raise (.error "second")

/-- A store with the fulfilled promise 0 and two unstarted computations: number
0 awaits promise 0 and then throws `first`, number 1 throws `second` at once. -/
def twoFailWorld : World :=
  { emptyWorld with
    iters := setAt (setAt emptyWorld.iters 0 ⟨lateFailScript, []⟩) 1 ⟨failScript, []⟩,
    nextIter := 2,
    promises := setAt emptyWorld.promises 0 (.fulfilled .undefined),
    nextPromise := 1 }

/-- The promises settled so far, oldest settlement first. -/
def settledOrder (w : World) : List Nat :=
  w.log.filterMap (fun ev => match ev with
    | .settled p => some p
    | _ => none)

/-- A store with three pending promises, numbers 0, 1 and 2. -/
def threePendingWorld : World := { emptyWorld with nextPromise := 3 }
/-! ## Vocabulary of the statements about `series` -/

/-- The store `W'` comes later than `W`: no computation of `W` has lost a
resumption, no computation and no promise has disappeared, and every promise
settled in `W` is in the same state in `W'`. -/
def Later (W W' : World) : Prop :=
  W.nextIter ≤ W'.nextIter ∧
  (∀ j, j < W.nextIter → ∃ ext, (W'.iters j).history = (W.iters j).history ++ ext) ∧
  W.nextPromise ≤ W'.nextPromise ∧
  (∀ q, q < W.nextPromise → (W.promises q).isSettled = true → W'.promises q = W.promises q)

/-- Nothing has been started between `W` and `W'`: no computation was
instantiated and no computation of `W` was stepped. -/
def NothingStarted (W W' : World) : Prop :=
  W'.nextIter = W.nextIter ∧ ∀ j, j < W.nextIter → (W'.iters j).history = (W.iters j).history

/-- Between `W` and `W'` no computation was instantiated and no computation of
`W` other than `i` was stepped. -/
def OnlyStepped (i : Nat) (W W' : World) : Prop :=
  W'.nextIter = W.nextIter ∧
  ∀ j, j ≠ i → j < W.nextIter → (W'.iters j).history = (W.iters j).history
/-! ## Callback adapter (`src/index.js` lines 61-91, 133-138) -/

/-- JavaScript truthiness, `if (v)`: `undefined`, `null`, `false`, `0`, `NaN`
and the empty string are falsy, every other value is truthy. -/
def truthy : Value → Bool
  | .undefined => false
  | .null => false
  | .bool b => b
  | .num n => n != 0
  | .nan => false
  | .str s => s != ""
  | _ => true

/-- `isErrorAnachronism(v)`: `v !== null && typeof v !== 'undefined' &&
typeof v !== 'string' && !(v instanceof Error)`. -/
def isErrorAnachronism (v : Value) : Bool :=
  (match v with | .null => false | _ => true) &&
  (match v with | .undefined => false | _ => true) &&
  (match v with | .str _ => false | _ => true) &&
  (match v with | .error _ => false | _ => true)

/-- One slot of the array `args` of the wrapper: a slot of `new Array(len + 1)`
not written yet, a copied argument, or the completion callback that settles
promise `p`. -/
inductive Arg where
  | hole
  | val (v : Value)
  | callback (p : Nat)

/-- One call `fn.apply(that, args)` of the adapted function. -/
structure FnCall where
  that : Value
  args : List Arg

/-- The store together with the state of the adapter layer.  `resolved p` is
the flag shared by the two resolving functions of the promise `p` made by
`new Promise`: it is set by the first call of `resolve` or `reject`.  `calls`
are the calls `fn.apply(that, args)` entered so far, oldest first. -/
structure Adapter where
  world : World
  resolved : Nat → Bool
  calls : List FnCall

/-- Modelled from the spec: the external future primitive, the function
`resolve` that `new Promise` hands to its executor.  The first call of
`resolve` or `reject` resolves the promise, every later call is ignored. -/
def resolveFunction (s : Adapter) (p : Nat) (x : Value) : Adapter :=
  if s.resolved p then s
  else { s with world := resolvePromise s.world p x, resolved := setAt s.resolved p true }

/-- Modelled from the spec: the external future primitive, the function
`reject` that `new Promise` hands to its executor. -/
def rejectFunction (s : Adapter) (p : Nat) (e : Value) : Adapter :=
  if s.resolved p then s
  else { s with world := rejectPromise s.world p e, resolved := setAt s.resolved p true }

/-- Modelled from the spec: the external future primitive, `new Promise`: a
pending promise whose resolving functions have not been called. -/
def newCapability (s : Adapter) : Adapter × Nat :=
  let r := newPromise s.world (.pending [])
  ({ s with world := r.1, resolved := setAt s.resolved r.2 false }, r.2)

/-- The completion callback `function(err, result)` that the wrapper hands to
the adapted function; `resolve` and `reject` are the resolving functions of
promise `p`. -/
def completion (s : Adapter) (p : Nat) (err result : Value) : Adapter :=
  if isErrorAnachronism err then resolveFunction s p err
  else if truthy err then rejectFunction s p err
  else resolveFunction s p result

/-- What a callback-style function does during one call, as far as the adapter
is concerned: the completions `(err, result)` it delivers to its last argument
before it returns, in order, and the value it throws, if it throws. -/
structure FnRun where
  completions : List (Value × Value)
  thrown : Option Value

/-- A callback-style function: its behaviour for each call. -/
abbrev CallbackFn := FnCall → FnRun

/-- The adapted function calls its last argument with `(err, result)`. -/
def deliver (s : Adapter) (args : List Arg) (c : Value × Value) : Adapter :=
  match args.getLast? with
  | some (.callback p) => completion s p c.1 c.2
  | _ => s

/-- The call `fn.apply(that, args)`: the call is entered, the function delivers
its completions, and returns or throws. -/
def applyFn (s : Adapter) (fn : CallbackFn) (call : FnCall) : Adapter × Completion Unit :=
  let s0 : Adapter := { s with calls := s.calls ++ [call] }
  let s1 := (fn call).completions.foldl (fun s c => deliver s call.args c) s0
  match (fn call).thrown with
  | some e => (s1, .throw e)
  | none => (s1, .normal ())

/-- The loop `for (var i = 0; i < len; i++) args[i] = arguments[i]` on
`args = new Array(len + 1)`. -/
def copyArguments (arguments : List Value) : List Arg :=
  (List.range arguments.length).foldl
    (fun args i => args.set i (.val (arguments.getD i .undefined)))
    (List.replicate (arguments.length + 1) Arg.hole)

/-- The wrapper `promisify(fn)`, called with receiver `that` and the arguments
`arguments`: the state and the returned promise.  `new Promise(executor)` runs
the executor at once and calls `reject` if the executor throws. -/
def promisify (fn : CallbackFn) (s : Adapter) (that : Value) (arguments : List Value) :
    Adapter × Value :=
  let len := arguments.length
  let args := copyArguments arguments
  let r := newCapability s
  let call : FnCall := ⟨that, args.set len (.callback r.2)⟩
  let r2 := applyFn r.1 fn call
  match r2.2 with
  | .throw e => (rejectFunction r2.1 r.2 e, .promise r.2)
  | .normal _ => (r2.1, .promise r.2)

/-- A property value of an object: a value, or the wrapper `promisify(f)` of a
function-valued property value `f`. -/
inductive PropVal where
  | plain (v : Value)
  | adapted (f : PropVal)

/-- `typeof x === 'function'`. -/
def isFunction : PropVal → Bool
  | .plain (.func _) => true
  | .plain (.generator _) => true
  | .adapted _ => true
  | _ => false

/-- A data property of an object: its value and its attributes
`[[Enumerable]]` and `[[Writable]]`. -/
structure Property where
  value : PropVal
  enumerable : Bool
  writable : Bool

/-- The data property named `key` in a list of properties, the first one if
there are several. -/
def findProp (ps : List (String × Property)) (key : String) : Option Property :=
  (ps.find? (fun kv => kv.1 == key)).map (fun kv => kv.2)

/-- An ordinary object with data properties: its own properties in the order
of its own property keys, the properties it inherits through its prototype
chain (nearest prototype first), and whether it is extensible. -/
structure Obj where
  own : List (String × Property)
  inherited : List (String × Property)
  extensible : Bool

/-- The property that `obj[key]` refers to: an own property, or else an
inherited one. -/
def Obj.getProp (o : Obj) (key : String) : Option Property :=
  match findProp o.own key with
  | some p => some p
  | none => findProp o.inherited key

/-- `obj[key]`: the value of the property, `undefined` when there is none. -/
def Obj.get (o : Obj) (key : String) : PropVal :=
  match o.getProp key with
  | some p => p.value
  | none => .plain .undefined

/-- The names that `for (var key in obj)` visits among the properties `ps`
(own properties first, then inherited ones): the enumerable ones, each name
once, a name being hidden by an earlier property of the same name (`seen`),
enumerable or not. -/
def forInKeys : List (String × Property) → List String → List String
  | [], _ => []
  | kv :: rest, seen =>
      if seen.contains kv.1 then forInKeys rest seen
      else if kv.2.enumerable then kv.1 :: forInKeys rest (kv.1 :: seen)
      else forInKeys rest (kv.1 :: seen)

/-- The names that `for (var key in obj)` visits, taken when the loop
starts. -/
def Obj.forIn (o : Obj) : List String := forInKeys (o.own ++ o.inherited) []

/-- `obj[key] = v` in strict mode (`src/index.js` line 1): an own property is
written if it is writable; otherwise a new own property (enumerable and
writable) is added at the end, unless an inherited property of that name is
read-only or the object is not extensible.  A write that cannot be done throws
a `TypeError`. -/
def Obj.set (o : Obj) (key : String) (v : PropVal) : Completion Obj :=
  match findProp o.own key with
  | some p =>
      if p.writable then
        .normal { o with own := o.own.map (fun kv =>
          if kv.1 == key then (kv.1, { kv.2 with value := v }) else kv) }
      else .throw typeError
  | none =>
      match findProp o.inherited key with
      | some p =>
          if p.writable && o.extensible then
            .normal { o with own := o.own ++ [(key, ⟨v, true, true⟩)] }
          else .throw typeError
      | none =>
          if o.extensible then .normal { o with own := o.own ++ [(key, ⟨v, true, true⟩)] }
          else .throw typeError

/-- `/Async$/.test(key)`. -/
def endsWithAsync (key : String) : Bool := "Async".toList.isSuffixOf key.toList

/-- The body of the loop of `promisifyAll` for one key, on the object and the
exception thrown so far, if any: an exception ends the loop. -/
def promisifyAllStep (acc : Obj × Option Value) (key : String) : Obj × Option Value :=
  match acc.2 with
  | some _ => acc
  | none =>
      if isFunction (acc.1.get key) && !endsWithAsync key then
        match acc.1.set (key ++ "Async") (.adapted (acc.1.get key)) with
        | .normal o => (o, none)
        | .throw e => (acc.1, some e)
      else acc

/-- `promisifyAll(obj)` on the object at reference `obj` of the heap: the loop
`for (var key in obj)` visits the names it finds when it starts; the call
returns the reference, or throws what an assignment threw. -/
def promisifyAll (heap : Nat → Obj) (obj : Nat) : (Nat → Obj) × Completion Nat :=
  let r := (heap obj).forIn.foldl promisifyAllStep (heap obj, none)
  (setAt heap obj r.1,
    match r.2 with
    | none => .normal obj
    | some e => .throw e)
/-! ## Vocabulary of the statements about eager starts and about `main` -/

/-- A computation that yields the empty array and returns what it is resumed
with: `return yield []`. -/
def emptyArrayScript : Script
  | [.next _] => .yield (.array [])
  | [.next _, .next v] => .ret v
  | _ => .ret .undefined

/-- The computation whose first step is queued by the job `j`, if `j` is the
first step `next(undefined)` of a driver. -/
def firstStepOf : Job → Option Value
  | .reaction (.spawnNext it) .undefined _ => some it
  | _ => none

/-- The computations whose first step is queued, oldest job first. -/
def firstStepJobs (q : List Job) : List Value := q.filterMap firstStepOf

/-- The stepped computations that `parallel(arr)` hands to the driver, in the
order of the sequence: every task that is not a promise, a generator function
being instantiated first (as computation `n`, `n + 1`, ...). -/
def launched : Nat → List Value → List Value
  | _, [] => []
  | n, v :: vs =>
      if isPromise v then launched n vs
      else if isGenerator v then .iterator n :: launched (n + 1) vs
      else v :: launched n vs

/-- A store with no promise and one generator function, number 0, with body
`s`. -/
def oneGenWorld (s : Script) : World := { emptyWorld with gens := fun _ => s }

/-- The state in which the wrapper hands the promise to the adapted function:
the promise is new and pending, its resolving functions are unused, and the call
of `fn` has been entered. -/
def entered (s : Adapter) (that : Value) (arguments : List Value) : Adapter :=
  { world := (newPromise s.world (.pending [])).1,
    resolved := setAt s.resolved s.world.nextPromise false,
    calls := s.calls ++ [⟨that, arguments.map Arg.val ++ [Arg.callback s.world.nextPromise]⟩] }

/-- A computation that yields the array `[it1, 7]`, whose second element is
plain, and returns what it is resumed with: `return yield [it1, 7]`. -/
def mixedArrayScript : Script
  | [.next _] => .yield (.array [.iterator 1, .num 7])
  | [.next _, .next v] => .ret v
  | _ => .ret .undefined

/-- The names of the own properties of an object, in order. -/
def Obj.names (o : Obj) : List String := o.own.map (fun kv => kv.1)

/-- An object that takes every assignment: it is extensible and all its
properties, own and inherited, are writable. -/
def Obj.Open (o : Obj) : Prop :=
  o.extensible = true ∧ (∀ kv ∈ o.own, kv.2.writable = true) ∧
    (∀ kv ∈ o.inherited, kv.2.writable = true)

/-- The object after the assignment `obj[key] = v`, when the assignment is
done: an own property of that name gets the value, otherwise a new own property
is added at the end. -/
def Obj.put (o : Obj) (key : String) (v : PropVal) : Obj :=
  match findProp o.own key with
  | some _ =>
      { o with own := o.own.map (fun kv =>
          if kv.1 == key then (kv.1, { kv.2 with value := v }) else kv) }
  | none => { o with own := o.own ++ [(key, ⟨v, true, true⟩)] }

/-- The body of the loop of `promisifyAll` for one key, when the assignment is
done. -/
def putStep (o : Obj) (key : String) : Obj :=
  if isFunction (o.get key) && !endsWithAsync key then
    o.put (key ++ "Async") (.adapted (o.get key))
  else o

/-- The object `{foo: f}`, extensible or not according to `ext`. -/
def fooObj (ext : Bool) : Obj :=
  { own := [("foo", ⟨.plain (.func 0), true, true⟩)], inherited := [], extensible := ext }

/-- An instance of `class { bar() {} }` with the own property `n = 1`: the
method `bar` is inherited and not enumerable. -/
def barObj : Obj :=
  { own := [("n", ⟨.plain (.num 1), true, true⟩)],
    inherited := [("bar", ⟨.plain (.func 0), false, true⟩)],
    extensible := true }

/-- The object `{foo: f, barAsync: g, n: 1}` with the inherited enumerable
method `baz`. -/
def sampleObj : Obj :=
  { own := [("foo", ⟨.plain (.func 0), true, true⟩), ("barAsync", ⟨.plain (.func 1), true, true⟩),
      ("n", ⟨.plain (.num 1), true, true⟩)],
    inherited := [("baz", ⟨.plain (.func 2), true, true⟩)],
    extensible := true }
/-! ## Vocabulary: what a job or a continuation refers to -/

/-- What a job or a continuation can act on: a promise it settles, a stepped
computation it steps, a generator function it instantiates. -/
inductive Res where
  | promise (p : Nat)
  | iter (i : Nat)
  | gen (g : Nat)

/-- What a value gives access to when it is handed to the driver: the stepped
computation or the generator function it is. -/
def refs : Value → List Res
  | .iterator i => [.iter i]
  | .generator g => [.gen g]
  | _ => []

/-- A yielded value gives no access to `res`: it is not `res` itself, and if it
is an array none of its elements is. -/
def Clean (res : Res) (x : Value) : Prop :=
  res ∉ refs x ∧ ∀ v ∈ arrayItems x, res ∉ refs v

/-- No computation of the store and no generator function ever yields a value
that gives access to `res`. -/
def ScriptsClean (res : Res) (W : World) : Prop :=
  (∀ j h x, (W.iters j).script h = .yield x → Clean res x) ∧
  (∀ g h x, W.gens g h = .yield x → Clean res x)

/-- What a handler acts on when it is called: the computation it steps or
starts, the promise it settles. -/
def Handler.targets : Handler → List Res
  | .spawnNext it => refs it
  | .itThrow it => refs it
  | .seriesTask value => refs value
  | .resolveFn p => [.promise p]
  | .rejectFn p => [.promise p]
  | _ => []

/-- What a continuation acts on when it runs: its handlers' targets and the
promise that `then` returned. -/
def Reaction.targets (r : Reaction) : List Res :=
  .promise r.derived :: (r.onFulfilled.targets ++ r.onRejected.targets)

/-- What a job acts on when it runs. -/
def Job.targets : Job → List Res
  | .reaction h _ d => .promise d :: h.targets
  | .resolveThenable p _ => [.promise p]

/-- No job of the list acts on `res`. -/
def QueueFree (res : Res) (q : List Job) : Prop := ∀ j ∈ q, res ∉ j.targets

/-- No continuation of the list acts on `res`. -/
def ListFree (res : Res) (rs : List Reaction) : Prop := ∀ r ∈ rs, res ∉ r.targets

/-- No continuation stored on a promise other than `skip` acts on `res`. -/
def StoreFree (res : Res) (P : Nat → PState) (skip : Option Nat) : Prop :=
  ∀ q rs, some q ≠ skip → P q = .pending rs → ListFree res rs

/-- The one place in the store from which `res` can be acted on: nowhere, a
continuation `r` stored on the pending promise `host`, or a queued job. -/
inductive Owner where
  | nobody
  | waiting (host : Nat) (r : Reaction)
  | queued (j : Job)

/-- The job that a continuation becomes when its promise settles as `st`. -/
def Reaction.job (st : PState) (r : Reaction) : Option Job :=
  match st with
  | .fulfilled v => some (.reaction r.onFulfilled v r.derived)
  | .rejected e => some (.reaction r.onRejected e r.derived)
  | .pending _ => none

/-- The owner after the promises have moved on to `P`: a continuation whose
promise has settled has become the job for it. -/
def Owner.step (P : Nat → PState) : Owner → Owner
  | .waiting h r =>
      match r.job (P h) with
      | some j => .queued j
      | none => .waiting h r
  | o => o

/-- `o` is the only place from which `res` can be acted on, given the job
queue `q`, the promises `P` and the allocation mark `n`. -/
def OwnsRaw (q : List Job) (P : Nat → PState) (n : Nat) (res : Res) : Owner → Prop
  | .nobody => QueueFree res q ∧ StoreFree res P none
  | .waiting h r => QueueFree res q ∧ h < n ∧
      (∃ r1 r2, P h = .pending (r1 ++ r :: r2) ∧ ListFree res r1 ∧ ListFree res r2) ∧
      StoreFree res P (some h)
  | .queued j => (∃ q1 q2, q = q1 ++ j :: q2 ∧ QueueFree res q1 ∧ QueueFree res q2) ∧
      StoreFree res P none

/-- `o` is the only place in the store `W` from which `res` can be acted
on. -/
def Owns (W : World) (res : Res) (o : Owner) : Prop :=
  OwnsRaw W.queue W.promises W.nextPromise res o

/-- No fulfilled promise holds a promise as its value. -/
def NoNest (W : World) : Prop :=
  ∀ q x, q < W.nextPromise → W.promises q = .fulfilled x → isPromise x = false

/-- Nothing of the store refers to a promise that does not exist yet. -/
def Fresh (W : World) : Prop := ∀ c, W.nextPromise ≤ c → Owns W (.promise c) .nobody

/-- A stepped computation `res` exists in `W`. -/
def Known : Res → World → Prop
  | .iter i, W => i < W.nextIter
  | _, _ => True

/-- A promise `res` exists in `W` already, or does not exist in `W'` yet. -/
def Outside : Res → World → World → Prop
  | .promise c, W, W' => c < W.nextPromise ∨ W'.nextPromise ≤ c
  | _, _, _ => True

/-- Nothing has acted on `res` between `W` and `W'`: a pending promise is still
pending, a stepped computation has received nothing, a generator function has
not been instantiated. -/
def Untouched : Res → World → World → Prop
  | .promise c, W, W' =>
      c < W.nextPromise → (W.promises c).isSettled = false → (W'.promises c).isSettled = false
  | .iter i, W, W' => W'.iters i = W.iters i
  | .gen g, W, W' => ∀ i, Event.instantiate g i ∈ W'.log → Event.instantiate g i ∈ W.log

/-- What a piece of code that does not act on `res` does to the store: the
store moves forward, jobs are only added at the end of the queue, fulfilled
promises still hold no promise, the scripts still give no access to `res`,
`res` is untouched and still has its owner. -/
def Keeps (res : Res) (W W' : World) : Prop :=
  Later W W' ∧ (∃ ext, W'.queue = W.queue ++ ext) ∧ (NoNest W → NoNest W') ∧
  (ScriptsClean res W → ScriptsClean res W') ∧
  (Outside res W W' →
    Untouched res W W' ∧ ∀ o, Owns W res o → Owns W' res (o.step W'.promises))

/-- One step of a run: the oldest job runs, or a promise is settled from
outside. -/
inductive Step where
  | job
  | event (ev : Settle)

/-- A run: jobs and settlements from outside, in any order. -/
def runSteps (fuel : Nat) : World → List Step → Option World
  | w, [] => some w
  | w, .job :: rest =>
      match tick fuel w with
      | none => none
      | some w1 => runSteps fuel w1 rest
  | w, .event ev :: rest => runSteps fuel (settle w ev) rest

/-- A link of a chain of `then` calls: the continuation `first` (the closure of
`parallel` or `series` for one task) waits for the promise `a`, and the chain
promise `c` follows what it returns, a task promise `t` allowed by `T`.  The
owner of `c` tells how far the link is: the continuation waits for `a`; its job
is queued (for a fulfilled or for a rejected `a`); the job that makes `c` follow
`t` is queued; the resolving functions of `c` wait for `t`; their job is
queued (for a fulfilled or for a rejected `t`). -/
def LinkShape (P : Nat → PState) (n a : Nat) (first : Handler) (T : Nat → Prop) (c : Nat) :
    Owner → Prop
  | .nobody => False
  | .waiting h r =>
      (h = a ∧ r = ⟨first, .thrower, c⟩) ∨
      (T h ∧ (∃ y, P a = .fulfilled y) ∧ ∃ tau, r = ⟨.resolveFn c, .rejectFn c, tau⟩)
  | .queued j =>
      (∃ y, P a = .fulfilled y ∧ j = .reaction first y c) ∨
      (∃ e, P a = .rejected e ∧ j = .reaction .thrower e c) ∨
      (∃ t y, T t ∧ t < n ∧ P a = .fulfilled y ∧ j = .resolveThenable c t) ∨
      (∃ t y x tau, T t ∧ t < n ∧ P a = .fulfilled y ∧ P t = .fulfilled x ∧
        j = .reaction (.resolveFn c) x tau) ∨
      (∃ t y e tau, T t ∧ t < n ∧ P a = .fulfilled y ∧ P t = .rejected e ∧
        j = .reaction (.rejectFn c) e tau)

/-- A link that has run: `c` has the value of the task promise, or the error of
the task promise, or the error of `a`. -/
def LinkDone (P : Nat → PState) (n a : Nat) (T : Nat → Prop) (c : Nat) : Prop :=
  (∃ t y x, T t ∧ t < n ∧ P a = .fulfilled y ∧ P t = .fulfilled x ∧ P c = .fulfilled x) ∨
  (∃ t y e, T t ∧ t < n ∧ P a = .fulfilled y ∧ P t = .rejected e ∧ P c = .rejected e) ∨
  (∃ e, P a = .rejected e ∧ P c = .rejected e)

/-- The state of a link of a chain: `c` is pending and has one owner, which
tells how far the link is, or the link has run. -/
def Link (W : World) (a : Nat) (first : Handler) (T : Nat → Prop) (c : Nat) : Prop :=
  a < W.nextPromise ∧ c < W.nextPromise ∧ a ≠ c ∧
  (((W.promises c).isSettled = false ∧
      ∃ o, Owns W (.promise c) o ∧ LinkShape W.promises W.nextPromise a first T c o) ∨
    LinkDone W.promises W.nextPromise a T c)

/-- The continuation `first` of a link returns a task promise allowed by `T`
and does not act on the chain promise `c`. -/
def Yields (first : Handler) (T : Nat → Prop) (c : Nat) : Prop :=
  ∀ fuel W x, c < W.nextPromise →
    ∃ W1 t, runHandler fuel W first x = some (W1, .normal (.promise t)) ∧
      T t ∧ t ≠ c ∧ t < W1.nextPromise ∧ Keeps (.promise c) W W1

/-- A chain of links from the promise `a` on: each link waits for the chain
promise of the link before it. -/
def Links (W : World) : Nat → List (Handler × (Nat → Prop) × Nat) → Prop
  | _, [] => True
  | a, (first, T, c) :: rest => Yields first T c ∧ Link W a first T c ∧ Links W c rest

/-- The last chain promise of a chain of links from `a` on. -/
def lastOf : Nat → List (Handler × (Nat → Prop) × Nat) → Nat
  | a, [] => a
  | _, (_, _, c) :: rest => lastOf c rest
/-- The promise a value is; promise 0 for a value that is no promise. -/
def promiseId : Value → Nat
  | .promise p => p
  | _ => 0

/-- The variable `task` of `parallel` for one element of the sequence: the
element itself when it is a promise, the promise `spawn` returns for it
otherwise. -/
def taskOf (acc : World × Value) (value : Value) : World × Value :=
  if isPromise value then (acc.1, value) else spawn acc.1 value

/-- The chain that `parallel` builds over a sequence: for each element the
promise that stands for it and the promise that `then` returns for it. -/
def parallelChain : World × Value → List Value → List (Nat × Nat)
  | _, [] => []
  | acc, v :: rest =>
      (promiseId (taskOf acc v).2, (taskOf acc v).1.nextPromise) ::
        parallelChain (parallelStep acc v) rest

/-- The promises that stand for the elements of a sequence in `parallel`. -/
def parallelTasks (w : World) (arr : List Value) : List Nat :=
  (parallelChain (promiseResolve w .undefined) arr).map Prod.fst

/-- The links of the chain of `parallel`. -/
def parLinks (tcs : List (Nat × Nat)) : List (Handler × (Nat → Prop) × Nat) :=
  tcs.map (fun tc => (.parallelTask (.promise tc.1), (fun t => t = tc.1), tc.2))

/-- What the closure of `series` for the element `v` returns, when its chain
promise is `c`: the promise `v` itself, or a promise created after `c` (the one
`spawn` returns for `v`). -/
def SeriesResult (v : Value) (c : Nat) (t : Nat) : Prop :=
  v = .promise t ∨ (isPromise v = false ∧ c < t)

/-- The links of the chain of `series` over a sequence, the first chain promise
being `c`. -/
def serLinks : Nat → List Value → List (Handler × (Nat → Prop) × Nat)
  | _, [] => []
  | c, v :: rest => (.seriesTask v, SeriesResult v c, c) :: serLinks (c + 1) rest
@[simp] theorem setAt_same {α : Type} (f : Nat → α) (i : Nat) (a : α) : setAt f i a i = a := by
  simp [setAt]

theorem setAt_ne {α : Type} (f : Nat → α) {i j : Nat} (a : α) (h : j ≠ i) : setAt f i a j = f j := by
  simp [setAt, h]

@[simp] theorem setAt_setAt {α : Type} (f : Nat → α) (i : Nat) (a b : α) :
    setAt (setAt f i a) i b = setAt f i b := by
  funext j; by_cases h : j = i <;> simp [setAt, h]

theorem next_succ (fuel : Nat) (w : World) (it v : Value) :
    next (fuel + 1) w it v = nextBody (next fuel · it ·) it (iterNext w it v) := by
  simp only [next, nextBody]

theorem iterNext_iterator (w : World) (i : Nat) (v : Value) :
    iterNext w (.iterator i) v =
      (fed w i [v], outcomeNext ((w.iters i).script ((w.iters i).history ++ [.next v]))) := by
  simp only [iterNext, fed, outcomeNext, List.map]
  cases (w.iters i).script ((w.iters i).history ++ [.next v]) <;> rfl

theorem nextBody_throw (rec : World → Value → Option (World × Completion Value)) (it : Value)
    (w : World) (e : Value) :
    nextBody rec it (w, .throw e) = some (w, .throw e) := rfl

theorem nextBody_done (rec : World → Value → Option (World × Completion Value)) (it : Value)
    (w : World) (x : Value) :
    nextBody rec it (w, .normal (true, x)) =
      some ((promiseResolve w x).1, .normal (promiseResolve w x).2) := by
  simp [nextBody]

theorem nextBody_plain (rec : World → Value → Option (World × Completion Value)) (it : Value)
    (w : World) (x : Value) (hx : isPlain x = true) :
    nextBody rec it (w, .normal (false, x)) = rec w x := by
  simp only [isPlain, Bool.not_eq_true', Bool.or_eq_false_iff] at hx
  obtain ⟨⟨⟨hg, hi⟩, hpr⟩, hya⟩ := hx
  simp [nextBody, hg, hi, hpr, hya]

theorem nextBody_promise (rec : World → Value → Option (World × Completion Value)) (it : Value)
    (w : World) (p : Nat) :
    nextBody rec it (w, .normal (false, .promise p)) =
      some ((promiseThen w p (.spawnNext it) (.itThrow it)).1,
        .normal (.promise (promiseThen w p (.spawnNext it) (.itThrow it)).2)) := by
  simp [nextBody, isGenerator, isIterator, isYieldableArray, isPromise, valueThen]

theorem promiseResolve_plain (w : World) (x : Value) (h : isPromise x = false) :
    promiseResolve w x = ((newPromise w (.fulfilled x)).1, .promise w.nextPromise) := by
  cases x <;> simp_all [promiseResolve, isPromise, newPromise]

theorem resolvePromise_plain (w : World) (p : Nat) (x : Value) (h : isPromise x = false) :
    resolvePromise w p x = fulfillPromise w p x := by
  cases x <;> simp_all [resolvePromise, isPromise]

theorem resolvePromise_undefined (w : World) (p : Nat) :
    resolvePromise w p .undefined = fulfillPromise w p .undefined := rfl

theorem resolvePromise_promise (w : World) (p t : Nat) :
    resolvePromise w p (.promise t) =
      if t = p then rejectPromise w p typeError else enqueue w [Job.resolveThenable p t] := rfl

theorem drain_succ (fuel n : Nat) (w : World) :
    drain fuel (n + 1) w = (tick fuel w).bind (drain fuel n) := by
  simp only [drain]
  cases tick fuel w <;> rfl

theorem tick_cons (fuel : Nat) (w : World) (j : Job) (rest : List Job) (h : w.queue = j :: rest) :
    tick fuel w = runJob fuel { w with queue := rest } j := by
  simp [tick, h]

theorem resolvePromise_state (w : World) (p : Nat) (b : Bool) (x : Value) :
    resolvePromise w p (.state b x) = fulfillPromise w p (.state b x) := rfl

theorem setAt_apply {α : Type} (f : Nat → α) (i : Nat) (a : α) (j : Nat) :
    setAt f i a j = if j = i then a else f j := rfl

theorem eq_false_of_lt0 {a n : Nat} (h : a < n) : (a = n) = False := by simp; omega
theorem eq_false_of_lt1 {a n : Nat} (h : a < n) : (a = n + 1) = False := by simp; omega
theorem eq_false_of_lt2 {a n : Nat} (h : a < n) : (a = n + 1 + 1) = False := by simp; omega
theorem eq_false_of_lt3 {a n : Nat} (h : a < n) : (a = n + 1 + 1 + 1) = False := by simp; omega
theorem eq_false_of_gt0 {a n : Nat} (h : a < n) : (n = a) = False := by simp; omega
theorem eq_false_of_gt1 {a n : Nat} (h : a < n) : (n + 1 = a) = False := by simp; omega
theorem eq_false_of_gt2 {a n : Nat} (h : a < n) : (n + 1 + 1 = a) = False := by simp; omega
theorem eq_false_of_gt3 {a n : Nat} (h : a < n) : (n + 1 + 1 + 1 = a) = False := by simp; omega

theorem ne_succ1 (n : Nat) : (n = n + 1) = False := by simp
theorem succ1_ne (n : Nat) : (n + 1 = n) = False := by simp
theorem ne_succ2 (n : Nat) : (n = n + 1 + 1) = False := by simp; omega
theorem succ2_ne (n : Nat) : (n + 1 + 1 = n) = False := by simp; omega
theorem ne_succ3 (n : Nat) : (n = n + 1 + 1 + 1) = False := by simp; omega
theorem succ3_ne (n : Nat) : (n + 1 + 1 + 1 = n) = False := by simp; omega

theorem drain_zero (fuel : Nat) (w : World) : drain fuel 0 w = some w := rfl

theorem drain_succ_right (fuel n : Nat) (w : World) :
    drain fuel (n + 1) w = (drain fuel n w).bind (tick fuel) := by
  induction n generalizing w with
  | zero => simp [drain_succ, drain_zero]
  | succ n ih =>
    rw [drain_succ, drain_succ]
    cases h : tick fuel w with
    | none => rfl
    | some w1 => simp only [Option.some_bind]; rw [ih]

theorem bind_drain_succ (fuel n : Nat) (o : Option World) :
    o.bind (drain fuel (n + 1)) = (o.bind (tick fuel)).bind (drain fuel n) := by
  cases o with
  | none => rfl
  | some w => simp only [Option.some_bind, drain_succ]

theorem bind_drain_succ_right (fuel n : Nat) (o : Option World) :
    o.bind (drain fuel (n + 1)) = (o.bind (drain fuel n)).bind (tick fuel) := by
  cases o with
  | none => rfl
  | some w => simp only [Option.some_bind, drain_succ_right]

theorem chain_raise (i : Nat) (W0 : World) (v e : Value) (d dprev : Nat) (rs : List Reaction)
    (hq : W0.queue = [Job.resolveThenable dprev d])
    (hd : W0.promises d = .pending []) (hdp : W0.promises dprev = .pending rs)
    (hlt : d < W0.nextPromise) (hlt2 : dprev < W0.nextPromise) (hne : d ≠ dprev)
    (hs : (W0.iters i).script ((W0.iters i).history ++ [.next v]) = .raise e)
    (f f2 : Nat) :
    ∃ W', (runJob (f + 1) W0 (.reaction (.spawnNext (.iterator i)) v d)).bind (drain f2 2) = some W' ∧
      ChainPost W0 W' i d dprev (.rejected e) rs [.next v] := by
  have hne2 : dprev ≠ d := fun h => hne h.symm
  apply Exists.intro
  apply And.intro
  case left =>
    simp only [runJob, runHandler, next_succ, iterNext_iterator, iterThrow, outcomeNext, nextBody_throw,
      nextBody_done, nextBody_promise, rejectPromise, fulfillPromise, fed, drain_succ, drain_zero, tick,
      promiseThen, enqueue, newPromise, setAt_apply, if_true, if_false, ne_succ1, succ1_ne, ne_succ2,
      succ2_ne, ne_succ3, succ3_ne, List.nil_append, List.append_nil, Option.bind_some, Option.some_bind,
      List.singleton_append, List.map, List.cons_append, List.append_assoc, resolvePromise_undefined,
      resolvePromise_state, resolvePromise_promise, ne_eq, not_false_eq_true, Bool.false_eq_true,
      eq_false_of_lt0, eq_false_of_lt1, eq_false_of_lt2, eq_false_of_lt3, eq_false_of_gt0,
      eq_false_of_gt1, eq_false_of_gt2, eq_false_of_gt3, hs, hq, hd, hdp, hne, hne2, hlt, hlt2]
    rfl
  case right =>
    simp only [ChainPost, Terminal.result, reactionJobs, setAt_apply, if_true, if_false, ne_succ1, succ1_ne,
      ne_succ2, succ2_ne, ne_succ3, succ3_ne, List.map, List.append_assoc, List.cons_append,
      List.nil_append, List.singleton_append, true_and, and_true, ne_eq, not_false_eq_true,
      eq_false_of_lt0, eq_false_of_lt1, eq_false_of_lt2, eq_false_of_lt3, eq_false_of_gt0,
      eq_false_of_gt1, eq_false_of_gt2, eq_false_of_gt3, hq, hd, hdp, hne, hne2, hlt, hlt2]
    and_intros
    all_goals
      intros
      first | trivial | omega | (split_ifs <;> first | rfl | omega)

theorem chain_ret (i : Nat) (W0 : World) (v r : Value) (d dprev : Nat) (rs : List Reaction)
    (hq : W0.queue = [Job.resolveThenable dprev d])
    (hd : W0.promises d = .pending []) (hdp : W0.promises dprev = .pending rs)
    (hlt : d < W0.nextPromise) (hlt2 : dprev < W0.nextPromise) (hne : d ≠ dprev)
    (hs : (W0.iters i).script ((W0.iters i).history ++ [.next v]) = .ret r)
    (hr : isPromise r = false)
    (f f2 : Nat) :
    ∃ W', (runJob (f + 1) W0 (.reaction (.spawnNext (.iterator i)) v d)).bind (drain f2 4) = some W' ∧
      ChainPost W0 W' i d dprev (.fulfilled r) rs [.next v] := by
  have hne2 : dprev ≠ d := fun h => hne h.symm
  apply Exists.intro
  apply And.intro
  case left =>
    simp only [runJob, runHandler, next_succ, iterNext_iterator, iterThrow, outcomeNext, nextBody_throw,
      nextBody_done, nextBody_promise, rejectPromise, fulfillPromise, fed, drain_succ, drain_zero, tick,
      promiseThen, enqueue, newPromise, setAt_apply, if_true, if_false, ne_succ1, succ1_ne, ne_succ2,
      succ2_ne, ne_succ3, succ3_ne, List.nil_append, List.append_nil, Option.bind_some, Option.some_bind,
      List.singleton_append, List.map, List.cons_append, List.append_assoc, resolvePromise_undefined,
      resolvePromise_state, resolvePromise_promise, ne_eq, not_false_eq_true, Bool.false_eq_true,
      eq_false_of_lt0, eq_false_of_lt1, eq_false_of_lt2, eq_false_of_lt3, eq_false_of_gt0,
      eq_false_of_gt1, eq_false_of_gt2, eq_false_of_gt3, hs, hq, hd, hdp, hne, hne2, hlt, hlt2, promiseResolve_plain _ _ hr, resolvePromise_plain _ _ _ hr]
    rfl
  case right =>
    simp only [ChainPost, Terminal.result, reactionJobs, setAt_apply, if_true, if_false, ne_succ1, succ1_ne,
      ne_succ2, succ2_ne, ne_succ3, succ3_ne, List.map, List.append_assoc, List.cons_append,
      List.nil_append, List.singleton_append, true_and, and_true, ne_eq, not_false_eq_true,
      eq_false_of_lt0, eq_false_of_lt1, eq_false_of_lt2, eq_false_of_lt3, eq_false_of_gt0,
      eq_false_of_gt1, eq_false_of_gt2, eq_false_of_gt3, hq, hd, hdp, hne, hne2, hlt, hlt2]
    and_intros
    all_goals
      intros
      first | trivial | omega | (split_ifs <;> first | rfl | omega)

theorem chain_fail (i : Nat) (W0 : World) (v e : Value) (p : Nat) (out : Outcome) (d dprev : Nat)
    (rs : List Reaction)
    (hq : W0.queue = [Job.resolveThenable dprev d])
    (hd : W0.promises d = .pending []) (hdp : W0.promises dprev = .pending rs)
    (hlt : d < W0.nextPromise) (hlt2 : dprev < W0.nextPromise) (hne : d ≠ dprev)
    (hpd : p < d) (hpdp : p < dprev) (hp : W0.promises p = .rejected e)
    (hs : (W0.iters i).script ((W0.iters i).history ++ [.next v]) = .yield (.promise p))
    (hs2 : (W0.iters i).script ((W0.iters i).history ++ [.next v] ++ [.throw e]) = out)
    (f f2 : Nat) :
    ∃ W', (runJob (f + 1) W0 (.reaction (.spawnNext (.iterator i)) v d)).bind (drain f2 5) = some W' ∧
      ChainPost W0 W' i d dprev (Terminal.result (.fail p e out)) rs [.next v, .throw e] := by
  have hne2 : dprev ≠ d := fun h => hne h.symm
  have hpN : p < W0.nextPromise := by omega
  have hs3 : (W0.iters i).script ((W0.iters i).history ++ [Resume.next v, Resume.throw e]) = out := by
    simpa using hs2
  cases out
  all_goals
    apply Exists.intro
    apply And.intro
    case left =>
      simp only [runJob, runHandler, next_succ, iterNext_iterator, iterThrow, outcomeNext, nextBody_throw,
      nextBody_done, nextBody_promise, rejectPromise, fulfillPromise, fed, drain_succ, drain_zero, tick,
      promiseThen, enqueue, newPromise, setAt_apply, if_true, if_false, ne_succ1, succ1_ne, ne_succ2,
      succ2_ne, ne_succ3, succ3_ne, List.nil_append, List.append_nil, Option.bind_some, Option.some_bind,
      List.singleton_append, List.map, List.cons_append, List.append_assoc, resolvePromise_undefined,
      resolvePromise_state, resolvePromise_promise, ne_eq, not_false_eq_true, Bool.false_eq_true,
      eq_false_of_lt0, eq_false_of_lt1, eq_false_of_lt2, eq_false_of_lt3, eq_false_of_gt0,
      eq_false_of_gt1, eq_false_of_gt2, eq_false_of_gt3, hs, hs3, hp, hq, hd, hdp, hne, hne2, hlt, hlt2, hpd, hpdp, hpN]
      rfl
    case right =>
      simp only [ChainPost, Terminal.result, reactionJobs, setAt_apply, if_true, if_false, ne_succ1, succ1_ne,
      ne_succ2, succ2_ne, ne_succ3, succ3_ne, List.map, List.append_assoc, List.cons_append,
      List.nil_append, List.singleton_append, true_and, and_true, ne_eq, not_false_eq_true,
      eq_false_of_lt0, eq_false_of_lt1, eq_false_of_lt2, eq_false_of_lt3, eq_false_of_gt0,
      eq_false_of_gt1, eq_false_of_gt2, eq_false_of_gt3, hq, hd, hdp, hne, hne2, hlt, hlt2]
      and_intros
      all_goals
        intros
        first | trivial | omega | (split_ifs <;> first | rfl | omega)

theorem runJob_plain (i : Nat) (W0 : World) (v x : Value) (d : Nat) (f : Nat)
    (hs : (W0.iters i).script ((W0.iters i).history ++ [.next v]) = .yield x)
    (hx : isPlain x = true) :
    runJob (f + 1) W0 (.reaction (.spawnNext (.iterator i)) v d) =
      runJob f (fed W0 i [v]) (.reaction (.spawnNext (.iterator i)) x d) := by
  simp only [runJob, runHandler, next_succ, iterNext_iterator, hs, outcomeNext, nextBody_plain _ _ _ _ hx]

theorem ChainPost_of_fed (W0 W' : World) (i d dprev : Nat) (st : PState) (rs : List Reaction)
    (v : Value) (rsm : List Resume)
    (h : ChainPost (fed W0 i [v]) W' i d dprev st rs rsm) :
    ChainPost W0 W' i d dprev st rs (.next v :: rsm) := by
  obtain ⟨h1, h2, h3, h4, h5, h6, h7, h8, h9, h10, h11⟩ := h
  refine ⟨h1, h2, h3, h4, h5, h6, ?_, ?_, ?_, h10, h11⟩
  · rw [h7]; simp [fed]
  · rw [h8]; simp [fed]
  · intro j hj; rw [h9 j hj]; simp [fed, setAt_apply, hj]

theorem Ready_congr (n : Nat) (P P' : Nat → PState) (h : ∀ q, q < n → P' q = P q) (t : Terminal) :
    ∀ items : List Item, Ready n P items t → Ready n P' items t := by
  intro items
  induction items with
  | nil =>
    cases t with
    | ret r => exact id
    | raise e => exact id
    | fail p e out =>
      intro hr
      exact ⟨hr.1, by rw [h p hr.1]; exact hr.2⟩
  | cons it rest ih =>
    cases it with
    | plain v => exact fun hr => ⟨hr.1, ih hr.2⟩
    | await p val =>
      intro hr
      exact ⟨⟨hr.1.1, by rw [h p hr.1.1]; exact hr.1.2⟩, ih hr.2⟩

theorem Terminal.result_cases (n : Nat) (P : Nat → PState) (t : Terminal) (h : Ready n P [] t) :
    (∃ x, t.result = .fulfilled x ∧ isPromise x = false) ∨ (∃ e, t.result = .rejected e) := by
  cases t with
  | ret r => exact Or.inl ⟨r, rfl, h⟩
  | raise e => exact Or.inr ⟨e, rfl⟩
  | fail p e out =>
    cases out with
    | yield x => exact Or.inl ⟨_, rfl, rfl⟩
    | ret x => exact Or.inl ⟨_, rfl, rfl⟩
    | raise e1 => exact Or.inr ⟨e1, rfl⟩

theorem Terminal.result_cases_of_ready (n : Nat) (P : Nat → PState) (t : Terminal) :
    ∀ items : List Item, Ready n P items t →
      (∃ x, t.result = .fulfilled x ∧ isPromise x = false) ∨ (∃ e, t.result = .rejected e) := by
  intro items
  induction items with
  | nil => exact Terminal.result_cases n P t
  | cons it rest ih =>
    cases it with
    | plain v => exact fun hr => ih hr.2
    | await p val => exact fun hr => ih hr.2

theorem chain_await_step (i : Nat) (W0 : World) (v val : Value) (p d dprev : Nat) (rs : List Reaction)
    (hq : W0.queue = [Job.resolveThenable dprev d])
    (hd : W0.promises d = .pending []) (hdp : W0.promises dprev = .pending rs)
    (hlt : d < W0.nextPromise) (hlt2 : dprev < W0.nextPromise) (hne : d ≠ dprev)
    (hpd : p < d) (hp : W0.promises p = .fulfilled val)
    (hs : (W0.iters i).script ((W0.iters i).history ++ [.next v]) = .yield (.promise p))
    (f f2 : Nat) :
    ∃ W1, (runJob (f + 1) W0 (.reaction (.spawnNext (.iterator i)) v d)).bind (tick f2) = some W1 ∧
      W1.queue = [Job.reaction (.spawnNext (.iterator i)) val W0.nextPromise,
        Job.resolveThenable d W0.nextPromise] ∧
      W1.promises W0.nextPromise = .pending [] ∧
      W1.promises (W0.nextPromise + 1) = .pending [] ∧
      W1.promises d = .pending [⟨.resolveFn dprev, .rejectFn dprev, W0.nextPromise + 1⟩] ∧
      (∀ q, q < W0.nextPromise → q ≠ d → W1.promises q = W0.promises q) ∧
      W1.nextPromise = W0.nextPromise + 1 + 1 ∧
      W1.iters = (fed W0 i [v]).iters ∧
      W1.nextIter = W0.nextIter ∧ W1.gens = W0.gens := by
  have hne2 : dprev ≠ d := fun h => hne h.symm
  have hpN : p < W0.nextPromise := by omega
  apply Exists.intro
  apply And.intro
  case left =>
    simp only [runJob, runHandler, next_succ, iterNext_iterator, iterThrow, outcomeNext, nextBody_throw,
      nextBody_done, nextBody_promise, rejectPromise, fulfillPromise, fed, drain_succ, drain_zero, tick,
      promiseThen, enqueue, newPromise, setAt_apply, if_true, if_false, ne_succ1, succ1_ne, ne_succ2,
      succ2_ne, ne_succ3, succ3_ne, List.nil_append, List.append_nil, Option.bind_some, Option.some_bind,
      List.singleton_append, List.map, List.cons_append, List.append_assoc, resolvePromise_undefined,
      resolvePromise_state, resolvePromise_promise, ne_eq, not_false_eq_true, Bool.false_eq_true,
      eq_false_of_lt0, eq_false_of_lt1, eq_false_of_lt2, eq_false_of_lt3, eq_false_of_gt0,
      eq_false_of_gt1, eq_false_of_gt2, eq_false_of_gt3, hs, hp, hq, hd, hdp, hne, hne2, hlt, hlt2, hpd, hpN]
    rfl
  case right =>
    simp only [ChainPost, Terminal.result, reactionJobs, setAt_apply, if_true, if_false, ne_succ1, succ1_ne,
      ne_succ2, succ2_ne, ne_succ3, succ3_ne, List.map, List.append_assoc, List.cons_append,
      List.nil_append, List.singleton_append, true_and, and_true, ne_eq, not_false_eq_true,
      eq_false_of_lt0, eq_false_of_lt1, eq_false_of_lt2, eq_false_of_lt3, eq_false_of_gt0,
      eq_false_of_gt1, eq_false_of_gt2, eq_false_of_gt3, hq, hd, hdp, hne, hne2, hlt, hlt2, fed]
    and_intros
    all_goals
      intros
      first | trivial | omega | (split_ifs <;> first | rfl | omega)

theorem chain_finish_step (W3 : World) (st : PState) (dprev tau : Nat) (rs : List Reaction) (f : Nat)
    (hq : W3.queue = reactionJobs st [⟨.resolveFn dprev, .rejectFn dprev, tau⟩])
    (hst : (∃ x, st = .fulfilled x ∧ isPromise x = false) ∨ (∃ e, st = .rejected e))
    (hdp : W3.promises dprev = .pending rs) (htau : W3.promises tau = .pending [])
    (hne : tau ≠ dprev) :
    ∃ W4, tick f W3 = some W4 ∧
      W4.queue = reactionJobs st rs ∧
      W4.promises dprev = st ∧
      W4.promises tau = .fulfilled .undefined ∧
      (∀ q, q ≠ dprev → q ≠ tau → W4.promises q = W3.promises q) ∧
      W4.nextPromise = W3.nextPromise ∧
      W4.iters = W3.iters ∧ W4.nextIter = W3.nextIter ∧ W4.gens = W3.gens := by
  rcases hst with ⟨x, rfl, hx⟩ | ⟨e, rfl⟩
  · simp only [reactionJobs, List.map] at hq
    apply Exists.intro
    apply And.intro
    case left =>
      simp only [runJob, runHandler, next_succ, iterNext_iterator, iterThrow, outcomeNext, nextBody_throw,
      nextBody_done, nextBody_promise, rejectPromise, fulfillPromise, fed, drain_succ, drain_zero, tick,
      promiseThen, enqueue, newPromise, setAt_apply, if_true, if_false, ne_succ1, succ1_ne, ne_succ2,
      succ2_ne, ne_succ3, succ3_ne, List.nil_append, List.append_nil, Option.bind_some, Option.some_bind,
      List.singleton_append, List.map, List.cons_append, List.append_assoc, resolvePromise_undefined,
      resolvePromise_state, resolvePromise_promise, ne_eq, not_false_eq_true, Bool.false_eq_true,
      eq_false_of_lt0, eq_false_of_lt1, eq_false_of_lt2, eq_false_of_lt3, eq_false_of_gt0,
      eq_false_of_gt1, eq_false_of_gt2, eq_false_of_gt3, hq, hdp, htau, hne, resolvePromise_plain _ _ _ hx]
      rfl
    case right =>
      simp only [ChainPost, Terminal.result, reactionJobs, setAt_apply, if_true, if_false, ne_succ1, succ1_ne,
      ne_succ2, succ2_ne, ne_succ3, succ3_ne, List.map, List.append_assoc, List.cons_append,
      List.nil_append, List.singleton_append, true_and, and_true, ne_eq, not_false_eq_true,
      eq_false_of_lt0, eq_false_of_lt1, eq_false_of_lt2, eq_false_of_lt3, eq_false_of_gt0,
      eq_false_of_gt1, eq_false_of_gt2, eq_false_of_gt3, hne]
      and_intros
      all_goals
        intros
        first | trivial | omega | (split_ifs <;> first | rfl | omega)
  · simp only [reactionJobs, List.map] at hq
    apply Exists.intro
    apply And.intro
    case left =>
      simp only [runJob, runHandler, next_succ, iterNext_iterator, iterThrow, outcomeNext, nextBody_throw,
      nextBody_done, nextBody_promise, rejectPromise, fulfillPromise, fed, drain_succ, drain_zero, tick,
      promiseThen, enqueue, newPromise, setAt_apply, if_true, if_false, ne_succ1, succ1_ne, ne_succ2,
      succ2_ne, ne_succ3, succ3_ne, List.nil_append, List.append_nil, Option.bind_some, Option.some_bind,
      List.singleton_append, List.map, List.cons_append, List.append_assoc, resolvePromise_undefined,
      resolvePromise_state, resolvePromise_promise, ne_eq, not_false_eq_true, Bool.false_eq_true,
      eq_false_of_lt0, eq_false_of_lt1, eq_false_of_lt2, eq_false_of_lt3, eq_false_of_gt0,
      eq_false_of_gt1, eq_false_of_gt2, eq_false_of_gt3, hq, hdp, htau, hne]
      rfl
    case right =>
      simp only [ChainPost, Terminal.result, reactionJobs, setAt_apply, if_true, if_false, ne_succ1, succ1_ne,
      ne_succ2, succ2_ne, ne_succ3, succ3_ne, List.map, List.append_assoc, List.cons_append,
      List.nil_append, List.singleton_append, true_and, and_true, ne_eq, not_false_eq_true,
      eq_false_of_lt0, eq_false_of_lt1, eq_false_of_lt2, eq_false_of_lt3, eq_false_of_gt0,
      eq_false_of_gt1, eq_false_of_gt2, eq_false_of_gt3, hne]
      and_intros
      all_goals
        intros
        first | trivial | omega | (split_ifs <;> first | rfl | omega)

theorem drive_chain (i n : Nat) (t : Terminal) (items : List Item) :
    ∀ (W0 : World) (v : Value) (d dprev : Nat) (rs : List Reaction) (f1 f2 : Nat),
      W0.queue = [Job.resolveThenable dprev d] → W0.promises d = .pending [] →
      W0.promises dprev = .pending rs → d < W0.nextPromise → dprev < W0.nextPromise → d ≠ dprev →
      n ≤ d → n ≤ dprev →
      follows (W0.iters i).script ((W0.iters i).history ++ [.next v]) items t →
      Ready n W0.promises items t →
      items.length < f1 → items.length < f2 →
      ∃ W', (runJob f1 W0 (.reaction (.spawnNext (.iterator i)) v d)).bind
          (drain f2 (chainTicks items t)) = some W' ∧
        ChainPost W0 W' i d dprev t.result rs (.next v :: resumesOf items t) := by
  induction items with
  | nil =>
    intro W0 v d dprev rs f1 f2 hq hd hdp hlt hlt2 hne hnd hndp hs hr hf1 _
    obtain ⟨f, rfl⟩ : ∃ f, f1 = f + 1 := ⟨f1 - 1, by simp at hf1; omega⟩
    cases t with
    | ret r => exact chain_ret i W0 v r d dprev rs hq hd hdp hlt hlt2 hne hs hr f f2
    | raise e => exact chain_raise i W0 v e d dprev rs hq hd hdp hlt hlt2 hne hs f f2
    | fail p e out =>
      exact chain_fail i W0 v e p out d dprev rs hq hd hdp hlt hlt2 hne
        (by have := hr.1; omega) (by have := hr.1; omega) hr.2 hs.1 (by simpa using hs.2) f f2
  | cons it rest ih =>
    intro W0 v d dprev rs f1 f2 hq hd hdp hlt hlt2 hne hnd hndp hs hr hf1 hf2
    obtain ⟨f, rfl⟩ : ∃ f, f1 = f + 1 := ⟨f1 - 1, by simp at hf1; omega⟩
    simp only [List.length_cons] at hf1 hf2
    cases it with
    | plain x =>
      obtain ⟨hs1, hs2⟩ := hs
      obtain ⟨hx, hr2⟩ := hr
      rw [runJob_plain i W0 v x d f hs1 hx]
      obtain ⟨W', hrun, hpost⟩ := ih (fed W0 i [v]) x d dprev rs f f2 hq hd hdp hlt hlt2 hne hnd hndp
        (by simpa [fed] using hs2) hr2 (by omega) (by omega)
      exact ⟨W', hrun, ChainPost_of_fed W0 W' i d dprev _ rs v _ hpost⟩
    | await p val =>
      obtain ⟨hs1, hs2⟩ := hs
      obtain ⟨⟨hpn, hp⟩, hr2⟩ := hr
      obtain ⟨W1, hrun1, hq1, hN, hN1, hd1, hfr1, hnp1, hit1, hni1, hg1⟩ :=
        chain_await_step i W0 v val p d dprev rs hq hd hdp hlt hlt2 hne (by omega) hp hs1 f f2
      have hst := Terminal.result_cases_of_ready n W0.promises t rest hr2
      obtain ⟨W3, hrun3, hpost3⟩ := ih { W1 with queue := [Job.resolveThenable d W0.nextPromise] } val
        W0.nextPromise d [⟨.resolveFn dprev, .rejectFn dprev, W0.nextPromise + 1⟩] f2 f2 rfl hN hd1
        (by simp only [hnp1]; omega) (by simp only [hnp1]; omega) (by omega) (by omega) hnd
        (by simpa [hit1, fed] using hs2)
        (Ready_congr n W0.promises _ (fun q hq => hfr1 q (by omega) (by omega)) t rest hr2)
        (by omega) (by omega)
      obtain ⟨h1, h2, h3, h4, h5, h6, h7, h8, h9, h10, h11⟩ := hpost3
      simp only at h1 h2 h3 h4 h5 h6 h7 h8 h9 h10 h11
      have hdp3 : W3.promises dprev = .pending rs := by
        rw [h4 dprev (by omega) (by omega) hne.symm, hfr1 dprev hlt2 hne.symm, hdp]
      have htau3 : W3.promises (W0.nextPromise + 1) = .pending [] := by
        rw [h4 (W0.nextPromise + 1) (by omega) (by omega) (by omega), hN1]
      obtain ⟨W4, hrun4, k1, k2, k3, k4, k5, k6, k7, k8⟩ :=
        chain_finish_step W3 t.result dprev (W0.nextPromise + 1) rs f2 h1 hst hdp3 htau3 (by omega)
      refine ⟨W4, ?_, ?_⟩
      · have e3 : chainTicks (Item.await p val :: rest) t = chainTicks rest t + 1 + 1 + 1 := rfl
        rw [e3, bind_drain_succ_right, bind_drain_succ, hrun1, Option.some_bind, drain_succ,
          tick_cons f2 W1 _ _ hq1, hrun3, Option.some_bind, hrun4]
      · refine ⟨k1, k2, ?_, ?_, ?_, ?_, ?_, ?_, ?_, ?_, ?_⟩
        · rw [k4 d hne (by omega), h2]
        · intro q hq1 hq2 hq3
          rw [k4 q hq3 (by omega), h4 q (by omega) (by omega) hq2, hfr1 q hq1 hq2]
        · rw [k5]; omega
        · intro q hq1 hq2
          rw [k5] at hq2
          by_cases e1 : q = W0.nextPromise
          · subst e1
            rw [k4 _ (by omega) (by omega), h3]
            rcases hst with ⟨x, hx, _⟩ | ⟨e, he⟩
            · rw [hx]; rfl
            · rw [he]; rfl
          · by_cases e2 : q = W0.nextPromise + 1
            · subst e2; rw [k3]; rfl
            · rw [k4 q (by omega) e2]
              exact h6 q (by omega) hq2
        · rw [k6, h7, hit1]
          simp [fed, resumesOf, Item.resume]
        · rw [k6, h8, hit1]; simp [fed]
        · intro j hj
          rw [k6, h9 j hj, hit1]; simp [fed, setAt_apply, hj]
        · rw [k7, h10, hni1]
        · rw [k8, h11, hg1]

theorem top_raise (i : Nat) (W0 : World) (v e : Value) (d : Nat) (rs : List Reaction)
    (hq : W0.queue = [])
    (hd : W0.promises d = .pending rs) (hlt : d < W0.nextPromise)
    (hs : (W0.iters i).script ((W0.iters i).history ++ [.next v]) = .raise e)
    (f f2 : Nat) :
    ∃ W', (runJob (f + 1) W0 (.reaction (.spawnNext (.iterator i)) v d)).bind (drain f2 0) = some W' ∧
      ChainPost W0 W' i d d (.rejected e) rs [.next v] := by
  apply Exists.intro
  apply And.intro
  case left =>
    simp only [runJob, runHandler, next_succ, iterNext_iterator, iterThrow, outcomeNext, nextBody_throw,
      nextBody_done, nextBody_promise, rejectPromise, fulfillPromise, fed, drain_succ, drain_zero, tick,
      promiseThen, enqueue, newPromise, setAt_apply, if_true, if_false, ne_succ1, succ1_ne, ne_succ2,
      succ2_ne, ne_succ3, succ3_ne, List.nil_append, List.append_nil, Option.bind_some, Option.some_bind,
      List.singleton_append, List.map, List.cons_append, List.append_assoc, resolvePromise_undefined,
      resolvePromise_state, resolvePromise_promise, ne_eq, not_false_eq_true, Bool.false_eq_true,
      eq_false_of_lt0, eq_false_of_lt1, eq_false_of_lt2, eq_false_of_lt3, eq_false_of_gt0,
      eq_false_of_gt1, eq_false_of_gt2, eq_false_of_gt3, hs, hq, hd, hlt]
    rfl
  case right =>
    simp only [ChainPost, Terminal.result, reactionJobs, setAt_apply, if_true, if_false, ne_succ1, succ1_ne,
      ne_succ2, succ2_ne, ne_succ3, succ3_ne, List.map, List.append_assoc, List.cons_append,
      List.nil_append, List.singleton_append, true_and, and_true, ne_eq, not_false_eq_true,
      eq_false_of_lt0, eq_false_of_lt1, eq_false_of_lt2, eq_false_of_lt3, eq_false_of_gt0,
      eq_false_of_gt1, eq_false_of_gt2, eq_false_of_gt3, hq, hd, hlt]
    and_intros
    all_goals
      intros
      first | trivial | omega | (split_ifs <;> first | rfl | omega)

theorem top_ret (i : Nat) (W0 : World) (v r : Value) (d : Nat) (rs : List Reaction)
    (hq : W0.queue = [])
    (hd : W0.promises d = .pending rs) (hlt : d < W0.nextPromise)
    (hs : (W0.iters i).script ((W0.iters i).history ++ [.next v]) = .ret r)
    (hr : isPromise r = false)
    (f f2 : Nat) :
    ∃ W', (runJob (f + 1) W0 (.reaction (.spawnNext (.iterator i)) v d)).bind (drain f2 2) = some W' ∧
      ChainPost W0 W' i d d (.fulfilled r) rs [.next v] := by
  apply Exists.intro
  apply And.intro
  case left =>
    simp only [runJob, runHandler, next_succ, iterNext_iterator, iterThrow, outcomeNext, nextBody_throw,
      nextBody_done, nextBody_promise, rejectPromise, fulfillPromise, fed, drain_succ, drain_zero, tick,
      promiseThen, enqueue, newPromise, setAt_apply, if_true, if_false, ne_succ1, succ1_ne, ne_succ2,
      succ2_ne, ne_succ3, succ3_ne, List.nil_append, List.append_nil, Option.bind_some, Option.some_bind,
      List.singleton_append, List.map, List.cons_append, List.append_assoc, resolvePromise_undefined,
      resolvePromise_state, resolvePromise_promise, ne_eq, not_false_eq_true, Bool.false_eq_true,
      eq_false_of_lt0, eq_false_of_lt1, eq_false_of_lt2, eq_false_of_lt3, eq_false_of_gt0,
      eq_false_of_gt1, eq_false_of_gt2, eq_false_of_gt3, hs, hq, hd, hlt, promiseResolve_plain _ _ hr, resolvePromise_plain _ _ _ hr]
    rfl
  case right =>
    simp only [ChainPost, Terminal.result, reactionJobs, setAt_apply, if_true, if_false, ne_succ1, succ1_ne,
      ne_succ2, succ2_ne, ne_succ3, succ3_ne, List.map, List.append_assoc, List.cons_append,
      List.nil_append, List.singleton_append, true_and, and_true, ne_eq, not_false_eq_true,
      eq_false_of_lt0, eq_false_of_lt1, eq_false_of_lt2, eq_false_of_lt3, eq_false_of_gt0,
      eq_false_of_gt1, eq_false_of_gt2, eq_false_of_gt3, hq, hd, hlt]
    and_intros
    all_goals
      intros
      first | trivial | omega | (split_ifs <;> first | rfl | omega)

theorem top_fail (i : Nat) (W0 : World) (v e : Value) (p : Nat) (out : Outcome) (d : Nat)
    (rs : List Reaction)
    (hq : W0.queue = [])
    (hd : W0.promises d = .pending rs) (hlt : d < W0.nextPromise)
    (hpd : p < d) (hp : W0.promises p = .rejected e)
    (hs : (W0.iters i).script ((W0.iters i).history ++ [.next v]) = .yield (.promise p))
    (hs2 : (W0.iters i).script ((W0.iters i).history ++ [.next v] ++ [.throw e]) = out)
    (f f2 : Nat) :
    ∃ W', (runJob (f + 1) W0 (.reaction (.spawnNext (.iterator i)) v d)).bind (drain f2 3) = some W' ∧
      ChainPost W0 W' i d d (Terminal.result (.fail p e out)) rs [.next v, .throw e] := by
  have hpN : p < W0.nextPromise := by omega
  have hs3 : (W0.iters i).script ((W0.iters i).history ++ [Resume.next v, Resume.throw e]) = out := by
    simpa using hs2
  cases out
  all_goals
    apply Exists.intro
    apply And.intro
    case left =>
      simp only [runJob, runHandler, next_succ, iterNext_iterator, iterThrow, outcomeNext, nextBody_throw,
      nextBody_done, nextBody_promise, rejectPromise, fulfillPromise, fed, drain_succ, drain_zero, tick,
      promiseThen, enqueue, newPromise, setAt_apply, if_true, if_false, ne_succ1, succ1_ne, ne_succ2,
      succ2_ne, ne_succ3, succ3_ne, List.nil_append, List.append_nil, Option.bind_some, Option.some_bind,
      List.singleton_append, List.map, List.cons_append, List.append_assoc, resolvePromise_undefined,
      resolvePromise_state, resolvePromise_promise, ne_eq, not_false_eq_true, Bool.false_eq_true,
      eq_false_of_lt0, eq_false_of_lt1, eq_false_of_lt2, eq_false_of_lt3, eq_false_of_gt0,
      eq_false_of_gt1, eq_false_of_gt2, eq_false_of_gt3, hs, hs3, hp, hq, hd, hlt, hpd, hpN]
      rfl
    case right =>
      simp only [ChainPost, Terminal.result, reactionJobs, setAt_apply, if_true, if_false, ne_succ1, succ1_ne,
      ne_succ2, succ2_ne, ne_succ3, succ3_ne, List.map, List.append_assoc, List.cons_append,
      List.nil_append, List.singleton_append, true_and, and_true, ne_eq, not_false_eq_true,
      eq_false_of_lt0, eq_false_of_lt1, eq_false_of_lt2, eq_false_of_lt3, eq_false_of_gt0,
      eq_false_of_gt1, eq_false_of_gt2, eq_false_of_gt3, hq, hd, hlt]
      and_intros
      all_goals
        intros
        first | trivial | omega | (split_ifs <;> first | rfl | omega)

theorem top_await_step (i : Nat) (W0 : World) (v val : Value) (p d : Nat) (rs : List Reaction)
    (hq : W0.queue = [])
    (hd : W0.promises d = .pending rs) (hlt : d < W0.nextPromise)
    (hpd : p < d) (hp : W0.promises p = .fulfilled val)
    (hs : (W0.iters i).script ((W0.iters i).history ++ [.next v]) = .yield (.promise p))
    (f : Nat) :
    ∃ W1, runJob (f + 1) W0 (.reaction (.spawnNext (.iterator i)) v d) = some W1 ∧
      W1.queue = [Job.reaction (.spawnNext (.iterator i)) val W0.nextPromise,
        Job.resolveThenable d W0.nextPromise] ∧
      W1.promises W0.nextPromise = .pending [] ∧
      (∀ q, q < W0.nextPromise → W1.promises q = W0.promises q) ∧
      W1.nextPromise = W0.nextPromise + 1 ∧
      W1.iters = (fed W0 i [v]).iters ∧
      W1.nextIter = W0.nextIter ∧ W1.gens = W0.gens := by
  have hpN : p < W0.nextPromise := by omega
  apply Exists.intro
  apply And.intro
  case left =>
    simp only [runJob, runHandler, next_succ, iterNext_iterator, iterThrow, outcomeNext, nextBody_throw,
      nextBody_done, nextBody_promise, rejectPromise, fulfillPromise, fed, drain_succ, drain_zero, tick,
      promiseThen, enqueue, newPromise, setAt_apply, if_true, if_false, ne_succ1, succ1_ne, ne_succ2,
      succ2_ne, ne_succ3, succ3_ne, List.nil_append, List.append_nil, Option.bind_some, Option.some_bind,
      List.singleton_append, List.map, List.cons_append, List.append_assoc, resolvePromise_undefined,
      resolvePromise_state, resolvePromise_promise, ne_eq, not_false_eq_true, Bool.false_eq_true,
      eq_false_of_lt0, eq_false_of_lt1, eq_false_of_lt2, eq_false_of_lt3, eq_false_of_gt0,
      eq_false_of_gt1, eq_false_of_gt2, eq_false_of_gt3, hs, hp, hq, hlt, hpd, hpN]
    rfl
  case right =>
    simp only [ChainPost, Terminal.result, reactionJobs, setAt_apply, if_true, if_false, ne_succ1, succ1_ne,
      ne_succ2, succ2_ne, ne_succ3, succ3_ne, List.map, List.append_assoc, List.cons_append,
      List.nil_append, List.singleton_append, true_and, and_true, ne_eq, not_false_eq_true,
      eq_false_of_lt0, eq_false_of_lt1, eq_false_of_lt2, eq_false_of_lt3, eq_false_of_gt0,
      eq_false_of_gt1, eq_false_of_gt2, eq_false_of_gt3, hq, hlt, fed]
    and_intros
    all_goals
      intros
      first | trivial | omega | (split_ifs <;> first | rfl | omega)

theorem drive_top (i n : Nat) (t : Terminal) (items : List Item) :
    ∀ (W0 : World) (v : Value) (d : Nat) (rs : List Reaction) (f1 f2 : Nat),
      W0.queue = [] → W0.promises d = .pending rs → d < W0.nextPromise → n ≤ d →
      follows (W0.iters i).script ((W0.iters i).history ++ [.next v]) items t →
      Ready n W0.promises items t →
      items.length < f1 → items.length < f2 →
      ∃ W', (runJob f1 W0 (.reaction (.spawnNext (.iterator i)) v d)).bind
          (drain f2 (topTicks items t)) = some W' ∧
        ChainPost W0 W' i d d t.result rs (.next v :: resumesOf items t) := by
  induction items with
  | nil =>
    intro W0 v d rs f1 f2 hq hd hlt hnd hs hr hf1 _
    obtain ⟨f, rfl⟩ : ∃ f, f1 = f + 1 := ⟨f1 - 1, by simp at hf1; omega⟩
    cases t with
    | ret r => exact top_ret i W0 v r d rs hq hd hlt hs hr f f2
    | raise e => exact top_raise i W0 v e d rs hq hd hlt hs f f2
    | fail p e out =>
      exact top_fail i W0 v e p out d rs hq hd hlt
        (by have := hr.1; omega) hr.2 hs.1 (by simpa using hs.2) f f2
  | cons it rest ih =>
    intro W0 v d rs f1 f2 hq hd hlt hnd hs hr hf1 hf2
    obtain ⟨f, rfl⟩ : ∃ f, f1 = f + 1 := ⟨f1 - 1, by simp at hf1; omega⟩
    simp only [List.length_cons] at hf1 hf2
    cases it with
    | plain x =>
      obtain ⟨hs1, hs2⟩ := hs
      obtain ⟨hx, hr2⟩ := hr
      rw [runJob_plain i W0 v x d f hs1 hx]
      obtain ⟨W', hrun, hpost⟩ := ih (fed W0 i [v]) x d rs f f2 hq hd hlt hnd
        (by simpa [fed] using hs2) hr2 (by omega) (by omega)
      exact ⟨W', hrun, ChainPost_of_fed W0 W' i d d _ rs v _ hpost⟩
    | await p val =>
      obtain ⟨hs1, hs2⟩ := hs
      obtain ⟨⟨hpn, hp⟩, hr2⟩ := hr
      obtain ⟨W1, hrun1, hq1, hN, hfr1, hnp1, hit1, hni1, hg1⟩ :=
        top_await_step i W0 v val p d rs hq hd hlt (by omega) hp hs1 f
      obtain ⟨W3, hrun3, hpost3⟩ := drive_chain i n t rest
        { W1 with queue := [Job.resolveThenable d W0.nextPromise] } val
        W0.nextPromise d rs f2 f2 rfl hN (by simp only [hfr1 d hlt, hd])
        (by simp only [hnp1]; omega) (by simp only [hnp1]; omega) (by omega) (by omega) hnd
        (by simpa [hit1, fed] using hs2)
        (Ready_congr n W0.promises _ (fun q hq => hfr1 q (by omega)) t rest hr2)
        (by omega) (by omega)
      obtain ⟨h1, h2, h3, h4, h5, h6, h7, h8, h9, h10, h11⟩ := hpost3
      simp only at h1 h2 h3 h4 h5 h6 h7 h8 h9 h10 h11
      refine ⟨W3, ?_, ?_⟩
      · have e3 : topTicks (Item.await p val :: rest) t = chainTicks rest t + 1 := rfl
        rw [e3, hrun1, Option.some_bind, drain_succ, tick_cons f2 W1 _ _ hq1, hrun3]
      · refine ⟨h1, h2, h2, ?_, ?_, ?_, ?_, ?_, ?_, ?_, ?_⟩
        · intro q hq1 hq2 _
          rw [h4 q (by omega) (by omega) hq2, hfr1 q hq1]
        · omega
        · intro q hq1 hq2
          by_cases e1 : q = W0.nextPromise
          · subst e1
            rw [h3]
            rcases Terminal.result_cases_of_ready n W0.promises t rest hr2 with ⟨x, hx, _⟩ | ⟨e, he⟩
            · rw [hx]; rfl
            · rw [he]; rfl
          · exact h6 q (by omega) hq2
        · rw [h7, hit1]
          simp [fed, resumesOf, Item.resume]
        · rw [h8, hit1]; simp [fed]
        · intro j hj
          rw [h9 j hj, hit1]; simp [fed, setAt_apply, hj]
        · rw [h10, hni1]
        · rw [h11, hg1]

theorem reactionJobs_nil (st : PState) : reactionJobs st [] = [] := by
  cases st <;> rfl

theorem spawn_iterator (w : World) (i : Nat) :
    spawn w (.iterator i) =
      ({ w with
          promises := setAt (setAt w.promises w.nextPromise (.fulfilled .undefined))
            (w.nextPromise + 1) (.pending []),
          nextPromise := w.nextPromise + 1 + 1,
          queue := w.queue ++ [Job.reaction (.spawnNext (.iterator i)) .undefined (w.nextPromise + 1)] },
        .promise (w.nextPromise + 1)) := by
  simp only [spawn, isGenerator, Bool.false_eq_true, if_false, promiseResolve, newPromise, valueThen,
    promiseThen, setAt_apply, if_true, enqueue]

/-- The driver on a computation whose awaited promises are already settled: the promise
returned by `spawn` settles with the result of the terminal step, the computation has
received exactly the expected resumptions, and nothing is left to run. -/
theorem spawn_drives (w : World) (i : Nat) (items : List Item) (t : Terminal)
    (hq : w.queue = [])
    (hs : follows (w.iters i).script ((w.iters i).history ++ [.next .undefined]) items t)
    (hr : Ready w.nextPromise w.promises items t)
    (fuel : Nat) (hf : items.length < fuel) :
    ∃ w', drain fuel (topTicks items t + 1) (spawn w (.iterator i)).1 = some w' ∧
      w'.queue = [] ∧
      w'.promises (w.nextPromise + 1) = t.result ∧
      (w'.iters i).history = (w.iters i).history ++ .next .undefined :: resumesOf items t ∧
      (∀ q, q < w.nextPromise → w'.promises q = w.promises q) ∧
      (∀ q, w.nextPromise ≤ q → q < w'.nextPromise → (w'.promises q).isSettled = true) ∧
      (∀ j, j ≠ i → w'.iters j = w.iters j) ∧ w'.nextIter = w.nextIter := by
  rw [spawn_iterator]
  simp only [hq, List.nil_append]
  obtain ⟨W', hrun, h1, h2, _, h4, h5, h6, h7, _, h9, h10, _⟩ := drive_top i w.nextPromise t items
    { w with
        promises := setAt (setAt w.promises w.nextPromise (.fulfilled .undefined))
          (w.nextPromise + 1) (.pending []),
        nextPromise := w.nextPromise + 1 + 1,
        queue := [] } .undefined (w.nextPromise + 1) [] fuel fuel rfl
    (by simp only [setAt_apply, if_true]) (by simp only; omega) (by omega) hs
    (Ready_congr _ w.promises _ (fun q hq => by
      simp only [setAt_apply, eq_false_of_lt0 hq, eq_false_of_lt1 hq, if_false]) t items hr) hf hf
  simp only at h1 h2 h4 h5 h6 h7 h9 h10
  refine ⟨W', ?_, ?_, h2, h7, ?_, ?_, h9, h10⟩
  · rw [drain_succ, tick_cons fuel _ _ [] rfl]
    exact hrun
  · rw [h1, reactionJobs_nil]
  · intro q hq
    rw [h4 q (by omega) (by omega) (by omega)]
    simp only [setAt_apply, eq_false_of_lt0 hq, eq_false_of_lt1 hq, if_false]
  · intro q hq1 hq2
    by_cases e1 : q = w.nextPromise
    · subst e1
      rw [h4 _ (by omega) (by omega) (by omega)]
      simp only [setAt_apply, ne_succ1, if_false, if_true]
      rfl
    · by_cases e2 : q = w.nextPromise + 1
      · subst e2
        rw [h2]
        rcases Terminal.result_cases_of_ready _ w.promises t items hr with ⟨x, hx, _⟩ | ⟨e, he⟩
        · rw [hx]; rfl
        · rw [he]; rfl
      · exact h6 q (by omega) hq2

/-! ## Resuming a suspended driver -/

theorem resume_next (i n : Nat) (t : Terminal) (items : List Item)
    (W0 : World) (val : Value) (d P tau : Nat) (rs : List Reaction) (f1 f2 : Nat)
    (hq : W0.queue = [])
    (hd : W0.promises d = .pending [⟨.resolveFn P, .rejectFn P, tau⟩])
    (hP : W0.promises P = .pending rs) (htau : W0.promises tau = .pending [])
    (hld : d < W0.nextPromise) (hlP : P < W0.nextPromise) (hlt : tau < W0.nextPromise)
    (hdP : d ≠ P) (hdt : d ≠ tau) (hPt : P ≠ tau) (hnd : n ≤ d)
    (hs : follows (W0.iters i).script ((W0.iters i).history ++ [.next val]) items t)
    (hr : Ready n W0.promises items t)
    (hf1 : items.length < f1) (hf2 : items.length < f2) :
    ∃ W', (runJob f1 W0 (.reaction (.spawnNext (.iterator i)) val d)).bind
        (drain f2 (topTicks items t + 1)) = some W' ∧
      ResumePost W0 W' i d P tau t.result rs (.next val :: resumesOf items t) := by
  obtain ⟨W3, hrun3, h1, h2, _, h4, h5, h6, h7, h8, h9, h10, h11⟩ :=
    drive_top i n t items W0 val d _ f1 f2 hq hd hld hnd hs hr hf1 hf2
  have hst := Terminal.result_cases_of_ready n W0.promises t items hr
  have hP3 : W3.promises P = .pending rs := by
    rw [h4 P hlP (Ne.symm hdP) (Ne.symm hdP), hP]
  have htau3 : W3.promises tau = .pending [] := by
    rw [h4 tau hlt (Ne.symm hdt) (Ne.symm hdt), htau]
  obtain ⟨W4, hrun4, k1, k2, k3, k4, k5, k6, k7, k8⟩ :=
    chain_finish_step W3 t.result P tau rs f2 h1 hst hP3 htau3 (Ne.symm hPt)
  refine ⟨W4, ?_, k1, k2, ?_, k3, ?_, ?_, ?_, ?_, ?_, ?_, ?_, ?_⟩
  · rw [bind_drain_succ_right, hrun3, Option.some_bind, hrun4]
  · rw [k4 d hdP hdt, h2]
  · intro q hq1 hq2 hq3 hq4
    rw [k4 q hq3 hq4, h4 q hq1 hq2 hq2]
  · rw [k5]; exact h5
  · intro q hq1 hq2
    rw [k5] at hq2
    rw [k4 q (by omega) (by omega)]
    exact h6 q hq1 hq2
  · rw [k6, h7]
  · rw [k6, h8]
  · intro j hj
    rw [k6, h9 j hj]
  · rw [k7, h10]
  · rw [k8, h11]

theorem resume_throw (i p : Nat) (out : Outcome)
    (W0 : World) (e : Value) (d P tau : Nat) (rs : List Reaction) (f1 f2 : Nat)
    (hq : W0.queue = [])
    (hd : W0.promises d = .pending [⟨.resolveFn P, .rejectFn P, tau⟩])
    (hP : W0.promises P = .pending rs) (htau : W0.promises tau = .pending [])
    (hdP : d ≠ P) (hdt : d ≠ tau) (hPt : P ≠ tau)
    (hs : (W0.iters i).script ((W0.iters i).history ++ [.throw e]) = out) :
    ∃ W', (runJob f1 W0 (.reaction (.itThrow (.iterator i)) e d)).bind (drain f2 1) = some W' ∧
      ResumePost W0 W' i d P tau (Terminal.result (.fail p e out)) rs [.throw e] := by
  have hPd : P ≠ d := Ne.symm hdP
  have htd : tau ≠ d := Ne.symm hdt
  have htP : tau ≠ P := Ne.symm hPt
  cases out
  all_goals
    apply Exists.intro
    apply And.intro
    case left =>
      simp only [runJob, runHandler, next_succ, iterNext_iterator, iterThrow, outcomeNext, nextBody_throw,
      nextBody_done, nextBody_promise, rejectPromise, fulfillPromise, fed, drain_succ, drain_zero, tick,
      promiseThen, enqueue, newPromise, setAt_apply, if_true, if_false, ne_succ1, succ1_ne, ne_succ2,
      succ2_ne, ne_succ3, succ3_ne, List.nil_append, List.append_nil, Option.bind_some, Option.some_bind,
      List.singleton_append, List.map, List.cons_append, List.append_assoc, resolvePromise_undefined,
      resolvePromise_state, resolvePromise_promise, ne_eq, not_false_eq_true, Bool.false_eq_true,
      eq_false_of_lt0, eq_false_of_lt1, eq_false_of_lt2, eq_false_of_lt3, eq_false_of_gt0,
      eq_false_of_gt1, eq_false_of_gt2, eq_false_of_gt3, hs, hq, hd, hP, htau, hdP, hdt, hPt, hPd, htd, htP]
      rfl
    case right =>
      simp only [ResumePost, ChainPost, Terminal.result, reactionJobs, setAt_apply, if_true, if_false, ne_succ1, succ1_ne,
      ne_succ2, succ2_ne, ne_succ3, succ3_ne, List.map, List.append_assoc, List.cons_append,
      List.nil_append, List.singleton_append, true_and, and_true, ne_eq, not_false_eq_true,
      eq_false_of_lt0, eq_false_of_lt1, eq_false_of_lt2, eq_false_of_lt3, eq_false_of_gt0,
      eq_false_of_gt1, eq_false_of_gt2, eq_false_of_gt3, hdP, hdt, hPt, hPd, htd, htP]
      and_intros
      all_goals
        intros
        first | trivial | omega | (split_ifs <;> first | rfl | omega)

/-! ## A driver suspended on a pending promise -/

theorem top_suspend (i : Nat) (W0 : World) (v : Value) (p d : Nat) (rs : List Reaction)
    (hq : W0.queue = []) (hd : W0.promises d = .pending rs) (hlt : d < W0.nextPromise)
    (hpd : p < d) (hp : W0.promises p = .pending [])
    (hs : (W0.iters i).script ((W0.iters i).history ++ [.next v]) = .yield (.promise p))
    (f f2 : Nat) :
    ∃ W', (runJob (f + 1) W0 (.reaction (.spawnNext (.iterator i)) v d)).bind (drain f2 1) = some W' ∧
      SuspendPost W0 W' i p d W0.nextPromise (W0.nextPromise + 1) rs [.next v] := by
  have hpN : p < W0.nextPromise := by omega
  apply Exists.intro
  apply And.intro
  case left =>
    simp only [runJob, runHandler, next_succ, iterNext_iterator, iterThrow, outcomeNext, nextBody_throw,
      nextBody_done, nextBody_promise, rejectPromise, fulfillPromise, fed, drain_succ, drain_zero, tick,
      promiseThen, enqueue, newPromise, setAt_apply, if_true, if_false, ne_succ1, succ1_ne, ne_succ2,
      succ2_ne, ne_succ3, succ3_ne, List.nil_append, List.append_nil, Option.bind_some, Option.some_bind,
      List.singleton_append, List.map, List.cons_append, List.append_assoc, resolvePromise_undefined,
      resolvePromise_state, resolvePromise_promise, ne_eq, not_false_eq_true, Bool.false_eq_true,
      eq_false_of_lt0, eq_false_of_lt1, eq_false_of_lt2, eq_false_of_lt3, eq_false_of_gt0,
      eq_false_of_gt1, eq_false_of_gt2, eq_false_of_gt3, hs, hp, hq, hd, hlt, hpd, hpN]
    rfl
  case right =>
    simp only [SuspendPost, ChainPost, Terminal.result, reactionJobs, setAt_apply, if_true, if_false, ne_succ1, succ1_ne,
      ne_succ2, succ2_ne, ne_succ3, succ3_ne, List.map, List.append_assoc, List.cons_append,
      List.nil_append, List.singleton_append, true_and, and_true, ne_eq, not_false_eq_true,
      eq_false_of_lt0, eq_false_of_lt1, eq_false_of_lt2, eq_false_of_lt3, eq_false_of_gt0,
      eq_false_of_gt1, eq_false_of_gt2, eq_false_of_gt3, hq, hd, hlt, hpd, hpN]
    and_intros
    all_goals
      intros
      first | trivial | omega | (split_ifs <;> first | rfl | omega)

theorem SuspendPost_of_fed (W0 W' : World) (i p d d1 tau : Nat) (rs : List Reaction)
    (v : Value) (rsm : List Resume)
    (h : SuspendPost (fed W0 i [v]) W' i p d d1 tau rs rsm) :
    SuspendPost W0 W' i p d d1 tau rs (.next v :: rsm) := by
  obtain ⟨h1, h2, h3, h4, h5, h6, h7, h8, h9, h10, h11, h12⟩ := h
  refine ⟨h1, h2, h3, h4, h5, h6, h7, ?_, ?_, ?_, h11, h12⟩
  · rw [h8]; simp [fed]
  · rw [h9]; simp [fed]
  · intro j hj; rw [h10 j hj]; simp [fed, setAt_apply, hj]

theorem drive_suspend (i p : Nat) (xs : List Value) :
    ∀ (W0 : World) (v : Value) (d : Nat) (rs : List Reaction) (f1 f2 : Nat),
      W0.queue = [] → W0.promises d = .pending rs → d < W0.nextPromise →
      p < d → W0.promises p = .pending [] →
      yieldsAfter (W0.iters i).script ((W0.iters i).history ++ [.next v]) xs (.promise p) →
      (∀ x ∈ xs, isPlain x = true) → xs.length < f1 →
      ∃ W', (runJob f1 W0 (.reaction (.spawnNext (.iterator i)) v d)).bind (drain f2 1) = some W' ∧
        SuspendPost W0 W' i p d W0.nextPromise (W0.nextPromise + 1) rs
          (.next v :: xs.map Resume.next) := by
  induction xs with
  | nil =>
    intro W0 v d rs f1 f2 hq hd hlt hpd hp hs _ hf1
    obtain ⟨f, rfl⟩ : ∃ f, f1 = f + 1 := ⟨f1 - 1, by simp at hf1; omega⟩
    exact top_suspend i W0 v p d rs hq hd hlt hpd hp hs f f2
  | cons x xs ih =>
    intro W0 v d rs f1 f2 hq hd hlt hpd hp hs hx hf1
    obtain ⟨f, rfl⟩ : ∃ f, f1 = f + 1 := ⟨f1 - 1, by simp at hf1; omega⟩
    obtain ⟨hs1, hs2⟩ := hs
    rw [runJob_plain i W0 v x d f hs1 (hx x (List.mem_cons_self _ _))]
    obtain ⟨W', hrun, hpost⟩ := ih (fed W0 i [v]) x d rs f f2 hq hd hlt hpd hp
      (by simpa [fed] using hs2) (fun y hy => hx y (List.mem_cons_of_mem _ hy))
      (by simp at hf1; omega)
    exact ⟨W', hrun, SuspendPost_of_fed W0 W' i p d _ _ rs v _ hpost⟩

theorem Ready_congr_except (n p : Nat) (P P' : Nat → PState) (rp : List Reaction)
    (hp : P p = .pending rp) (h : ∀ q, q < n → q ≠ p → P' q = P q) (t : Terminal) :
    ∀ items : List Item, Ready n P items t → Ready n P' items t := by
  intro items
  induction items with
  | nil =>
    cases t with
    | ret r => exact id
    | raise e => exact id
    | fail p1 e out =>
      intro hr
      have hne : p1 ≠ p := by
        intro heq
        have h2 := hr.2
        rw [heq, hp] at h2
        exact PState.noConfusion h2
      exact ⟨hr.1, by rw [h p1 hr.1 hne]; exact hr.2⟩
  | cons it rest ih =>
    cases it with
    | plain v => exact fun hr => ⟨hr.1, ih hr.2⟩
    | await p1 val =>
      intro hr
      have hne : p1 ≠ p := by
        intro heq
        have h2 := hr.1.2
        rw [heq, hp] at h2
        exact PState.noConfusion h2
      exact ⟨⟨hr.1.1, by rw [h p1 hr.1.1 hne]; exact hr.1.2⟩, ih hr.2⟩

/-- The driver on a computation that yields plain values and then a pending
promise: after two jobs it is suspended on that promise. -/
theorem spawn_suspends (w : World) (i : Nat) (xs : List Value) (p : Nat)
    (hq : w.queue = [])
    (hs : yieldsAfter (w.iters i).script ((w.iters i).history ++ [.next .undefined]) xs
      (.promise p))
    (hx : ∀ x ∈ xs, isPlain x = true) (hpn : p < w.nextPromise) (hp : w.promises p = .pending [])
    (fuel : Nat) (hf : xs.length < fuel) :
    ∃ w1, drain fuel 2 (spawn w (.iterator i)).1 = some w1 ∧
      SuspendPost w w1 i p (w.nextPromise + 1) (w.nextPromise + 1 + 1) (w.nextPromise + 1 + 1 + 1) []
        (.next .undefined :: xs.map Resume.next) := by
  rw [spawn_iterator]
  simp only [hq, List.nil_append]
  obtain ⟨W', hrun, h1, h2, h3, h4, h5, h6, h7, h8, h9, h10, h11, h12⟩ := drive_suspend i p xs
    { w with
        promises := setAt (setAt w.promises w.nextPromise (.fulfilled .undefined))
          (w.nextPromise + 1) (.pending []),
        nextPromise := w.nextPromise + 1 + 1,
        queue := [] } .undefined (w.nextPromise + 1) [] fuel fuel rfl
    (by simp only [setAt_apply, if_true]) (by simp only; omega) (by omega)
    (by simp only [setAt_apply, eq_false_of_lt0 hpn, eq_false_of_lt1 hpn, if_false]; exact hp)
    hs hx hf
  simp only at h1 h2 h3 h4 h5 h6 h7 h8 h9 h10 h11 h12
  refine ⟨W', ?_, h1, h2, h3, h4, h5, ?_, h7, h8, h9, h10, h11, h12⟩
  · rw [drain_succ, tick_cons fuel _ _ [] rfl]
    exact hrun
  · intro q hq1 hq2
    rw [h6 q (by omega) hq2]
    simp only [setAt_apply, eq_false_of_lt0 hq1, eq_false_of_lt1 hq1, if_false]

/-- A suspended driver whose promise is then rejected: the failure is injected
with `raise`, and the promise of the driver is settled with what `raise`
produces. -/
theorem suspended_rejected (W W1 : World) (i p d d1 tau : Nat) (rs : List Reaction)
    (rsm : List Resume) (e : Value) (out : Outcome) (fuel : Nat)
    (hS : SuspendPost W W1 i p d d1 tau rs rsm)
    (h1 : p ≠ d) (h2 : p ≠ d1) (h3 : p ≠ tau) (h4 : d ≠ d1) (h5 : d ≠ tau) (h6 : d1 ≠ tau)
    (hs : (W.iters i).script ((W.iters i).history ++ rsm ++ [.throw e]) = out) :
    ∃ W2, drain fuel 2 (rejectPromise W1 p e) = some W2 ∧
      W2.queue = reactionJobs (Terminal.result (.fail p e out)) rs ∧
      W2.promises d = Terminal.result (.fail p e out) ∧
      (W2.iters i).history = (W.iters i).history ++ rsm ++ [.throw e] ∧
      W2.promises d1 = Terminal.result (.fail p e out) ∧
      W2.promises tau = .fulfilled .undefined ∧
      (∀ j, j ≠ i → W2.iters j = W.iters j) ∧ W2.nextIter = W.nextIter := by
  obtain ⟨s1, s2, s3, s4, s5, s6, s7, s8, s9, s10, s11, s12⟩ := hS
  have hrej : rejectPromise W1 p e =
      { W1 with promises := setAt W1.promises p (.rejected e),
                queue := [Job.reaction (.itThrow (.iterator i)) e d1],
                log := W1.log ++ [Event.settled p] } := by
    simp only [rejectPromise, s2, s1, List.map, List.nil_append]
  obtain ⟨W2, hrun, k1, k2, k3, k4, k5, k6, k7, k8, k9, k10, k11, _⟩ := resume_throw i p out
    { W1 with promises := setAt W1.promises p (.rejected e),
              queue := [],
              log := W1.log ++ [Event.settled p] } e d1 d tau rs fuel fuel rfl
    (by simp only [setAt_apply, Ne.symm h2, if_false]; exact s3)
    (by simp only [setAt_apply, Ne.symm h1, if_false]; exact s4)
    (by simp only [setAt_apply, Ne.symm h3, if_false]; exact s5)
    (Ne.symm h4) h6 h5
    (by simp only [s8, s9]; exact hs)
  simp only at k1 k2 k3 k4 k5 k6 k7 k8 k9 k10 k11
  refine ⟨W2, ?_, k1, k2, ?_, k3, k4, ?_, ?_⟩
  · rw [hrej, drain_succ, tick_cons fuel _ _ [] rfl]
    exact hrun
  · rw [k8, s8]
  · intro j hj
    rw [k10 j hj, s10 j hj]
  · rw [k11, s11]

/-- A suspended driver whose promise is then fulfilled with `val`: the
computation is resumed with `step(val)` and driven on to its terminal step. -/
theorem suspended_fulfilled (n : Nat) (W W1 : World) (i p d d1 tau : Nat) (rs : List Reaction)
    (rsm : List Resume) (val : Value) (items : List Item) (t : Terminal) (fuel : Nat)
    (hS : SuspendPost W W1 i p d d1 tau rs rsm)
    (h1 : p ≠ d) (h2 : p ≠ d1) (h3 : p ≠ tau) (h4 : d ≠ d1) (h5 : d ≠ tau) (h6 : d1 ≠ tau)
    (hb : W.nextPromise ≤ W1.nextPromise)
    (hld : d < W1.nextPromise) (hld1 : d1 < W1.nextPromise) (hlt : tau < W1.nextPromise)
    (hn : n ≤ W.nextPromise) (hnd : n ≤ d1)
    (hp : W.promises p = .pending [])
    (hs : follows (W.iters i).script ((W.iters i).history ++ rsm ++ [.next val]) items t)
    (hr : Ready n W.promises items t)
    (hf : items.length < fuel) :
    ∃ W2, drain fuel (topTicks items t + 2) (fulfillPromise W1 p val) = some W2 ∧
      W2.queue = reactionJobs t.result rs ∧
      W2.promises d = t.result ∧
      (W2.iters i).history = (W.iters i).history ++ rsm ++ .next val :: resumesOf items t ∧
      (∀ j, j ≠ i → W2.iters j = W.iters j) ∧ W2.nextIter = W.nextIter := by
  obtain ⟨s1, s2, s3, s4, s5, s6, s7, s8, s9, s10, s11, s12⟩ := hS
  have hful : fulfillPromise W1 p val =
      { W1 with promises := setAt W1.promises p (.fulfilled val),
                queue := [Job.reaction (.spawnNext (.iterator i)) val d1],
                log := W1.log ++ [Event.settled p] } := by
    simp only [fulfillPromise, s2, s1, List.map, List.nil_append]
  obtain ⟨W2, hrun, k1, k2, k3, k4, k5, k6, k7, k8, k9, k10, k11, _⟩ := resume_next i n t items
    { W1 with promises := setAt W1.promises p (.fulfilled val),
              queue := [],
              log := W1.log ++ [Event.settled p] } val d1 d tau rs fuel fuel rfl
    (by simp only [setAt_apply, Ne.symm h2, if_false]; exact s3)
    (by simp only [setAt_apply, Ne.symm h1, if_false]; exact s4)
    (by simp only [setAt_apply, Ne.symm h3, if_false]; exact s5)
    hld1 hld hlt (Ne.symm h4) h6 h5 hnd
    (by simp only [s8, s9]; exact hs)
    (Ready_congr_except n p W.promises _ [] hp (fun q hq1 hq2 => by
      simp only [setAt_apply, hq2, if_false]
      exact s6 q (by omega) hq2) t items hr)
    hf hf
  simp only at k1 k2 k3 k4 k5 k6 k7 k8 k9 k10 k11
  refine ⟨W2, ?_, k1, k2, ?_, ?_, ?_⟩
  · rw [hful, show topTicks items t + 2 = (topTicks items t + 1) + 1 from rfl, drain_succ,
      tick_cons fuel _ _ [] rfl]
    exact hrun
  · rw [k8, s8]
  · intro j hj
    rw [k10 j hj, s10 j hj]
  · rw [k11, s11]

/-! ## The driver: settling the returned promise -/

theorem resumesOf_plain (vs : List Value) (t : Terminal) :
    resumesOf (vs.map Item.plain) t = vs.map Resume.next ++ t.resumes := by
  simp [resumesOf, Item.resume, List.map_map, Function.comp_def]

theorem topTicks_plain (vs : List Value) (t : Terminal) :
    topTicks (vs.map Item.plain) t = topTicks [] t := by
  induction vs with
  | nil => rfl
  | cons v vs ih => simpa [topTicks] using ih

theorem Ready_plain (n : Nat) (P : Nat → PState) (vs : List Value) (t : Terminal)
    (hp : ∀ v ∈ vs, isPlain v = true) (ht : Ready n P [] t) :
    Ready n P (vs.map Item.plain) t := by
  induction vs with
  | nil => exact ht
  | cons v vs ih =>
    exact ⟨hp v (List.mem_cons_self _ _), ih (fun x hx => hp x (List.mem_cons_of_mem _ hx))⟩

theorem first_job_history (i : Nat) (r : Value) (hr : isPromise r = false) (vs : List Value) :
    ∀ (W0 : World) (v : Value) (d f : Nat),
      follows (W0.iters i).script ((W0.iters i).history ++ [.next v]) (vs.map Item.plain) (.ret r) →
      (∀ x ∈ vs, isPlain x = true) → vs.length < f →
      ∃ W1, runJob f W0 (.reaction (.spawnNext (.iterator i)) v d) = some W1 ∧
        (W1.iters i).history = (W0.iters i).history ++ (v :: vs).map Resume.next := by
  induction vs with
  | nil =>
    intro W0 v d f hs _ hf
    obtain ⟨f, rfl⟩ : ∃ g, f = g + 1 := ⟨f - 1, by simp at hf; omega⟩
    simp only [List.map_nil, follows] at hs
    simp only [runJob, runHandler, next_succ, iterNext_iterator, hs, outcomeNext, nextBody_done,
      promiseResolve_plain _ _ hr, newPromise, resolvePromise_promise]
    split_ifs <;> simp [rejectPromise, enqueue, fed] <;> split <;> simp
  | cons x xs ih =>
    intro W0 v d f hs hp hf
    obtain ⟨f, rfl⟩ : ∃ g, f = g + 1 := ⟨f - 1, by simp at hf; omega⟩
    obtain ⟨hs1, hs2⟩ := hs
    rw [runJob_plain i W0 v x d f hs1 (hp x (List.mem_cons_self _ _))]
    obtain ⟨W1, h1, h2⟩ := ih (fed W0 i [v]) x d f (by simpa [fed] using hs2)
      (fun y hy => hp y (List.mem_cons_of_mem _ hy)) (by simp at hf; omega)
    exact ⟨W1, h1, by rw [h2]; simp [fed]⟩

/-- C1 (the code at a failing input): a computation awaits a promise that is
rejected with `boom`, catches the failure, yields 1 and would return 2.  The
driver calls `raise(boom)` and never resumes the computation; the promise
returned by `spawn` is fulfilled with the state object `{done: false, value: 1}`,
not with the final value 2. -/
theorem recovered_failure_not_driven_on :
    (drain 1 4 (spawn (oneTaskWorld recoverScript (.rejected (.error "boom"))) (.iterator 0)).1).map
        (fun w => (w.promises 2, (w.iters 0).history, w.queue)) =
      some (.fulfilled (.state false (.num 1)),
        [.next .undefined, .throw (.error "boom")], []) := rfl

/-- C4 (the code at a failing input): a computation awaits a promise that is
rejected with `boom`, swallows the failure and returns 5.  The promise returned
by `spawn` is fulfilled with the state object `{done: true, value: 5}`, not with
the terminal value 5 itself. -/
theorem swallowed_failure_fulfils_with_state_object :
    (drain 1 4 (spawn (oneTaskWorld swallowScript (.rejected (.error "boom"))) (.iterator 0)).1).map
        (fun w => (w.promises 2, (w.iters 0).history, w.queue)) =
      some (.fulfilled (.state true (.num 5)),
        [.next .undefined, .throw (.error "boom")], []) := rfl

/-! ## The driver: classification of yielded arrays -/

theorem isYieldableArray_of_plain_mem (items : List Value) (x : Value) (hx : x ∈ items)
    (h1 : isGenerator x = false) (h2 : isIterator x = false) (h3 : isPromise x = false) :
    isYieldableArray (.array items) = false := by
  simp only [isYieldableArray, Bool.eq_false_iff, ne_eq, List.all_eq_true, not_forall]
  exact ⟨x, hx, by simp [h1, h2, h3]⟩

theorem fed_fed (w : World) (i : Nat) (xs ys : List Value) :
    fed (fed w i xs) i ys = fed w i (xs ++ ys) := by
  simp [fed, setAt_apply, List.append_assoc]

theorem isPlain_of_plain_mem (items : List Value) (x : Value) (hx : x ∈ items)
    (h1 : isGenerator x = false) (h2 : isIterator x = false) (h3 : isPromise x = false) :
    isPlain (.array items) = true := by
  simp [isPlain, isGenerator, isIterator, isPromise,
    isYieldableArray_of_plain_mem items x hx h1 h2 h3]

/-- The call `next(v)` on a computation that answers `step(v)` by yielding the
plain value `a`: the driver calls `step(a)` at once and goes on with its
result. -/
theorem next_plain_then (fuel : Nat) (w : World) (i : Nat) (v a : Value)
    (hy : (w.iters i).script ((w.iters i).history ++ [.next v]) = .yield a)
    (ha : isPlain a = true) :
    next (fuel + 2) w (.iterator i) v =
      nextBody (next fuel · (.iterator i) ·) (.iterator i)
        (fed w i [v, a], outcomeNext ((w.iters i).script
          ((w.iters i).history ++ [.next v, .next a]))) := by
  rw [next_succ, iterNext_iterator, hy, outcomeNext, nextBody_plain _ _ _ _ ha, next_succ,
    iterNext_iterator, fed_fed]
  simp [fed, setAt_apply]

/-- C3: an array with at least one plain element, yielded by a stepped
computation, is not a task collection but a plain value.  The driver goes
straight on to `next(array)` (second part), that is it calls `step(array)` in
the store left by the step that yielded it, where no promise was created, no
job was queued, no computation was instantiated and no other computation was
touched (third part).  Fourth part: the call `next(v)` of the driver returns
with `step(v)` and `step(array)` in the history of the computation, whatever
the computation does next: when it returns `r` the call returns
`Promise.resolve(r)`, when it throws `e` the call throws `e`, when it yields a
promise `q` the call returns `q.then(next, raise)`; in each case nothing but
computation `i` has been stepped and nothing has been instantiated, so none of
the elements of the array was started.  Last part: through `spawn`, for a
computation that yields the array first and returns `r` when resumed: the
promise of `spawn` is fulfilled with `r`, the computation has received
`undefined` and the array, every other computation is untouched and nothing is
left to run. -/
theorem mixed_array_resumed_as_value (w : World) (i : Nat) (v : Value)
    (items : List Value) (x : Value) (hx : x ∈ items)
    (h1 : isGenerator x = false) (h2 : isIterator x = false) (h3 : isPromise x = false)
    (hy : (w.iters i).script ((w.iters i).history ++ [.next v]) = .yield (.array items)) :
    (isYieldableArray (.array items) = false ∧ isPlain (.array items) = true) ∧
    (∀ fuel, next (fuel + 1) w (.iterator i) v =
      next fuel (iterNext w (.iterator i) v).1 (.iterator i) (.array items)) ∧
    ((iterNext w (.iterator i) v).1.promises = w.promises ∧
      (iterNext w (.iterator i) v).1.nextPromise = w.nextPromise ∧
      (iterNext w (.iterator i) v).1.queue = w.queue ∧
      (iterNext w (.iterator i) v).1.nextIter = w.nextIter ∧
      (∀ j, j ≠ i → (iterNext w (.iterator i) v).1.iters j = w.iters j) ∧
      ((iterNext w (.iterator i) v).1.iters i).history = (w.iters i).history ++ [.next v]) ∧
    ((∀ fuel r,
        (w.iters i).script ((w.iters i).history ++ [.next v, .next (.array items)]) = .ret r →
        next (fuel + 2) w (.iterator i) v =
          some ((promiseResolve (fed w i [v, .array items]) r).1,
            .normal (promiseResolve (fed w i [v, .array items]) r).2)) ∧
      (∀ fuel e,
        (w.iters i).script ((w.iters i).history ++ [.next v, .next (.array items)]) = .raise e →
        next (fuel + 2) w (.iterator i) v = some (fed w i [v, .array items], .throw e)) ∧
      (∀ fuel q,
        (w.iters i).script ((w.iters i).history ++ [.next v, .next (.array items)]) =
          .yield (.promise q) →
        next (fuel + 2) w (.iterator i) v =
          some ((promiseThen (fed w i [v, .array items]) q (.spawnNext (.iterator i))
              (.itThrow (.iterator i))).1,
            .normal (.promise (promiseThen (fed w i [v, .array items]) q
              (.spawnNext (.iterator i)) (.itThrow (.iterator i))).2))) ∧
      ((fed w i [v, .array items]).iters i).history =
        (w.iters i).history ++ [.next v, .next (.array items)] ∧
      (∀ j, j ≠ i → (fed w i [v, .array items]).iters j = w.iters j) ∧
      (fed w i [v, .array items]).nextIter = w.nextIter ∧
      (fed w i [v, .array items]).queue = w.queue ∧
      (fed w i [v, .array items]).promises = w.promises ∧
      (fed w i [v, .array items]).log =
        w.log ++ [Event.step i v, Event.step i (.array items)]) ∧
    (∀ (w0 : World) (fuel : Nat) (r : Value), w0.queue = [] → 1 < fuel →
      (w0.iters i).script ((w0.iters i).history ++ [.next .undefined]) = .yield (.array items) →
      (w0.iters i).script ((w0.iters i).history ++ [.next .undefined, .next (.array items)]) =
        .ret r →
      isPromise r = false →
      ∃ w2, drain fuel 3 (spawn w0 (.iterator i)).1 = some w2 ∧ w2.queue = [] ∧
        w2.promises (w0.nextPromise + 1) = .fulfilled r ∧
        (w2.iters i).history =
          (w0.iters i).history ++ [.next .undefined, .next (.array items)] ∧
        (∀ j, j ≠ i → w2.iters j = w0.iters j) ∧ w2.nextIter = w0.nextIter) := by
  have hya := isYieldableArray_of_plain_mem items x hx h1 h2 h3
  have hpl := isPlain_of_plain_mem items x hx h1 h2 h3
  refine ⟨⟨hya, hpl⟩, fun fuel => ?_, ⟨?_, ?_, ?_, ?_, ?_, ?_⟩,
    ⟨fun fuel r hr => ?_, fun fuel e he => ?_, fun fuel q hq => ?_, ?_, ?_, rfl, rfl, rfl, ?_⟩,
    ?_⟩
  · rw [next_succ, iterNext_iterator, hy, outcomeNext]
    simp [nextBody, isGenerator, isIterator, isPromise, hya]
  · simp only [iterNext_iterator, fed]
  · simp only [iterNext_iterator, fed]
  · simp only [iterNext_iterator, fed]
  · simp only [iterNext_iterator, fed]
  · intro j hj
    simp [iterNext_iterator, fed, setAt_apply, hj]
  · simp [iterNext_iterator, fed]
  · rw [next_plain_then fuel w i v _ hy hpl, hr, outcomeNext, nextBody_done]
  · rw [next_plain_then fuel w i v _ hy hpl, he, outcomeNext, nextBody_throw]
  · rw [next_plain_then fuel w i v _ hy hpl, hq, outcomeNext, nextBody_promise]
  · simp [fed]
  · intro j hj
    simp [fed, setAt_apply, hj]
  · simp [fed]
  · intro w0 fuel r hq0 hf hy0 hr0 hrp
    obtain ⟨w2, a, b, c, d, _, _, e, f⟩ := spawn_drives w0 i [Item.plain (.array items)] (.ret r)
      hq0 ⟨hy0, by simpa using hr0⟩ ⟨hpl, hrp⟩ fuel (by simpa using hf)
    exact ⟨w2, a, b, c, by rw [d]; rfl, e, f⟩

/-- C3, at the array `[it1, 7]` yielded first by computation 0, which returns
what it is resumed with: the promise of `spawn` (promise 1) is fulfilled with
the array itself, computation 0 has received `undefined` and the array, and
computation 1, the first element of the array, has not been stepped. -/
theorem mixed_array_resumed_as_value_witness :
    ∃ w2, drain 2 3 (spawn (twoTaskWorld mixedArrayScript sevenScript) (.iterator 0)).1 = some w2 ∧
      w2.queue = [] ∧
      w2.promises 1 = .fulfilled (.array [.iterator 1, .num 7]) ∧
      (w2.iters 0).history = [.next .undefined, .next (.array [.iterator 1, .num 7])] ∧
      (∀ j, j ≠ 0 → w2.iters j = (twoTaskWorld mixedArrayScript sevenScript).iters j) ∧
      w2.nextIter = 2 :=
  (mixed_array_resumed_as_value (twoTaskWorld mixedArrayScript sevenScript) 0 .undefined
    [.iterator 1, .num 7] (.num 7) (by simp) rfl rfl rfl rfl).2.2.2.2
    (twoTaskWorld mixedArrayScript sevenScript) 2 (.array [.iterator 1, .num 7]) rfl (by decide)
    rfl rfl rfl

/-! ## The driver: failures -/

/-- C5: a stepped computation that yields a promise which rejects with `e` and
does not recover, that is `raise(e)` throws `e1`: the promise returned by `spawn`
is rejected with `e1` and the computation is not stepped again.  First part: the
promise is already rejected when it is yielded, after any number of plain values
and fulfilled promises; the last call on the computation is `raise(e)`, the job
queue ends empty, every promise the driver created is settled and older promises
are as they were.  Second part: the promise is pending when it is yielded (after
plain values) and is rejected once the driver has suspended. -/
theorem unrecovered_rejection_rejects (w : World) (i p : Nat) (e e1 : Value)
    (hq : w.queue = []) :
    (∀ (items : List Item) (fuel : Nat),
      follows (w.iters i).script ((w.iters i).history ++ [.next .undefined]) items
        (.fail p e (.raise e1)) →
      Ready w.nextPromise w.promises items (.fail p e (.raise e1)) →
      items.length < fuel →
      ∃ w1, drain fuel (topTicks items (.fail p e (.raise e1)) + 1) (spawn w (.iterator i)).1
          = some w1 ∧
        (spawn w (.iterator i)).2 = .promise (w.nextPromise + 1) ∧
        w1.promises (w.nextPromise + 1) = .rejected e1 ∧
        (w1.iters i).history =
          (w.iters i).history ++ .next .undefined :: (items.map Item.resume ++ [.throw e]) ∧
        w1.queue = [] ∧
        (∀ q, w.nextPromise ≤ q → q < w1.nextPromise → (w1.promises q).isSettled = true) ∧
        (∀ q, q < w.nextPromise → w1.promises q = w.promises q)) ∧
    (∀ (xs : List Value) (fuel : Nat),
      yieldsAfter (w.iters i).script ((w.iters i).history ++ [.next .undefined]) xs (.promise p) →
      (∀ x ∈ xs, isPlain x = true) → p < w.nextPromise → w.promises p = .pending [] →
      (w.iters i).script ((w.iters i).history ++ .next .undefined :: xs.map Resume.next
        ++ [.throw e]) = .raise e1 →
      xs.length < fuel →
      ∃ w1, drain fuel 2 (spawn w (.iterator i)).1 = some w1 ∧
        w1.queue = [] ∧ w1.promises (w.nextPromise + 1) = .pending [] ∧
        ∃ w2, drain fuel 2 (rejectPromise w1 p e) = some w2 ∧
          w2.promises (w.nextPromise + 1) = .rejected e1 ∧
          (w2.iters i).history =
            (w.iters i).history ++ .next .undefined :: xs.map Resume.next ++ [.throw e] ∧
          w2.queue = []) := by
  constructor
  · intro items fuel hs hr hf
    obtain ⟨w1, h1, h2, h3, h4, h5, h6, _⟩ := spawn_drives w i items _ hq hs hr fuel hf
    exact ⟨w1, h1, by rw [spawn_iterator], h3, h4, h2, h6, h5⟩
  · intro xs fuel hs hx hpn hp hthrow hf
    obtain ⟨w1, h1, hS⟩ := spawn_suspends w i xs p hq hs hx hpn hp fuel hf
    obtain ⟨w2, k1, k2, k3, k4, _⟩ := suspended_rejected w w1 i p _ _ _ [] _ e (.raise e1) fuel hS
      (by omega) (by omega) (by omega) (by omega) (by omega) (by omega) hthrow
    exact ⟨w1, h1, hS.1, hS.2.2.2.1, w2, k1, k3, k4, by rw [k2, reactionJobs_nil]⟩

/-- C5, at a computation that awaits a promise rejected with `boom` and lets
the failure escape. -/
theorem unrecovered_rejection_rejects_witness :
    ∃ w1, drain 1 4 (spawn (oneTaskWorld escapeScript (.rejected (.error "boom")))
        (.iterator 0)).1 = some w1 ∧
      (spawn (oneTaskWorld escapeScript (.rejected (.error "boom"))) (.iterator 0)).2
        = .promise 2 ∧
      w1.promises 2 = .rejected (.error "boom") ∧
      (w1.iters 0).history = [.next .undefined, .throw (.error "boom")] ∧
      w1.queue = [] ∧
      (∀ q, 1 ≤ q → q < w1.nextPromise → (w1.promises q).isSettled = true) ∧
      (∀ q, q < 1 →
        w1.promises q = (oneTaskWorld escapeScript (.rejected (.error "boom"))).promises q) :=
  (unrecovered_rejection_rejects (oneTaskWorld escapeScript (.rejected (.error "boom"))) 0 0
    (.error "boom") (.error "boom") rfl).1 [] 1 ⟨rfl, rfl⟩ ⟨by decide, rfl⟩ (by decide)

/-- C7: a stepped computation whose step throws `e`, on the first step or on a
later resumption with a plain value or with the value of a fulfilled promise:
`spawn` returns a pending promise without having stepped the computation (the
first step is a queued job), and that promise is then rejected with `e`.  First
part: the awaited promises are fulfilled when they are yielded.  Second part:
the first awaited promise is pending when it is yielded and is fulfilled with
`val` once the driver has suspended. -/
theorem step_throw_rejects (w : World) (i : Nat) (e : Value) (hq : w.queue = []) :
    (spawn w (.iterator i)).2 = .promise (w.nextPromise + 1) ∧
    (spawn w (.iterator i)).1.promises (w.nextPromise + 1) = .pending [] ∧
    (spawn w (.iterator i)).1.iters = w.iters ∧
    (spawn w (.iterator i)).1.log = w.log ∧
    (spawn w (.iterator i)).1.queue =
      [Job.reaction (.spawnNext (.iterator i)) .undefined (w.nextPromise + 1)] ∧
    (∀ (items : List Item) (fuel : Nat),
      follows (w.iters i).script ((w.iters i).history ++ [.next .undefined]) items (.raise e) →
      Ready w.nextPromise w.promises items (.raise e) → items.length < fuel →
      ∃ w1, drain fuel (topTicks items (.raise e) + 1) (spawn w (.iterator i)).1 = some w1 ∧
        w1.promises (w.nextPromise + 1) = .rejected e ∧
        (w1.iters i).history = (w.iters i).history ++ .next .undefined :: items.map Item.resume ∧
        w1.queue = []) ∧
    (∀ (xs : List Value) (p : Nat) (val : Value) (items : List Item) (fuel : Nat),
      yieldsAfter (w.iters i).script ((w.iters i).history ++ [.next .undefined]) xs (.promise p) →
      (∀ x ∈ xs, isPlain x = true) → p < w.nextPromise → w.promises p = .pending [] →
      follows (w.iters i).script ((w.iters i).history ++ .next .undefined :: xs.map Resume.next
        ++ [.next val]) items (.raise e) →
      Ready w.nextPromise w.promises items (.raise e) →
      xs.length < fuel → items.length < fuel →
      ∃ w1, drain fuel 2 (spawn w (.iterator i)).1 = some w1 ∧
        w1.queue = [] ∧ w1.promises (w.nextPromise + 1) = .pending [] ∧
        ∃ w2, drain fuel (topTicks items (.raise e) + 2) (fulfillPromise w1 p val) = some w2 ∧
          w2.promises (w.nextPromise + 1) = .rejected e ∧
          (w2.iters i).history = (w.iters i).history ++ .next .undefined :: xs.map Resume.next
            ++ .next val :: items.map Item.resume ∧
          w2.queue = []) := by
  refine ⟨by rw [spawn_iterator], by rw [spawn_iterator]; simp [setAt_apply],
    by rw [spawn_iterator], by rw [spawn_iterator], by rw [spawn_iterator]; simp [hq], ?_, ?_⟩
  · intro items fuel hs hr hf
    obtain ⟨w1, h1, h2, h3, h4, _⟩ := spawn_drives w i items _ hq hs hr fuel hf
    refine ⟨w1, h1, h3, ?_, h2⟩
    rw [h4]
    simp [resumesOf, Terminal.resumes]
  · intro xs p val items fuel hs hx hpn hp hs2 hr hf1 hf2
    obtain ⟨w1, h1, hS⟩ := spawn_suspends w i xs p hq hs hx hpn hp fuel hf1
    obtain ⟨w2, k1, k2, k3, k4, _⟩ := suspended_fulfilled w.nextPromise w w1 i p _ _ _ [] _ val
      items (.raise e) fuel hS
      (by omega) (by omega) (by omega) (by omega) (by omega) (by omega)
      (by rw [hS.2.2.2.2.2.2.1]; omega) (by rw [hS.2.2.2.2.2.2.1]; omega)
      (by rw [hS.2.2.2.2.2.2.1]; omega) (by rw [hS.2.2.2.2.2.2.1]; omega)
      (le_refl _) (by omega) hp hs2 hr hf2
    refine ⟨w1, h1, hS.1, hS.2.2.2.1, w2, k1, k3, ?_, by rw [k2, reactionJobs_nil]⟩
    rw [k4]
    simp [resumesOf, Terminal.resumes]

/-- C7, at a computation that yields 1, awaits a promise fulfilled with 2 and
then throws `boom`. -/
theorem step_throw_rejects_witness :
    ∃ w1, drain 3 6 (spawn (oneTaskWorld throwLateScript (.fulfilled (.num 2)))
        (.iterator 0)).1 = some w1 ∧
      w1.promises 2 = .rejected (.error "boom") ∧
      (w1.iters 0).history = [.next .undefined, .next (.num 1), .next (.num 2)] ∧
      w1.queue = [] :=
  (step_throw_rejects (oneTaskWorld throwLateScript (.fulfilled (.num 2))) 0 (.error "boom")
    rfl).2.2.2.2.2.1 [.plain (.num 1), .await 0 (.num 2)] 3
    ⟨rfl, rfl, rfl⟩ ⟨rfl, ⟨by decide, rfl⟩, trivial⟩ (by decide)

/-! ## A computation yielded by another computation -/

theorem outer_yields_iterator (i j : Nat) (W0 : World) (v : Value) (d : Nat)
    (hq : W0.queue = []) (hlt : d < W0.nextPromise)
    (hs : (W0.iters i).script ((W0.iters i).history ++ [.next v]) = .yield (.iterator j))
    (f : Nat) :
    ∃ W1, runJob (f + 1) W0 (.reaction (.spawnNext (.iterator i)) v d) = some W1 ∧
      W1.queue = [Job.reaction (.spawnNext (.iterator j)) .undefined (W0.nextPromise + 1),
        Job.resolveThenable d (W0.nextPromise + 1 + 1)] ∧
      W1.promises (W0.nextPromise + 1) =
        .pending [⟨.spawnNext (.iterator i), .itThrow (.iterator i), W0.nextPromise + 1 + 1⟩] ∧
      W1.promises (W0.nextPromise + 1 + 1) = .pending [] ∧
      (∀ q, q < W0.nextPromise → W1.promises q = W0.promises q) ∧
      W1.nextPromise = W0.nextPromise + 1 + 1 + 1 ∧
      W1.iters = (fed W0 i [v]).iters ∧
      W1.nextIter = W0.nextIter ∧ W1.gens = W0.gens := by
  apply Exists.intro
  apply And.intro
  case left =>
    simp only [runJob, runHandler, next_succ, iterNext_iterator, iterThrow, outcomeNext, nextBody_throw,
      nextBody_done, nextBody_promise, rejectPromise, fulfillPromise, fed, drain_succ, drain_zero, tick,
      promiseThen, enqueue, newPromise, setAt_apply, if_true, if_false, ne_succ1, succ1_ne, ne_succ2,
      succ2_ne, ne_succ3, succ3_ne, List.nil_append, List.append_nil, Option.bind_some, Option.some_bind,
      List.singleton_append, List.map, List.cons_append, List.append_assoc, resolvePromise_undefined,
      resolvePromise_state, resolvePromise_promise, ne_eq, not_false_eq_true, Bool.false_eq_true,
      eq_false_of_lt0, eq_false_of_lt1, eq_false_of_lt2, eq_false_of_lt3, eq_false_of_gt0,
      eq_false_of_gt1, eq_false_of_gt2, eq_false_of_gt3, hs, hq, hlt, nextBody, isGenerator, isIterator, isYieldableArray, isPromise,
      spawn, promiseResolve, valueThen, Bool.or_true, Bool.or_false, Bool.true_or, Bool.false_or]
    rfl
  case right =>
    simp only [ChainPost, Terminal.result, reactionJobs, setAt_apply, if_true, if_false, ne_succ1, succ1_ne,
      ne_succ2, succ2_ne, ne_succ3, succ3_ne, List.map, List.append_assoc, List.cons_append,
      List.nil_append, List.singleton_append, true_and, and_true, ne_eq, not_false_eq_true,
      eq_false_of_lt0, eq_false_of_lt1, eq_false_of_lt2, eq_false_of_lt3, eq_false_of_gt0,
      eq_false_of_gt1, eq_false_of_gt2, eq_false_of_gt3, hq, hlt, fed]
    and_intros
    all_goals
      intros
      first | trivial | omega | (split_ifs <;> first | rfl | omega)

theorem outer_yields_generator (i g : Nat) (W0 : World) (v : Value) (d : Nat)
    (hq : W0.queue = []) (hlt : d < W0.nextPromise) (hi : i < W0.nextIter)
    (hs : (W0.iters i).script ((W0.iters i).history ++ [.next v]) = .yield (.generator g))
    (f : Nat) :
    ∃ W1, runJob (f + 1) W0 (.reaction (.spawnNext (.iterator i)) v d) = some W1 ∧
      W1.queue = [Job.reaction (.spawnNext (.iterator W0.nextIter)) .undefined (W0.nextPromise + 1),
        Job.resolveThenable d (W0.nextPromise + 1 + 1)] ∧
      W1.promises (W0.nextPromise + 1) =
        .pending [⟨.spawnNext (.iterator i), .itThrow (.iterator i), W0.nextPromise + 1 + 1⟩] ∧
      W1.promises (W0.nextPromise + 1 + 1) = .pending [] ∧
      (∀ q, q < W0.nextPromise → W1.promises q = W0.promises q) ∧
      W1.nextPromise = W0.nextPromise + 1 + 1 + 1 ∧
      W1.iters = setAt (fed W0 i [v]).iters W0.nextIter ⟨W0.gens g, []⟩ ∧
      W1.nextIter = W0.nextIter + 1 ∧ W1.gens = W0.gens := by
  apply Exists.intro
  apply And.intro
  case left =>
    simp only [runJob, runHandler, next_succ, iterNext_iterator, iterThrow, outcomeNext, nextBody_throw,
      nextBody_done, nextBody_promise, rejectPromise, fulfillPromise, fed, drain_succ, drain_zero, tick,
      promiseThen, enqueue, newPromise, setAt_apply, if_true, if_false, ne_succ1, succ1_ne, ne_succ2,
      succ2_ne, ne_succ3, succ3_ne, List.nil_append, List.append_nil, Option.bind_some, Option.some_bind,
      List.singleton_append, List.map, List.cons_append, List.append_assoc, resolvePromise_undefined,
      resolvePromise_state, resolvePromise_promise, ne_eq, not_false_eq_true, Bool.false_eq_true,
      eq_false_of_lt0, eq_false_of_lt1, eq_false_of_lt2, eq_false_of_lt3, eq_false_of_gt0,
      eq_false_of_gt1, eq_false_of_gt2, eq_false_of_gt3, hs, hq, hlt, nextBody, isGenerator, isIterator, isYieldableArray, isPromise,
      spawn, promiseResolve, valueThen, instantiate, Bool.or_true, Bool.or_false, Bool.true_or,
      Bool.false_or]
    rfl
  case right =>
    simp only [ChainPost, Terminal.result, reactionJobs, setAt_apply, if_true, if_false, ne_succ1, succ1_ne,
      ne_succ2, succ2_ne, ne_succ3, succ3_ne, List.map, List.append_assoc, List.cons_append,
      List.nil_append, List.singleton_append, true_and, and_true, ne_eq, not_false_eq_true,
      eq_false_of_lt0, eq_false_of_lt1, eq_false_of_lt2, eq_false_of_lt3, eq_false_of_gt0,
      eq_false_of_gt1, eq_false_of_gt2, eq_false_of_gt3, hq, hlt, fed]
    and_intros
    all_goals
      intros
      first | trivial | omega | (split_ifs <;> first | rfl | omega)

theorem inner_ret (i j : Nat) (W0 : World) (v r : Value) (pc d1 dO : Nat)
    (hq : W0.queue = [Job.resolveThenable dO d1])
    (hpc : W0.promises pc = .pending [⟨.spawnNext (.iterator i), .itThrow (.iterator i), d1⟩])
    (hd1 : W0.promises d1 = .pending [])
    (hlpc : pc < W0.nextPromise) (hld1 : d1 < W0.nextPromise)
    (hne : pc ≠ d1)
    (hs : (W0.iters j).script ((W0.iters j).history ++ [.next v]) = .ret r)
    (hr : isPromise r = false)
    (f f2 : Nat) :
    ∃ W', (runJob (f + 1) W0 (.reaction (.spawnNext (.iterator j)) v pc)).bind (drain f2 3) = some W' ∧
      NestedPost W0 W' j pc d1 dO (W0.nextPromise + 1) (.fulfilled r)
        (.reaction (.spawnNext (.iterator i)) r d1) [.next v] := by
  have hne2 : d1 ≠ pc := fun h => hne h.symm
  apply Exists.intro
  apply And.intro
  case left =>
    simp only [runJob, runHandler, next_succ, iterNext_iterator, iterThrow, outcomeNext, nextBody_throw,
      nextBody_done, nextBody_promise, rejectPromise, fulfillPromise, fed, drain_succ, drain_zero, tick,
      promiseThen, enqueue, newPromise, setAt_apply, if_true, if_false, ne_succ1, succ1_ne, ne_succ2,
      succ2_ne, ne_succ3, succ3_ne, List.nil_append, List.append_nil, Option.bind_some, Option.some_bind,
      List.singleton_append, List.map, List.cons_append, List.append_assoc, resolvePromise_undefined,
      resolvePromise_state, resolvePromise_promise, ne_eq, not_false_eq_true, Bool.false_eq_true,
      eq_false_of_lt0, eq_false_of_lt1, eq_false_of_lt2, eq_false_of_lt3, eq_false_of_gt0,
      eq_false_of_gt1, eq_false_of_gt2, eq_false_of_gt3, hs, hq, hpc, hd1, hlpc, hld1, hne, hne2, promiseResolve_plain _ _ hr, resolvePromise_plain _ _ _ hr]
    rfl
  case right =>
    simp only [NestedPost, ChainPost, Terminal.result, reactionJobs, setAt_apply, if_true, if_false, ne_succ1, succ1_ne,
      ne_succ2, succ2_ne, ne_succ3, succ3_ne, List.map, List.append_assoc, List.cons_append,
      List.nil_append, List.singleton_append, true_and, and_true, ne_eq, not_false_eq_true,
      eq_false_of_lt0, eq_false_of_lt1, eq_false_of_lt2, eq_false_of_lt3, eq_false_of_gt0,
      eq_false_of_gt1, eq_false_of_gt2, eq_false_of_gt3, hq, hpc, hd1, hlpc, hld1, hne, hne2]
    and_intros
    all_goals
      intros
      first | trivial | omega | (split_ifs <;> first | rfl | omega)

theorem inner_raise (i j : Nat) (W0 : World) (v e : Value) (pc d1 dO : Nat)
    (hq : W0.queue = [Job.resolveThenable dO d1])
    (hpc : W0.promises pc = .pending [⟨.spawnNext (.iterator i), .itThrow (.iterator i), d1⟩])
    (hd1 : W0.promises d1 = .pending [])
    (hlpc : pc < W0.nextPromise) (hld1 : d1 < W0.nextPromise)
    (hne : pc ≠ d1)
    (hs : (W0.iters j).script ((W0.iters j).history ++ [.next v]) = .raise e)
    (f f2 : Nat) :
    ∃ W', (runJob (f + 1) W0 (.reaction (.spawnNext (.iterator j)) v pc)).bind (drain f2 1) = some W' ∧
      NestedPost W0 W' j pc d1 dO W0.nextPromise (.rejected e)
        (.reaction (.itThrow (.iterator i)) e d1) [.next v] := by
  have hne2 : d1 ≠ pc := fun h => hne h.symm
  apply Exists.intro
  apply And.intro
  case left =>
    simp only [runJob, runHandler, next_succ, iterNext_iterator, iterThrow, outcomeNext, nextBody_throw,
      nextBody_done, nextBody_promise, rejectPromise, fulfillPromise, fed, drain_succ, drain_zero, tick,
      promiseThen, enqueue, newPromise, setAt_apply, if_true, if_false, ne_succ1, succ1_ne, ne_succ2,
      succ2_ne, ne_succ3, succ3_ne, List.nil_append, List.append_nil, Option.bind_some, Option.some_bind,
      List.singleton_append, List.map, List.cons_append, List.append_assoc, resolvePromise_undefined,
      resolvePromise_state, resolvePromise_promise, ne_eq, not_false_eq_true, Bool.false_eq_true,
      eq_false_of_lt0, eq_false_of_lt1, eq_false_of_lt2, eq_false_of_lt3, eq_false_of_gt0,
      eq_false_of_gt1, eq_false_of_gt2, eq_false_of_gt3, hs, hq, hpc, hd1, hlpc, hld1, hne, hne2]
    rfl
  case right =>
    simp only [NestedPost, ChainPost, Terminal.result, reactionJobs, setAt_apply, if_true, if_false, ne_succ1, succ1_ne,
      ne_succ2, succ2_ne, ne_succ3, succ3_ne, List.map, List.append_assoc, List.cons_append,
      List.nil_append, List.singleton_append, true_and, and_true, ne_eq, not_false_eq_true,
      eq_false_of_lt0, eq_false_of_lt1, eq_false_of_lt2, eq_false_of_lt3, eq_false_of_gt0,
      eq_false_of_gt1, eq_false_of_gt2, eq_false_of_gt3, hq, hpc, hd1, hlpc, hld1, hne, hne2]
    and_intros
    all_goals
      intros
      first | trivial | omega | (split_ifs <;> first | rfl | omega)

theorem NestedPost_of_fed (W0 W' : World) (j pc d1 dO tau : Nat) (st : PState) (job : Job)
    (v : Value) (rsm : List Resume)
    (h : NestedPost (fed W0 j [v]) W' j pc d1 dO tau st job rsm) :
    NestedPost W0 W' j pc d1 dO tau st job (.next v :: rsm) := by
  obtain ⟨h1, h2, h3, h4, h5, h6, h7, h8, h9, h10, h11⟩ := h
  refine ⟨h1, h2, h3, h4, h5, h6, h7, ?_, ?_, h10, h11⟩
  · rw [h8]; simp [fed]
  · intro k hk; rw [h9 k hk]; simp [fed, setAt_apply, hk]

theorem drain_add (fuel a : Nat) (b : Nat) :
    ∀ w : World, drain fuel (a + b) w = (drain fuel b w).bind (drain fuel a) := by
  induction b with
  | zero => intro w; simp [drain_zero]
  | succ b ih =>
    intro w
    rw [← Nat.add_assoc, drain_succ, drain_succ]
    cases h : tick fuel w with
    | none => rfl
    | some w1 => simp only [Option.some_bind]; exact ih w1

theorem inner_drive_ret (i j : Nat) (r : Value) (hr : isPromise r = false) (xs : List Value) :
    ∀ (W0 : World) (v : Value) (pc d1 dO : Nat) (f1 f2 : Nat),
      W0.queue = [Job.resolveThenable dO d1] →
      W0.promises pc = .pending [⟨.spawnNext (.iterator i), .itThrow (.iterator i), d1⟩] →
      W0.promises d1 = .pending [] → pc < W0.nextPromise → d1 < W0.nextPromise → pc ≠ d1 →
      follows (W0.iters j).script ((W0.iters j).history ++ [.next v]) (xs.map Item.plain) (.ret r) →
      (∀ x ∈ xs, isPlain x = true) → xs.length < f1 →
      ∃ W', (runJob f1 W0 (.reaction (.spawnNext (.iterator j)) v pc)).bind (drain f2 3) = some W' ∧
        NestedPost W0 W' j pc d1 dO (W0.nextPromise + 1) (.fulfilled r)
          (.reaction (.spawnNext (.iterator i)) r d1) (.next v :: xs.map Resume.next) := by
  induction xs with
  | nil =>
    intro W0 v pc d1 dO f1 f2 hq hpc hd1 hlpc hld1 hne hs _ hf1
    obtain ⟨f, rfl⟩ : ∃ f, f1 = f + 1 := ⟨f1 - 1, by simp at hf1; omega⟩
    exact inner_ret i j W0 v r pc d1 dO hq hpc hd1 hlpc hld1 hne hs hr f f2
  | cons x xs ih =>
    intro W0 v pc d1 dO f1 f2 hq hpc hd1 hlpc hld1 hne hs hx hf1
    obtain ⟨f, rfl⟩ : ∃ f, f1 = f + 1 := ⟨f1 - 1, by simp at hf1; omega⟩
    obtain ⟨hs1, hs2⟩ := hs
    rw [runJob_plain j W0 v x pc f hs1 (hx x (List.mem_cons_self _ _))]
    obtain ⟨W', hrun, hpost⟩ := ih (fed W0 j [v]) x pc d1 dO f f2 hq hpc hd1 hlpc hld1 hne
      (by simpa [fed] using hs2) (fun y hy => hx y (List.mem_cons_of_mem _ hy))
      (by simp at hf1; omega)
    exact ⟨W', hrun, NestedPost_of_fed W0 W' j pc d1 dO _ _ _ v _ hpost⟩

theorem inner_drive_raise (i j : Nat) (e : Value) (xs : List Value) :
    ∀ (W0 : World) (v : Value) (pc d1 dO : Nat) (f1 f2 : Nat),
      W0.queue = [Job.resolveThenable dO d1] →
      W0.promises pc = .pending [⟨.spawnNext (.iterator i), .itThrow (.iterator i), d1⟩] →
      W0.promises d1 = .pending [] → pc < W0.nextPromise → d1 < W0.nextPromise → pc ≠ d1 →
      follows (W0.iters j).script ((W0.iters j).history ++ [.next v]) (xs.map Item.plain)
        (.raise e) →
      (∀ x ∈ xs, isPlain x = true) → xs.length < f1 →
      ∃ W', (runJob f1 W0 (.reaction (.spawnNext (.iterator j)) v pc)).bind (drain f2 1) = some W' ∧
        NestedPost W0 W' j pc d1 dO W0.nextPromise (.rejected e)
          (.reaction (.itThrow (.iterator i)) e d1) (.next v :: xs.map Resume.next) := by
  induction xs with
  | nil =>
    intro W0 v pc d1 dO f1 f2 hq hpc hd1 hlpc hld1 hne hs _ hf1
    obtain ⟨f, rfl⟩ : ∃ f, f1 = f + 1 := ⟨f1 - 1, by simp at hf1; omega⟩
    exact inner_raise i j W0 v e pc d1 dO hq hpc hd1 hlpc hld1 hne hs f f2
  | cons x xs ih =>
    intro W0 v pc d1 dO f1 f2 hq hpc hd1 hlpc hld1 hne hs hx hf1
    obtain ⟨f, rfl⟩ : ∃ f, f1 = f + 1 := ⟨f1 - 1, by simp at hf1; omega⟩
    obtain ⟨hs1, hs2⟩ := hs
    rw [runJob_plain j W0 v x pc f hs1 (hx x (List.mem_cons_self _ _))]
    obtain ⟨W', hrun, hpost⟩ := ih (fed W0 j [v]) x pc d1 dO f f2 hq hpc hd1 hlpc hld1 hne
      (by simpa [fed] using hs2) (fun y hy => hx y (List.mem_cons_of_mem _ hy))
      (by simp at hf1; omega)
    exact ⟨W', hrun, NestedPost_of_fed W0 W' j pc d1 dO _ _ _ v _ hpost⟩

/-- The outer driver, having received the first job of the inner driver `j`
and the job that makes its own promise `dO` follow `d1`: when the inner
computation returns `val`, the outer computation `i` is resumed with
`step(val)` and driven on. -/
theorem nested_fulfilled (n i j : Nat) (W1 : World) (pc d1 dO : Nat) (xs : List Value)
    (val : Value) (items : List Item) (t : Terminal) (fuel : Nat) (rs : List Reaction)
    (hq : W1.queue = [Job.reaction (.spawnNext (.iterator j)) .undefined pc,
      Job.resolveThenable dO d1])
    (hpc : W1.promises pc = .pending [⟨.spawnNext (.iterator i), .itThrow (.iterator i), d1⟩])
    (hd1 : W1.promises d1 = .pending []) (hdO : W1.promises dO = .pending rs)
    (hlpc : pc < W1.nextPromise) (hld1 : d1 < W1.nextPromise) (hldO : dO < W1.nextPromise)
    (h1 : pc ≠ d1) (h2 : pc ≠ dO) (h3 : d1 ≠ dO) (hn : n ≤ d1) (hij : i ≠ j)
    (hval : isPromise val = false)
    (hsj : follows (W1.iters j).script ((W1.iters j).history ++ [.next .undefined])
      (xs.map Item.plain) (.ret val))
    (hx : ∀ x ∈ xs, isPlain x = true)
    (hsi : follows (W1.iters i).script ((W1.iters i).history ++ [.next val]) items t)
    (hr : Ready n W1.promises items t) (hrn : n ≤ pc)
    (hf1 : xs.length < fuel) (hf2 : items.length < fuel) :
    ∃ W', drain fuel (topTicks items t + 1 + 1 + 4) W1 = some W' ∧
      W'.queue = reactionJobs t.result rs ∧
      W'.promises dO = t.result ∧
      (W'.iters i).history = (W1.iters i).history ++ .next val :: resumesOf items t ∧
      (W'.iters j).history = (W1.iters j).history ++ .next .undefined :: xs.map Resume.next := by
  obtain ⟨W5, hrun5, a1, a2, a3, a4, a5, a6, a7, a8, a9, a10, a11⟩ :=
    inner_drive_ret i j val hval xs { W1 with queue := [Job.resolveThenable dO d1] } .undefined
      pc d1 dO fuel fuel rfl hpc hd1 hlpc hld1 h1 hsj hx hf1
  simp only at a1 a2 a3 a4 a5 a6 a7 a8 a9 a10 a11
  obtain ⟨W', hrun, k1, k2, k3, k4, k5, k6, k7, k8, k9, k10, k11, _⟩ :=
    resume_next i n t items { W5 with queue := [] } val d1 dO (W1.nextPromise + 1) rs fuel fuel rfl
      a3 (by simp only; rw [a5 dO hldO (Ne.symm h2) (Ne.symm h3), hdO]) a4
      (by simp only; omega) (by simp only; omega) (by simp only; omega)
      h3 (by omega) (by omega) hn
      (by simp only [a9 i hij]; exact hsi)
      (Ready_congr n W1.promises _ (fun q hq => a5 q (by omega) (by omega) (by omega)) t items hr)
      hf2 hf2
  simp only at k1 k2 k8
  refine ⟨W', ?_, k1, k2, ?_, ?_⟩
  · rw [drain_add, show (4 : Nat) = 3 + 1 from rfl, drain_succ, tick_cons fuel W1 _ _ hq, hrun5,
      Option.some_bind, drain_succ, tick_cons fuel W5 _ _ a1]
    exact hrun
  · rw [k8, a9 i hij]
  · rw [k10 j (Ne.symm hij)]
    exact a8

/-- The outer driver waiting for the inner driver `j`: when the inner
computation throws `e`, the outer computation `i` is resumed with `raise(e)`. -/
theorem nested_rejected (i j : Nat) (W1 : World) (pc d1 dO : Nat) (xs : List Value)
    (e : Value) (out : Outcome) (fuel : Nat) (rs : List Reaction)
    (hq : W1.queue = [Job.reaction (.spawnNext (.iterator j)) .undefined pc,
      Job.resolveThenable dO d1])
    (hpc : W1.promises pc = .pending [⟨.spawnNext (.iterator i), .itThrow (.iterator i), d1⟩])
    (hd1 : W1.promises d1 = .pending []) (hdO : W1.promises dO = .pending rs)
    (hlpc : pc < W1.nextPromise) (hld1 : d1 < W1.nextPromise) (hldO : dO < W1.nextPromise)
    (h1 : pc ≠ d1) (h2 : pc ≠ dO) (h3 : d1 ≠ dO) (hij : i ≠ j)
    (hsj : follows (W1.iters j).script ((W1.iters j).history ++ [.next .undefined])
      (xs.map Item.plain) (.raise e))
    (hx : ∀ x ∈ xs, isPlain x = true)
    (hsi : (W1.iters i).script ((W1.iters i).history ++ [.throw e]) = out)
    (hf1 : xs.length < fuel) :
    ∃ W', drain fuel (1 + 1 + 2) W1 = some W' ∧
      W'.queue = reactionJobs (Terminal.result (.fail pc e out)) rs ∧
      W'.promises dO = Terminal.result (.fail pc e out) ∧
      (W'.iters i).history = (W1.iters i).history ++ [.throw e] ∧
      (W'.iters j).history = (W1.iters j).history ++ .next .undefined :: xs.map Resume.next := by
  obtain ⟨W5, hrun5, a1, a2, a3, a4, a5, a6, a7, a8, a9, a10, a11⟩ :=
    inner_drive_raise i j e xs { W1 with queue := [Job.resolveThenable dO d1] } .undefined
      pc d1 dO fuel fuel rfl hpc hd1 hlpc hld1 h1 hsj hx hf1
  simp only at a1 a2 a3 a4 a5 a6 a7 a8 a9 a10 a11
  obtain ⟨W', hrun, k1, k2, k3, k4, k5, k6, k7, k8, k9, k10, k11, _⟩ :=
    resume_throw i pc out { W5 with queue := [] } e d1 dO W1.nextPromise rs fuel fuel rfl
      a3 (by simp only; rw [a5 dO hldO (Ne.symm h2) (Ne.symm h3), hdO]) a4
      h3 (by omega) (by omega)
      (by simp only [a9 i hij]; exact hsi)
  simp only at k1 k2 k8
  refine ⟨W', ?_, k1, k2, ?_, ?_⟩
  · rw [drain_add, show (2 : Nat) = 1 + 1 from rfl, drain_succ, tick_cons fuel W1 _ _ hq, hrun5,
      Option.some_bind, drain_succ, tick_cons fuel W5 _ _ a1]
    exact hrun
  · rw [k8, a9 i hij]
  · rw [k10 j (Ne.symm hij)]
    exact a8

theorem next_yields_computation (i : Nat) (W : World) (v c : Value) (fuel : Nat)
    (hc : isGenerator c = true ∨ isIterator c = true)
    (hy : (W.iters i).script ((W.iters i).history ++ [.next v]) = .yield c) :
    next (fuel + 1) W (.iterator i) v =
      some ((valueThen (spawn (iterNext W (.iterator i) v).1 c).1
          (spawn (iterNext W (.iterator i) v).1 c).2
          (.spawnNext (.iterator i)) (.itThrow (.iterator i))).1,
        .normal (valueThen (spawn (iterNext W (.iterator i) v).1 c).1
          (spawn (iterNext W (.iterator i) v).1 c).2
          (.spawnNext (.iterator i)) (.itThrow (.iterator i))).2) := by
  have hsp : ∀ W2 : World, ∃ q, (spawn W2 c).2 = .promise q := by
    intro W2
    rcases hc with hc | hc
    · cases c <;> simp [isGenerator] at hc
      exact ⟨_, rfl⟩
    · cases c <;> simp [isIterator] at hc
      exact ⟨_, rfl⟩
  have hor : (isGenerator c || isIterator c) = true := by
    rcases hc with hc | hc <;> simp [hc]
  obtain ⟨q, hq⟩ := hsp (fed W i [v])
  rw [next_succ, iterNext_iterator, hy, outcomeNext]
  simp only [nextBody, Bool.false_eq_true, if_false, hor, if_true, hq, isYieldableArray, isPromise]

/-- C6: a stepped computation `i` yields a computation `c`.  (1) For every `c`,
generator function or stepped computation, the driver calls `spawn(c)` and
attaches `next` and `it.throw` of the outer computation to the promise that
`spawn(c)` returns.  (2) `spawn` of a generator function first instantiates it:
the computation it steps is a fresh, unstarted instance, created without
arguments.  (3) When `c` is a stepped computation `j` that yields plain values
and returns `val`, the outer computation is resumed with `step(val)` and driven
on; (4) when `j` throws `e`, the outer computation is resumed with `raise(e)`.
(5), (6) The same when `c` is a generator function `g`, for its fresh
instance. -/
theorem yielded_computation_is_driven (w : World) (i : Nat) (hq : w.queue = [])
    (hi : i < w.nextIter) :
    (∀ (W : World) (v c : Value) (fuel : Nat),
      (isGenerator c = true ∨ isIterator c = true) →
      (W.iters i).script ((W.iters i).history ++ [.next v]) = .yield c →
      next (fuel + 1) W (.iterator i) v =
        some ((valueThen (spawn (iterNext W (.iterator i) v).1 c).1
            (spawn (iterNext W (.iterator i) v).1 c).2
            (.spawnNext (.iterator i)) (.itThrow (.iterator i))).1,
          .normal (valueThen (spawn (iterNext W (.iterator i) v).1 c).1
            (spawn (iterNext W (.iterator i) v).1 c).2
            (.spawnNext (.iterator i)) (.itThrow (.iterator i))).2)) ∧
    (∀ (W : World) (g : Nat),
      (spawn W (.generator g)).1.iters W.nextIter = ⟨W.gens g, []⟩ ∧
      (spawn W (.generator g)).1.queue = W.queue ++
        [Job.reaction (.spawnNext (.iterator W.nextIter)) .undefined (W.nextPromise + 1)] ∧
      (spawn W (.generator g)).1.log = W.log ++ [Event.instantiate g W.nextIter]) ∧
    (∀ (j : Nat) (xs : List Value) (val : Value) (items : List Item) (t : Terminal) (fuel : Nat),
      i ≠ j →
      (w.iters i).script ((w.iters i).history ++ [.next .undefined]) = .yield (.iterator j) →
      follows (w.iters j).script ((w.iters j).history ++ [.next .undefined])
        (xs.map Item.plain) (.ret val) →
      (∀ x ∈ xs, isPlain x = true) → isPromise val = false →
      follows (w.iters i).script ((w.iters i).history ++ [.next .undefined, .next val]) items t →
      Ready w.nextPromise w.promises items t →
      xs.length < fuel → items.length < fuel →
      ∃ w1, drain fuel (topTicks items t + 7) (spawn w (.iterator i)).1 = some w1 ∧
        w1.queue = [] ∧ w1.promises (w.nextPromise + 1) = t.result ∧
        (w1.iters i).history =
          (w.iters i).history ++ .next .undefined :: .next val :: resumesOf items t ∧
        (w1.iters j).history = (w.iters j).history ++ .next .undefined :: xs.map Resume.next) ∧
    (∀ (j : Nat) (xs : List Value) (e : Value) (out : Outcome) (fuel : Nat),
      i ≠ j →
      (w.iters i).script ((w.iters i).history ++ [.next .undefined]) = .yield (.iterator j) →
      follows (w.iters j).script ((w.iters j).history ++ [.next .undefined])
        (xs.map Item.plain) (.raise e) →
      (∀ x ∈ xs, isPlain x = true) →
      (w.iters i).script ((w.iters i).history ++ [.next .undefined, .throw e]) = out →
      xs.length < fuel →
      ∃ w1, drain fuel 5 (spawn w (.iterator i)).1 = some w1 ∧
        w1.queue = [] ∧
        w1.promises (w.nextPromise + 1) = Terminal.result (.fail (w.nextPromise + 3) e out) ∧
        (w1.iters i).history = (w.iters i).history ++ [.next .undefined, .throw e] ∧
        (w1.iters j).history = (w.iters j).history ++ .next .undefined :: xs.map Resume.next) ∧
    (∀ (g : Nat) (xs : List Value) (val : Value) (items : List Item) (t : Terminal) (fuel : Nat),
      (w.iters i).script ((w.iters i).history ++ [.next .undefined]) = .yield (.generator g) →
      follows (w.gens g) [.next .undefined] (xs.map Item.plain) (.ret val) →
      (∀ x ∈ xs, isPlain x = true) → isPromise val = false →
      follows (w.iters i).script ((w.iters i).history ++ [.next .undefined, .next val]) items t →
      Ready w.nextPromise w.promises items t →
      xs.length < fuel → items.length < fuel →
      ∃ w1, drain fuel (topTicks items t + 7) (spawn w (.iterator i)).1 = some w1 ∧
        w1.queue = [] ∧ w1.promises (w.nextPromise + 1) = t.result ∧
        (w1.iters i).history =
          (w.iters i).history ++ .next .undefined :: .next val :: resumesOf items t ∧
        (w1.iters w.nextIter).history = .next .undefined :: xs.map Resume.next) ∧
    (∀ (g : Nat) (xs : List Value) (e : Value) (out : Outcome) (fuel : Nat),
      (w.iters i).script ((w.iters i).history ++ [.next .undefined]) = .yield (.generator g) →
      follows (w.gens g) [.next .undefined] (xs.map Item.plain) (.raise e) →
      (∀ x ∈ xs, isPlain x = true) →
      (w.iters i).script ((w.iters i).history ++ [.next .undefined, .throw e]) = out →
      xs.length < fuel →
      ∃ w1, drain fuel 5 (spawn w (.iterator i)).1 = some w1 ∧
        w1.queue = [] ∧
        w1.promises (w.nextPromise + 1) = Terminal.result (.fail (w.nextPromise + 3) e out) ∧
        (w1.iters i).history = (w.iters i).history ++ [.next .undefined, .throw e] ∧
        (w1.iters w.nextIter).history = .next .undefined :: xs.map Resume.next) := by
  have hW0 : ∀ q, q < w.nextPromise →
      setAt (setAt w.promises w.nextPromise (.fulfilled .undefined)) (w.nextPromise + 1)
        (.pending []) q = w.promises q := by
    intro q hq
    simp only [setAt_apply, eq_false_of_lt0 hq, eq_false_of_lt1 hq, if_false]
  refine ⟨fun W v c fuel hc hy => next_yields_computation i W v c fuel hc hy, ?_, ?_, ?_, ?_, ?_⟩
  · intro W g
    simp [spawn, isGenerator, instantiate, promiseResolve, newPromise, valueThen, promiseThen,
      setAt_apply, enqueue]
  · intro j xs val items t fuel hij hy hsj hx hval hsi hr hf1 hf2
    obtain ⟨f, rfl⟩ : ∃ f, fuel = f + 1 := ⟨fuel - 1, by omega⟩
    rw [spawn_iterator]
    simp only [hq, List.nil_append]
    obtain ⟨W1, hrun1, b1, b2, b3, b4, b5, b6, b7, b8⟩ := outer_yields_iterator i j
      { w with
          promises := setAt (setAt w.promises w.nextPromise (.fulfilled .undefined))
            (w.nextPromise + 1) (.pending []),
          nextPromise := w.nextPromise + 1 + 1,
          queue := [] } .undefined (w.nextPromise + 1) rfl (by simp only; omega) hy f
    simp only at b1 b2 b3 b4 b5 b6 b7 b8
    have hit : ∀ k, k ≠ i → W1.iters k = w.iters k := by
      intro k hk; rw [b6]; simp [fed, setAt_apply, hk]
    have hii : W1.iters i = ⟨(w.iters i).script, (w.iters i).history ++ [.next .undefined]⟩ := by
      rw [b6]; simp [fed, setAt_apply]
    obtain ⟨w1, hrun, k1, k2, k3, k4⟩ := nested_fulfilled w.nextPromise i j W1
      (w.nextPromise + 1 + 1 + 1) (w.nextPromise + 1 + 1 + 1 + 1) (w.nextPromise + 1) xs val items t
      (f + 1) [] b1 b2 b3
      (by rw [b4 _ (by omega)]; simp only [setAt_apply, if_true])
      (by omega) (by omega) (by omega) (by omega) (by omega) (by omega) (by omega) hij hval
      (by rw [hit j (Ne.symm hij)]; exact hsj) hx
      (by rw [hii]; simpa using hsi)
      (Ready_congr _ w.promises _ (fun q hq => by rw [b4 q (by omega)]; exact hW0 q hq) t items hr)
      (by omega) hf1 hf2
    refine ⟨w1, ?_, by rw [k1, reactionJobs_nil], k2, ?_, ?_⟩
    · rw [show topTicks items t + 7 = (topTicks items t + 1 + 1 + 4) + 1 from rfl, drain_succ,
        tick_cons (f + 1) _ _ [] rfl, hrun1]
      exact hrun
    · rw [k3, hii]; simp
    · rw [k4, hit j (Ne.symm hij)]
  · intro j xs e out fuel hij hy hsj hx hso hf1
    obtain ⟨f, rfl⟩ : ∃ f, fuel = f + 1 := ⟨fuel - 1, by omega⟩
    rw [spawn_iterator]
    simp only [hq, List.nil_append]
    obtain ⟨W1, hrun1, b1, b2, b3, b4, b5, b6, b7, b8⟩ := outer_yields_iterator i j
      { w with
          promises := setAt (setAt w.promises w.nextPromise (.fulfilled .undefined))
            (w.nextPromise + 1) (.pending []),
          nextPromise := w.nextPromise + 1 + 1,
          queue := [] } .undefined (w.nextPromise + 1) rfl (by simp only; omega) hy f
    simp only at b1 b2 b3 b4 b5 b6 b7 b8
    have hit : ∀ k, k ≠ i → W1.iters k = w.iters k := by
      intro k hk; rw [b6]; simp [fed, setAt_apply, hk]
    have hii : W1.iters i = ⟨(w.iters i).script, (w.iters i).history ++ [.next .undefined]⟩ := by
      rw [b6]; simp [fed, setAt_apply]
    obtain ⟨w1, hrun, k1, k2, k3, k4⟩ := nested_rejected i j W1
      (w.nextPromise + 1 + 1 + 1) (w.nextPromise + 1 + 1 + 1 + 1) (w.nextPromise + 1) xs e out
      (f + 1) [] b1 b2 b3
      (by rw [b4 _ (by omega)]; simp only [setAt_apply, if_true])
      (by omega) (by omega) (by omega) (by omega) (by omega) (by omega) hij
      (by rw [hit j (Ne.symm hij)]; exact hsj) hx
      (by rw [hii]; simpa using hso) hf1
    refine ⟨w1, ?_, by rw [k1, reactionJobs_nil], k2, ?_, ?_⟩
    · rw [show (5 : Nat) = (1 + 1 + 2) + 1 from rfl, drain_succ,
        tick_cons (f + 1) _ _ [] rfl, hrun1]
      exact hrun
    · rw [k3, hii]; simp
    · rw [k4, hit j (Ne.symm hij)]
  · intro g xs val items t fuel hy hsj hx hval hsi hr hf1 hf2
    obtain ⟨f, rfl⟩ : ∃ f, fuel = f + 1 := ⟨fuel - 1, by omega⟩
    rw [spawn_iterator]
    simp only [hq, List.nil_append]
    obtain ⟨W1, hrun1, b1, b2, b3, b4, b5, b6, b7, b8⟩ := outer_yields_generator i g
      { w with
          promises := setAt (setAt w.promises w.nextPromise (.fulfilled .undefined))
            (w.nextPromise + 1) (.pending []),
          nextPromise := w.nextPromise + 1 + 1,
          queue := [] } .undefined (w.nextPromise + 1) rfl (by simp only; omega) hi hy f
    simp only at b1 b2 b3 b4 b5 b6 b7 b8
    have hne : i ≠ w.nextIter := by omega
    have hjj : W1.iters w.nextIter = ⟨w.gens g, []⟩ := by
      rw [b6]; simp [setAt_apply]
    have hii : W1.iters i = ⟨(w.iters i).script, (w.iters i).history ++ [.next .undefined]⟩ := by
      rw [b6]; simp [fed, setAt_apply, hne]
    obtain ⟨w1, hrun, k1, k2, k3, k4⟩ := nested_fulfilled w.nextPromise i w.nextIter W1
      (w.nextPromise + 1 + 1 + 1) (w.nextPromise + 1 + 1 + 1 + 1) (w.nextPromise + 1) xs val items t
      (f + 1) [] b1 b2 b3
      (by rw [b4 _ (by omega)]; simp only [setAt_apply, if_true])
      (by omega) (by omega) (by omega) (by omega) (by omega) (by omega) (by omega) hne hval
      (by rw [hjj]; exact hsj) hx
      (by rw [hii]; simpa using hsi)
      (Ready_congr _ w.promises _ (fun q hq => by rw [b4 q (by omega)]; exact hW0 q hq) t items hr)
      (by omega) hf1 hf2
    refine ⟨w1, ?_, by rw [k1, reactionJobs_nil], k2, ?_, ?_⟩
    · rw [show topTicks items t + 7 = (topTicks items t + 1 + 1 + 4) + 1 from rfl, drain_succ,
        tick_cons (f + 1) _ _ [] rfl, hrun1]
      exact hrun
    · rw [k3, hii]; simp
    · rw [k4, hjj]; simp
  · intro g xs e out fuel hy hsj hx hso hf1
    obtain ⟨f, rfl⟩ : ∃ f, fuel = f + 1 := ⟨fuel - 1, by omega⟩
    rw [spawn_iterator]
    simp only [hq, List.nil_append]
    obtain ⟨W1, hrun1, b1, b2, b3, b4, b5, b6, b7, b8⟩ := outer_yields_generator i g
      { w with
          promises := setAt (setAt w.promises w.nextPromise (.fulfilled .undefined))
            (w.nextPromise + 1) (.pending []),
          nextPromise := w.nextPromise + 1 + 1,
          queue := [] } .undefined (w.nextPromise + 1) rfl (by simp only; omega) hi hy f
    simp only at b1 b2 b3 b4 b5 b6 b7 b8
    have hne : i ≠ w.nextIter := by omega
    have hjj : W1.iters w.nextIter = ⟨w.gens g, []⟩ := by
      rw [b6]; simp [setAt_apply]
    have hii : W1.iters i = ⟨(w.iters i).script, (w.iters i).history ++ [.next .undefined]⟩ := by
      rw [b6]; simp [fed, setAt_apply, hne]
    obtain ⟨w1, hrun, k1, k2, k3, k4⟩ := nested_rejected i w.nextIter W1
      (w.nextPromise + 1 + 1 + 1) (w.nextPromise + 1 + 1 + 1 + 1) (w.nextPromise + 1) xs e out
      (f + 1) [] b1 b2 b3
      (by rw [b4 _ (by omega)]; simp only [setAt_apply, if_true])
      (by omega) (by omega) (by omega) (by omega) (by omega) (by omega) hne
      (by rw [hjj]; exact hsj) hx
      (by rw [hii]; simpa using hso) hf1
    refine ⟨w1, ?_, by rw [k1, reactionJobs_nil], k2, ?_, ?_⟩
    · rw [show (5 : Nat) = (1 + 1 + 2) + 1 from rfl, drain_succ,
        tick_cons (f + 1) _ _ [] rfl, hrun1]
      exact hrun
    · rw [k3, hii]; simp
    · rw [k4, hjj]; simp

/-- C6, at a computation that yields a computation returning 7 and returns what
it is resumed with. -/
theorem yielded_computation_is_driven_witness :
    ∃ w1, drain 1 9 (spawn (twoTaskWorld delegateScript sevenScript) (.iterator 0)).1 = some w1 ∧
      w1.queue = [] ∧ w1.promises 1 = .fulfilled (.num 7) ∧
      (w1.iters 0).history = [.next .undefined, .next (.num 7)] ∧
      (w1.iters 1).history = [.next .undefined] :=
  (yielded_computation_is_driven (twoTaskWorld delegateScript sevenScript) 0 rfl
    (by decide)).2.2.1 1 [] (.num 7) [] (.ret (.num 7)) 1 (by decide) rfl rfl (by simp) rfl rfl rfl
    (by decide) (by decide)

/-! ## The chain of `parallel` -/

theorem drain_idle (fuel m : Nat) (w : World) (h : w.queue = []) : drain fuel m w = some w := by
  induction m with
  | zero => rfl
  | succ m ih => rw [drain_succ_right, ih]; simp [tick, h]

theorem drain_extend (fuel m M : Nat) (w w1 : World) (h : drain fuel m w = some w1)
    (hq : w1.queue = []) (hm : m ≤ M) : drain fuel M w = some w1 := by
  obtain ⟨k, rfl⟩ : ∃ k, M = k + m := ⟨M - m, by omega⟩
  rw [drain_add, h, Option.some_bind, drain_idle fuel k w1 hq]

theorem drain_trans (fuel a b : Nat) (w w1 w2 : World) (h1 : drain fuel a w = some w1)
    (h2 : drain fuel b w1 = some w2) : drain fuel (a + b) w = some w2 := by
  rw [Nat.add_comm, drain_add, h1, Option.some_bind, h2]

theorem Chained_congr (P P' : Nat → PState) (rest : List Nat) :
    ∀ c, (∀ q, c ≤ q → q ≤ c + rest.length → P' q = P q) → Chained P c rest → Chained P' c rest := by
  induction rest with
  | nil =>
    intro c h hc
    simp only [Chained] at hc ⊢
    rw [h c (le_refl _) (by simp), hc]
  | cons t rest ih =>
    intro c h hc
    simp only [Chained] at hc ⊢
    refine ⟨by rw [h c (le_refl _) (by simp), hc.1], ih (c + 1) ?_ hc.2⟩
    intro q hq1 hq2
    exact h q (by omega) (by simp only [List.length_cons]; omega)

theorem Stable_refl (N : Nat) (W : World) : Stable N W W :=
  ⟨le_refl _, fun _ _ _ => rfl, fun _ _ h => h⟩

theorem Stable_trans (N : Nat) (W1 W2 W3 : World) (h12 : Stable N W1 W2) (h23 : Stable N W2 W3) :
    Stable N W1 W3 := by
  obtain ⟨a1, a2, a3⟩ := h12
  obtain ⟨b1, b2, b3⟩ := h23
  refine ⟨le_trans a1 b1, ?_, fun q hq h => b3 q hq (a3 q hq h)⟩
  intro q hq hs
  rw [b2 q (by omega) (by rw [a2 q hq hs]; exact hs), a2 q hq hs]

theorem tick_thrower (fuel : Nat) (W : World) (e : Value) (c : Nat) (rs : List Reaction)
    (hq : W.queue = [Job.reaction .thrower e c]) (hc : W.promises c = .pending rs) :
    tick fuel W = some { W with
      promises := setAt W.promises c (.rejected e),
      queue := rs.map (fun r => Job.reaction r.onRejected e r.derived),
      log := W.log ++ [Event.settled c] } := by
  simp only [tick, hq, runJob, runHandler, rejectPromise, hc, List.nil_append]

theorem tick_resolveFn (fuel : Nat) (W : World) (x : Value) (c tau : Nat) (rs : List Reaction)
    (hq : W.queue = [Job.reaction (.resolveFn c) x tau]) (hx : isPromise x = false)
    (hc : W.promises c = .pending rs) (htau : W.promises tau = .pending []) (hne : tau ≠ c) :
    tick fuel W = some { W with
      promises := setAt (setAt W.promises c (.fulfilled x)) tau (.fulfilled .undefined),
      queue := rs.map (fun r => Job.reaction r.onFulfilled x r.derived),
      log := W.log ++ [Event.settled c, Event.settled tau] } := by
  simp only [tick, hq, runJob, runHandler, resolvePromise_plain _ _ _ hx, fulfillPromise, hc,
    List.nil_append, resolvePromise_undefined, setAt_apply, hne, if_false, htau, List.map_nil,
    List.append_nil, List.append_assoc, List.singleton_append]

theorem tick_rejectFn (fuel : Nat) (W : World) (e : Value) (c tau : Nat) (rs : List Reaction)
    (hq : W.queue = [Job.reaction (.rejectFn c) e tau])
    (hc : W.promises c = .pending rs) (htau : W.promises tau = .pending []) (hne : tau ≠ c) :
    tick fuel W = some { W with
      promises := setAt (setAt W.promises c (.rejected e)) tau (.fulfilled .undefined),
      queue := rs.map (fun r => Job.reaction r.onRejected e r.derived),
      log := W.log ++ [Event.settled c, Event.settled tau] } := by
  simp only [tick, hq, runJob, runHandler, rejectPromise, fulfillPromise, hc,
    List.nil_append, resolvePromise_undefined, setAt_apply, hne, if_false, htau, List.map_nil,
    List.append_nil, List.append_assoc, List.singleton_append]

theorem tick_parallelTask (fuel : Nat) (W : World) (t : Nat) (v : Value) (c : Nat)
    (hq : W.queue = [Job.reaction (.parallelTask (.promise t)) v c]) (hne : t ≠ c) :
    tick fuel W = some { W with queue := [Job.resolveThenable c t] } := by
  simp only [tick, hq, runJob, runHandler, resolvePromise_promise, hne, if_false, enqueue,
    List.nil_append]

theorem tick_adopt_pending (fuel : Nat) (W : World) (c t : Nat) (rs : List Reaction)
    (hq : W.queue = [Job.resolveThenable c t]) (ht : W.promises t = .pending rs) :
    tick fuel W = some { W with
      promises := setAt (setAt W.promises W.nextPromise (.pending [])) t
        (.pending (rs ++ [⟨.resolveFn c, .rejectFn c, W.nextPromise⟩])),
      nextPromise := W.nextPromise + 1,
      queue := [] } := by
  simp only [tick, hq, runJob, promiseThen, ht]

theorem tick_adopt_fulfilled (fuel : Nat) (W : World) (c t : Nat) (x : Value)
    (hq : W.queue = [Job.resolveThenable c t]) (ht : W.promises t = .fulfilled x) :
    tick fuel W = some { W with
      promises := setAt W.promises W.nextPromise (.pending []),
      nextPromise := W.nextPromise + 1,
      queue := [Job.reaction (.resolveFn c) x W.nextPromise] } := by
  simp only [tick, hq, runJob, promiseThen, ht, enqueue, List.nil_append]

theorem tick_adopt_rejected (fuel : Nat) (W : World) (c t : Nat) (e : Value)
    (hq : W.queue = [Job.resolveThenable c t]) (ht : W.promises t = .rejected e) :
    tick fuel W = some { W with
      promises := setAt W.promises W.nextPromise (.pending []),
      nextPromise := W.nextPromise + 1,
      queue := [Job.reaction (.rejectFn c) e W.nextPromise] } := by
  simp only [tick, hq, runJob, promiseThen, ht, enqueue, List.nil_append]

/-- A rejection runs down the chain: every chain promise from `c` on is rejected
with the same error, one job each. -/
theorem par_cascade (fuel : Nat) (e : Value) (rest : List Nat) :
    ∀ (W : World) (c : Nat),
      W.queue = [Job.reaction .thrower e c] → Chained W.promises c rest →
      ∃ W', drain fuel (rest.length + 1) W = some W' ∧ W'.queue = [] ∧
        (∀ k, k ≤ rest.length → W'.promises (c + k) = .rejected e) ∧
        (∀ q, (q < c ∨ c + rest.length < q) → W'.promises q = W.promises q) ∧
        W'.nextPromise = W.nextPromise := by
  induction rest with
  | nil =>
    intro W c hq hc
    simp only [Chained] at hc
    refine ⟨{ W with
      promises := setAt W.promises c (.rejected e),
      queue := [],
      log := W.log ++ [Event.settled c] }, ?_, rfl, ?_, ?_, rfl⟩
    · rw [List.length_nil, Nat.zero_add, drain_succ, tick_thrower fuel W e c [] hq hc]
      rfl
    · intro k hk
      obtain rfl : k = 0 := by simpa using hk
      simp [setAt_apply]
    · intro q hq
      have : q ≠ c := by simp at hq; omega
      simp [setAt_apply, this]
  | cons t rest ih =>
    intro W c hq hc
    obtain ⟨hc1, hc2⟩ := hc
    obtain ⟨W', h1, h2, h3, h4, h5⟩ := ih
      { W with
        promises := setAt W.promises c (.rejected e),
        queue := [Job.reaction .thrower e (c + 1)],
        log := W.log ++ [Event.settled c] } (c + 1) rfl
      (Chained_congr W.promises _ rest (c + 1) (fun q hq1 _ => by
        have : q ≠ c := by omega
        simp [setAt_apply, this]) hc2)
    refine ⟨W', ?_, h2, ?_, ?_, h5⟩
    · rw [List.length_cons, drain_succ, tick_thrower fuel W e c _ hq hc1]
      exact h1
    · intro k hk
      rcases Nat.eq_zero_or_pos k with rfl | hpos
      · rw [Nat.add_zero, h4 c (Or.inl (by omega))]
        simp [setAt_apply]
      · have := h3 (k - 1) (by simp only [List.length_cons] at hk; omega)
        rwa [show c + 1 + (k - 1) = c + k by omega] at this
    · intro q hq
      simp only [List.length_cons] at hq
      rw [h4 q (by omega)]
      have : q ≠ c := by omega
      simp [setAt_apply, this]

/-- The chain promise `c` is rejected by the continuation of a rejected task:
the rejection runs down the chain. -/
theorem par_reject (fuel : Nat) (e : Value) (rest : List Nat) (W : World) (c tau : Nat)
    (hq : W.queue = [Job.reaction (.rejectFn c) e tau]) (hc : Chained W.promises c rest)
    (htau : W.promises tau = .pending []) (hne : tau < c ∨ c + rest.length < tau) :
    ∃ W', drain fuel (rest.length + 1) W = some W' ∧ W'.queue = [] ∧
      (∀ k, k ≤ rest.length → W'.promises (c + k) = .rejected e) ∧
      W'.promises tau = .fulfilled .undefined ∧
      (∀ q, (q < c ∨ c + rest.length < q) → q ≠ tau → W'.promises q = W.promises q) ∧
      W'.nextPromise = W.nextPromise := by
  have hne1 : tau ≠ c := by omega
  cases rest with
  | nil =>
    simp only [Chained] at hc
    refine ⟨{ W with
      promises := setAt (setAt W.promises c (.rejected e)) tau (.fulfilled .undefined),
      queue := [],
      log := W.log ++ [Event.settled c, Event.settled tau] }, ?_, rfl, ?_, ?_, ?_, rfl⟩
    · rw [List.length_nil, Nat.zero_add, drain_succ,
        tick_rejectFn fuel W e c tau [] hq hc htau hne1]
      rfl
    · intro k hk
      obtain rfl : k = 0 := by simpa using hk
      simp [setAt_apply, Ne.symm hne1]
    · simp [setAt_apply]
    · intro q hq1 hq2
      have : q ≠ c := by simp at hq1; omega
      simp [setAt_apply, this, hq2]
  | cons t rest =>
    obtain ⟨hc1, hc2⟩ := hc
    simp only [List.length_cons] at hne
    obtain ⟨W', h1, h2, h3, h4, h5⟩ := par_cascade fuel e rest
      { W with
        promises := setAt (setAt W.promises c (.rejected e)) tau (.fulfilled .undefined),
        queue := [Job.reaction .thrower e (c + 1)],
        log := W.log ++ [Event.settled c, Event.settled tau] } (c + 1) rfl
      (Chained_congr W.promises _ rest (c + 1) (fun q hq1 hq2 => by
        have e1 : q ≠ c := by omega
        have e2 : q ≠ tau := by omega
        simp [setAt_apply, e1, e2]) hc2)
    refine ⟨W', ?_, h2, ?_, ?_, ?_, h5⟩
    · rw [List.length_cons, drain_succ, tick_rejectFn fuel W e c tau _ hq hc1 htau hne1]
      exact h1
    · intro k hk
      rcases Nat.eq_zero_or_pos k with rfl | hpos
      · rw [Nat.add_zero, h4 c (Or.inl (by omega))]
        simp [setAt_apply, Ne.symm hne1]
      · have := h3 (k - 1) (by simp only [List.length_cons] at hk; omega)
        rwa [show c + 1 + (k - 1) = c + k by omega] at this
    · rw [h4 tau (by omega)]
      simp [setAt_apply]
    · intro q hq1 hq2
      simp only [List.length_cons] at hq1
      rw [h4 q (by omega)]
      have : q ≠ c := by omega
      simp [setAt_apply, this, hq2]

theorem Quiet_congr (N : Nat) (P P' : Nat → PState) (skip : Option Nat)
    (h : ∀ q, q < N → some q ≠ skip → P' q = P q) (hq : Quiet N P skip) : Quiet N P' skip := by
  intro q hq1 hq2 rs hrs
  rw [h q hq1 hq2] at hrs
  exact hq q hq1 hq2 rs hrs

theorem Quiet_weaken (N : Nat) (P : Nat → PState) (skip : Option Nat) (hq : Quiet N P none) :
    Quiet N P skip :=
  fun q hq1 _ rs hrs => hq q hq1 (by simp) rs hrs

/-- The chain of `parallel`, from the job that returns the head task on: it
runs until the chain is at rest. -/
theorem par_head (fuel N B : Nat) (rest : List Nat) :
    ∀ (W : World) (t : Nat) (v : Value) (c : Nat),
      W.queue = [Job.reaction (.parallelTask (.promise t)) v c] →
      Chained W.promises c rest → ParSide N B W c (t :: rest) → Quiet N W.promises none →
      ∃ m W', m ≤ 3 * rest.length + 3 ∧ drain fuel m W = some W' ∧ W'.queue = [] ∧
        Quiescent N B W'.nextPromise W'.promises c (t :: rest) ∧
        ParSide N B W' c (t :: rest) ∧ Stable N W W' := by
  induction rest with
  | nil =>
    intro W t v c hq hc hside hquiet
    obtain ⟨hts, hNc, hcB, hBL, hg1⟩ := hside
    simp only [List.length_cons, List.length_nil] at hcB
    have htN : t < N := hts t (List.mem_cons_self _ _)
    have htc : t ≠ c := by omega
    have h1 := tick_parallelTask fuel W t v c hq htc
    simp only [Chained] at hc
    cases hP : W.promises t with
    | pending rs =>
      obtain rfl : rs = [] := hquiet t htN (by simp) rs hP
      have h2 := tick_adopt_pending fuel { W with queue := [Job.resolveThenable c t] } c t [] rfl hP
      refine ⟨2, _, by omega, by rw [drain_succ, h1, Option.some_bind, drain_succ, h2]; rfl, rfl,
        ?_, ⟨hts, hNc, by simpa using hcB, by simp only; omega, ?_⟩, ⟨by simp only; omega, ?_, ?_⟩⟩
      · simp only [Quiescent, setAt_apply, if_true, List.nil_append]
        refine ⟨W.nextPromise, rfl, hBL, by omega, ?_, ?_, ?_⟩
        · have : W.nextPromise ≠ t := by omega
          rw [if_neg this, if_pos rfl]
        · simp only [Chained]
          have e1 : c ≠ t := Ne.symm htc
          have e2 : c ≠ W.nextPromise := by omega
          simp [setAt_apply, e1, e2, hc]
        · intro q hq1 hq2 rs hrs
          have e1 : q ≠ t := fun h => hq2 (by rw [h])
          have e2 : q ≠ W.nextPromise := by omega
          simp only [setAt_apply, e1, e2, if_false] at hrs
          exact hquiet q hq1 (by simp) rs hrs
      · intro q hq1 x hx
        have e2 : q ≠ W.nextPromise := by omega
        by_cases e1 : q = t
        · subst e1; simp [setAt_apply] at hx
        · simp only [setAt_apply, e1, e2, if_false] at hx
          exact hg1 q hq1 x hx
      · intro q hq1 hq2
        have e2 : q ≠ W.nextPromise := by omega
        have e1 : q ≠ t := by
          intro h; subst h; rw [hP] at hq2; exact absurd hq2 (by simp [PState.isSettled])
        simp [setAt_apply, e1, e2]
      · intro q hq1 hq2
        have e2 : q ≠ W.nextPromise := by omega
        by_cases e1 : q = t
        · subst e1; simp [setAt_apply, PState.isSettled]
        · simpa [setAt_apply, e1, e2] using hq2
    | fulfilled x =>
      have hx : isPromise x = false := hg1 t htN x hP
      have h2 := tick_adopt_fulfilled fuel { W with queue := [Job.resolveThenable c t] } c t x rfl hP
      have h3 := tick_resolveFn fuel
        { W with
          promises := setAt W.promises W.nextPromise (.pending []),
          nextPromise := W.nextPromise + 1,
          queue := [Job.reaction (.resolveFn c) x W.nextPromise] } x c W.nextPromise [] rfl hx
        (by have : c ≠ W.nextPromise := by omega
            simp [setAt_apply, this, hc])
        (by simp [setAt_apply]) (by omega)
      refine ⟨3, _, by omega,
        by rw [drain_succ, h1, Option.some_bind, drain_succ, h2, Option.some_bind, drain_succ, h3]; rfl,
        rfl, ?_, ⟨hts, hNc, by simpa using hcB, by simp only; omega, ?_⟩,
        ⟨by simp only; omega, ?_, ?_⟩⟩
      · have e1 : t ≠ W.nextPromise := by omega
        have ht3 : setAt (setAt (setAt W.promises W.nextPromise (.pending [])) c (.fulfilled x))
            W.nextPromise (.fulfilled .undefined) t = .fulfilled x := by
          simp [setAt_apply, e1, htc, hP]
        simp only [Quiescent, ht3]
        refine ⟨by have : c ≠ W.nextPromise := by omega
                   simp [setAt_apply, this], ?_⟩
        intro q hq1 hq2 rs hrs
        have e2 : q ≠ W.nextPromise := by omega
        have e3 : q ≠ c := by omega
        simp only [setAt_apply, e2, e3, if_false] at hrs
        exact hquiet q hq1 hq2 rs hrs
      · intro q hq1 y hy
        have e2 : q ≠ W.nextPromise := by omega
        have e3 : q ≠ c := by omega
        simp only [setAt_apply, e2, e3, if_false] at hy
        exact hg1 q hq1 y hy
      · intro q hq1 hq2
        have e2 : q ≠ W.nextPromise := by omega
        have e3 : q ≠ c := by
          intro h; subst h; rw [hc] at hq2; exact absurd hq2 (by simp [PState.isSettled])
        simp [setAt_apply, e2, e3]
      · intro q hq1 hq2
        have e2 : q ≠ W.nextPromise := by omega
        have e3 : q ≠ c := by omega
        simpa [setAt_apply, e2, e3] using hq2
    | rejected e =>
      have h2 := tick_adopt_rejected fuel { W with queue := [Job.resolveThenable c t] } c t e rfl hP
      obtain ⟨W', k1, k2, k3, k4, k5, k6⟩ := par_reject fuel e []
        { W with
          promises := setAt W.promises W.nextPromise (.pending []),
          nextPromise := W.nextPromise + 1,
          queue := [Job.reaction (.rejectFn c) e W.nextPromise] } c W.nextPromise rfl
        (by simp only [Chained]
            have : c ≠ W.nextPromise := by omega
            simp [setAt_apply, this, hc])
        (by simp [setAt_apply]) (by simp only [List.length_nil]; omega)
      simp only [List.length_nil, Nat.add_zero, Nat.zero_add] at k1 k3 k5
      simp only at k5 k6
      have hfr : ∀ q, q ≠ c → q ≠ W.nextPromise → W'.promises q = W.promises q := by
        intro q e1 e2
        rw [k5 q (by omega) e2]
        simp [setAt_apply, e2]
      refine ⟨3, W', by omega,
        by rw [drain_succ, h1, Option.some_bind, drain_succ, h2, Option.some_bind]; exact k1,
        k2, ?_, ⟨hts, hNc, by simpa using hcB, by rw [k6]; omega, ?_⟩,
        ⟨by rw [k6]; omega, ?_, ?_⟩⟩
      · have ht3 : W'.promises t = .rejected e := by rw [hfr t htc (by omega), hP]
        simp only [Quiescent, ht3]
        refine ⟨fun k hk => k3 k (by simpa using hk), ?_⟩
        intro q hq1 hq2 rs hrs
        rw [hfr q (by omega) (by omega)] at hrs
        exact hquiet q hq1 hq2 rs hrs
      · intro q hq1 y hy
        rw [hfr q (by omega) (by omega)] at hy
        exact hg1 q hq1 y hy
      · intro q hq1 hq2
        have e3 : q ≠ c := by
          intro h; subst h; rw [hc] at hq2; exact absurd hq2 (by simp [PState.isSettled])
        exact hfr q e3 (by omega)
      · intro q hq1 hq2
        rw [hfr q (by omega) (by omega)]
        exact hq2
  | cons t1 rest ih =>
    intro W t v c hq hc hside hquiet
    obtain ⟨hts, hNc, hcB, hBL, hg1⟩ := hside
    simp only [List.length_cons] at hcB
    have htN : t < N := hts t (List.mem_cons_self _ _)
    have htc : t ≠ c := by omega
    have h1 := tick_parallelTask fuel W t v c hq htc
    obtain ⟨hc1, hc2⟩ := hc
    cases hP : W.promises t with
    | pending rs =>
      obtain rfl : rs = [] := hquiet t htN (by simp) rs hP
      have h2 := tick_adopt_pending fuel { W with queue := [Job.resolveThenable c t] } c t [] rfl hP
      refine ⟨2, _, by omega, by rw [drain_succ, h1, Option.some_bind, drain_succ, h2]; rfl, rfl,
        ?_, ⟨hts, hNc, by simpa using hcB, by simp only; omega, ?_⟩, ⟨by simp only; omega, ?_, ?_⟩⟩
      · simp only [Quiescent, setAt_apply, if_true, List.nil_append]
        refine ⟨W.nextPromise, rfl, hBL, by omega, ?_, ?_, ?_⟩
        · have : W.nextPromise ≠ t := by omega
          rw [if_neg this, if_pos rfl]
        · refine Chained_congr W.promises _ (t1 :: rest) c ?_ ⟨hc1, hc2⟩
          intro q hq1 hq2
          simp only [List.length_cons] at hq2
          have e1 : q ≠ t := by omega
          have e2 : q ≠ W.nextPromise := by omega
          simp [setAt_apply, e1, e2]
        · intro q hq1 hq2 rs hrs
          have e1 : q ≠ t := fun h => hq2 (by rw [h])
          have e2 : q ≠ W.nextPromise := by omega
          simp only [setAt_apply, e1, e2, if_false] at hrs
          exact hquiet q hq1 (by simp) rs hrs
      · intro q hq1 x hx
        have e2 : q ≠ W.nextPromise := by omega
        by_cases e1 : q = t
        · subst e1; simp [setAt_apply] at hx
        · simp only [setAt_apply, e1, e2, if_false] at hx
          exact hg1 q hq1 x hx
      · intro q hq1 hq2
        have e2 : q ≠ W.nextPromise := by omega
        have e1 : q ≠ t := by
          intro h; subst h; rw [hP] at hq2; exact absurd hq2 (by simp [PState.isSettled])
        simp [setAt_apply, e1, e2]
      · intro q hq1 hq2
        have e2 : q ≠ W.nextPromise := by omega
        by_cases e1 : q = t
        · subst e1; simp [setAt_apply, PState.isSettled]
        · simpa [setAt_apply, e1, e2] using hq2
    | fulfilled x =>
      have hx : isPromise x = false := hg1 t htN x hP
      have h2 := tick_adopt_fulfilled fuel { W with queue := [Job.resolveThenable c t] } c t x rfl hP
      have h3 := tick_resolveFn fuel
        { W with
          promises := setAt W.promises W.nextPromise (.pending []),
          nextPromise := W.nextPromise + 1,
          queue := [Job.reaction (.resolveFn c) x W.nextPromise] } x c W.nextPromise
        [⟨.parallelTask (.promise t1), .thrower, c + 1⟩] rfl hx
        (by have : c ≠ W.nextPromise := by omega
            simp [setAt_apply, this, hc1])
        (by simp [setAt_apply]) (by omega)
      simp only [List.map] at h3
      have hfr3 : ∀ q, q ≠ c → q ≠ W.nextPromise →
          setAt (setAt (setAt W.promises W.nextPromise (.pending [])) c (.fulfilled x))
            W.nextPromise (.fulfilled .undefined) q = W.promises q := by
        intro q e1 e2
        simp [setAt_apply, e1, e2]
      obtain ⟨m, W', k1, k2, k3, k4, k5, k6⟩ := ih
        { W with
          promises := setAt (setAt (setAt W.promises W.nextPromise (.pending [])) c (.fulfilled x))
            W.nextPromise (.fulfilled .undefined),
          nextPromise := W.nextPromise + 1,
          queue := [Job.reaction (.parallelTask (.promise t1)) x (c + 1)],
          log := W.log ++ [Event.settled c, Event.settled W.nextPromise] } t1 x (c + 1) rfl
        (Chained_congr W.promises _ rest (c + 1) (fun q hq1 hq2 =>
          hfr3 q (by omega) (by omega)) hc2)
        ⟨fun s hs => hts s (List.mem_cons_of_mem _ hs), by omega,
          by simp only [List.length_cons]; omega, by simp only; omega,
          fun q hq1 y hy => hg1 q hq1 y (by rw [← hfr3 q (by omega) (by omega)]; exact hy)⟩
        (fun q hq1 hq2 rs hrs => hquiet q hq1 hq2 rs (by
          rw [← hfr3 q (by omega) (by omega)]; exact hrs))
      obtain ⟨s1, s2, s3⟩ := k6
      simp only at s1 s2 s3
      have hc3 : W'.promises c = .fulfilled x := by
        rw [s2 c (by omega) (by simp [setAt_apply, show c ≠ W.nextPromise by omega,
          PState.isSettled])]
        simp [setAt_apply, show c ≠ W.nextPromise by omega]
      have ht3 : W'.promises t = .fulfilled x := by
        rw [s2 t (by omega) (by rw [hfr3 t htc (by omega), hP]; rfl), hfr3 t htc (by omega), hP]
      refine ⟨3 + m, W', by simp only [List.length_cons] at k1 ⊢; omega, ?_, k3, ?_,
        ⟨hts, hNc, by simpa using hcB, le_trans hBL (by omega), k5.2.2.2.2⟩,
        ⟨by omega, ?_, ?_⟩⟩
      · refine drain_trans fuel 3 m W _ W' ?_ k2
        rw [drain_succ, h1, Option.some_bind, drain_succ, h2, Option.some_bind, drain_succ, h3]
        rfl
      · simp only [Quiescent, ht3]
        exact ⟨hc3, k4⟩
      · intro q hq1 hq2
        have e2 : q ≠ W.nextPromise := by omega
        have e3 : q ≠ c := by
          intro h; subst h; rw [hc1] at hq2; exact absurd hq2 (by simp [PState.isSettled])
        rw [s2 q (by omega) (by rw [hfr3 q e3 e2]; exact hq2), hfr3 q e3 e2]
      · intro q hq1 hq2
        exact s3 q hq1 (by rw [hfr3 q (by omega) (by omega)]; exact hq2)
    | rejected e =>
      have h2 := tick_adopt_rejected fuel { W with queue := [Job.resolveThenable c t] } c t e rfl hP
      obtain ⟨W', k1, k2, k3, k4, k5, k6⟩ := par_reject fuel e (t1 :: rest)
        { W with
          promises := setAt W.promises W.nextPromise (.pending []),
          nextPromise := W.nextPromise + 1,
          queue := [Job.reaction (.rejectFn c) e W.nextPromise] } c W.nextPromise rfl
        (Chained_congr W.promises _ (t1 :: rest) c (fun q hq1 hq2 => by
          simp only [List.length_cons] at hq2
          have : q ≠ W.nextPromise := by omega
          simp [setAt_apply, this]) ⟨hc1, hc2⟩)
        (by simp [setAt_apply]) (by simp only [List.length_cons]; omega)
      simp only [List.length_cons] at k1 k3 k5
      simp only at k5 k6
      have hfr : ∀ q, q < c → W'.promises q = W.promises q := by
        intro q e1
        have e2 : q ≠ W.nextPromise := by omega
        rw [k5 q (Or.inl e1) e2]
        simp [setAt_apply, e2]
      refine ⟨2 + (rest.length + 1 + 1), W', by simp only [List.length_cons]; omega, ?_,
        k2, ?_, ⟨hts, hNc, by simpa using hcB, by rw [k6]; omega, ?_⟩,
        ⟨by rw [k6]; omega, ?_, ?_⟩⟩
      · refine drain_trans fuel 2 _ W _ W' ?_ k1
        rw [drain_succ, h1, Option.some_bind, drain_succ, h2]
        rfl
      · have ht3 : W'.promises t = .rejected e := by rw [hfr t (by omega), hP]
        simp only [Quiescent, ht3]
        refine ⟨fun k hk => k3 k (by simpa using hk), ?_⟩
        intro q hq1 hq2 rs hrs
        rw [hfr q (by omega)] at hrs
        exact hquiet q hq1 hq2 rs hrs
      · intro q hq1 y hy
        rw [hfr q (by omega)] at hy
        exact hg1 q hq1 y hy
      · intro q hq1 hq2
        by_cases e1 : q < c
        · exact hfr q e1
        · have e2 : q ≠ W.nextPromise := by omega
          by_cases e3 : c + (rest.length + 1) < q
          · rw [k5 q (Or.inr e3) e2]
            simp [setAt_apply, e2]
          · exfalso
            have hch : ∀ (l : List Nat) (c0 : Nat), Chained W.promises c0 l →
                ∀ q, c0 ≤ q → q ≤ c0 + l.length → (W.promises q).isSettled = false := by
              intro l
              induction l with
              | nil =>
                intro c0 h q h1 h2
                obtain rfl : q = c0 := by simp at h2; omega
                simp only [Chained] at h
                rw [h]; rfl
              | cons a l ihl =>
                intro c0 h q h1 h2
                by_cases e : q = c0
                · subst e; rw [h.1]; rfl
                · exact ihl (c0 + 1) h.2 q (by omega) (by simp only [List.length_cons] at h2; omega)
            have := hch (t1 :: rest) c ⟨hc1, hc2⟩ q (by omega)
              (by simp only [List.length_cons]; omega)
            rw [this] at hq2
            exact absurd hq2 (by simp)
      · intro q hq1 hq2
        rw [hfr q (by omega)]
        exact hq2

theorem Settle.ok_target (N : Nat) (ev : Settle) (h : ev.ok N) : ev.target < N := by
  cases ev with
  | fulfil q x => exact h.1
  | reject q e => exact h

theorem Settle.state_isSettled (ev : Settle) : ev.state.isSettled = true := by
  cases ev <;> rfl

theorem settle_nextPromise (W : World) (ev : Settle) :
    (settle W ev).nextPromise = W.nextPromise := by
  cases ev <;> simp only [settle, fulfillPromise, rejectPromise] <;> split <;> rfl

theorem settle_settled (W : World) (ev : Settle)
    (h : (W.promises ev.target).isSettled = true) : settle W ev = W := by
  cases ev <;> simp only [Settle.target] at h <;>
    simp only [settle, fulfillPromise, rejectPromise] <;> split <;>
    simp_all [PState.isSettled]

theorem settle_inert (W : World) (ev : Settle) (h : W.promises ev.target = .pending []) :
    settle W ev = { W with
      promises := setAt W.promises ev.target ev.state,
      log := W.log ++ [Event.settled ev.target] } := by
  cases ev <;> simp only [Settle.target] at h <;>
    simp only [settle, fulfillPromise, rejectPromise, h, Settle.target, Settle.state,
      List.map_nil, List.append_nil]

theorem settle_other (W : World) (ev : Settle) (q : Nat) (h : q ≠ ev.target) :
    (settle W ev).promises q = W.promises q := by
  cases ev <;> simp only [Settle.target] at h <;>
    simp only [settle, fulfillPromise, rejectPromise] <;> split <;>
    simp [setAt_apply, h]

theorem settle_keep (W : World) (ev : Settle) (q : Nat)
    (h : (W.promises q).isSettled = true) : (settle W ev).promises q = W.promises q := by
  by_cases e : q = ev.target
  · subst e; rw [settle_settled W ev h]
  · exact settle_other W ev q e

theorem settle_target (W : World) (ev : Settle) (rs : List Reaction)
    (h : W.promises ev.target = .pending rs) :
    (settle W ev).promises ev.target = ev.state := by
  cases ev <;> simp only [Settle.target] at h <;>
    simp [settle, fulfillPromise, rejectPromise, h, Settle.target, Settle.state, setAt_apply]

theorem Chained_pending (P : Nat → PState) (l : List Nat) :
    ∀ c, Chained P c l → ∀ q, c ≤ q → q ≤ c + l.length → (P q).isSettled = false := by
  induction l with
  | nil =>
    intro c h q h1 h2
    obtain rfl : q = c := by simp at h2; omega
    simp only [Chained] at h
    rw [h]; rfl
  | cons a l ih =>
    intro c h q h1 h2
    by_cases e : q = c
    · subst e; rw [h.1]; rfl
    · exact ih (c + 1) h.2 q (by omega) (by simp only [List.length_cons] at h2; omega)

/-- Settling an old promise that holds no continuation leaves the chain at
rest. -/
theorem Quiescent_inert (N B L : Nat) (P : Nat → PState) (q : Nat) (st : PState)
    (hq : q < N) (hP : P q = .pending []) (hst : st.isSettled = true) (tasks : List Nat) :
    ∀ c, N < c → c + tasks.length ≤ B → Quiescent N B L P c tasks →
      Quiescent N B L (setAt P q st) c tasks := by
  have hquiet : ∀ skip, Quiet N P skip → Quiet N (setAt P q st) skip := by
    intro skip h q1 h1 h2 rs hrs
    by_cases e : q1 = q
    · subst e
      simp only [setAt_apply, if_true] at hrs
      rw [hrs] at hst
      exact absurd hst (by simp [PState.isSettled])
    · simp only [setAt_apply, e, if_false] at hrs
      exact h q1 h1 h2 rs hrs
  induction tasks with
  | nil =>
    intro c _ _ hQ
    simp only [Quiescent] at hQ ⊢
    exact hquiet _ hQ
  | cons t rest ih =>
    intro c hNc hcB hQ
    simp only [List.length_cons] at hcB
    have hqt : t ≠ q := by
      intro h
      subst h
      simp only [Quiescent, hP] at hQ
      obtain ⟨tau, h1, _⟩ := hQ
      simp at h1
    have hfr : ∀ s, s ≠ q → setAt P q st s = P s := by
      intro s hs
      simp [setAt_apply, hs]
    cases hPt : P t with
    | fulfilled x =>
      have ht : setAt P q st t = .fulfilled x := by rw [hfr t hqt, hPt]
      simp only [Quiescent, hPt] at hQ
      simp only [Quiescent, ht]
      exact ⟨by rw [hfr c (by omega)]; exact hQ.1, ih (c + 1) (by omega) (by omega) hQ.2⟩
    | rejected e =>
      have ht : setAt P q st t = .rejected e := by rw [hfr t hqt, hPt]
      simp only [Quiescent, hPt] at hQ
      simp only [Quiescent, ht]
      exact ⟨fun k hk => by rw [hfr (c + k) (by omega)]; exact hQ.1 k hk, hquiet _ hQ.2⟩
    | pending rs =>
      have ht : setAt P q st t = .pending rs := by rw [hfr t hqt, hPt]
      simp only [Quiescent, hPt] at hQ
      simp only [Quiescent, ht]
      obtain ⟨tau, h1, h2, h3, h4, h5, h6⟩ := hQ
      refine ⟨tau, h1, h2, h3, by rw [hfr tau (by omega)]; exact h4, ?_, hquiet _ h6⟩
      exact Chained_congr P _ rest c (fun s hs1 _ => hfr s (by omega)) h5

/-- The chain promise `c` is fulfilled by the continuation of a fulfilled task:
the chain moves on to the next task and runs until it is at rest. -/
theorem par_advance (fuel N B : Nat) (rest : List Nat) (W : World) (x : Value) (c tau : Nat)
    (hq : W.queue = [Job.reaction (.resolveFn c) x tau]) (hx : isPromise x = false)
    (hc : Chained W.promises c rest) (htau : W.promises tau = .pending [])
    (hBt : B ≤ tau) (htL : tau < W.nextPromise)
    (hts : ∀ t ∈ rest, t < N) (hNc : N < c) (hcB : c + (rest.length + 1) ≤ B)
    (hBL : B ≤ W.nextPromise)
    (hg1 : ∀ q, q < N → ∀ y, W.promises q = .fulfilled y → isPromise y = false)
    (hquiet : Quiet N W.promises none) :
    ∃ m W', m ≤ 3 * rest.length + 1 ∧ drain fuel m W = some W' ∧ W'.queue = [] ∧
      W'.promises c = .fulfilled x ∧
      Quiescent N B W'.nextPromise W'.promises (c + 1) rest ∧
      ParSide N B W' (c + 1) rest ∧ Stable N W W' := by
  have hfr3 : ∀ q, q ≠ c → q ≠ tau →
      setAt (setAt W.promises c (.fulfilled x)) tau (.fulfilled .undefined) q = W.promises q := by
    intro q e1 e2
    simp [setAt_apply, e1, e2]
  have hc3 : setAt (setAt W.promises c (.fulfilled x)) tau (.fulfilled .undefined) c
      = .fulfilled x := by
    simp [setAt_apply, show c ≠ tau by omega]
  have hcp : (W.promises c).isSettled = false :=
    Chained_pending W.promises rest c hc c (le_refl _) (by omega)
  have hst : Stable N W { W with
      promises := setAt (setAt W.promises c (.fulfilled x)) tau (.fulfilled .undefined),
      queue := ([] : List Job),
      log := W.log ++ [Event.settled c, Event.settled tau] } := by
    refine ⟨le_refl _, ?_, ?_⟩
    · intro q _ hq2
      exact hfr3 q (by intro h; subst h; rw [hcp] at hq2; exact absurd hq2 (by simp))
        (by intro h; subst h; rw [htau] at hq2; exact absurd hq2 (by simp [PState.isSettled]))
    · intro q hq1 hq2
      show (setAt (setAt W.promises c (.fulfilled x)) tau (.fulfilled .undefined) q).isSettled
        = false
      rw [hfr3 q (by omega) (by omega)]
      exact hq2
  cases rest with
  | nil =>
    simp only [Chained] at hc
    have h3 := tick_resolveFn fuel W x c tau [] hq hx hc htau (by omega)
    refine ⟨1, { W with
        promises := setAt (setAt W.promises c (.fulfilled x)) tau (.fulfilled .undefined),
        queue := ([] : List Job),
        log := W.log ++ [Event.settled c, Event.settled tau] },
      by omega, by rw [drain_succ, h3]; rfl, rfl, hc3, ?_,
      ⟨hts, by omega, by simpa using hcB, hBL, ?_⟩, hst⟩
    · simp only [Quiescent]
      intro q hq1 hq2 rs hrs
      exact hquiet q hq1 hq2 rs (by rw [← hfr3 q (by omega) (by omega)]; exact hrs)
    · intro q hq1 y hy
      exact hg1 q hq1 y (by rw [← hfr3 q (by omega) (by omega)]; exact hy)
  | cons t1 rest1 =>
    obtain ⟨hc1, hc2⟩ := hc
    simp only [List.length_cons] at hcB
    have h3 := tick_resolveFn fuel W x c tau
      [⟨.parallelTask (.promise t1), .thrower, c + 1⟩] hq hx hc1 htau (by omega)
    simp only [List.map] at h3
    obtain ⟨m, W', k1, k2, k3, k4, k5, k6⟩ := par_head fuel N B rest1
      { W with
        promises := setAt (setAt W.promises c (.fulfilled x)) tau (.fulfilled .undefined),
        queue := [Job.reaction (.parallelTask (.promise t1)) x (c + 1)],
        log := W.log ++ [Event.settled c, Event.settled tau] } t1 x (c + 1) rfl
      (Chained_congr W.promises _ rest1 (c + 1) (fun q hq1 hq2 =>
        hfr3 q (by omega) (by omega)) hc2)
      ⟨hts, by omega, by simp only [List.length_cons]; omega, hBL,
        fun q hq1 y hy => hg1 q hq1 y (by rw [← hfr3 q (by omega) (by omega)]; exact hy)⟩
      (fun q hq1 hq2 rs hrs => hquiet q hq1 hq2 rs (by
        rw [← hfr3 q (by omega) (by omega)]; exact hrs))
    refine ⟨1 + m, W', by simp only [List.length_cons]; omega, ?_, k3, ?_, k4, k5, ?_⟩
    · refine drain_trans fuel 1 m W _ W' ?_ k2
      rw [drain_succ, h3]
      rfl
    · rw [k6.2.1 c (by simp only; omega) (by simp only; rw [hc3]; rfl)]
      exact hc3
    · exact Stable_trans N W _ W' hst
        ⟨k6.1, k6.2.1, k6.2.2⟩

/-- The chain promise `c` is rejected by the continuation of a rejected task
`t`: the whole chain from `c` on is rejected and at rest. -/
theorem par_reject_rest (fuel N B : Nat) (e : Value) (rest : List Nat) (W : World)
    (c tau t : Nat)
    (hq : W.queue = [Job.reaction (.rejectFn c) e tau]) (hc : Chained W.promises c rest)
    (htau : W.promises tau = .pending []) (hBt : B ≤ tau) (htL : tau < W.nextPromise)
    (hP : W.promises t = .rejected e)
    (hts : ∀ s ∈ t :: rest, s < N) (hNc : N < c) (hcB : c + (rest.length + 1) ≤ B)
    (hBL : B ≤ W.nextPromise)
    (hg1 : ∀ q, q < N → ∀ y, W.promises q = .fulfilled y → isPromise y = false)
    (hquiet : Quiet N W.promises none) :
    ∃ W', drain fuel (rest.length + 1) W = some W' ∧ W'.queue = [] ∧
      Quiescent N B W'.nextPromise W'.promises c (t :: rest) ∧
      ParSide N B W' c (t :: rest) ∧ Stable N W W' := by
  obtain ⟨W', k1, k2, k3, k4, k5, k6⟩ := par_reject fuel e rest W c tau hq hc htau
    (Or.inr (by omega))
  have htN : t < N := hts t (List.mem_cons_self _ _)
  have hfr : ∀ q, q < c → W'.promises q = W.promises q :=
    fun q e1 => k5 q (Or.inl e1) (by omega)
  refine ⟨W', k1, k2, ?_, ⟨hts, hNc, by simpa using hcB, by rw [k6]; exact hBL, ?_⟩,
    ⟨by rw [k6], ?_, ?_⟩⟩
  · have ht3 : W'.promises t = .rejected e := by rw [hfr t (by omega), hP]
    simp only [Quiescent, ht3]
    refine ⟨k3, ?_⟩
    intro q hq1 hq2 rs hrs
    rw [hfr q (by omega)] at hrs
    exact hquiet q hq1 hq2 rs hrs
  · intro q hq1 y hy
    rw [hfr q (by omega)] at hy
    exact hg1 q hq1 y hy
  · intro q hq1 hq2
    by_cases e1 : q < c
    · exact hfr q e1
    · have e2 : q ≠ tau := by
        intro h; subst h; rw [htau] at hq2; exact absurd hq2 (by simp [PState.isSettled])
      by_cases e3 : c + rest.length < q
      · exact k5 q (Or.inr e3) e2
      · have := Chained_pending W.promises rest c hc q (by omega) (by omega)
        rw [this] at hq2
        exact absurd hq2 (by simp)
  · intro q hq1 hq2
    rw [hfr q (by omega)]
    exact hq2

/-- Settling the task the chain waits for moves the chain on until it is at
rest again. -/
theorem par_trigger (fuel N B : Nat) (ev : Settle) (hev : ev.ok N) (tasks : List Nat) :
    ∀ (W : World) (c : Nat) (r : Reaction) (rs : List Reaction), W.queue = [] →
      Quiescent N B W.nextPromise W.promises c tasks → ParSide N B W c tasks →
      W.promises ev.target = .pending (r :: rs) →
      ∃ m W', m ≤ 3 * tasks.length + 3 ∧ drain fuel m (settle W ev) = some W' ∧
        W'.queue = [] ∧ Quiescent N B W'.nextPromise W'.promises c tasks ∧
        ParSide N B W' c tasks ∧ Stable N (settle W ev) W' := by
  have htarget : ev.target < N := Settle.ok_target N ev hev
  induction tasks with
  | nil =>
    intro W c r rs _ hQ _ hP
    simp only [Quiescent] at hQ
    exact absurd (hQ ev.target htarget (by simp) _ hP) (by simp)
  | cons t rest ih =>
    intro W c r rs hq hQ hside hP
    obtain ⟨hts, hNc, hcB, hBL, hg1⟩ := hside
    simp only [List.length_cons] at hcB
    have htN : t < N := hts t (List.mem_cons_self _ _)
    cases hPt : W.promises t with
    | fulfilled x =>
      simp only [Quiescent, hPt] at hQ
      obtain ⟨m, W', k1, k2, k3, k4, k5, k6⟩ := ih W (c + 1) r rs hq hQ.2
        ⟨fun s hs => hts s (List.mem_cons_of_mem _ hs), by omega, by omega, hBL, hg1⟩ hP
      have hnp := settle_nextPromise W ev
      have ht3 : W'.promises t = .fulfilled x := by
        rw [k6.2.1 t (by omega) (by rw [settle_keep W ev t (by rw [hPt]; rfl), hPt]; rfl),
          settle_keep W ev t (by rw [hPt]; rfl), hPt]
      have hc3 : W'.promises c = .fulfilled x := by
        rw [k6.2.1 c (by omega) (by rw [settle_keep W ev c (by rw [hQ.1]; rfl), hQ.1]; rfl),
          settle_keep W ev c (by rw [hQ.1]; rfl), hQ.1]
      refine ⟨m, W', by simp only [List.length_cons]; omega, k2, k3, ?_,
        ⟨hts, hNc, by simpa using hcB, k5.2.2.2.1, k5.2.2.2.2⟩, k6⟩
      simp only [Quiescent, ht3]
      exact ⟨hc3, k4⟩
    | rejected e =>
      simp only [Quiescent, hPt] at hQ
      exact absurd (hQ.2 ev.target htarget (by simp) _ hP) (by simp)
    | pending rs1 =>
      simp only [Quiescent, hPt] at hQ
      obtain ⟨tau, h1, h2, h3, h4, h5, h6⟩ := hQ
      by_cases het : ev.target = t
      · rw [het, hPt, h1] at hP
        have hfr : ∀ (st : PState) (q : Nat), q ≠ t → setAt W.promises t st q = W.promises q := by
          intro st q hq1
          simp [setAt_apply, hq1]
        have hch : ∀ st, Chained (setAt W.promises t st) c rest := fun st =>
          Chained_congr W.promises _ rest c (fun q hq1 _ => hfr st q (by omega)) h5
        have hquiet : ∀ st, st.isSettled = true → Quiet N (setAt W.promises t st) none := by
          intro st hst q hq1 _ rs2 hrs
          by_cases e1 : q = t
          · subst e1
            simp only [setAt_apply, if_true] at hrs
            rw [hrs] at hst
            exact absurd hst (by simp [PState.isSettled])
          · rw [hfr st q e1] at hrs
            exact h6 q hq1 (by simpa using e1) rs2 hrs
        cases ev with
        | fulfil q x =>
          simp only [Settle.target] at het
          subst het
          have hs : settle W (.fulfil q x) = { W with
              promises := setAt W.promises q (.fulfilled x),
              queue := [Job.reaction (.resolveFn c) x tau],
              log := W.log ++ [Event.settled q] } := by
            simp only [settle, fulfillPromise, hPt, h1, hq, List.nil_append, List.map]
          rw [hs]
          obtain ⟨m, W', k1, k2, k3, k4, k5, k6, k7⟩ := par_advance fuel N B rest
            { W with
              promises := setAt W.promises q (.fulfilled x),
              queue := [Job.reaction (.resolveFn c) x tau],
              log := W.log ++ [Event.settled q] } x c tau rfl hev.2 (hch _)
            (by show setAt W.promises q (.fulfilled x) tau = _
                rw [hfr _ tau (by omega)]; exact h4)
            h2 h3 (fun s hs => hts s (List.mem_cons_of_mem _ hs)) hNc hcB hBL
            (by intro q1 hq1 y hy
                by_cases e1 : q1 = q
                · subst e1
                  have : setAt W.promises q1 (.fulfilled x) q1 = .fulfilled y := hy
                  simp only [setAt_apply, if_true] at this
                  cases this
                  exact hev.2
                · exact hg1 q1 hq1 y (by rw [← hfr (.fulfilled x) q1 e1]; exact hy))
            (hquiet _ rfl)
          have ht3 : W'.promises q = .fulfilled x := by
            rw [k7.2.1 q (by simp only; omega) (by simp [setAt_apply, PState.isSettled])]
            simp [setAt_apply]
          refine ⟨m, W', by simp only [List.length_cons]; omega, k2, k3, ?_,
            ⟨hts, hNc, by simpa using hcB, k6.2.2.2.1, k6.2.2.2.2⟩, k7⟩
          simp only [Quiescent, ht3]
          exact ⟨k4, k5⟩
        | reject q e =>
          simp only [Settle.target] at het
          subst het
          have hs : settle W (.reject q e) = { W with
              promises := setAt W.promises q (.rejected e),
              queue := [Job.reaction (.rejectFn c) e tau],
              log := W.log ++ [Event.settled q] } := by
            simp only [settle, rejectPromise, hPt, h1, hq, List.nil_append, List.map]
          rw [hs]
          obtain ⟨W', k1, k2, k3, k4, k5⟩ := par_reject_rest fuel N B e rest
            { W with
              promises := setAt W.promises q (.rejected e),
              queue := [Job.reaction (.rejectFn c) e tau],
              log := W.log ++ [Event.settled q] } c tau q rfl (hch _)
            (by show setAt W.promises q (.rejected e) tau = _
                rw [hfr _ tau (by omega)]; exact h4)
            h2 h3 (by simp [setAt_apply]) hts hNc hcB hBL
            (by intro q1 hq1 y hy
                by_cases e1 : q1 = q
                · subst e1
                  have : setAt W.promises q1 (.rejected e) q1 = .fulfilled y := hy
                  simp [setAt_apply] at this
                · exact hg1 q1 hq1 y (by rw [← hfr (.rejected e) q1 e1]; exact hy))
            (hquiet _ rfl)
          exact ⟨rest.length + 1, W', by simp only [List.length_cons]; omega, k1, k2, k3, k4, k5⟩
      · exact absurd (h6 ev.target htarget (by simpa using het) _ hP) (by simp)

/-- The chain at rest stays at rest under any admissible external settlement,
once the jobs it causes have run. -/
theorem par_event (fuel N B : Nat) (ev : Settle) (hev : ev.ok N) (tasks : List Nat)
    (W : World) (c : Nat) (hq : W.queue = [])
    (hQ : Quiescent N B W.nextPromise W.promises c tasks) (hside : ParSide N B W c tasks) :
    ∃ W', drain fuel (3 * tasks.length + 3) (settle W ev) = some W' ∧
      W'.queue = [] ∧ Quiescent N B W'.nextPromise W'.promises c tasks ∧
      ParSide N B W' c tasks ∧ Stable N (settle W ev) W' := by
  have htarget : ev.target < N := Settle.ok_target N ev hev
  cases hP : W.promises ev.target with
  | pending rs =>
    cases rs with
    | nil =>
      have hs := settle_inert W ev hP
      obtain ⟨hts, hNc, hcB, hBL, hg1⟩ := hside
      refine ⟨settle W ev, drain_idle fuel _ _ (by rw [hs]; exact hq), by rw [hs]; exact hq,
        ?_, ⟨hts, hNc, hcB, by rw [settle_nextPromise]; exact hBL, ?_⟩, Stable_refl N _⟩
      · rw [settle_nextPromise, hs]
        exact Quiescent_inert N B W.nextPromise W.promises ev.target ev.state htarget hP
          (Settle.state_isSettled ev) tasks c hNc hcB hQ
      · intro q hq1 y hy
        by_cases e1 : q = ev.target
        · rw [e1, settle_target W ev [] hP] at hy
          cases ev with
          | fulfil q x =>
            simp only [Settle.state] at hy
            cases hy
            exact hev.2
          | reject q e => simp [Settle.state] at hy
        · rw [settle_other W ev q e1] at hy
          exact hg1 q hq1 y hy
    | cons r rs =>
      obtain ⟨m, W', k1, k2, k3, k4, k5, k6⟩ :=
        par_trigger fuel N B ev hev tasks W c r rs hq hQ hside hP
      exact ⟨W', drain_extend fuel m _ _ W' k2 k3 k1, k3, k4, k5, k6⟩
  | fulfilled x =>
    rw [settle_settled W ev (by rw [hP]; rfl)]
    exact ⟨W, drain_idle fuel _ W hq, hq, hQ, hside, Stable_refl N W⟩
  | rejected e =>
    rw [settle_settled W ev (by rw [hP]; rfl)]
    exact ⟨W, drain_idle fuel _ W hq, hq, hQ, hside, Stable_refl N W⟩

theorem SameState_refl (st : PState) : SameState st st := ⟨rfl, fun _ => rfl⟩

theorem SameState_trans (a b c : PState) (h1 : SameState a b) (h2 : SameState b c) :
    SameState a c :=
  ⟨h1.1.trans h2.1, fun h => (h1.2 h).trans (h2.2 (by rw [← h1.1]; exact h))⟩

theorem SameState_of_pending (a b : PState) (ha : a.isSettled = false)
    (hb : b.isSettled = false) : SameState a b :=
  ⟨by rw [ha, hb], fun h => absurd h (by rw [ha]; simp)⟩

theorem settledAs_settled (q : Nat) (st : PState) (evs : List Settle)
    (h : st.isSettled = true) : settledAs q st evs = st := by
  cases evs with
  | nil => rfl
  | cons ev evs => simp [settledAs, h]

theorem settledAs_congr (q : Nat) (evs : List Settle) :
    ∀ st st', SameState st st' → SameState (settledAs q st evs) (settledAs q st' evs) := by
  induction evs with
  | nil => intro st st' h; exact h
  | cons ev evs ih =>
    intro st st' h
    cases hs : st.isSettled with
    | true =>
      rw [← h.2 hs]
      exact SameState_refl _
    | false =>
      have hs' : st'.isSettled = false := by rw [← h.1]; exact hs
      by_cases e : ev.target = q
      · simp only [settledAs, hs, hs', e, if_true, Bool.false_eq_true, if_false]
        exact SameState_refl _
      · simp only [settledAs, hs, hs', e, Bool.false_eq_true, if_false]
        exact ih st st' h

/-- The chain at rest stays at rest under any sequence of admissible external
settlements, and the old promises end in the states the settlements gave
them. -/
theorem par_events (fuel N B : Nat) (tasks : List Nat) (c : Nat) :
    ∀ (evs : List Settle) (W : World), (∀ ev ∈ evs, ev.ok N) → W.queue = [] →
      Quiescent N B W.nextPromise W.promises c tasks → ParSide N B W c tasks →
      ∃ W', runEvents fuel (3 * tasks.length + 3) W evs = some W' ∧ W'.queue = [] ∧
        Quiescent N B W'.nextPromise W'.promises c tasks ∧ ParSide N B W' c tasks ∧
        Agrees N W'.promises (fun q => settledAs q (W.promises q) evs) ∧
        (∀ q, q < W.nextPromise → (W.promises q).isSettled = true →
          W'.promises q = W.promises q) := by
  intro evs
  induction evs with
  | nil =>
    intro W _ hq hQ hside
    exact ⟨W, rfl, hq, hQ, hside, fun q _ => SameState_refl _, fun _ _ _ => rfl⟩
  | cons ev evs ih =>
    intro W hev hq hQ hside
    obtain ⟨W1, k1, k2, k3, k4, k5⟩ :=
      par_event fuel N B ev (hev ev (List.mem_cons_self _ _)) tasks W c hq hQ hside
    obtain ⟨W', j1, j2, j3, j4, j5, j6⟩ :=
      ih W1 (fun e he => hev e (List.mem_cons_of_mem _ he)) k2 k3 k4
    have hnp := settle_nextPromise W ev
    have hNL : N ≤ W.nextPromise := by
      obtain ⟨_, a, b, d, _⟩ := hside
      omega
    have hkeep : ∀ q, q < W.nextPromise → (W.promises q).isSettled = true →
        W1.promises q = W.promises q := by
      intro q hq1 hq2
      rw [k5.2.1 q (by omega) (by rw [settle_keep W ev q hq2]; exact hq2),
        settle_keep W ev q hq2]
    refine ⟨W', by simp only [runEvents, k1]; exact j1, j2, j3, j4, ?_, ?_⟩
    · intro q hq1
      refine SameState_trans _ _ _ ?_ (j5 q hq1)
      show SameState (settledAs q (W.promises q) (ev :: evs)) (settledAs q (W1.promises q) evs)
      cases hs : (W.promises q).isSettled with
      | true =>
        rw [hkeep q (by omega) hs, settledAs_settled q _ _ hs, settledAs_settled q _ _ hs]
        exact SameState_refl _
      | false =>
        by_cases e : ev.target = q
        · subst e
          simp only [settledAs, hs, if_true, Bool.false_eq_true, if_false]
          have h1 : (settle W ev).promises ev.target = ev.state := by
            cases hP : W.promises ev.target with
            | pending rs => exact settle_target W ev rs hP
            | fulfilled x => rw [hP] at hs; exact absurd hs (by simp [PState.isSettled])
            | rejected x => rw [hP] at hs; exact absurd hs (by simp [PState.isSettled])
          have h2 : W1.promises ev.target = ev.state := by
            rw [k5.2.1 _ (by omega) (by rw [h1]; exact Settle.state_isSettled ev), h1]
          rw [h2, settledAs_settled _ _ _ (Settle.state_isSettled ev)]
          exact SameState_refl _
        · simp only [settledAs, hs, e, Bool.false_eq_true, if_false]
          refine settledAs_congr q evs _ _ (SameState_of_pending _ _ hs ?_)
          exact k5.2.2 q hq1 (by rw [settle_other W ev q (Ne.symm e)]; exact hs)
    · intro q hq1 hq2
      rw [j6 q (by have := k5.1; omega) (by rw [hkeep q hq1 hq2]; exact hq2), hkeep q hq1 hq2]

theorem Chained_last (P : Nat → PState) (l : List Nat) :
    ∀ c, Chained P c l → P (c + l.length) = .pending [] := by
  induction l with
  | nil => intro c h; exact h
  | cons a l ih =>
    intro c h
    have := ih (c + 1) h.2
    rwa [show c + 1 + l.length = c + (a :: l).length by simp only [List.length_cons]; omega]
      at this

/-- The last chain promise of a chain at rest is in the state that the states
of the tasks decide. -/
theorem Quiescent_result (N B L : Nat) (P : Nat → PState) (rest : List Nat) :
    ∀ (c t : Nat) (v : Value), Quiescent N B L P c (t :: rest) →
      P (c + rest.length) = chainOutcome P v (t :: rest) := by
  induction rest with
  | nil =>
    intro c t v hQ
    cases hPt : P t with
    | fulfilled x =>
      simp only [Quiescent, hPt] at hQ
      simp only [chainOutcome, hPt, List.length_nil, Nat.add_zero]
      exact hQ.1
    | rejected e =>
      simp only [Quiescent, hPt] at hQ
      simp only [chainOutcome, hPt]
      exact hQ.1 0 (le_refl _)
    | pending rs =>
      simp only [Quiescent, hPt] at hQ
      obtain ⟨tau, _, _, _, _, h5, _⟩ := hQ
      simp only [chainOutcome, hPt]
      exact h5
  | cons t1 rest ih =>
    intro c t v hQ
    cases hPt : P t with
    | fulfilled x =>
      simp only [Quiescent, hPt] at hQ
      have := ih (c + 1) t1 x hQ.2
      rw [show c + 1 + rest.length = c + (t1 :: rest).length by
        simp only [List.length_cons]; omega] at this
      rw [this]
      simp only [chainOutcome, hPt]
    | rejected e =>
      simp only [Quiescent, hPt] at hQ
      simp only [chainOutcome, hPt]
      exact hQ.1 _ (le_refl _)
    | pending rs =>
      simp only [Quiescent, hPt] at hQ
      obtain ⟨tau, _, _, _, _, h5, _⟩ := hQ
      simp only [chainOutcome, hPt]
      exact Chained_last P (t1 :: rest) c h5

/-- The `forEach` of `parallel` over promises, from a pending last chain
promise on: one more chain promise per task. -/
theorem par_build (rest : List Nat) :
    ∀ (W : World) (c : Nat), W.promises c = .pending [] → W.nextPromise = c + 1 →
      ∃ W', (rest.map Value.promise).foldl parallelStep (W, .promise c)
          = (W', .promise (c + rest.length)) ∧
        Chained W'.promises c rest ∧ W'.nextPromise = c + rest.length + 1 ∧
        W'.queue = W.queue ∧ (∀ q, q < c → W'.promises q = W.promises q) := by
  induction rest with
  | nil =>
    intro W c hP hnp
    exact ⟨W, rfl, hP, hnp, rfl, fun _ _ => rfl⟩
  | cons t rest ih =>
    intro W c hP hnp
    have hstep : parallelStep (W, .promise c) (.promise t) =
        ({ W with
          promises := setAt (setAt W.promises (c + 1) (.pending [])) c
            (.pending [⟨.parallelTask (.promise t), .thrower, c + 1⟩]),
          nextPromise := c + 1 + 1 }, .promise (c + 1)) := by
      simp only [parallelStep, isPromise, if_true, valueThen, promiseThen, hP, hnp,
        List.nil_append]
    obtain ⟨W', k1, k2, k3, k4, k5⟩ := ih
      { W with
        promises := setAt (setAt W.promises (c + 1) (.pending [])) c
          (.pending [⟨.parallelTask (.promise t), .thrower, c + 1⟩]),
        nextPromise := c + 1 + 1 } (c + 1) (by simp [setAt_apply]) rfl
    refine ⟨W', ?_, ⟨?_, k2⟩, ?_, k4, ?_⟩
    · simp only [List.map, List.foldl, hstep, k1, List.length_cons]
      rw [show c + 1 + rest.length = c + (rest.length + 1) by omega]
    · rw [k5 c (by omega)]
      simp [setAt_apply]
    · rw [k3, List.length_cons]
      omega
    · intro q hq1
      rw [k5 q (by omega)]
      have e1 : q ≠ c := by omega
      have e2 : q ≠ c + 1 := by omega
      simp [setAt_apply, e1, e2]

theorem Agrees_congr (N : Nat) (P S S' : Nat → PState)
    (h : ∀ q, q < N → SameState (S q) (S' q)) (hA : Agrees N P S') : Agrees N P S :=
  fun q hq => SameState_trans _ _ _ (h q hq) (hA q hq)

/-- The promise of `parallel` over promises, in every store reached by external
settlements of the tasks in any order: it is in the state that the states of
the tasks decide, in the order of the sequence. -/
theorem parallel_chain (fuel : Nat) (w : World) (ts : List Nat) (evs : List Settle)
    (hq : w.queue = []) (hts : ∀ t ∈ ts, t < w.nextPromise)
    (hquiet : Quiet w.nextPromise w.promises none)
    (hg1 : ∀ q, q < w.nextPromise → ∀ y, w.promises q = .fulfilled y → isPromise y = false)
    (hev : ∀ ev ∈ evs, ev.ok w.nextPromise) :
    (parallel w (ts.map Value.promise)).2 = .promise (w.nextPromise + ts.length) ∧
    ∃ W0 W', drain fuel (3 * ts.length + 3) (parallel w (ts.map Value.promise)).1 = some W0 ∧
      runEvents fuel (3 * ts.length + 3) W0 evs = some W' ∧ W'.queue = [] ∧
      W'.promises (w.nextPromise + ts.length) = chainOutcome W'.promises .undefined ts ∧
      Agrees w.nextPromise W'.promises (fun q => settledAs q (w.promises q) evs) := by
  cases ts with
  | nil =>
    have hfr : ∀ q, q < w.nextPromise →
        setAt w.promises w.nextPromise (.fulfilled .undefined) q = w.promises q := by
      intro q hq1
      have : q ≠ w.nextPromise := by omega
      simp [setAt_apply, this]
    obtain ⟨W', j1, j2, j3, j4, j5, j6⟩ := par_events fuel w.nextPromise (w.nextPromise + 1) []
      (w.nextPromise + 1) evs
      { w with
        promises := setAt w.promises w.nextPromise (.fulfilled .undefined),
        nextPromise := w.nextPromise + 1 } hev hq
      (fun q hq1 hq2 rs hrs => hquiet q hq1 hq2 rs (by rw [← hfr q hq1]; exact hrs))
      ⟨fun t ht => absurd ht (List.not_mem_nil t), by omega, by simp, le_refl _,
        fun q hq1 y hy => hg1 q hq1 y (by rw [← hfr q hq1]; exact hy)⟩
    refine ⟨rfl, _, W', drain_idle fuel _ _ hq, j1, j2, ?_, ?_⟩
    · have := j6 w.nextPromise (by simp only; omega) (by simp [setAt_apply, PState.isSettled])
      simp only [List.length_nil, Nat.add_zero, chainOutcome]
      rw [this]
      simp [setAt_apply]
    · refine Agrees_congr _ _ _ _ (fun q hq1 => ?_) j5
      show SameState _ (settledAs q (setAt w.promises w.nextPromise (.fulfilled .undefined) q) evs)
      rw [hfr q hq1]
      exact SameState_refl _
  | cons t0 rest =>
    have hfirst : parallelStep (promiseResolve w .undefined) (.promise t0) =
        ({ w with
          promises := setAt (setAt w.promises w.nextPromise (.fulfilled .undefined))
            (w.nextPromise + 1) (.pending []),
          nextPromise := w.nextPromise + 1 + 1,
          queue := [Job.reaction (.parallelTask (.promise t0)) .undefined
            (w.nextPromise + 1)] }, .promise (w.nextPromise + 1)) := by
      simp only [parallelStep, promiseResolve, newPromise, isPromise, if_true, valueThen,
        promiseThen, setAt_apply, enqueue, hq, List.nil_append]
    obtain ⟨W2, b1, b2, b3, b4, b5⟩ := par_build rest
      { w with
        promises := setAt (setAt w.promises w.nextPromise (.fulfilled .undefined))
          (w.nextPromise + 1) (.pending []),
        nextPromise := w.nextPromise + 1 + 1,
        queue := [Job.reaction (.parallelTask (.promise t0)) .undefined
          (w.nextPromise + 1)] } (w.nextPromise + 1) (by simp [setAt_apply]) rfl
    have hpar : parallel w ((t0 :: rest).map Value.promise) =
        (W2, .promise (w.nextPromise + 1 + rest.length)) := by
      simp only [parallel, List.map, List.foldl, hfirst]
      exact b1
    have hfr : ∀ q, q < w.nextPromise → W2.promises q = w.promises q := by
      intro q hq1
      rw [b5 q (by omega)]
      have e1 : q ≠ w.nextPromise := by omega
      have e2 : q ≠ w.nextPromise + 1 := by omega
      simp [setAt_apply, e1, e2]
    obtain ⟨m, W0, k1, k2, k3, k4, k5, k6⟩ := par_head fuel w.nextPromise
      (w.nextPromise + 1 + rest.length + 1) rest W2 t0 .undefined (w.nextPromise + 1)
      (by rw [b4]) b2
      ⟨hts, by omega, by simp only [List.length_cons]; omega, by rw [b3],
        fun q hq1 y hy => hg1 q hq1 y (by rw [← hfr q hq1]; exact hy)⟩
      (fun q hq1 hq2 rs hrs => hquiet q hq1 hq2 rs (by rw [← hfr q hq1]; exact hrs))
    obtain ⟨W', j1, j2, j3, j4, j5, j6⟩ := par_events fuel w.nextPromise
      (w.nextPromise + 1 + rest.length + 1) (t0 :: rest) (w.nextPromise + 1) evs W0 hev k3 k4 k5
    rw [hpar]
    refine ⟨by simp only [List.length_cons]; rw [show w.nextPromise + 1 + rest.length =
        w.nextPromise + (rest.length + 1) by omega], W0, W',
      drain_extend fuel m _ W2 W0 k2 k3 (by simp only [List.length_cons]; omega), j1, j2, ?_, ?_⟩
    · have := Quiescent_result _ _ _ W'.promises rest (w.nextPromise + 1) t0 .undefined j3
      rw [← this, List.length_cons]
      rw [show w.nextPromise + 1 + rest.length = w.nextPromise + (rest.length + 1) by omega]
    · refine Agrees_congr _ _ _ _ (fun q hq1 => ?_) j5
      refine settledAs_congr q evs _ _ ?_
      cases hs : (w.promises q).isSettled with
      | true =>
        rw [k6.2.1 q (by rw [b3]; omega) (by rw [hfr q hq1]; exact hs), hfr q hq1]
        exact SameState_refl _
      | false =>
        exact SameState_of_pending _ _ hs (k6.2.2 q hq1 (by rw [hfr q hq1]; exact hs))

theorem chainOutcome_fulfilled_iff (P : Nat → PState) (ts : List Nat) :
    ∀ v, (∃ x, chainOutcome P v ts = .fulfilled x) ↔ ∀ t ∈ ts, ∃ x, P t = .fulfilled x := by
  induction ts with
  | nil => intro v; simp [chainOutcome]
  | cons t rest ih =>
    intro v
    cases hPt : P t with
    | fulfilled x =>
      simp only [chainOutcome, hPt, ih x, List.mem_cons, forall_eq_or_imp]
      simp
    | rejected e => simp [chainOutcome, hPt]
    | pending rs => simp [chainOutcome, hPt]

theorem chainOutcome_decided (P : Nat → PState) (pre : List Nat) (t : Nat) (post : List Nat)
    (hpre : ∀ s ∈ pre, ∃ x, P s = .fulfilled x) :
    ∀ v, chainOutcome P v (pre ++ t :: post) = chainOutcome P v (t :: post) ∨
      ∃ x, chainOutcome P v (pre ++ t :: post) = chainOutcome P x (t :: post) := by
  induction pre with
  | nil => intro v; exact Or.inl rfl
  | cons s pre ih =>
    intro v
    obtain ⟨x, hx⟩ := hpre s (List.mem_cons_self _ _)
    simp only [List.cons_append, chainOutcome, hx]
    rcases ih (fun s hs => hpre s (List.mem_cons_of_mem _ hs)) x with h | ⟨y, h⟩
    · exact Or.inr ⟨x, h⟩
    · exact Or.inr ⟨y, h⟩

theorem chainOutcome_rejected (P : Nat → PState) (pre : List Nat) (t : Nat) (post : List Nat)
    (e : Value) (hpre : ∀ s ∈ pre, ∃ x, P s = .fulfilled x) (ht : P t = .rejected e) (v : Value) :
    chainOutcome P v (pre ++ t :: post) = .rejected e := by
  rcases chainOutcome_decided P pre t post hpre v with h | ⟨y, h⟩ <;>
    rw [h] <;> simp only [chainOutcome, ht]

theorem chainOutcome_pending (P : Nat → PState) (pre : List Nat) (t : Nat) (post : List Nat)
    (hpre : ∀ s ∈ pre, ∃ x, P s = .fulfilled x) (ht : (P t).isSettled = false) (v : Value) :
    chainOutcome P v (pre ++ t :: post) = .pending [] := by
  cases hPt : P t with
  | pending rs =>
    rcases chainOutcome_decided P pre t post hpre v with h | ⟨y, h⟩ <;>
      rw [h] <;> simp only [chainOutcome, hPt]
  | fulfilled x => rw [hPt] at ht; exact absurd ht (by simp [PState.isSettled])
  | rejected x => rw [hPt] at ht; exact absurd ht (by simp [PState.isSettled])

theorem chainOutcome_last (P : Nat → PState) (pre : List Nat) (t : Nat) (x : Value)
    (hpre : ∀ s ∈ pre, ∃ y, P s = .fulfilled y) (ht : P t = .fulfilled x) (v : Value) :
    chainOutcome P v (pre ++ [t]) = .fulfilled x := by
  rcases chainOutcome_decided P pre t [] hpre v with h | ⟨y, h⟩ <;>
    rw [h] <;> simp only [chainOutcome, ht]

/-! ## `parallel`: claims -/

/-- C9, refuted: `parallel` over the single task promise 0, fulfilled with 5,
returns promise 2, which is fulfilled with 5, not with `undefined`; and over a
single computation that returns 7 it returns promise 4, which is fulfilled
with 7, as is the result of the task (promise 3). -/
theorem parallel_carries_last_task_value :
    (parallel (oneTaskWorld sevenScript (.fulfilled (.num 5))) [.promise 0]).2 = .promise 2 ∧
    (drain 1 3 (parallel (oneTaskWorld sevenScript (.fulfilled (.num 5))) [.promise 0]).1).map
        (fun W => (W.promises 0, W.promises 2, W.queue)) =
      some (.fulfilled (.num 5), .fulfilled (.num 5), []) ∧
    (parallel (oneTaskWorld sevenScript (.pending [])) [.iterator 0]).2 = .promise 4 ∧
    (drain 1 6 (parallel (oneTaskWorld sevenScript (.pending [])) [.iterator 0]).1).map
        (fun W => (W.promises 3, W.promises 4, W.queue)) =
      some (.fulfilled (.num 7), .fulfilled (.num 7), []) :=
  ⟨rfl, rfl, rfl, rfl⟩

/-! ## Stores only move forward -/

theorem Later_refl (W : World) : Later W W :=
  ⟨le_refl _, fun _ _ => ⟨[], by simp⟩, le_refl _, fun _ _ _ => rfl⟩

theorem Later_trans (W1 W2 W3 : World) (h12 : Later W1 W2) (h23 : Later W2 W3) : Later W1 W3 := by
  obtain ⟨a1, a2, a3, a4⟩ := h12
  obtain ⟨b1, b2, b3, b4⟩ := h23
  refine ⟨le_trans a1 b1, ?_, le_trans a3 b3, ?_⟩
  · intro j hj
    obtain ⟨e1, k1⟩ := a2 j hj
    obtain ⟨e2, k2⟩ := b2 j (by omega)
    exact ⟨e1 ++ e2, by rw [k2, k1, List.append_assoc]⟩
  · intro q hq hs
    rw [b4 q (by omega) (by rw [a4 q hq hs]; exact hs), a4 q hq hs]

theorem Later_of_promises (w w' : World) (hi : w'.iters = w.iters) (hn : w'.nextIter = w.nextIter)
    (hp : w.nextPromise ≤ w'.nextPromise)
    (hk : ∀ q, q < w.nextPromise → (w.promises q).isSettled = true →
      w'.promises q = w.promises q) : Later w w' :=
  ⟨by rw [hn], fun j _ => ⟨[], by rw [hi]; simp⟩, hp, hk⟩

theorem Later_newPromise (w : World) (st : PState) : Later w (newPromise w st).1 := by
  refine Later_of_promises _ _ rfl rfl (by simp [newPromise]) ?_
  intro q hq _
  have : q ≠ w.nextPromise := by omega
  simp [newPromise, setAt_apply, this]

theorem Later_enqueue (w : World) (js : List Job) : Later w (enqueue w js) :=
  Later_of_promises _ _ rfl rfl (le_refl _) (fun _ _ _ => rfl)

theorem Later_fulfillPromise (w : World) (p : Nat) (v : Value) :
    Later w (fulfillPromise w p v) := by
  unfold fulfillPromise
  split
  · rename_i rs h
    refine Later_of_promises _ _ rfl rfl (le_refl _) ?_
    intro q _ hs
    have : q ≠ p := by
      intro e; subst e; rw [h] at hs; exact absurd hs (by simp [PState.isSettled])
    simp [setAt_apply, this]
  · exact Later_refl w

theorem Later_rejectPromise (w : World) (p : Nat) (e : Value) :
    Later w (rejectPromise w p e) := by
  unfold rejectPromise
  split
  · rename_i rs h
    refine Later_of_promises _ _ rfl rfl (le_refl _) ?_
    intro q _ hs
    have : q ≠ p := by
      intro e; subst e; rw [h] at hs; exact absurd hs (by simp [PState.isSettled])
    simp [setAt_apply, this]
  · exact Later_refl w

theorem Later_resolvePromise (w : World) (p : Nat) (x : Value) :
    Later w (resolvePromise w p x) := by
  unfold resolvePromise
  split
  · split
    · exact Later_rejectPromise _ _ _
    · exact Later_enqueue _ _
  · exact Later_fulfillPromise _ _ _

theorem Later_promiseThen (w : World) (p : Nat) (onF onR : Handler) :
    Later w (promiseThen w p onF onR).1 := by
  unfold promiseThen
  simp only
  split
  · rename_i rs h
    refine Later_of_promises _ _ rfl rfl (by simp) ?_
    intro q hq hs
    have e1 : q ≠ p := by
      intro e; subst e; rw [h] at hs; exact absurd hs (by simp [PState.isSettled])
    have e2 : q ≠ w.nextPromise := by omega
    simp [setAt_apply, e1, e2]
  · refine Later_of_promises _ _ rfl rfl (by simp [enqueue]) ?_
    intro q hq _
    have e2 : q ≠ w.nextPromise := by omega
    simp [enqueue, setAt_apply, e2]
  · refine Later_of_promises _ _ rfl rfl (by simp [enqueue]) ?_
    intro q hq _
    have e2 : q ≠ w.nextPromise := by omega
    simp [enqueue, setAt_apply, e2]

theorem Later_promiseResolve (w : World) (x : Value) : Later w (promiseResolve w x).1 := by
  unfold promiseResolve
  split
  · exact Later_refl w
  · exact Later_newPromise _ _

theorem Later_valueThen (w : World) (x : Value) (onF onR : Handler) :
    Later w (valueThen w x onF onR).1 := by
  unfold valueThen
  split
  · exact Later_promiseThen _ _ _ _
  · exact Later_refl w

theorem Later_step (w : World) (i : Nat) (r : Resume) (l : List Event) :
    Later w { w with
      iters := setAt w.iters i ⟨(w.iters i).script, (w.iters i).history ++ [r]⟩,
      log := l } := by
  refine ⟨le_refl _, ?_, le_refl _, fun _ _ _ => rfl⟩
  intro j _
  by_cases e : j = i
  · subst e
    exact ⟨[r], by simp [setAt_apply]⟩
  · exact ⟨[], by simp [setAt_apply, e]⟩

theorem Later_iterNext (w : World) (it v : Value) : Later w (iterNext w it v).1 := by
  unfold iterNext
  split
  · simp only
    split <;> exact Later_step w _ _ _
  · exact Later_refl w

theorem Later_iterThrow (w : World) (it e : Value) : Later w (iterThrow w it e).1 := by
  unfold iterThrow
  split
  · simp only
    split <;> exact Later_step w _ _ _
  · exact Later_refl w

theorem Later_instantiate (w : World) (it : Value) : Later w (instantiate w it).1 := by
  unfold instantiate
  split
  · refine ⟨by simp, ?_, le_refl _, fun _ _ _ => rfl⟩
    intro j hj
    have : j ≠ w.nextIter := by omega
    exact ⟨[], by simp [setAt_apply, this]⟩
  · exact Later_refl w

theorem Later_spawn (w : World) (it : Value) : Later w (spawn w it).1 := by
  unfold spawn
  simp only
  refine Later_trans _ _ _ ?_ (Later_valueThen _ _ _ _)
  refine Later_trans _ _ _ ?_ (Later_promiseResolve _ _)
  split
  · exact Later_instantiate _ _
  · exact Later_refl w

theorem Later_parallelStep (acc : World × Value) (v : Value) :
    Later acc.1 (parallelStep acc v).1 := by
  unfold parallelStep
  simp only
  refine Later_trans _ _ _ ?_ (Later_valueThen _ _ _ _)
  split
  · exact Later_refl _
  · exact Later_spawn _ _

theorem Later_foldl_parallelStep (arr : List Value) :
    ∀ acc : World × Value, Later acc.1 (arr.foldl parallelStep acc).1 := by
  induction arr with
  | nil => intro acc; exact Later_refl _
  | cons v arr ih =>
    intro acc
    exact Later_trans _ _ _ (Later_parallelStep acc v) (ih _)

theorem Later_parallel (w : World) (arr : List Value) : Later w (parallel w arr).1 :=
  Later_trans _ _ _ (Later_promiseResolve w .undefined) (Later_foldl_parallelStep arr _)

theorem Later_nextBody (rec : World → Value → Option (World × Completion Value))
    (hrec : ∀ w x w' c, rec w x = some (w', c) → Later w w') (it : Value)
    (r : World × Completion (Bool × Value)) (w' : World) (c : Completion Value)
    (h : nextBody rec it r = some (w', c)) : Later r.1 w' := by
  obtain ⟨w1, r⟩ := r
  cases r with
  | throw e =>
    rw [nextBody_throw] at h
    cases h
    exact Later_refl _
  | normal dx =>
    obtain ⟨done, x⟩ := dx
    cases done with
    | true =>
      rw [nextBody_done] at h
      cases h
      exact Later_promiseResolve _ _
    | false =>
      simp only [nextBody, Bool.false_eq_true, if_false] at h
      generalize hr2 : (if (isGenerator x || isIterator x) = true then spawn w1 x
        else (w1, x)) = r2 at h
      have h2 : Later w1 r2.1 := by
        rw [← hr2]
        split
        · exact Later_spawn _ _
        · exact Later_refl _
      generalize hr3 : (if isYieldableArray r2.2 = true then parallel r2.1 (arrayItems r2.2)
        else r2) = r3 at h
      have h3 : Later r2.1 r3.1 := by
        rw [← hr3]
        split
        · exact Later_parallel _ _
        · exact Later_refl _
      split at h
      · cases h
        exact Later_trans _ _ _ h2 (Later_trans _ _ _ h3 (Later_valueThen _ _ _ _))
      · exact Later_trans _ _ _ h2 (Later_trans _ _ _ h3 (hrec _ _ _ _ h))

theorem Later_next (fuel : Nat) :
    ∀ (w : World) (it v : Value) (w' : World) (c : Completion Value),
      next fuel w it v = some (w', c) → Later w w' := by
  induction fuel with
  | zero => intro w it v w' c h; simp [next] at h
  | succ fuel ih =>
    intro w it v w' c h
    rw [next_succ] at h
    exact Later_trans _ _ _ (Later_iterNext w it v)
      (Later_nextBody _ (fun w x w' c h => ih w it x w' c h) it _ w' c h)

theorem Later_runHandler (fuel : Nat) (w : World) (h : Handler) (arg : Value) (w' : World)
    (c : Completion Value) (hr : runHandler fuel w h arg = some (w', c)) : Later w w' := by
  cases h with
  | spawnNext it => exact Later_next fuel w it arg w' c hr
  | itThrow it =>
    simp only [runHandler, Option.some.injEq] at hr
    rw [show w' = (iterThrow w it arg).1 by rw [hr]]
    exact Later_iterThrow _ _ _
  | parallelTask task =>
    simp only [runHandler, Option.some.injEq, Prod.mk.injEq] at hr
    rw [← hr.1]
    exact Later_refl _
  | seriesTask value =>
    simp only [runHandler] at hr
    split at hr
    · simp only [Option.some.injEq, Prod.mk.injEq] at hr
      rw [← hr.1]
      exact Later_refl _
    · simp only [Option.some.injEq, Prod.mk.injEq] at hr
      rw [← hr.1]
      exact Later_spawn _ _
  | resolveFn p =>
    simp only [runHandler, Option.some.injEq, Prod.mk.injEq] at hr
    rw [← hr.1]
    exact Later_resolvePromise _ _ _
  | rejectFn p =>
    simp only [runHandler, Option.some.injEq, Prod.mk.injEq] at hr
    rw [← hr.1]
    exact Later_rejectPromise _ _ _
  | identity =>
    simp only [runHandler, Option.some.injEq, Prod.mk.injEq] at hr
    rw [← hr.1]
    exact Later_refl _
  | thrower =>
    simp only [runHandler, Option.some.injEq, Prod.mk.injEq] at hr
    rw [← hr.1]
    exact Later_refl _
  | mainLog =>
    simp only [runHandler] at hr
    split at hr <;> simp only [Option.some.injEq, Prod.mk.injEq] at hr <;> rw [← hr.1]
    · exact Later_refl _
    · exact Later_refl _
    · exact Later_of_promises _ _ rfl rfl (le_refl _) (fun _ _ _ => rfl)

theorem Later_runJob (fuel : Nat) (w : World) (j : Job) (w' : World)
    (hr : runJob fuel w j = some w') : Later w w' := by
  cases j with
  | reaction h arg d =>
    simp only [runJob] at hr
    split at hr
    · exact absurd hr (by simp)
    · rename_i w1 r hh
      simp only [Option.some.injEq] at hr
      rw [← hr]
      exact Later_trans _ _ _ (Later_runHandler fuel w h arg w1 _ hh) (Later_resolvePromise _ _ _)
    · rename_i w1 e hh
      simp only [Option.some.injEq] at hr
      rw [← hr]
      exact Later_trans _ _ _ (Later_runHandler fuel w h arg w1 _ hh) (Later_rejectPromise _ _ _)
  | resolveThenable p t =>
    simp only [runJob, Option.some.injEq] at hr
    rw [← hr]
    exact Later_promiseThen _ _ _ _

theorem Later_tick (fuel : Nat) (w w' : World) (hr : tick fuel w = some w') : Later w w' := by
  unfold tick at hr
  split at hr
  · simp only [Option.some.injEq] at hr
    rw [← hr]
    exact Later_refl _
  · rename_i j rest hq
    exact Later_runJob fuel { w with queue := rest } j w' hr

/-- Running jobs only moves the store forward. -/
theorem Later_drain (fuel n : Nat) : ∀ (w w' : World), drain fuel n w = some w' → Later w w' := by
  induction n with
  | zero =>
    intro w w' h
    simp only [drain_zero, Option.some.injEq] at h
    rw [← h]
    exact Later_refl _
  | succ n ih =>
    intro w w' h
    rw [drain_succ] at h
    cases ht : tick fuel w with
    | none => rw [ht] at h; exact absurd h (by simp)
    | some w1 =>
      rw [ht, Option.some_bind] at h
      exact Later_trans _ _ _ (Later_tick fuel w w1 ht) (ih w1 w' h)

/-! ## `series` -/

theorem promiseThen_frame (w : World) (p : Nat) (onF onR : Handler) :
    (promiseThen w p onF onR).1.iters = w.iters ∧
    (promiseThen w p onF onR).1.nextIter = w.nextIter ∧
    (promiseThen w p onF onR).1.log = w.log := by
  unfold promiseThen
  simp only
  split <;> exact ⟨rfl, rfl, rfl⟩

theorem seriesStep_frame (acc : World × Value) (v : Value) :
    (seriesStep acc v).1.iters = acc.1.iters ∧ (seriesStep acc v).1.nextIter = acc.1.nextIter ∧
    (seriesStep acc v).1.log = acc.1.log := by
  unfold seriesStep valueThen
  split
  · exact promiseThen_frame _ _ _ _
  · exact ⟨rfl, rfl, rfl⟩

theorem foldl_seriesStep_frame (arr : List Value) :
    ∀ acc : World × Value, (arr.foldl seriesStep acc).1.iters = acc.1.iters ∧
      (arr.foldl seriesStep acc).1.nextIter = acc.1.nextIter ∧
      (arr.foldl seriesStep acc).1.log = acc.1.log := by
  induction arr with
  | nil => intro acc; exact ⟨rfl, rfl, rfl⟩
  | cons v arr ih =>
    intro acc
    obtain ⟨a1, a2, a3⟩ := ih (seriesStep acc v)
    obtain ⟨b1, b2, b3⟩ := seriesStep_frame acc v
    exact ⟨a1.trans b1, a2.trans b2, a3.trans b3⟩

/-- The call `series(arr)` itself starts nothing: no computation is
instantiated or stepped by it. -/
theorem series_frame (w : World) (arr : List Value) :
    (series w arr).1.iters = w.iters ∧ (series w arr).1.nextIter = w.nextIter ∧
    (series w arr).1.log = w.log := by
  unfold series
  obtain ⟨a1, a2, a3⟩ := foldl_seriesStep_frame arr (promiseResolve w .undefined)
  exact ⟨a1, a2, a3⟩

theorem series_two (w : World) (v1 v2 : Value) (hq : w.queue = []) :
    series w [v1, v2] =
      ({ w with
        promises := setAt (setAt (setAt (setAt w.promises w.nextPromise (.fulfilled .undefined))
          (w.nextPromise + 1) (.pending [])) (w.nextPromise + 1 + 1) (.pending []))
          (w.nextPromise + 1) (.pending [⟨.seriesTask v2, .thrower, w.nextPromise + 1 + 1⟩]),
        nextPromise := w.nextPromise + 1 + 1 + 1,
        queue := [Job.reaction (.seriesTask v1) .undefined (w.nextPromise + 1)] },
        .promise (w.nextPromise + 1 + 1)) := by
  simp only [series, List.foldl, seriesStep, promiseResolve, newPromise, valueThen, promiseThen,
    setAt_apply, if_true, enqueue, hq, List.nil_append, succ1_ne, if_false]

theorem tick_seriesTask_iterator (fuel : Nat) (W : World) (i c : Nat)
    (hq : W.queue = [Job.reaction (.seriesTask (.iterator i)) .undefined c])
    (hc : c < W.nextPromise) :
    tick fuel W = some { W with
      promises := setAt (setAt W.promises W.nextPromise (.fulfilled .undefined))
        (W.nextPromise + 1) (.pending []),
      nextPromise := W.nextPromise + 1 + 1,
      queue := [Job.reaction (.spawnNext (.iterator i)) .undefined (W.nextPromise + 1),
        Job.resolveThenable c (W.nextPromise + 1)] } := by
  have hne : (W.nextPromise + 1 = c) = False := by simp; omega
  simp only [tick, hq, runJob, runHandler, isPromise, Bool.false_eq_true, if_false,
    spawn_iterator, resolvePromise_promise, hne, enqueue, List.nil_append, List.singleton_append]

theorem tick_seriesTask_promise (fuel : Nat) (W : World) (p c : Nat)
    (hq : W.queue = [Job.reaction (.seriesTask (.promise p)) .undefined c]) (hc : p ≠ c) :
    tick fuel W = some { W with queue := [Job.resolveThenable c p] } := by
  simp only [tick, hq, runJob, runHandler, isPromise, if_true, resolvePromise_promise, hc,
    if_false, enqueue, List.nil_append]

/-- The run of `series([it1, v2])` up to the settlement of the result of the
first task, a computation whose awaited promises are already settled. -/
theorem series_drive (fuel : Nat) (w : World) (i1 : Nat) (v2 : Value) (items : List Item)
    (t : Terminal) (hq : w.queue = [])
    (hs : follows (w.iters i1).script ((w.iters i1).history ++ [.next .undefined]) items t)
    (hr : Ready w.nextPromise w.promises items t) (hf : items.length < fuel) :
    ∃ W1 W', drain fuel 1 (series w [.iterator i1, v2]).1 = some W1 ∧
      W1.queue = [Job.reaction (.spawnNext (.iterator i1)) .undefined (w.nextPromise + 4),
        Job.resolveThenable (w.nextPromise + 1) (w.nextPromise + 4)] ∧
      W1.promises (w.nextPromise + 4) = .pending [] ∧
      W1.promises (w.nextPromise + 1) =
        .pending [⟨.seriesTask v2, .thrower, w.nextPromise + 2⟩] ∧
      drain fuel (chainTicks items t + 2) (series w [.iterator i1, v2]).1 = some W' ∧
      W'.queue = reactionJobs t.result [⟨.seriesTask v2, .thrower, w.nextPromise + 2⟩] ∧
      W'.promises (w.nextPromise + 1) = t.result ∧ W'.promises (w.nextPromise + 4) = t.result ∧
      W'.promises (w.nextPromise + 2) = .pending [] ∧
      (W'.iters i1).history = (w.iters i1).history ++ .next .undefined :: resumesOf items t ∧
      (∀ j, j ≠ i1 → W'.iters j = w.iters j) ∧ W'.nextIter = w.nextIter ∧
      w.nextPromise + 5 ≤ W'.nextPromise := by
  rw [series_two w _ _ hq]
  simp only
  have h1 := tick_seriesTask_iterator fuel
    { w with
      promises := setAt (setAt (setAt (setAt w.promises w.nextPromise (.fulfilled .undefined))
        (w.nextPromise + 1) (.pending [])) (w.nextPromise + 1 + 1) (.pending []))
        (w.nextPromise + 1) (.pending [⟨.seriesTask v2, .thrower, w.nextPromise + 1 + 1⟩]),
      nextPromise := w.nextPromise + 1 + 1 + 1,
      queue := [Job.reaction (.seriesTask (.iterator i1)) .undefined (w.nextPromise + 1)] }
    i1 (w.nextPromise + 1) rfl (by simp only; omega)
  simp only at h1
  have hfr : ∀ q, q < w.nextPromise →
      setAt (setAt (setAt (setAt (setAt (setAt w.promises w.nextPromise (.fulfilled .undefined))
        (w.nextPromise + 1) (.pending [])) (w.nextPromise + 1 + 1) (.pending []))
        (w.nextPromise + 1) (.pending [⟨.seriesTask v2, .thrower, w.nextPromise + 1 + 1⟩]))
        (w.nextPromise + 1 + 1 + 1) (.fulfilled .undefined))
        (w.nextPromise + 1 + 1 + 1 + 1) (.pending []) q = w.promises q := by
    intro q hq1
    simp only [setAt_apply, eq_false_of_lt0 hq1, eq_false_of_lt1 hq1, eq_false_of_lt2 hq1,
      eq_false_of_lt3 hq1, if_false]
    have : q ≠ w.nextPromise + 1 + 1 + 1 + 1 := by omega
    simp [this]
  obtain ⟨W', hrun, k1, k2, k3, k4, k5, k6, k7, k8, k9, k10, k11⟩ :=
    drive_chain i1 w.nextPromise t items
      { w with
        promises := setAt (setAt (setAt (setAt (setAt (setAt w.promises w.nextPromise
          (.fulfilled .undefined))
          (w.nextPromise + 1) (.pending [])) (w.nextPromise + 1 + 1) (.pending []))
          (w.nextPromise + 1) (.pending [⟨.seriesTask v2, .thrower, w.nextPromise + 1 + 1⟩]))
          (w.nextPromise + 1 + 1 + 1) (.fulfilled .undefined))
          (w.nextPromise + 1 + 1 + 1 + 1) (.pending []),
        nextPromise := w.nextPromise + 1 + 1 + 1 + 1 + 1,
        queue := [Job.resolveThenable (w.nextPromise + 1) (w.nextPromise + 1 + 1 + 1 + 1)] }
      .undefined (w.nextPromise + 1 + 1 + 1 + 1) (w.nextPromise + 1)
      [⟨.seriesTask v2, .thrower, w.nextPromise + 1 + 1⟩] fuel fuel rfl
      (by simp [setAt_apply])
      (by have e1 : (w.nextPromise + 1 = w.nextPromise + 1 + 1 + 1 + 1) = False := by simp
          have e2 : (w.nextPromise + 1 = w.nextPromise + 1 + 1 + 1) = False := by simp
          simp only [setAt_apply, e1, e2, if_false, if_true])
      (by simp only; omega) (by simp only; omega) (by omega) (by omega) (by omega)
      hs (Ready_congr _ w.promises _ hfr t items hr) hf hf
  simp only at k1 k2 k3 k4 k5 k6 k7 k8 k9 k10 k11
  refine ⟨_, W', by rw [drain_succ, h1]; rfl, rfl, by simp [setAt_apply], ?_, ?_, k1, k2, k3, ?_,
    k7, k9, k10, by omega⟩
  · have e1 : (w.nextPromise + 1 = w.nextPromise + 4) = False := by simp
    have e2 : (w.nextPromise + 1 = w.nextPromise + 1 + 1 + 1) = False := by simp
    simp only [setAt_apply, e1, e2, if_false, if_true]
  · have e : chainTicks items t + 2 = chainTicks items t + 1 + 1 := rfl
    rw [e, drain_succ, h1, Option.some_bind, drain_succ, tick_cons fuel _ _ _ rfl]
    exact hrun
  · rw [k4 (w.nextPromise + 2) (by omega) (by omega) (by omega)]
    have e1 : (w.nextPromise + 2 = w.nextPromise + 1 + 1 + 1 + 1) = False := by simp
    have e2 : (w.nextPromise + 2 = w.nextPromise + 1 + 1 + 1) = False := by simp
    have e3 : (w.nextPromise + 2 = w.nextPromise + 1) = False := by simp
    simp only [setAt_apply, e1, e2, e3, if_false, if_true]

theorem only_stepped_before (fuel K i : Nat) (w Ws W' : World)
    (hi : Ws.iters = w.iters) (hn : Ws.nextIter = w.nextIter)
    (hK : drain fuel K Ws = some W') (hpost : OnlyStepped i w W') :
    ∀ m Wm, m ≤ K → drain fuel m Ws = some Wm → OnlyStepped i w Wm := by
  intro m Wm hm hrun
  obtain ⟨k, rfl⟩ : ∃ k, K = k + m := ⟨K - m, by omega⟩
  rw [drain_add, hrun, Option.some_bind] at hK
  obtain ⟨a1, a2, _, _⟩ := Later_drain fuel m Ws Wm hrun
  obtain ⟨b1, b2, _, _⟩ := Later_drain fuel k Wm W' hK
  obtain ⟨c1, c2⟩ := hpost
  refine ⟨by omega, ?_⟩
  intro j hj1 hj2
  obtain ⟨e1, k1⟩ := a2 j (by omega)
  obtain ⟨e2, k2⟩ := b2 j (by omega)
  have h3 := c2 j hj1 hj2
  rw [k2, k1, hi] at h3
  have h4 := congrArg List.length h3
  simp only [List.length_append] at h4
  have h5 : e1 = [] := List.eq_nil_of_length_eq_zero (by omega)
  rw [k1, h5, hi, List.append_nil]

theorem settled_after (fuel K P : Nat) (Ws W' : World) (hK : drain fuel K Ws = some W')
    (hP : P < W'.nextPromise) (hs : (W'.promises P).isSettled = true) :
    ∀ m Wm, K ≤ m → drain fuel m Ws = some Wm → Wm.promises P = W'.promises P := by
  intro m Wm hm hrun
  obtain ⟨k, rfl⟩ : ∃ k, m = k + K := ⟨m - K, by omega⟩
  rw [drain_add, hK, Option.some_bind] at hrun
  exact (Later_drain fuel k W' Wm hrun).2.2.2 P hP hs

theorem only_stepped_always (fuel K i : Nat) (w Ws W' : World)
    (hi : Ws.iters = w.iters) (hn : Ws.nextIter = w.nextIter)
    (hK : drain fuel K Ws = some W') (hq : W'.queue = []) (hpost : OnlyStepped i w W') :
    ∀ m Wm, drain fuel m Ws = some Wm → OnlyStepped i w Wm := by
  intro m Wm hrun
  rcases le_total m K with hm | hm
  · exact only_stepped_before fuel K i w Ws W' hi hn hK hpost m Wm hm hrun
  · obtain ⟨k, rfl⟩ : ∃ k, m = k + K := ⟨m - K, by omega⟩
    rw [drain_add, hK, Option.some_bind, drain_idle fuel k W' hq] at hrun
    cases hrun
    exact hpost

theorem Terminal.result_isSettled (t : Terminal) : t.result.isSettled = true := by
  cases t with
  | ret r => rfl
  | raise e => rfl
  | fail p e out => cases out <;> rfl

/-! ## `series`: claims -/

/-- C10: `series` starts a task only after the result of the task before it has
settled.  First part, for every sequence: the call `series(arr)` itself
instantiates and steps nothing.  Second part, `series([it1, v2])` where `it1` is
a computation that goes through plain values and fulfilled promises and then
returns, throws, or fails on a rejected promise: the first job spawns `it1`,
whose result is the pending promise `n + 4`; after `chainTicks items t + 2`
jobs that promise is settled, and in every state of the run up to then nothing
but `it1` has been stepped and nothing has been instantiated, so in every state
of the run either `v2` is unstarted or the result of `it1` is settled; if the
result is fulfilled, the one job queued is the start of `v2`; if it is rejected
with `e`, one more job rejects the promise of `series` with `e`, the queue is
empty and `v2` is unstarted in every state of the run.  Third part,
`series([p, v2])` where the promise `p` is pending and stays so: after two jobs
nothing is left to run and in no state of the run anything has been started. -/
theorem series_starts_after_settlement (fuel : Nat) (w : World) (i1 : Nat) (v2 : Value)
    (items : List Item) (t : Terminal) (hq : w.queue = [])
    (hs : follows (w.iters i1).script ((w.iters i1).history ++ [.next .undefined]) items t)
    (hr : Ready w.nextPromise w.promises items t) (hf : items.length < fuel) :
    (∀ arr, (series w arr).1.iters = w.iters ∧ (series w arr).1.nextIter = w.nextIter ∧
      (series w arr).1.log = w.log) ∧
    (series w [.iterator i1, v2]).2 = .promise (w.nextPromise + 2) ∧
    (∃ W1 W', drain fuel 1 (series w [.iterator i1, v2]).1 = some W1 ∧
      W1.queue = [Job.reaction (.spawnNext (.iterator i1)) .undefined (w.nextPromise + 4),
        Job.resolveThenable (w.nextPromise + 1) (w.nextPromise + 4)] ∧
      W1.promises (w.nextPromise + 4) = .pending [] ∧
      W1.promises (w.nextPromise + 1) =
        .pending [⟨.seriesTask v2, .thrower, w.nextPromise + 2⟩] ∧
      drain fuel (chainTicks items t + 2) (series w [.iterator i1, v2]).1 = some W' ∧
      W'.promises (w.nextPromise + 4) = t.result ∧ t.result.isSettled = true ∧
      (W'.iters i1).history = (w.iters i1).history ++ .next .undefined :: resumesOf items t ∧
      (∀ m Wm, m ≤ chainTicks items t + 2 →
        drain fuel m (series w [.iterator i1, v2]).1 = some Wm → OnlyStepped i1 w Wm) ∧
      (∀ m Wm, drain fuel m (series w [.iterator i1, v2]).1 = some Wm →
        OnlyStepped i1 w Wm ∨ Wm.promises (w.nextPromise + 4) = t.result) ∧
      (∀ x, t.result = .fulfilled x →
        W'.queue = [Job.reaction (.seriesTask v2) x (w.nextPromise + 2)]) ∧
      (∀ e, t.result = .rejected e →
        ∃ W2, drain fuel (chainTicks items t + 3) (series w [.iterator i1, v2]).1 = some W2 ∧
          W2.queue = [] ∧ W2.promises (w.nextPromise + 2) = .rejected e ∧
          ∀ m Wm, drain fuel m (series w [.iterator i1, v2]).1 = some Wm →
            OnlyStepped i1 w Wm)) ∧
    (∀ (p : Nat) (rs : List Reaction), p < w.nextPromise → w.promises p = .pending rs →
      ∃ W2, drain fuel 2 (series w [.promise p, v2]).1 = some W2 ∧ W2.queue = [] ∧
        (W2.promises p).isSettled = false ∧
        W2.promises (w.nextPromise + 1) =
          .pending [⟨.seriesTask v2, .thrower, w.nextPromise + 2⟩] ∧
        ∀ m Wm, drain fuel m (series w [.promise p, v2]).1 = some Wm →
          NothingStarted w Wm) := by
  refine ⟨fun arr => series_frame w arr, by rw [series_two w _ _ hq], ?_, ?_⟩
  · obtain ⟨W1, W', h1, h2, h3, h4, h5, h6, h7, h8, h9, h10, h11, h12, h13⟩ :=
      series_drive fuel w i1 v2 items t hq hs hr hf
    obtain ⟨f1, f2, _⟩ := series_frame w [.iterator i1, v2]
    have hpost : OnlyStepped i1 w W' := ⟨h12, fun j hj _ => by rw [h11 j hj]⟩
    have hbefore := only_stepped_before fuel _ i1 w _ W' f1 f2 h5 hpost
    refine ⟨W1, W', h1, h2, h3, h4, h5, h8, Terminal.result_isSettled t, h10, hbefore, ?_, ?_, ?_⟩
    · intro m Wm hrun
      rcases le_total m (chainTicks items t + 2) with hm | hm
      · exact Or.inl (hbefore m Wm hm hrun)
      · refine Or.inr ?_
        rw [settled_after fuel _ (w.nextPromise + 4) _ W' h5 (by omega)
          (by rw [h8]; exact Terminal.result_isSettled t) m Wm hm hrun, h8]
    · intro x hx
      rw [h6, hx]
      rfl
    · intro e he
      rw [he] at h6
      have ht := tick_thrower fuel W' e (w.nextPromise + 2) [] h6 h9
      have hrun2 : drain fuel (chainTicks items t + 3) (series w [.iterator i1, v2]).1 =
          some { W' with
            promises := setAt W'.promises (w.nextPromise + 2) (.rejected e),
            queue := [],
            log := W'.log ++ [Event.settled (w.nextPromise + 2)] } := by
        rw [show chainTicks items t + 3 = 1 + (chainTicks items t + 2) by omega, drain_add, h5,
          Option.some_bind, drain_succ, ht]
        rfl
      refine ⟨_, hrun2, rfl, by simp [setAt_apply], ?_⟩
      exact only_stepped_always fuel _ i1 w _ _ f1 f2 hrun2 rfl hpost
  · intro p rs hp hP
    obtain ⟨f1, f2, _⟩ := series_frame w [.promise p, v2]
    have hfr : setAt (setAt (setAt (setAt w.promises w.nextPromise (.fulfilled .undefined))
        (w.nextPromise + 1) (.pending [])) (w.nextPromise + 1 + 1) (.pending []))
        (w.nextPromise + 1) (.pending [⟨.seriesTask v2, .thrower, w.nextPromise + 1 + 1⟩]) p
        = .pending rs := by
      simp only [setAt_apply, eq_false_of_lt0 hp, eq_false_of_lt1 hp, eq_false_of_lt2 hp,
        if_false, hP]
    have hrun : ∃ W2, drain fuel 2 (series w [.promise p, v2]).1 = some W2 ∧ W2.queue = [] ∧
        (W2.promises p).isSettled = false ∧
        W2.promises (w.nextPromise + 1) =
          .pending [⟨.seriesTask v2, .thrower, w.nextPromise + 2⟩] ∧
        OnlyStepped w.nextIter w W2 := by
      rw [series_two w _ _ hq]
      simp only
      rw [drain_succ, tick_seriesTask_promise fuel _ p (w.nextPromise + 1) rfl (by omega),
        Option.some_bind, drain_succ,
        tick_adopt_pending fuel _ (w.nextPromise + 1) p rs rfl hfr]
      refine ⟨_, rfl, rfl, by simp [setAt_apply, PState.isSettled], ?_, ⟨rfl, fun _ _ _ => rfl⟩⟩
      have e1 : (w.nextPromise + 1 = p) = False := by simp; omega
      have e2 : (w.nextPromise + 1 = w.nextPromise + 1 + 1 + 1) = False := by simp
      simp only [setAt_apply, e1, e2, if_false, if_true]
    obtain ⟨W2, k1, k2, k3, k4, k5⟩ := hrun
    refine ⟨W2, k1, k2, k3, k4, ?_⟩
    intro m Wm hm
    have := only_stepped_always fuel 2 w.nextIter w _ W2 f1 f2 k1 k2 k5 m Wm hm
    exact ⟨this.1, fun j hj => this.2 j (by omega) hj⟩

/-- C10, at a first task that throws `second` at once and a second task that
would return 7: the promise of `series` is rejected with `second` after five
jobs, nothing is left to run, and in no state of the run the second task has
been stepped. -/
theorem series_starts_after_settlement_witness :
    ∃ W2, drain 1 5 (series (twoTaskWorld failScript sevenScript)
        [.iterator 0, .iterator 1]).1 = some W2 ∧
      W2.queue = [] ∧ W2.promises 2 = .rejected (.error "second") ∧
      ∀ m Wm, drain 1 m (series (twoTaskWorld failScript sevenScript)
          [.iterator 0, .iterator 1]).1 = some Wm →
        OnlyStepped 0 (twoTaskWorld failScript sevenScript) Wm := by
  obtain ⟨_, _, ⟨W1, W', _, _, _, _, _, _, _, _, _, _, _, hrej⟩, _⟩ :=
    series_starts_after_settlement 1 (twoTaskWorld failScript sevenScript) 0 (.iterator 1) []
      (.raise (.error "second")) rfl rfl trivial (by decide)
  exact hrej (.error "second") rfl

/-! ## Classifier: claims -/

/-- C17: `isYieldableArray(v)` is truthy if and only if `v` is an array and
every element of `v` satisfies `isGenerator`, `isIterator` or `isPromise`; it is
truthy for the empty array and falsy for every array with an element that
satisfies none of the three. -/
theorem isYieldableArray_iff_all_tasks (v : Value) :
    (isYieldableArray v = true ↔
      ∃ items, v = .array items ∧
        ∀ x ∈ items, isGenerator x = true ∨ isIterator x = true ∨ isPromise x = true) ∧
    isYieldableArray (.array []) = true ∧
    (∀ (items : List Value) (x : Value), x ∈ items →
      isGenerator x = false → isIterator x = false → isPromise x = false →
      isYieldableArray (.array items) = false) := by
  refine ⟨?_, rfl, fun items x hx h1 h2 h3 => isYieldableArray_of_plain_mem items x hx h1 h2 h3⟩
  constructor
  · intro h
    cases v with
    | array items =>
      refine ⟨items, rfl, fun x hx => ?_⟩
      simp only [isYieldableArray, List.all_eq_true, Bool.or_eq_true] at h
      rcases h x hx with (h1 | h2) | h3
      · exact Or.inl h1
      · exact Or.inr (Or.inl h2)
      · exact Or.inr (Or.inr h3)
    | _ => simp [isYieldableArray] at h
  · rintro ⟨items, rfl, h⟩
    simp only [isYieldableArray, List.all_eq_true, Bool.or_eq_true]
    intro x hx
    rcases h x hx with h1 | h2 | h3
    · exact Or.inl (Or.inl h1)
    · exact Or.inl (Or.inr h2)
    · exact Or.inr h3

/-- C17, at the array `[p0, 7]`: the plain element 7 makes it falsy. -/
theorem isYieldableArray_iff_all_tasks_witness :
    isYieldableArray (.array [.promise 0, .num 7]) = false :=
  (isYieldableArray_iff_all_tasks .undefined).2.2 [.promise 0, .num 7] (.num 7) (by simp)
    rfl rfl rfl

/-! ## The driver: what happens after a rejection, and empty arrays -/

theorem rejectPromise_iters (w : World) (p : Nat) (e : Value) :
    (rejectPromise w p e).iters = w.iters ∧ (rejectPromise w p e).nextIter = w.nextIter := by
  unfold rejectPromise
  split <;> exact ⟨rfl, rfl⟩

theorem fulfillPromise_iters (w : World) (p : Nat) (v : Value) :
    (fulfillPromise w p v).iters = w.iters ∧ (fulfillPromise w p v).nextIter = w.nextIter := by
  unfold fulfillPromise
  split <;> exact ⟨rfl, rfl⟩

theorem resolvePromise_iters (w : World) (p : Nat) (x : Value) :
    (resolvePromise w p x).iters = w.iters ∧ (resolvePromise w p x).nextIter = w.nextIter := by
  unfold resolvePromise
  split
  · split
    · exact rejectPromise_iters _ _ _
    · exact ⟨rfl, rfl⟩
  · exact fulfillPromise_iters _ _ _

/-- The job that runs `next(v)` on computation `i` calls `step(v)` first:
whatever the computation does, it has received `v` and the steps it received
before are still there. -/
theorem spawnNext_job_steps (f : Nat) (W : World) (i : Nat) (v : Value) (d : Nat) (W2 : World)
    (hi : i < W.nextIter)
    (h : runJob f W (.reaction (.spawnNext (.iterator i)) v d) = some W2) :
    ∃ ext, (W2.iters i).history = (W.iters i).history ++ [.next v] ++ ext := by
  cases f with
  | zero => simp [runJob, runHandler, next] at h
  | succ f =>
    simp only [runJob, runHandler, next_succ, iterNext_iterator] at h
    split at h
    · exact absurd h (by simp)
    · rename_i w1 r hh
      obtain ⟨_, a2, _, _⟩ := Later_nextBody _
        (fun w x w' c h => Later_next f w (.iterator i) x w' c h) (.iterator i) _ w1 _ hh
      obtain ⟨ext, hext⟩ := a2 i (by simpa [fed] using hi)
      simp only [Option.some.injEq] at h
      refine ⟨ext, ?_⟩
      rw [← h, (resolvePromise_iters w1 d r).1, hext]
      simp [fed, setAt_apply]
    · rename_i w1 e hh
      obtain ⟨_, a2, _, _⟩ := Later_nextBody _
        (fun w x w' c h => Later_next f w (.iterator i) x w' c h) (.iterator i) _ w1 _ hh
      obtain ⟨ext, hext⟩ := a2 i (by simpa [fed] using hi)
      simp only [Option.some.injEq] at h
      refine ⟨ext, ?_⟩
      rw [← h, (rejectPromise_iters w1 d e).1, hext]
      simp [fed, setAt_apply]

/-- C18: a stepped computation yields a promise that rejects with `e`; `out`
is what `raise(e)` does.  The driver calls `raise(e)` once, as the last call on
the computation: every earlier call is a `step`, nothing is left to run, and no
further job changes the store.  If `raise(e)` returns a state object
`{done, value}` (`out` is a yield, `done` false, or a return, `done` true), the
promise returned by `spawn` is fulfilled with the state object itself.  First
part: the promise is already rejected when it is yielded, after any number of
plain values and fulfilled promises.  Second part: the promise is pending when
it is yielded (after plain values) and is rejected once the driver has
suspended. -/
theorem rejection_raises_once (w : World) (i p : Nat) (e : Value) (out : Outcome)
    (hq : w.queue = []) :
    (∀ (items : List Item) (fuel : Nat),
      follows (w.iters i).script ((w.iters i).history ++ [.next .undefined]) items
        (.fail p e out) →
      Ready w.nextPromise w.promises items (.fail p e out) →
      items.length < fuel →
      ∃ w1, drain fuel (topTicks items (.fail p e out) + 1) (spawn w (.iterator i)).1 = some w1 ∧
        (spawn w (.iterator i)).2 = .promise (w.nextPromise + 1) ∧
        (w1.iters i).history =
          (w.iters i).history ++ .next .undefined :: (items.map Item.resume ++ [.throw e]) ∧
        (∀ r ∈ items.map Item.resume, ∃ v, r = .next v) ∧
        w1.queue = [] ∧ (∀ m, drain fuel m w1 = some w1) ∧
        (∀ x, out = .yield x → w1.promises (w.nextPromise + 1) = .fulfilled (.state false x)) ∧
        (∀ x, out = .ret x → w1.promises (w.nextPromise + 1) = .fulfilled (.state true x))) ∧
    (∀ (xs : List Value) (fuel : Nat),
      yieldsAfter (w.iters i).script ((w.iters i).history ++ [.next .undefined]) xs (.promise p) →
      (∀ y ∈ xs, isPlain y = true) → p < w.nextPromise → w.promises p = .pending [] →
      (w.iters i).script ((w.iters i).history ++ .next .undefined :: xs.map Resume.next
        ++ [.throw e]) = out →
      xs.length < fuel →
      ∃ w1, drain fuel 2 (spawn w (.iterator i)).1 = some w1 ∧
        w1.queue = [] ∧ w1.promises (w.nextPromise + 1) = .pending [] ∧
        ∃ w2, drain fuel 2 (rejectPromise w1 p e) = some w2 ∧
          (w2.iters i).history =
            (w.iters i).history ++ .next .undefined :: xs.map Resume.next ++ [.throw e] ∧
          w2.queue = [] ∧ (∀ m, drain fuel m w2 = some w2) ∧
          (∀ x, out = .yield x → w2.promises (w.nextPromise + 1) = .fulfilled (.state false x)) ∧
          (∀ x, out = .ret x → w2.promises (w.nextPromise + 1) = .fulfilled (.state true x))) := by
  constructor
  · intro items fuel hs hr hf
    obtain ⟨w1, h1, h2, h3, h4, _⟩ := spawn_drives w i items _ hq hs hr fuel hf
    refine ⟨w1, h1, by rw [spawn_iterator], h4, ?_, h2, fun m => drain_idle fuel m w1 h2,
      fun x hx => by rw [h3, hx]; rfl, fun x hx => by rw [h3, hx]; rfl⟩
    intro r hr
    obtain ⟨it, _, rfl⟩ := List.mem_map.mp hr
    cases it with
    | plain v => exact ⟨v, rfl⟩
    | await q val => exact ⟨val, rfl⟩
  · intro xs fuel hs hx hpn hp hthrow hf
    obtain ⟨w1, h1, hS⟩ := spawn_suspends w i xs p hq hs hx hpn hp fuel hf
    obtain ⟨w2, k1, k2, k3, k4, _⟩ := suspended_rejected w w1 i p _ _ _ [] _ e out fuel hS
      (by omega) (by omega) (by omega) (by omega) (by omega) (by omega) hthrow
    have hq2 : w2.queue = [] := by rw [k2, reactionJobs_nil]
    exact ⟨w1, h1, hS.1, hS.2.2.2.1, w2, k1, k4, hq2, fun m => drain_idle fuel m w2 hq2,
      fun x hx => by rw [k3, hx]; rfl, fun x hx => by rw [k3, hx]; rfl⟩

/-- C18, at a computation that awaits a promise rejected with `boom`, catches
the failure and yields 1: the promise of `spawn` is fulfilled with the state
object `{done: false, value: 1}` and `raise` is the last call. -/
theorem rejection_raises_once_witness :
    ∃ w1, drain 1 4 (spawn (oneTaskWorld recoverScript (.rejected (.error "boom")))
        (.iterator 0)).1 = some w1 ∧
      w1.promises 2 = .fulfilled (.state false (.num 1)) ∧
      (w1.iters 0).history = [.next .undefined, .throw (.error "boom")] ∧
      w1.queue = [] := by
  obtain ⟨w1, h1, _, h3, _, h5, _, h7, _⟩ :=
    (rejection_raises_once (oneTaskWorld recoverScript (.rejected (.error "boom"))) 0 0
      (.error "boom") (.yield (.num 1)) rfl).1 [] 1 ⟨rfl, rfl⟩ ⟨by decide, rfl⟩ (by decide)
  exact ⟨w1, h1, h7 (.num 1) rfl, h3, h5⟩

/-- C19: a stepped computation that yields the empty array.  The empty array
is a task collection; it is passed to `parallel`, whose promise (the new
promise `n`) is fulfilled with `undefined`, and the driver attaches `next` to
it: within the job the computation is not resumed, and the queued resumption is
`next(undefined)`, so the next call on the computation is `step(undefined)`,
not `step([])`.  Last part, the contrast: an array with a plain element is fed
back by `next(array)` at once. -/
theorem empty_array_resumes_with_undefined (w : World) (i d : Nat) (v : Value) (fuel : Nat)
    (hi : i < w.nextIter) (hd : d < w.nextPromise)
    (hy : (w.iters i).script ((w.iters i).history ++ [.next v]) = .yield (.array [])) :
    isYieldableArray (.array []) = true ∧
    (parallel (fed w i [v]) []).2 = .promise w.nextPromise ∧
    (∃ W1, runJob (fuel + 1) w (.reaction (.spawnNext (.iterator i)) v d) = some W1 ∧
      (W1.iters i).history = (w.iters i).history ++ [.next v] ∧
      W1.promises w.nextPromise = .fulfilled .undefined ∧
      W1.queue = w.queue ++ [Job.reaction (.spawnNext (.iterator i)) .undefined
        (w.nextPromise + 1), Job.resolveThenable d (w.nextPromise + 1)] ∧
      ∀ (f2 d2 : Nat) (W2 : World),
        runJob f2 W1 (.reaction (.spawnNext (.iterator i)) .undefined d2) = some W2 →
        ∃ ext, (W2.iters i).history =
          (w.iters i).history ++ [.next v, .next .undefined] ++ ext) ∧
    (∀ (w2 : World) (j : Nat) (v2 : Value) (items : List Value) (x : Value), x ∈ items →
      isGenerator x = false → isIterator x = false → isPromise x = false →
      (w2.iters j).script ((w2.iters j).history ++ [.next v2]) = .yield (.array items) →
      next (fuel + 1) w2 (.iterator j) v2 =
        next fuel (iterNext w2 (.iterator j) v2).1 (.iterator j) (.array items)) := by
  have hne : (w.nextPromise + 1 = d) = False := by simp; omega
  refine ⟨rfl, rfl, ?_, ?_⟩
  · have hrun : runJob (fuel + 1) w (.reaction (.spawnNext (.iterator i)) v d) = some
        { w with
          iters := setAt w.iters i ⟨(w.iters i).script, (w.iters i).history ++ [.next v]⟩,
          promises := setAt (setAt w.promises w.nextPromise (.fulfilled .undefined))
            (w.nextPromise + 1) (.pending []),
          nextPromise := w.nextPromise + 1 + 1,
          queue := w.queue ++ [Job.reaction (.spawnNext (.iterator i)) .undefined
            (w.nextPromise + 1), Job.resolveThenable d (w.nextPromise + 1)],
          log := w.log ++ [Event.step i v] } := by
      simp only [runJob, runHandler, next_succ, iterNext_iterator, hy, outcomeNext, nextBody,
        isGenerator, isIterator, isYieldableArray, List.all_nil, Bool.or_self, Bool.false_eq_true,
        if_false, if_true, arrayItems, parallel, List.foldl, promiseResolve, newPromise, isPromise,
        valueThen, promiseThen, setAt_apply, enqueue, resolvePromise_promise, hne, fed, List.map,
        List.append_assoc, List.singleton_append]
    refine ⟨_, hrun, by simp [setAt_apply], ?_, rfl, ?_⟩
    · have e1 : (w.nextPromise = w.nextPromise + 1) = False := by simp
      simp only [setAt_apply, e1, if_false, if_true]
    · intro f2 d2 W2 h2
      obtain ⟨ext, hext⟩ := spawnNext_job_steps f2 _ i .undefined d2 W2 (by exact hi) h2
      refine ⟨ext, ?_⟩
      rw [hext]
      simp [setAt_apply]
  · intro w2 j v2 items x hx h1 h2 h3 hy2
    have hya := isYieldableArray_of_plain_mem items x hx h1 h2 h3
    rw [next_succ, iterNext_iterator, hy2, outcomeNext]
    simp [nextBody, isGenerator, isIterator, isPromise, hya]

/-- C19, at `return yield []`, driven by `spawn`: after the first job the
computation has received `step(undefined)` only, and the job that resumes it
gives it `step(undefined)` again. -/
theorem empty_array_resumes_with_undefined_witness :
    ∃ W1, runJob 1 (oneTaskWorld emptyArrayScript (.pending []))
        (.reaction (.spawnNext (.iterator 0)) .undefined 0) = some W1 ∧
      (W1.iters 0).history = [.next .undefined] ∧
      W1.queue = [Job.reaction (.spawnNext (.iterator 0)) .undefined 2,
        Job.resolveThenable 0 2] ∧
      ∀ (f2 d2 : Nat) (W2 : World),
        runJob f2 W1 (.reaction (.spawnNext (.iterator 0)) .undefined d2) = some W2 →
        ∃ ext, (W2.iters 0).history = [.next .undefined, .next .undefined] ++ ext := by
  obtain ⟨_, _, ⟨W1, h1, h2, _, h4, h5⟩, _⟩ :=
    empty_array_resumes_with_undefined (oneTaskWorld emptyArrayScript (.pending [])) 0 0
      .undefined 0 (by decide) (by decide) rfl
  exact ⟨W1, h1, h2, h4, h5⟩

/-! ## `parallel` starts every task during the call -/

theorem firstStepJobs_append (a b : List Job) :
    firstStepJobs (a ++ b) = firstStepJobs a ++ firstStepJobs b := by
  simp [firstStepJobs, List.filterMap_append]

theorem valueThen_parallelTask_firstStep (w : World) (x task : Value) :
    firstStepJobs (valueThen w x (.parallelTask task) .thrower).1.queue = firstStepJobs w.queue ∧
    (valueThen w x (.parallelTask task) .thrower).1.iters = w.iters ∧
    (valueThen w x (.parallelTask task) .thrower).1.nextIter = w.nextIter ∧
    (valueThen w x (.parallelTask task) .thrower).1.log = w.log := by
  unfold valueThen
  split
  · unfold promiseThen
    simp only
    split <;> simp [enqueue, firstStepJobs, firstStepOf, List.filterMap_append]
  · exact ⟨rfl, rfl, rfl, rfl⟩

theorem spawn_firstStep (w : World) (v : Value) (hv : isPromise v = false) :
    firstStepJobs (spawn w v).1.queue = firstStepJobs w.queue ++ launched w.nextIter [v] ∧
    (spawn w v).1.nextIter = (if isGenerator v then w.nextIter + 1 else w.nextIter) ∧
    (∀ j, j < w.nextIter → (spawn w v).1.iters j = w.iters j) ∧
    (∀ j, w.nextIter ≤ j → j < (spawn w v).1.nextIter → ((spawn w v).1.iters j).history = []) := by
  cases v <;>
    simp_all [spawn, isGenerator, isPromise, instantiate, promiseResolve, newPromise, valueThen,
      promiseThen, setAt_apply, enqueue, firstStepJobs, firstStepOf, List.filterMap_append,
      launched]
  refine ⟨fun j hj h => by omega, fun j h1 h2 => ?_⟩
  have : j = w.nextIter := by omega
  simp [this]

theorem parallelStep_firstStep (acc : World × Value) (v : Value) :
    firstStepJobs (parallelStep acc v).1.queue =
      firstStepJobs acc.1.queue ++ launched acc.1.nextIter [v] ∧
    (parallelStep acc v).1.nextIter =
      (if isPromise v then acc.1.nextIter
        else if isGenerator v then acc.1.nextIter + 1 else acc.1.nextIter) ∧
    (∀ j, j < acc.1.nextIter → (parallelStep acc v).1.iters j = acc.1.iters j) ∧
    (∀ j, acc.1.nextIter ≤ j → j < (parallelStep acc v).1.nextIter →
      ((parallelStep acc v).1.iters j).history = []) := by
  unfold parallelStep
  simp only
  cases hv : isPromise v with
  | true =>
    obtain ⟨a1, a2, a3, _⟩ := valueThen_parallelTask_firstStep acc.1 acc.2 v
    simp only [if_true]
    refine ⟨by rw [a1]; simp [launched, hv], a3, fun j _ => by rw [a2], fun j h1 h2 => ?_⟩
    rw [a3] at h2
    omega
  | false =>
    obtain ⟨a1, a2, a3, _⟩ :=
      valueThen_parallelTask_firstStep (spawn acc.1 v).1 acc.2 (spawn acc.1 v).2
    obtain ⟨b1, b2, b3, b4⟩ := spawn_firstStep acc.1 v hv
    simp only [Bool.false_eq_true, if_false]
    refine ⟨by rw [a1, b1], by rw [a3, b2], fun j hj => by rw [a2]; exact b3 j hj,
      fun j h1 h2 => ?_⟩
    rw [a2]
    rw [a3] at h2
    exact b4 j h1 h2

theorem launched_cons (n : Nat) (v : Value) (vs : List Value) :
    launched n (v :: vs) = launched n [v] ++
      launched (if isPromise v then n else if isGenerator v then n + 1 else n) vs := by
  cases hp : isPromise v <;> cases hg : isGenerator v <;> simp [launched, hp, hg]

/-- When `parallel(arr)` returns, the first step of every task that is not a
promise is queued, in the order of the sequence, and no computation has been
stepped. -/
theorem foldl_parallelStep_firstStep (arr : List Value) :
    ∀ acc : World × Value,
      firstStepJobs (arr.foldl parallelStep acc).1.queue =
        firstStepJobs acc.1.queue ++ launched acc.1.nextIter arr ∧
      acc.1.nextIter ≤ (arr.foldl parallelStep acc).1.nextIter ∧
      (∀ j, j < acc.1.nextIter → (arr.foldl parallelStep acc).1.iters j = acc.1.iters j) ∧
      (∀ j, acc.1.nextIter ≤ j → j < (arr.foldl parallelStep acc).1.nextIter →
        ((arr.foldl parallelStep acc).1.iters j).history = []) := by
  induction arr with
  | nil =>
    intro acc
    exact ⟨by simp [launched], le_refl _, fun _ _ => rfl, fun j h1 h2 => by
      simp only [List.foldl] at h2; omega⟩
  | cons v arr ih =>
    intro acc
    obtain ⟨a1, a2, a3, a4⟩ := ih (parallelStep acc v)
    obtain ⟨b1, b2, b3, b4⟩ := parallelStep_firstStep acc v
    have hle : acc.1.nextIter ≤ (parallelStep acc v).1.nextIter := by
      rw [b2]; split_ifs <;> omega
    simp only [List.foldl]
    refine ⟨?_, le_trans hle a2, fun j hj => ?_, fun j h1 h2 => ?_⟩
    · rw [a1, b1, launched_cons acc.1.nextIter v arr, ← b2, List.append_assoc]
    · rw [a3 j (by omega), b3 j hj]
    · by_cases hj : j < (parallelStep acc v).1.nextIter
      · rw [a3 j hj]
        exact b4 j h1 hj
      · exact a4 j (by omega) h2

theorem promiseResolve_frame (w : World) (x : Value) :
    (promiseResolve w x).1.iters = w.iters ∧ (promiseResolve w x).1.nextIter = w.nextIter ∧
    (∀ q, q < w.nextPromise → (promiseResolve w x).1.promises q = w.promises q) := by
  unfold promiseResolve
  split
  · exact ⟨rfl, rfl, fun _ _ => rfl⟩
  · refine ⟨rfl, rfl, fun q hq => ?_⟩
    have : q ≠ w.nextPromise := by omega
    simp [newPromise, setAt_apply, this]

theorem rejectPromise_other (w : World) (p : Nat) (e : Value) (q : Nat) (h : q ≠ p) :
    (rejectPromise w p e).promises q = w.promises q := by
  unfold rejectPromise
  split <;> simp [setAt_apply, h]

theorem fulfillPromise_other (w : World) (p : Nat) (v : Value) (q : Nat) (h : q ≠ p) :
    (fulfillPromise w p v).promises q = w.promises q := by
  unfold fulfillPromise
  split <;> simp [setAt_apply, h]

theorem resolvePromise_other (w : World) (p : Nat) (x : Value) (q : Nat) (h : q ≠ p) :
    (resolvePromise w p x).promises q = w.promises q := by
  unfold resolvePromise
  split
  · split
    · exact rejectPromise_other _ _ _ _ h
    · rfl
  · exact fulfillPromise_other _ _ _ _ h

/-- The job that runs a computation which yields only plain values and then
returns or throws: the whole computation runs within the job, and nothing but
the computation and the promise of its driver is touched. -/
theorem plain_job (i : Nat) (t : Terminal) (ht : t.resumes = []) (vs : List Value) :
    ∀ (W0 : World) (v : Value) (d f : Nat),
      follows (W0.iters i).script ((W0.iters i).history ++ [.next v]) (vs.map Item.plain) t →
      (∀ x ∈ vs, isPlain x = true) → vs.length < f →
      ∃ W1, runJob f W0 (.reaction (.spawnNext (.iterator i)) v d) = some W1 ∧
        (W1.iters i).history = (W0.iters i).history ++ (v :: vs).map Resume.next ∧
        (∀ j, j ≠ i → W1.iters j = W0.iters j) ∧ W1.nextIter = W0.nextIter ∧
        (∀ q, q < W0.nextPromise → q ≠ d → W1.promises q = W0.promises q) := by
  induction vs with
  | nil =>
    intro W0 v d f hs _ hf
    obtain ⟨f, rfl⟩ : ∃ g, f = g + 1 := ⟨f - 1, by simp at hf; omega⟩
    simp only [List.map_nil] at hs
    cases t with
    | ret r =>
      simp only [follows] at hs
      refine ⟨resolvePromise (promiseResolve (fed W0 i [v]) r).1 d
          (promiseResolve (fed W0 i [v]) r).2,
        by simp only [runJob, runHandler, next_succ, iterNext_iterator, hs, outcomeNext,
          nextBody_done], ?_, ?_, ?_, ?_⟩
      · rw [(resolvePromise_iters _ _ _).1, (promiseResolve_frame _ _).1]
        simp [fed, setAt_apply]
      · intro j hj
        rw [(resolvePromise_iters _ _ _).1, (promiseResolve_frame _ _).1]
        simp [fed, setAt_apply, hj]
      · rw [(resolvePromise_iters _ _ _).2, (promiseResolve_frame _ _).2.1]
        rfl
      · intro q hq1 hq2
        rw [resolvePromise_other _ _ _ _ hq2, (promiseResolve_frame _ _).2.2 q (by simpa [fed] using hq1)]
        rfl
    | raise e =>
      simp only [follows] at hs
      refine ⟨rejectPromise (fed W0 i [v]) d e,
        by simp only [runJob, runHandler, next_succ, iterNext_iterator, hs, outcomeNext,
          nextBody_throw], ?_, ?_, ?_, ?_⟩
      · rw [(rejectPromise_iters _ _ _).1]
        simp [fed, setAt_apply]
      · intro j hj
        rw [(rejectPromise_iters _ _ _).1]
        simp [fed, setAt_apply, hj]
      · rw [(rejectPromise_iters _ _ _).2]
        rfl
      · intro q hq1 hq2
        rw [rejectPromise_other _ _ _ _ hq2]
        rfl
    | fail p e out => simp [Terminal.resumes] at ht
  | cons x xs ih =>
    intro W0 v d f hs hp hf
    obtain ⟨f, rfl⟩ : ∃ g, f = g + 1 := ⟨f - 1, by simp at hf; omega⟩
    obtain ⟨hs1, hs2⟩ := hs
    rw [runJob_plain i W0 v x d f hs1 (hp x (List.mem_cons_self _ _))]
    obtain ⟨W1, h1, h2, h3, h4, h5⟩ := ih (fed W0 i [v]) x d f (by simpa [fed] using hs2)
      (fun y hy => hp y (List.mem_cons_of_mem _ hy)) (by simp at hf; omega)
    refine ⟨W1, h1, by rw [h2]; simp [fed], ?_, h4, h5⟩
    intro j hj
    rw [h3 j hj]
    simp [fed, setAt_apply, hj]

theorem parallel_two_iterators (w : World) (i1 i2 : Nat) (hq : w.queue = []) :
    parallel w [.iterator i1, .iterator i2] =
      ({ w with
        promises := setAt (setAt (setAt (setAt (setAt (setAt (setAt (setAt w.promises
          w.nextPromise (.fulfilled .undefined))
          (w.nextPromise + 1) (.fulfilled .undefined))
          (w.nextPromise + 1 + 1) (.pending []))
          (w.nextPromise + 1 + 1 + 1) (.pending []))
          (w.nextPromise + 1 + 1 + 1 + 1) (.fulfilled .undefined))
          (w.nextPromise + 1 + 1 + 1 + 1 + 1) (.pending []))
          (w.nextPromise + 1 + 1 + 1 + 1 + 1 + 1) (.pending []))
          (w.nextPromise + 1 + 1 + 1)
          (.pending [⟨.parallelTask (.promise (w.nextPromise + 1 + 1 + 1 + 1 + 1)), .thrower,
            w.nextPromise + 1 + 1 + 1 + 1 + 1 + 1⟩]),
        nextPromise := w.nextPromise + 1 + 1 + 1 + 1 + 1 + 1 + 1,
        queue := [Job.reaction (.spawnNext (.iterator i1)) .undefined (w.nextPromise + 1 + 1),
          Job.reaction (.parallelTask (.promise (w.nextPromise + 1 + 1))) .undefined
            (w.nextPromise + 1 + 1 + 1),
          Job.reaction (.spawnNext (.iterator i2)) .undefined
            (w.nextPromise + 1 + 1 + 1 + 1 + 1)] },
        .promise (w.nextPromise + 1 + 1 + 1 + 1 + 1 + 1)) := by
  simp only [parallel, List.foldl, parallelStep, isPromise, Bool.false_eq_true, if_false,
    spawn_iterator, promiseResolve, newPromise, valueThen, promiseThen, setAt_apply, if_true,
    enqueue, hq, List.nil_append, ne_succ1, succ1_ne, ne_succ2, succ2_ne, ne_succ3, succ3_ne,
    List.append_assoc, List.singleton_append, List.cons_append]

theorem tick_await_pending (fuel : Nat) (W : World) (i p d : Nat) (v : Value)
    (rs : List Reaction) (rest : List Job)
    (hq : W.queue = Job.reaction (.spawnNext (.iterator i)) v d :: rest)
    (hy : (W.iters i).script ((W.iters i).history ++ [.next v]) = .yield (.promise p))
    (hp : p < W.nextPromise) (hP : W.promises p = .pending rs) (hd : d < W.nextPromise) :
    tick (fuel + 1) W = some { W with
      iters := setAt W.iters i ⟨(W.iters i).script, (W.iters i).history ++ [.next v]⟩,
      promises := setAt (setAt W.promises W.nextPromise (.pending [])) p
        (.pending (rs ++ [⟨.spawnNext (.iterator i), .itThrow (.iterator i), W.nextPromise⟩])),
      nextPromise := W.nextPromise + 1,
      queue := rest ++ [Job.resolveThenable d W.nextPromise],
      log := W.log ++ [Event.step i v] } := by
  have hne : (W.nextPromise = d) = False := by simp; omega
  simp only [tick, hq, runJob, runHandler, next_succ, iterNext_iterator, hy, outcomeNext,
    nextBody_promise, promiseThen, fed, hP, List.map, resolvePromise_promise, hne, if_false,
    enqueue]

theorem tick_parallelTask_cons (fuel : Nat) (W : World) (t : Nat) (v : Value) (c : Nat)
    (rest : List Job)
    (hq : W.queue = Job.reaction (.parallelTask (.promise t)) v c :: rest) (hne : t ≠ c) :
    tick fuel W = some { W with queue := rest ++ [Job.resolveThenable c t] } := by
  simp only [tick, hq, runJob, runHandler, resolvePromise_promise, hne, if_false, enqueue]

/-- C11: `parallel` hands every task that is not a promise to the driver during
the call.  First part, for every store and every sequence: when `parallel(arr)`
returns, the first step of each such task is queued, in the order of the
sequence (a generator function has been instantiated), and no computation has
been stepped yet.  Second part, `parallel([it1, it2])` where `it1` awaits the
pending promise `p` at once and `it2` yields only plain values and then returns
or throws: the queue holds the first step of `it1`, the chain job and the first
step of `it2`; after three jobs `it2` has received its first step and all its
later steps, while `it1` has only received its first step and its continuation
still waits on the pending promise `p`. -/
theorem parallel_starts_tasks_eagerly (w : World) (i1 i2 p : Nat) (rs : List Reaction)
    (vs : List Value) (t : Terminal) (fuel : Nat)
    (hq : w.queue = []) (hne : i1 ≠ i2) (hp : p < w.nextPromise)
    (hP : w.promises p = .pending rs)
    (hy : (w.iters i1).script ((w.iters i1).history ++ [.next .undefined]) = .yield (.promise p))
    (hs : follows (w.iters i2).script ((w.iters i2).history ++ [.next .undefined])
      (vs.map Item.plain) t)
    (ht : t.resumes = []) (hpl : ∀ x ∈ vs, isPlain x = true) (hf : vs.length < fuel) :
    (∀ (w0 : World) (arr : List Value),
      firstStepJobs (parallel w0 arr).1.queue = firstStepJobs w0.queue ++ launched w0.nextIter arr ∧
      (∀ j, j < w0.nextIter → (parallel w0 arr).1.iters j = w0.iters j) ∧
      (∀ j, w0.nextIter ≤ j → j < (parallel w0 arr).1.nextIter →
        ((parallel w0 arr).1.iters j).history = [])) ∧
    (parallel w [.iterator i1, .iterator i2]).1.queue =
      [Job.reaction (.spawnNext (.iterator i1)) .undefined (w.nextPromise + 2),
        Job.reaction (.parallelTask (.promise (w.nextPromise + 2))) .undefined
          (w.nextPromise + 3),
        Job.reaction (.spawnNext (.iterator i2)) .undefined (w.nextPromise + 5)] ∧
    (parallel w [.iterator i1, .iterator i2]).1.iters = w.iters ∧
    ∃ W3, drain fuel 3 (parallel w [.iterator i1, .iterator i2]).1 = some W3 ∧
      (W3.iters i2).history =
        (w.iters i2).history ++ (Value.undefined :: vs).map Resume.next ∧
      (W3.iters i1).history = (w.iters i1).history ++ [.next .undefined] ∧
      W3.promises p = .pending (rs ++
        [⟨.spawnNext (.iterator i1), .itThrow (.iterator i1), w.nextPromise + 7⟩]) := by
  refine ⟨fun w0 arr => ?_, by rw [parallel_two_iterators w i1 i2 hq],
    by rw [parallel_two_iterators w i1 i2 hq], ?_⟩
  · obtain ⟨a1, _, a3, a4⟩ := foldl_parallelStep_firstStep arr (promiseResolve w0 .undefined)
    exact ⟨a1, a3, a4⟩
  · obtain ⟨f, rfl⟩ : ∃ g, fuel = g + 1 := ⟨fuel - 1, by omega⟩
    rw [parallel_two_iterators w i1 i2 hq]
    simp only
    have e0 := eq_false_of_lt0 hp
    have e1 := eq_false_of_lt1 hp
    have e2 := eq_false_of_lt2 hp
    have e3 := eq_false_of_lt3 hp
    have e4 : (p = w.nextPromise + 1 + 1 + 1 + 1) = False := by simp; omega
    have e5 : (p = w.nextPromise + 1 + 1 + 1 + 1 + 1) = False := by simp; omega
    have e6 : (p = w.nextPromise + 1 + 1 + 1 + 1 + 1 + 1) = False := by simp; omega
    have e7 : (p = w.nextPromise + 1 + 1 + 1 + 1 + 1 + 1 + 1) = False := by simp; omega
    have h1 := tick_await_pending f
      { w with
        promises := setAt (setAt (setAt (setAt (setAt (setAt (setAt (setAt w.promises
          w.nextPromise (.fulfilled .undefined))
          (w.nextPromise + 1) (.fulfilled .undefined))
          (w.nextPromise + 1 + 1) (.pending []))
          (w.nextPromise + 1 + 1 + 1) (.pending []))
          (w.nextPromise + 1 + 1 + 1 + 1) (.fulfilled .undefined))
          (w.nextPromise + 1 + 1 + 1 + 1 + 1) (.pending []))
          (w.nextPromise + 1 + 1 + 1 + 1 + 1 + 1) (.pending []))
          (w.nextPromise + 1 + 1 + 1)
          (.pending [⟨.parallelTask (.promise (w.nextPromise + 1 + 1 + 1 + 1 + 1)), .thrower,
            w.nextPromise + 1 + 1 + 1 + 1 + 1 + 1⟩]),
        nextPromise := w.nextPromise + 1 + 1 + 1 + 1 + 1 + 1 + 1,
        queue := [Job.reaction (.spawnNext (.iterator i1)) .undefined (w.nextPromise + 1 + 1),
          Job.reaction (.parallelTask (.promise (w.nextPromise + 1 + 1))) .undefined
            (w.nextPromise + 1 + 1 + 1),
          Job.reaction (.spawnNext (.iterator i2)) .undefined
            (w.nextPromise + 1 + 1 + 1 + 1 + 1)] }
      i1 p (w.nextPromise + 1 + 1) .undefined rs _ rfl hy (by simp only; omega)
      (by simp only [setAt_apply, e0, e1, e2, e3, e4, e5, e6, if_false]; exact hP)
      (by simp only; omega)
    simp only [List.cons_append, List.nil_append] at h1
    have h2 : ∃ W2, drain (f + 1) 2
        { w with
          promises := setAt (setAt (setAt (setAt (setAt (setAt (setAt (setAt w.promises
            w.nextPromise (.fulfilled .undefined))
            (w.nextPromise + 1) (.fulfilled .undefined))
            (w.nextPromise + 1 + 1) (.pending []))
            (w.nextPromise + 1 + 1 + 1) (.pending []))
            (w.nextPromise + 1 + 1 + 1 + 1) (.fulfilled .undefined))
            (w.nextPromise + 1 + 1 + 1 + 1 + 1) (.pending []))
            (w.nextPromise + 1 + 1 + 1 + 1 + 1 + 1) (.pending []))
            (w.nextPromise + 1 + 1 + 1)
            (.pending [⟨.parallelTask (.promise (w.nextPromise + 1 + 1 + 1 + 1 + 1)), .thrower,
              w.nextPromise + 1 + 1 + 1 + 1 + 1 + 1⟩]),
          nextPromise := w.nextPromise + 1 + 1 + 1 + 1 + 1 + 1 + 1,
          queue := [Job.reaction (.spawnNext (.iterator i1)) .undefined (w.nextPromise + 1 + 1),
            Job.reaction (.parallelTask (.promise (w.nextPromise + 1 + 1))) .undefined
              (w.nextPromise + 1 + 1 + 1),
            Job.reaction (.spawnNext (.iterator i2)) .undefined
              (w.nextPromise + 1 + 1 + 1 + 1 + 1)] } = some W2 ∧
        (∃ rest, W2.queue = Job.reaction (.spawnNext (.iterator i2)) .undefined
          (w.nextPromise + 1 + 1 + 1 + 1 + 1) :: rest) ∧
        W2.iters = setAt w.iters i1 ⟨(w.iters i1).script,
          (w.iters i1).history ++ [.next .undefined]⟩ ∧
        W2.nextPromise = w.nextPromise + 1 + 1 + 1 + 1 + 1 + 1 + 1 + 1 ∧
        W2.promises p = .pending (rs ++
          [⟨.spawnNext (.iterator i1), .itThrow (.iterator i1), w.nextPromise + 7⟩]) := by
      rw [drain_succ, h1, Option.some_bind, drain_succ,
        tick_parallelTask_cons (f + 1) _ (w.nextPromise + 1 + 1) .undefined
          (w.nextPromise + 1 + 1 + 1) _ rfl (by omega),
        Option.some_bind]
      refine ⟨_, by rfl, ⟨_, by rfl⟩, by rfl, by rfl, ?_⟩
      simp only [setAt_apply, if_true]
    obtain ⟨W2, hW2, ⟨rest, hq2⟩, hit2, hnp2, hp2⟩ := h2
    have hs2 : follows (({ W2 with queue := rest } : World).iters i2).script
        ((({ W2 with queue := rest } : World).iters i2).history ++ [.next .undefined])
        (vs.map Item.plain) t := by
      simp only [hit2, setAt_apply, Ne.symm hne, if_false]
      exact hs
    obtain ⟨W3, k1, k2, k3, _, k5⟩ := plain_job i2 t ht vs { W2 with queue := rest } .undefined
      (w.nextPromise + 1 + 1 + 1 + 1 + 1) (f + 1) hs2 hpl hf
    simp only at k2 k3 k5
    refine ⟨W3, ?_, ?_, ?_, ?_⟩
    · rw [show (3 : Nat) = 1 + 2 from rfl, drain_add, hW2, Option.some_bind, drain_succ,
        tick_cons (f + 1) W2 _ _ hq2, k1]
      rfl
    · rw [k2, hit2]
      simp only [setAt_apply, Ne.symm hne, if_false]
    · rw [k3 i1 hne, hit2]
      simp only [setAt_apply, if_true]
    · rw [k5 p (by rw [hnp2]; omega) (by omega), hp2]

/-- C11, at a first task that awaits the pending promise 0 and a second task
that yields 1, yields 2 and returns 3: after three jobs the second task has run
to its end while the first still waits. -/
theorem parallel_starts_tasks_eagerly_witness :
    ∃ W3, drain 3 3 (parallel
        { twoTaskWorld escapeScript countScript with nextPromise := 1 }
        [.iterator 0, .iterator 1]).1 = some W3 ∧
      (W3.iters 1).history = [.next .undefined, .next (.num 1), .next (.num 2)] ∧
      (W3.iters 0).history = [.next .undefined] ∧
      W3.promises 0 =
        .pending [⟨.spawnNext (.iterator 0), .itThrow (.iterator 0), 8⟩] := by
  obtain ⟨_, _, _, W3, h1, h2, h3, h4⟩ :=
    parallel_starts_tasks_eagerly { twoTaskWorld escapeScript countScript with nextPromise := 1 }
      0 1 0 [] [.num 1, .num 2] (.ret (.num 3)) 3 rfl (by decide) (by decide) rfl rfl
      ⟨rfl, rfl, rfl⟩ rfl (by intro v hv; simp at hv; rcases hv with rfl | rfl <;> rfl)
      (by decide)
  exact ⟨W3, h1, h2, h3, h4⟩

/-! ## Resolving a promise with a promise -/

theorem drain_two (fuel : Nat) (w w1 w2 : World) (h1 : tick fuel w = some w1)
    (h2 : tick fuel w1 = some w2) : drain fuel 2 w = some w2 := by
  rw [drain_succ, h1, Option.some_bind, drain_succ, h2]
  rfl

/-- A promise resolved with the promise `t` follows it: two jobs after
`resolve(t)` it is settled as `t` is, and while `t` is pending it stays
pending.  The jobs touch no computation. -/
theorem resolve_follows (fuel : Nat) (w : World) (p t : Nat) (rs : List Reaction)
    (hq : w.queue = []) (hp : w.promises p = .pending rs) (hpn : p < w.nextPromise)
    (htp : t ≠ p) :
    resolvePromise w p (.promise t) = enqueue w [Job.resolveThenable p t] ∧
    (∀ e, w.promises t = .rejected e →
      ∃ w', drain fuel 2 (resolvePromise w p (.promise t)) = some w' ∧
        w'.promises p = .rejected e ∧ w'.iters = w.iters ∧ w'.nextIter = w.nextIter) ∧
    (∀ x, w.promises t = .fulfilled x → isPromise x = false →
      ∃ w', drain fuel 2 (resolvePromise w p (.promise t)) = some w' ∧
        w'.promises p = .fulfilled x ∧ w'.iters = w.iters ∧ w'.nextIter = w.nextIter) ∧
    (∀ rt, w.promises t = .pending rt →
      ∃ w', drain fuel 1 (resolvePromise w p (.promise t)) = some w' ∧ w'.queue = [] ∧
        (w'.promises p).isSettled = false ∧ w'.iters = w.iters ∧ w'.nextIter = w.nextIter) := by
  have hres : resolvePromise w p (.promise t) = enqueue w [Job.resolveThenable p t] := by
    rw [resolvePromise_promise, if_neg htp]
  have hne : w.nextPromise ≠ p := by omega
  have hne' : p ≠ w.nextPromise := by omega
  have hqe : (enqueue w [Job.resolveThenable p t]).queue = [Job.resolveThenable p t] := by
    simp [enqueue, hq]
  refine ⟨hres, ?_, ?_, ?_⟩
  · intro e ht
    obtain ⟨W1, hW1, hq1, hp1, htau1, hi1, hn1⟩ : ∃ W1,
        tick fuel (enqueue w [Job.resolveThenable p t]) = some W1 ∧
        W1.queue = [Job.reaction (.rejectFn p) e w.nextPromise] ∧
        W1.promises p = .pending rs ∧ W1.promises w.nextPromise = .pending [] ∧
        W1.iters = w.iters ∧ W1.nextIter = w.nextIter :=
      ⟨_, tick_adopt_rejected fuel (enqueue w [Job.resolveThenable p t]) p t e hqe ht, rfl,
        by simp [enqueue, setAt_apply, hne', hp], by simp [enqueue, setAt_apply], rfl, rfl⟩
    rw [hres]
    exact ⟨_, drain_two fuel _ _ _ hW1 (tick_rejectFn fuel W1 e p w.nextPromise rs hq1 hp1 htau1 hne),
      by simp [setAt_apply, hne'], hi1, hn1⟩
  · intro x ht hx
    obtain ⟨W1, hW1, hq1, hp1, htau1, hi1, hn1⟩ : ∃ W1,
        tick fuel (enqueue w [Job.resolveThenable p t]) = some W1 ∧
        W1.queue = [Job.reaction (.resolveFn p) x w.nextPromise] ∧
        W1.promises p = .pending rs ∧ W1.promises w.nextPromise = .pending [] ∧
        W1.iters = w.iters ∧ W1.nextIter = w.nextIter :=
      ⟨_, tick_adopt_fulfilled fuel (enqueue w [Job.resolveThenable p t]) p t x hqe ht, rfl,
        by simp [enqueue, setAt_apply, hne', hp], by simp [enqueue, setAt_apply], rfl, rfl⟩
    rw [hres]
    exact ⟨_, drain_two fuel _ _ _ hW1
      (tick_resolveFn fuel W1 x p w.nextPromise rs hq1 hx hp1 htau1 hne),
      by simp [setAt_apply, hne'], hi1, hn1⟩
  · intro rt ht
    rw [hres, drain_succ,
      tick_adopt_pending fuel (enqueue w [Job.resolveThenable p t]) p t rt hqe ht]
    refine ⟨_, rfl, rfl, ?_, rfl, rfl⟩
    simp only [enqueue, setAt_apply]
    split
    · rfl
    · rw [hp]; rfl

/-! ## `main`: claims -/

/-- C16 (the code at failing inputs): `main` on a generator function whose body
throws `null`, or `undefined`, at once.  The promise of `spawn` (promise 1) is
rejected with the thrown value, the rejection handler of `main` evaluates
`err.stack` on it and throws a `TypeError`, and the promise returned by `main`
(promise 2) is rejected with that `TypeError`.  For comparison: when the body
throws the error `boom`, the handler logs it and the promise of `main` is
fulfilled with `undefined`; when the body returns 7, it is fulfilled with 7. -/
theorem main_rejects_on_null_failure :
    (main (oneGenWorld (fun _ => .raise .null)) (.generator 0)).2 = .promise 2 ∧
    (drain 1 2 (main (oneGenWorld (fun _ => .raise .null)) (.generator 0)).1).map
        (fun W => (W.promises 1, W.promises 2, W.queue)) =
      some (.rejected .null, .rejected typeError, []) ∧
    (drain 1 2 (main (oneGenWorld (fun _ => .raise .undefined)) (.generator 0)).1).map
        (fun W => (W.promises 1, W.promises 2, W.queue)) =
      some (.rejected .undefined, .rejected typeError, []) ∧
    (drain 1 2 (main (oneGenWorld (fun _ => .raise (.error "boom"))) (.generator 0)).1).map
        (fun W => (W.promises 1, W.promises 2, W.queue)) =
      some (.rejected (.error "boom"), .fulfilled .undefined, []) ∧
    (drain 1 4 (main (oneGenWorld (fun _ => .ret (.num 7))) (.generator 0)).1).map
        (fun W => (W.promises 1, W.promises 2, W.queue)) =
      some (.fulfilled (.num 7), .fulfilled (.num 7), []) :=
  ⟨rfl, rfl, rfl, rfl, rfl⟩

/-! ## Callback adapter -/

theorem copyArguments_upto (xs : List Value) :
    ∀ k, k ≤ xs.length →
      (List.range k).foldl (fun args i => args.set i (Arg.val (xs.getD i .undefined)))
        (List.replicate (xs.length + 1) Arg.hole) =
      (xs.take k).map Arg.val ++ List.replicate (xs.length + 1 - k) Arg.hole := by
  intro k
  induction k with
  | zero => intro _; simp
  | succ k ih =>
    intro hk
    rw [List.range_succ, List.foldl_append, ih (by omega)]
    simp only [List.foldl]
    have hlen : ((xs.take k).map Arg.val).length = k := by simp; omega
    rw [List.set_append, hlen, if_neg (by omega), Nat.sub_self]
    obtain ⟨m, hm⟩ : ∃ m, xs.length + 1 - k = m + 1 := ⟨xs.length - k, by omega⟩
    rw [hm, List.replicate_succ, List.set_cons_zero,
      show xs.length + 1 - (k + 1) = m by omega]
    have hk' : k < xs.length := by omega
    rw [List.take_succ, List.map_append, List.append_assoc]
    simp [List.getD_eq_getElem?_getD, List.getElem?_eq_getElem hk']

theorem copyArguments_eq (xs : List Value) :
    copyArguments xs = xs.map Arg.val ++ [Arg.hole] := by
  unfold copyArguments
  rw [copyArguments_upto xs xs.length (le_refl _)]
  simp

theorem callArgs_eq (xs : List Value) (p : Nat) :
    (copyArguments xs).set xs.length (Arg.callback p) = xs.map Arg.val ++ [Arg.callback p] := by
  rw [copyArguments_eq, List.set_append]
  simp

theorem resolveFunction_calls (s : Adapter) (p : Nat) (x : Value) :
    (resolveFunction s p x).calls = s.calls := by
  unfold resolveFunction; split <;> rfl

theorem rejectFunction_calls (s : Adapter) (p : Nat) (e : Value) :
    (rejectFunction s p e).calls = s.calls := by
  unfold rejectFunction; split <;> rfl

theorem completion_calls (s : Adapter) (p : Nat) (err result : Value) :
    (completion s p err result).calls = s.calls := by
  unfold completion
  split
  · exact resolveFunction_calls _ _ _
  · split
    · exact rejectFunction_calls _ _ _
    · exact resolveFunction_calls _ _ _

theorem deliver_calls (s : Adapter) (args : List Arg) (c : Value × Value) :
    (deliver s args c).calls = s.calls := by
  unfold deliver
  split
  · exact completion_calls _ _ _ _
  · rfl

theorem foldl_deliver_calls (args : List Arg) (cs : List (Value × Value)) :
    ∀ s : Adapter, (cs.foldl (fun s c => deliver s args c) s).calls = s.calls := by
  induction cs with
  | nil => intro s; rfl
  | cons c cs ih =>
    intro s
    simp only [List.foldl]
    rw [ih, deliver_calls]

theorem applyFn_calls (s : Adapter) (fn : CallbackFn) (call : FnCall) :
    (applyFn s fn call).1.calls = s.calls ++ [call] := by
  unfold applyFn
  split <;> exact foldl_deliver_calls _ _ _

/-- C14: one call of the wrapper `promisify(fn)` with receiver `that` and
arguments `a1, ..., an` enters `fn` exactly once: the calls of `fn` recorded by
`fn.apply` grow by exactly one call, with the same receiver and with `n + 1`
arguments, `a1, ..., an` in their order followed by the completion callback of
the promise that the wrapper returns. -/
theorem promisify_calls_fn_once (fn : CallbackFn) (s : Adapter) (that : Value)
    (arguments : List Value) :
    (promisify fn s that arguments).1.calls =
      s.calls ++ [⟨that, arguments.map Arg.val ++ [Arg.callback s.world.nextPromise]⟩] ∧
    (promisify fn s that arguments).2 = .promise s.world.nextPromise ∧
    (arguments.map Arg.val ++ [Arg.callback s.world.nextPromise]).length =
      arguments.length + 1 ∧
    (∀ i (h : i < arguments.length),
      (arguments.map Arg.val ++ [Arg.callback s.world.nextPromise])[i]? =
        some (Arg.val arguments[i])) ∧
    (arguments.map Arg.val ++ [Arg.callback s.world.nextPromise]).getLast? =
      some (Arg.callback s.world.nextPromise) := by
  refine ⟨?_, ?_, by simp, ?_, by simp⟩
  · simp only [promisify, callArgs_eq]
    split
    · rw [rejectFunction_calls, applyFn_calls]; rfl
    · rw [applyFn_calls]; rfl
  · simp only [promisify]
    split <;> rfl
  · intro i h
    rw [List.getElem?_append_left (by simpa using h)]
    simp [h]

/-- C14, at the call `promisify(fn).call(1, 2, 3)` of a function that calls the
callback twice and then throws: one call of `fn` is recorded. -/
theorem promisify_calls_fn_once_witness :
    (promisify (fun _ => ⟨[(.null, .num 1), (.null, .num 2)], some (.error "late")⟩)
        ⟨emptyWorld, fun _ => false, []⟩ (.num 1) [.num 2, .num 3]).1.calls =
      [⟨.num 1, [.val (.num 2), .val (.num 3), .callback 0]⟩] :=
  (promisify_calls_fn_once (fun _ => ⟨[(.null, .num 1), (.null, .num 2)], some (.error "late")⟩)
    ⟨emptyWorld, fun _ => false, []⟩ (.num 1) [.num 2, .num 3]).1

theorem resolveFunction_locked (s : Adapter) (p : Nat) (x : Value) (h : s.resolved p = true) :
    resolveFunction s p x = s := by
  simp [resolveFunction, h]

theorem rejectFunction_locked (s : Adapter) (p : Nat) (e : Value) (h : s.resolved p = true) :
    rejectFunction s p e = s := by
  simp [rejectFunction, h]

/-- A call of the completion callback after `resolve` or `reject` has been
called is ignored. -/
theorem completion_locked (s : Adapter) (p : Nat) (err result : Value)
    (h : s.resolved p = true) : completion s p err result = s := by
  unfold completion
  split
  · exact resolveFunction_locked s p _ h
  · split
    · exact rejectFunction_locked s p _ h
    · exact resolveFunction_locked s p _ h

/-- Every call of the completion callback leaves the resolving functions
used. -/
theorem completion_locks (s : Adapter) (p : Nat) (err result : Value) :
    (completion s p err result).resolved p = true := by
  by_cases h : s.resolved p = true
  · rw [completion_locked s p err result h]; exact h
  · simp only [completion, resolveFunction, rejectFunction, h]
    split
    · simp [setAt_apply]
    · split <;> simp [setAt_apply]

theorem completion_again (s : Adapter) (p : Nat) (err result err2 result2 : Value) :
    completion (completion s p err result) p err2 result2 = completion s p err result :=
  completion_locked _ p err2 result2 (completion_locks s p err result)

theorem foldl_deliver_locked (args : List Arg) (p : Nat)
    (hargs : args.getLast? = some (.callback p)) (cs : List (Value × Value)) (s : Adapter)
    (h : s.resolved p = true) : cs.foldl (fun s c => deliver s args c) s = s := by
  induction cs with
  | nil => rfl
  | cons c cs ih =>
    simp only [List.foldl]
    have h1 : deliver s args c = s := by
      simp only [deliver, hargs]
      exact completion_locked s p c.1 c.2 h
    rw [h1, ih]

theorem fulfillPromise_pending (w : World) (p : Nat) (rs : List Reaction) (v : Value)
    (h : w.promises p = .pending rs) : (fulfillPromise w p v).promises p = .fulfilled v := by
  simp [fulfillPromise, h, setAt_apply]

theorem rejectPromise_pending (w : World) (p : Nat) (rs : List Reaction) (e : Value)
    (h : w.promises p = .pending rs) : (rejectPromise w p e).promises p = .rejected e := by
  simp [rejectPromise, h, setAt_apply]

/-- The store after the first call of the completion callback. -/
theorem completion_world (s : Adapter) (p : Nat) (err result : Value)
    (hl : s.resolved p = false) :
    (completion s p err result).world =
      (if isErrorAnachronism err then resolvePromise s.world p err
        else if truthy err then rejectPromise s.world p err
        else resolvePromise s.world p result) := by
  simp only [completion, resolveFunction, rejectFunction, hl]
  split
  · rfl
  · split <;> rfl

/-- The state of the promise after the first call of the completion callback,
for an `err` and a `result` that are not promises themselves. -/
theorem completion_first (s : Adapter) (p : Nat) (rs : List Reaction) (err result : Value)
    (hp : s.world.promises p = .pending rs) (hl : s.resolved p = false)
    (h1 : isPromise err = false) (h2 : isPromise result = false) :
    (completion s p err result).world.promises p =
      (if isErrorAnachronism err then .fulfilled err
        else if truthy err then .rejected err else .fulfilled result) := by
  rw [completion_world s p err result hl]
  split
  · rw [resolvePromise_plain _ _ _ h1, fulfillPromise_pending _ p rs err hp]
  · split
    · exact rejectPromise_pending _ p rs err hp
    · rw [resolvePromise_plain _ _ _ h2, fulfillPromise_pending _ p rs result hp]

theorem entered_pending (s : Adapter) (that : Value) (arguments : List Value) :
    (entered s that arguments).world.promises s.world.nextPromise = .pending [] ∧
    (entered s that arguments).resolved s.world.nextPromise = false := by
  simp [entered, newPromise, setAt_apply]

/-- The wrapper, when the adapted function calls the completion callback
before it returns: the first call decides; the later calls and a later throw
change nothing. -/
theorem promisify_sync (fn : CallbackFn) (s : Adapter) (that : Value) (arguments : List Value)
    (err result : Value) (more : List (Value × Value)) (thrown : Option Value)
    (hfn : fn ⟨that, arguments.map Arg.val ++ [Arg.callback s.world.nextPromise]⟩ =
      ⟨(err, result) :: more, thrown⟩) :
    (promisify fn s that arguments).1 =
      completion (entered s that arguments) s.world.nextPromise err result := by
  have hl := completion_locks (entered s that arguments) s.world.nextPromise err result
  have hfold := foldl_deliver_locked (arguments.map Arg.val ++ [Arg.callback s.world.nextPromise])
    s.world.nextPromise (by simp) more _ hl
  have hdel : deliver (entered s that arguments)
      (arguments.map Arg.val ++ [Arg.callback s.world.nextPromise]) (err, result) =
      completion (entered s that arguments) s.world.nextPromise err result := by
    simp [deliver]
  simp only [promisify, callArgs_eq, applyFn, newCapability]
  have hnp : (newPromise s.world (.pending [])).2 = s.world.nextPromise := rfl
  rw [hnp, hfn]
  have he : (Adapter.mk (newPromise s.world (.pending [])).1
      (setAt s.resolved s.world.nextPromise false)
      (s.calls ++ [FnCall.mk that (arguments.map Arg.val ++ [Arg.callback s.world.nextPromise])])) =
      entered s that arguments := rfl
  cases thrown with
  | none =>
    simp only [List.foldl, he, hdel, hfold]
  | some e =>
    simp only [List.foldl, he, hdel, hfold]
    exact rejectFunction_locked _ _ e hl

/-- The wrapper, when the adapted function returns without having called the
completion callback: the promise is pending, holds no continuation, and its
resolving functions are unused. -/
theorem promisify_async (fn : CallbackFn) (s : Adapter) (that : Value) (arguments : List Value)
    (hfn : fn ⟨that, arguments.map Arg.val ++ [Arg.callback s.world.nextPromise]⟩ = ⟨[], none⟩) :
    (promisify fn s that arguments).1 = entered s that arguments := by
  simp only [promisify, callArgs_eq, applyFn, newCapability]
  have hnp : (newPromise s.world (.pending [])).2 = s.world.nextPromise := rfl
  rw [hnp, hfn]
  rfl

/-! ## Callback adapter: claims -/

theorem completion_anachronism (s : Adapter) (p : Nat) (rs : List Reaction) (err result : Value)
    (hp : s.world.promises p = .pending rs) (hl : s.resolved p = false)
    (ha : isErrorAnachronism err = true) (h1 : isPromise err = false) :
    (completion s p err result).world.promises p = .fulfilled err := by
  rw [completion_world s p err result hl, if_pos ha, resolvePromise_plain _ _ _ h1]
  exact fulfillPromise_pending _ p rs err hp

/-- C12, refuted: the adapted function calls `callback(p, undefined)` where `p`
(promise 0) is a promise that is rejected with `boom`.  The first argument is
truthy, not a string and not an instance of the error type, and the promise of
the wrapper (promise 1) is rejected with `boom`, not fulfilled with `p`. -/
theorem rejected_promise_in_error_slot_rejects :
    truthy (.promise 0) = true ∧ isErrorAnachronism (.promise 0) = true ∧
    (promisify (fun _ => ⟨[(.promise 0, .undefined)], none⟩)
      ⟨oneTaskWorld sevenScript (.rejected (.error "boom")), fun _ => false, []⟩
      .undefined []).2 = .promise 1 ∧
    (drain 1 2 (promisify (fun _ => ⟨[(.promise 0, .undefined)], none⟩)
      ⟨oneTaskWorld sevenScript (.rejected (.error "boom")), fun _ => false, []⟩
      .undefined []).1.world).map (fun w => (w.promises 1, w.queue)) =
      some (.rejected (.error "boom"), []) :=
  ⟨rfl, rfl, rfl, rfl⟩

/-- C12, amended: the completion callback is first called with `(err, result)`,
where `err` is truthy, not a string and not an instance of the error type.  If
`err` is not a promise, the promise of the wrapper is fulfilled with `err`,
whatever `result` is.  Second part: no later call of the callback changes
anything.  Third part: the same through the wrapper, when the adapted function
calls the callback before it returns (whatever it does afterwards, a throw
included).  Last part: an `err` that is itself a promise `t` is handed to
`resolve`, and the promise of the wrapper follows `t`: it is rejected when `t`
is rejected, fulfilled with the value of `t` when `t` is fulfilled, and pending
while `t` is pending. -/
theorem truthy_non_error_fulfils (s : Adapter) (p : Nat) (rs : List Reaction)
    (err result : Value)
    (hp : s.world.promises p = .pending rs) (hl : s.resolved p = false)
    (ht : truthy err = true) (hs : ∀ x, err ≠ .str x) (he : ∀ m, err ≠ .error m) :
    (isPromise err = false → (completion s p err result).world.promises p = .fulfilled err) ∧
    (∀ err2 result2,
      completion (completion s p err result) p err2 result2 = completion s p err result) ∧
    (∀ (fn : CallbackFn) (s0 : Adapter) (that : Value) (arguments : List Value)
      (more : List (Value × Value)) (thrown : Option Value),
      fn ⟨that, arguments.map Arg.val ++ [Arg.callback s0.world.nextPromise]⟩ =
        ⟨(err, result) :: more, thrown⟩ → isPromise err = false →
      (promisify fn s0 that arguments).1.world.promises s0.world.nextPromise = .fulfilled err) ∧
    (∀ (t fuel : Nat), err = .promise t → t ≠ p → s.world.queue = [] → p < s.world.nextPromise →
      (completion s p err result).world = enqueue s.world [Job.resolveThenable p t] ∧
      (∀ e, s.world.promises t = .rejected e →
        ∃ w', drain fuel 2 (completion s p err result).world = some w' ∧
          w'.promises p = .rejected e) ∧
      (∀ x, s.world.promises t = .fulfilled x → isPromise x = false →
        ∃ w', drain fuel 2 (completion s p err result).world = some w' ∧
          w'.promises p = .fulfilled x) ∧
      (∀ rt, s.world.promises t = .pending rt →
        ∃ w', drain fuel 1 (completion s p err result).world = some w' ∧ w'.queue = [] ∧
          (w'.promises p).isSettled = false)) := by
  have ha : isErrorAnachronism err = true := by
    cases err <;> simp_all [isErrorAnachronism, truthy]
  refine ⟨fun hth => completion_anachronism s p rs err result hp hl ha hth,
    fun err2 result2 => completion_again s p err result err2 result2, ?_, ?_⟩
  · intro fn s0 that arguments more thrown hfn hth
    rw [promisify_sync fn s0 that arguments err result more thrown hfn]
    exact completion_anachronism _ _ [] err result (entered_pending s0 that arguments).1
      (entered_pending s0 that arguments).2 ha hth
  · intro t fuel hte htp hq hpn
    have hw : (completion s p err result).world = resolvePromise s.world p (.promise t) := by
      rw [completion_world s p err result hl, if_pos ha, hte]
    rw [hw]
    obtain ⟨h0, h1, h2, h3⟩ := resolve_follows fuel s.world p t rs hq hp hpn htp
    refine ⟨h0, fun e he1 => ?_, fun x hx1 hx2 => ?_, fun rt hrt => ?_⟩
    · obtain ⟨w', a, b, _⟩ := h1 e he1
      exact ⟨w', a, b⟩
    · obtain ⟨w', a, b, _⟩ := h2 x hx1 hx2
      exact ⟨w', a, b⟩
    · obtain ⟨w', a, b, c, _⟩ := h3 rt hrt
      exact ⟨w', a, b, c⟩

/-- C12 amended, at `callback(42, undefined)`, called by the adapted function
before it returns: the promise of the wrapper is fulfilled with 42. -/
theorem truthy_non_error_fulfils_witness :
    (promisify (fun _ => ⟨[(.num 42, .undefined)], none⟩) ⟨emptyWorld, fun _ => false, []⟩
      .undefined []).1.world.promises 0 = .fulfilled (.num 42) :=
  (truthy_non_error_fulfils ⟨emptyWorld, fun _ => false, []⟩ 0 [] (.num 42) .undefined rfl rfl rfl
    (fun x h => Value.noConfusion h) (fun m h => Value.noConfusion h)).2.2.1
    (fun _ => ⟨[(.num 42, .undefined)], none⟩) ⟨emptyWorld, fun _ => false, []⟩ .undefined [] []
    none rfl rfl

/-- C13, refuted: the adapted function calls `callback('', 7)`.  The empty
string is a string, neither `null` nor `undefined`, but it is falsy: the promise
of the wrapper (promise 0) is fulfilled with 7, it is not rejected. -/
theorem empty_string_error_does_not_reject :
    (promisify (fun _ => ⟨[(.str "", .num 7)], none⟩) ⟨emptyWorld, fun _ => false, []⟩
      .undefined []).2 = .promise 0 ∧
    (promisify (fun _ => ⟨[(.str "", .num 7)], none⟩) ⟨emptyWorld, fun _ => false, []⟩
      .undefined []).1.world.promises 0 = .fulfilled (.num 7) :=
  ⟨rfl, rfl⟩

theorem rejects_iff_aux (err result : Value) :
    ((∃ e, (if isErrorAnachronism err then PState.fulfilled err
        else if truthy err then PState.rejected err else PState.fulfilled result) = .rejected e) ↔
      ((∃ s, err = .str s ∧ s ≠ "") ∨ ∃ m, err = .error m)) ∧
    (∀ e, (if isErrorAnachronism err then PState.fulfilled err
        else if truthy err then PState.rejected err else PState.fulfilled result) = .rejected e →
      e = err) := by
  cases err <;> simp [isErrorAnachronism, truthy]
  · rename_i s
    constructor
    · by_cases h : s = "" <;> simp [h]
    · intro e
      by_cases h : s = "" <;> simp [h]
      exact fun h => h.symm

/-- C13, amended: the completion callback is first called with `(err, result)`,
neither of them a promise.  The promise of the wrapper is rejected if and only
if `err` is a non-empty string or an instance of the error type; when it is
rejected, it is rejected with `err`.  Second part: the same through the wrapper,
when the adapted function calls the callback before it returns.  Last part: for
the empty string as `err` the promise is fulfilled with `result`. -/
theorem promisify_rejects_iff (s : Adapter) (p : Nat) (rs : List Reaction) (err result : Value)
    (hp : s.world.promises p = .pending rs) (hl : s.resolved p = false)
    (h1 : isPromise err = false) (h2 : isPromise result = false) :
    (((∃ e, (completion s p err result).world.promises p = .rejected e) ↔
        ((∃ x, err = .str x ∧ x ≠ "") ∨ ∃ m, err = .error m)) ∧
      (∀ e, (completion s p err result).world.promises p = .rejected e → e = err)) ∧
    (∀ (fn : CallbackFn) (s0 : Adapter) (that : Value) (arguments : List Value)
      (more : List (Value × Value)) (thrown : Option Value),
      fn ⟨that, arguments.map Arg.val ++ [Arg.callback s0.world.nextPromise]⟩ =
        ⟨(err, result) :: more, thrown⟩ →
      ((∃ e, (promisify fn s0 that arguments).1.world.promises s0.world.nextPromise =
          .rejected e) ↔
        ((∃ x, err = .str x ∧ x ≠ "") ∨ ∃ m, err = .error m)) ∧
      (∀ e, (promisify fn s0 that arguments).1.world.promises s0.world.nextPromise =
          .rejected e → e = err) ∧
      (err = .str "" →
        (promisify fn s0 that arguments).1.world.promises s0.world.nextPromise =
          .fulfilled result)) ∧
    (err = .str "" → (completion s p err result).world.promises p = .fulfilled result) := by
  refine ⟨?_, ?_, ?_⟩
  · rw [completion_first s p rs err result hp hl h1 h2]
    exact rejects_iff_aux err result
  · intro fn s0 that arguments more thrown hfn
    have hc := completion_first (entered s0 that arguments) s0.world.nextPromise [] err result
      (entered_pending s0 that arguments).1 (entered_pending s0 that arguments).2 h1 h2
    rw [promisify_sync fn s0 that arguments err result more thrown hfn, hc]
    refine ⟨(rejects_iff_aux err result).1, (rejects_iff_aux err result).2, ?_⟩
    intro he
    rw [he]
    rfl
  · intro he
    rw [completion_first s p rs err result hp hl h1 h2, he]
    rfl

/-- C13 amended, at `callback('bad', 7)` and at `callback('', 7)`: the first
rejects with `'bad'`, the second does not reject. -/
theorem promisify_rejects_iff_witness :
    (∃ e, (completion ⟨emptyWorld, fun _ => false, []⟩ 0 (.str "bad") (.num 7)).world.promises 0
      = .rejected e) ∧
    ¬ (∃ e, (completion ⟨emptyWorld, fun _ => false, []⟩ 0 (.str "") (.num 7)).world.promises 0
      = .rejected e) :=
  ⟨((promisify_rejects_iff ⟨emptyWorld, fun _ => false, []⟩ 0 [] (.str "bad") (.num 7)
      rfl rfl rfl rfl).1.1).2 (Or.inl ⟨"bad", rfl, by decide⟩),
    fun h => by
      rcases ((promisify_rejects_iff ⟨emptyWorld, fun _ => false, []⟩ 0 [] (.str "") (.num 7)
        rfl rfl rfl rfl).1.1).1 h with ⟨x, hx, hne⟩ | ⟨m, hm⟩
      · cases hx
        exact hne rfl
      · cases hm⟩

/-- C20, refuted: the adapted function calls `callback(null, p)` where `p`
(promise 0) is a promise that is rejected with `boom`.  The first argument is
falsy, and the promise of the wrapper (promise 1) is rejected with `boom`, not
fulfilled with `p`. -/
theorem rejected_promise_in_result_slot_rejects :
    truthy .null = false ∧
    (promisify (fun _ => ⟨[(.null, .promise 0)], none⟩)
      ⟨oneTaskWorld sevenScript (.rejected (.error "boom")), fun _ => false, []⟩
      .undefined []).2 = .promise 1 ∧
    (drain 1 2 (promisify (fun _ => ⟨[(.null, .promise 0)], none⟩)
      ⟨oneTaskWorld sevenScript (.rejected (.error "boom")), fun _ => false, []⟩
      .undefined []).1.world).map (fun w => (w.promises 1, w.queue)) =
      some (.rejected (.error "boom"), []) :=
  ⟨rfl, rfl, rfl⟩

/-- C20, amended: the completion callback is first called with `(err, result)`,
where `err` is falsy.  If `err` is `null`, `undefined` or the empty string, the
callback calls `resolve(result)`: the promise of the wrapper is fulfilled with
`result` when `result` is not a promise, and follows `result` when it is (it is
rejected when `result` is rejected, fulfilled with its value when it is
fulfilled, pending while it is pending).  Any other falsy `err`, that is
`false`, `0` or `NaN`, is an error anachronism: the promise is fulfilled with
`err` itself, whatever `result` is.  Third part: no later call of the callback
changes anything.  Last part: the same through the wrapper, when the adapted
function calls the callback before it returns. -/
theorem falsy_error_slot (s : Adapter) (p : Nat) (rs : List Reaction) (err result : Value)
    (hp : s.world.promises p = .pending rs) (hl : s.resolved p = false)
    (hf : truthy err = false) :
    ((err = .null ∨ err = .undefined ∨ err = .str "") →
      (completion s p err result).world = resolvePromise s.world p result ∧
      (isPromise result = false →
        (completion s p err result).world.promises p = .fulfilled result) ∧
      (∀ (t fuel : Nat), result = .promise t → t ≠ p → s.world.queue = [] →
        p < s.world.nextPromise →
        (∀ e, s.world.promises t = .rejected e →
          ∃ w', drain fuel 2 (completion s p err result).world = some w' ∧
            w'.promises p = .rejected e) ∧
        (∀ x, s.world.promises t = .fulfilled x → isPromise x = false →
          ∃ w', drain fuel 2 (completion s p err result).world = some w' ∧
            w'.promises p = .fulfilled x) ∧
        (∀ rt, s.world.promises t = .pending rt →
          ∃ w', drain fuel 1 (completion s p err result).world = some w' ∧ w'.queue = [] ∧
            (w'.promises p).isSettled = false))) ∧
    (err ≠ .null → err ≠ .undefined → err ≠ .str "" →
      (err = .bool false ∨ err = .num 0 ∨ err = .nan) ∧
      (completion s p err result).world.promises p = .fulfilled err) ∧
    (∀ err2 result2,
      completion (completion s p err result) p err2 result2 = completion s p err result) ∧
    (∀ (fn : CallbackFn) (s0 : Adapter) (that : Value) (arguments : List Value)
      (more : List (Value × Value)) (thrown : Option Value),
      fn ⟨that, arguments.map Arg.val ++ [Arg.callback s0.world.nextPromise]⟩ =
        ⟨(err, result) :: more, thrown⟩ →
      ((err = .null ∨ err = .undefined ∨ err = .str "") → isPromise result = false →
        (promisify fn s0 that arguments).1.world.promises s0.world.nextPromise =
          .fulfilled result) ∧
      (err ≠ .null → err ≠ .undefined → err ≠ .str "" →
        (promisify fn s0 that arguments).1.world.promises s0.world.nextPromise =
          .fulfilled err)) := by
  have hW : ∀ (S : Adapter) (q : Nat), S.resolved q = false →
      (err = .null ∨ err = .undefined ∨ err = .str "") →
      (completion S q err result).world = resolvePromise S.world q result := by
    intro S q hS h
    rw [completion_world S q err result hS]
    rcases h with h | h | h <;> rw [h] <;> rfl
  have hA : ∀ (S : Adapter) (q : Nat) (rs1 : List Reaction), S.world.promises q = .pending rs1 →
      S.resolved q = false →
      (err = .null ∨ err = .undefined ∨ err = .str "") → isPromise result = false →
      (completion S q err result).world.promises q = .fulfilled result := by
    intro S q rs1 hq hS h hres
    rw [hW S q hS h, resolvePromise_plain _ _ _ hres]
    exact fulfillPromise_pending _ q rs1 result hq
  have hB : err ≠ .null → err ≠ .undefined → err ≠ .str "" →
      (err = .bool false ∨ err = .num 0 ∨ err = .nan) ∧ isErrorAnachronism err = true ∧
      isPromise err = false := by
    intro n1 n2 n3
    cases err <;> simp_all [isErrorAnachronism, truthy, isPromise]
  refine ⟨fun h => ⟨hW s p hl h, hA s p rs hp hl h, ?_⟩, fun n1 n2 n3 => ?_,
    fun err2 result2 => completion_again s p err result err2 result2, ?_⟩
  · intro t fuel hte htp hq hpn
    rw [hW s p hl h, hte]
    obtain ⟨_, h1, h2, h3⟩ := resolve_follows fuel s.world p t rs hq hp hpn htp
    refine ⟨fun e he1 => ?_, fun x hx1 hx2 => ?_, fun rt hrt => ?_⟩
    · obtain ⟨w', a, b, _⟩ := h1 e he1
      exact ⟨w', a, b⟩
    · obtain ⟨w', a, b, _⟩ := h2 x hx1 hx2
      exact ⟨w', a, b⟩
    · obtain ⟨w', a, b, c, _⟩ := h3 rt hrt
      exact ⟨w', a, b, c⟩
  · obtain ⟨b1, b2, b3⟩ := hB n1 n2 n3
    exact ⟨b1, completion_anachronism s p rs err result hp hl b2 b3⟩
  · intro fn s0 that arguments more thrown hfn
    rw [promisify_sync fn s0 that arguments err result more thrown hfn]
    constructor
    · intro h hres
      exact hA _ _ [] (entered_pending s0 that arguments).1 (entered_pending s0 that arguments).2
        h hres
    · intro n1 n2 n3
      obtain ⟨_, b2, b3⟩ := hB n1 n2 n3
      exact completion_anachronism _ _ [] err result (entered_pending s0 that arguments).1
        (entered_pending s0 that arguments).2 b2 b3

/-- C20 amended, at `callback(0, 'done')` and `callback(null, 'done')`: the
first fulfils with 0, the second with `'done'`. -/
theorem falsy_error_slot_witness :
    (completion ⟨emptyWorld, fun _ => false, []⟩ 0 (.num 0) (.str "done")).world.promises 0
      = .fulfilled (.num 0) ∧
    (completion ⟨emptyWorld, fun _ => false, []⟩ 0 .null (.str "done")).world.promises 0
      = .fulfilled (.str "done") :=
  ⟨((falsy_error_slot ⟨emptyWorld, fun _ => false, []⟩ 0 [] (.num 0) (.str "done") rfl rfl
      rfl).2.1
      (fun h => Value.noConfusion h) (fun h => Value.noConfusion h)
      (fun h => Value.noConfusion h)).2,
    ((falsy_error_slot ⟨emptyWorld, fun _ => false, []⟩ 0 [] .null (.str "done") rfl rfl
      rfl).1 (Or.inl rfl)).2.1 rfl⟩

/-! ## `promisifyAll` -/

theorem endsWithAsync_append (k : String) : endsWithAsync (k ++ "Async") = true := by
  simp [endsWithAsync]

theorem append_Async_cancel (a b : String) (h : a ++ "Async" = b ++ "Async") : a = b := by
  have := congrArg String.toList h
  simp at this
  exact String.ext this

theorem findProp_nil (k : String) : findProp [] k = none := rfl

theorem findProp_cons (kv : String × Property) (ps : List (String × Property)) (k : String) :
    findProp (kv :: ps) k = if kv.1 = k then some kv.2 else findProp ps k := by
  by_cases h : kv.1 = k
  · have hb : (kv.1 == k) = true := by simpa using h
    simp [findProp, List.find?_cons, hb, h]
  · have hb : (kv.1 == k) = false := by simpa using h
    simp [findProp, List.find?_cons, hb, h]

theorem findProp_append (a b : List (String × Property)) (k : String) :
    findProp (a ++ b) k =
      match findProp a k with
      | some p => some p
      | none => findProp b k := by
  induction a with
  | nil => rfl
  | cons kv a ih =>
    rw [List.cons_append, findProp_cons, findProp_cons, ih]
    by_cases e : kv.1 = k <;> simp [e]

theorem findProp_mem (ps : List (String × Property)) (k : String) (p : Property)
    (h : findProp ps k = some p) : (k, p) ∈ ps := by
  induction ps with
  | nil => simp [findProp_nil] at h
  | cons kv ps ih =>
    rw [findProp_cons] at h
    by_cases e : kv.1 = k
    · simp only [e, if_true, Option.some.injEq] at h
      have : kv = (k, p) := by rw [← e, ← h]
      rw [this]
      exact List.mem_cons_self _ _
    · simp only [e, if_false] at h
      exact List.mem_cons_of_mem _ (ih h)

theorem mem_names_iff (ps : List (String × Property)) (k : String) :
    k ∈ ps.map (fun kv => kv.1) ↔ ∃ p, findProp ps k = some p := by
  induction ps with
  | nil => simp [findProp_nil]
  | cons kv ps ih =>
    rw [List.map_cons, List.mem_cons, findProp_cons, ih]
    by_cases e : kv.1 = k
    · simp [e]
    · simp only [e, if_false]
      constructor
      · rintro (h | h)
        · exact absurd h.symm e
        · exact h
      · exact Or.inr

theorem findProp_update (ps : List (String × Property)) (key : String) (v : PropVal)
    (k : String) :
    findProp (ps.map (fun kv =>
        if kv.1 == key then (kv.1, { kv.2 with value := v }) else kv)) k =
      if k = key then (findProp ps key).map (fun p => { p with value := v })
      else findProp ps k := by
  induction ps with
  | nil => simp [findProp_nil]
  | cons kv ps ih =>
    rw [List.map_cons, findProp_cons, ih, findProp_cons, findProp_cons]
    by_cases e1 : kv.1 = key
    · have hb : (kv.1 == key) = true := by simpa using e1
      simp only [hb, if_true]
      by_cases e2 : k = key
      · rw [if_pos (e1.trans e2.symm), if_pos e2, if_pos e1]
        rfl
      · rw [if_neg (fun h => e2 (h.symm.trans e1)), if_neg e2, if_neg e2,
          if_neg (fun h => e2 (h.symm.trans e1))]
    · have hb : (kv.1 == key) = false := by simpa using e1
      simp only [hb, Bool.false_eq_true, if_false]
      by_cases e2 : k = key
      · subst e2
        rw [if_neg e1, if_pos rfl, if_pos rfl, if_neg e1]
      · rw [if_neg e2, if_neg e2]

theorem names_update (ps : List (String × Property)) (key : String) (v : PropVal) :
    (ps.map (fun kv => if kv.1 == key then (kv.1, { kv.2 with value := v }) else kv)).map
      (fun kv => kv.1) = ps.map (fun kv => kv.1) := by
  rw [List.map_map]
  apply List.map_congr_left
  intro kv _
  by_cases e : kv.1 = key <;> simp [e]

theorem Obj.getProp_eq (o : Obj) (k : String) :
    o.getProp k = findProp (o.own ++ o.inherited) k := by
  rw [findProp_append]
  rfl

theorem Obj.get_congr (o o' : Obj) (k : String) (h1 : findProp o'.own k = findProp o.own k)
    (h2 : o'.inherited = o.inherited) : o'.get k = o.get k := by
  simp only [Obj.get, Obj.getProp, h1, h2]

theorem Obj.put_inherited (o : Obj) (key : String) (v : PropVal) :
    (o.put key v).inherited = o.inherited ∧ (o.put key v).extensible = o.extensible := by
  unfold Obj.put
  split <;> exact ⟨rfl, rfl⟩

theorem Obj.put_find_other (o : Obj) (key : String) (v : PropVal) (k : String) (h : k ≠ key) :
    findProp (o.put key v).own k = findProp o.own k := by
  unfold Obj.put
  split
  · simp only [findProp_update, if_neg h]
  · simp only [findProp_append]
    cases findProp o.own k with
    | some p => rfl
    | none => simp [findProp_cons, findProp_nil, Ne.symm h]

theorem Obj.put_get_same (o : Obj) (key : String) (v : PropVal) :
    (o.put key v).get key = v := by
  unfold Obj.put
  split
  · rename_i p hp
    simp only [Obj.get, Obj.getProp, findProp_update, if_true, hp, Option.map_some']
  · rename_i hp
    simp only [Obj.get, Obj.getProp, findProp_append, hp, findProp_cons, if_true]

theorem Obj.names_put_present (o : Obj) (key : String) (v : PropVal) (h : key ∈ o.names) :
    (o.put key v).names = o.names := by
  obtain ⟨p, hp⟩ := (mem_names_iff o.own key).mp h
  unfold Obj.put
  rw [hp]
  exact names_update o.own key v

theorem Obj.mem_names_put (o : Obj) (key : String) (v : PropVal) (k : String)
    (h : k ∈ (o.put key v).names) : k ∈ o.names ∨ k = key := by
  by_cases hk : key ∈ o.names
  · rw [Obj.names_put_present o key v hk] at h
    exact Or.inl h
  · have hn : findProp o.own key = none := by
      cases hf : findProp o.own key with
      | none => rfl
      | some p => exact absurd ((mem_names_iff o.own key).mpr ⟨p, hf⟩) hk
    unfold Obj.put at h
    rw [hn] at h
    simpa [Obj.names] using h

theorem Obj.names_put_mono (o : Obj) (key : String) (v : PropVal) (k : String)
    (h : k ∈ o.names) : k ∈ (o.put key v).names := by
  unfold Obj.put
  split
  · simp only [Obj.names, names_update]
    exact h
  · simp only [Obj.names, List.map_append, List.mem_append]
    exact Or.inl h

theorem Obj.names_put_self (o : Obj) (key : String) (v : PropVal) :
    key ∈ (o.put key v).names := by
  unfold Obj.put
  split
  · rename_i p hp
    simp only [Obj.names, names_update]
    exact (mem_names_iff o.own key).mpr ⟨p, hp⟩
  · simp [Obj.names]

theorem Obj.put_open (o : Obj) (key : String) (v : PropVal) (ho : o.Open) :
    (o.put key v).Open := by
  obtain ⟨h1, h2, h3⟩ := ho
  refine ⟨by rw [(Obj.put_inherited o key v).2]; exact h1, ?_,
    by rw [(Obj.put_inherited o key v).1]; exact h3⟩
  unfold Obj.put
  split
  · intro kv hkv
    simp only [List.mem_map] at hkv
    obtain ⟨kv0, hm, he⟩ := hkv
    have := h2 kv0 hm
    by_cases e : (kv0.1 == key) = true
    · rw [if_pos e] at he
      rw [← he]
      exact this
    · rw [if_neg e] at he
      rw [← he]
      exact this
  · intro kv hkv
    simp only [List.mem_append, List.mem_singleton] at hkv
    rcases hkv with h | h
    · exact h2 kv h
    · rw [h]

/-- On an object that takes every assignment, the assignment is done. -/
theorem Obj.set_eq_put (o : Obj) (key : String) (v : PropVal) (ho : o.Open) :
    o.set key v = .normal (o.put key v) := by
  obtain ⟨h1, h2, h3⟩ := ho
  unfold Obj.set Obj.put
  cases hf : findProp o.own key with
  | some p =>
    simp only
    rw [if_pos (h2 (key, p) (findProp_mem _ _ _ hf))]
  | none =>
    simp only
    cases hi : findProp o.inherited key with
    | some p =>
      simp only
      rw [if_pos (by rw [h3 (key, p) (findProp_mem _ _ _ hi), h1]; rfl)]
    | none =>
      simp only
      rw [if_pos h1]

theorem promisifyAllStep_eq (o : Obj) (key : String) (ho : o.Open) :
    promisifyAllStep (o, none) key = (putStep o key, none) := by
  unfold promisifyAllStep putStep
  simp only
  split
  · rw [Obj.set_eq_put o _ _ ho]
  · rfl

theorem putStep_cases (o : Obj) (key : String) :
    putStep o key = o ∨
    (isFunction (o.get key) = true ∧ endsWithAsync key = false ∧
      putStep o key = o.put (key ++ "Async") (.adapted (o.get key))) := by
  unfold putStep
  by_cases h : (isFunction (o.get key) && !endsWithAsync key) = true
  · rw [if_pos h]
    simp only [Bool.and_eq_true, Bool.not_eq_true'] at h
    exact Or.inr ⟨h.1, h.2, rfl⟩
  · rw [if_neg h]
    exact Or.inl rfl

theorem putStep_open (o : Obj) (key : String) (ho : o.Open) : (putStep o key).Open := by
  rcases putStep_cases o key with h | ⟨_, _, h⟩
  · rw [h]; exact ho
  · rw [h]; exact Obj.put_open o _ _ ho

theorem putStep_inherited (o : Obj) (key : String) :
    (putStep o key).inherited = o.inherited ∧ (putStep o key).extensible = o.extensible := by
  rcases putStep_cases o key with h | ⟨_, _, h⟩
  · rw [h]; exact ⟨rfl, rfl⟩
  · rw [h]; exact Obj.put_inherited o _ _

theorem putStep_find (o : Obj) (key k : String) (hk : endsWithAsync k = false) :
    findProp (putStep o key).own k = findProp o.own k := by
  rcases putStep_cases o key with h | ⟨_, _, h⟩
  · rw [h]
  · rw [h, Obj.put_find_other]
    intro e
    rw [e, endsWithAsync_append] at hk
    exact absurd hk (by simp)

theorem putStep_get (o : Obj) (key k : String) (hk : endsWithAsync k = false) :
    (putStep o key).get k = o.get k :=
  Obj.get_congr o _ k (putStep_find o key k hk) (putStep_inherited o key).1

theorem putStep_names_mono (o : Obj) (key k : String) (h : k ∈ o.names) :
    k ∈ (putStep o key).names := by
  rcases putStep_cases o key with hs | ⟨_, _, hs⟩
  · rw [hs]; exact h
  · rw [hs]; exact Obj.names_put_mono o _ _ k h

theorem fold_eq (ks : List String) :
    ∀ o : Obj, o.Open →
      ks.foldl promisifyAllStep (o, none) = (ks.foldl putStep o, none) ∧
      (ks.foldl putStep o).Open := by
  induction ks with
  | nil => intro o ho; exact ⟨rfl, ho⟩
  | cons key ks ih =>
    intro o ho
    simp only [List.foldl]
    rw [promisifyAllStep_eq o key ho]
    exact ih _ (putStep_open o key ho)

theorem fold_inherited (ks : List String) :
    ∀ o : Obj, (ks.foldl putStep o).inherited = o.inherited ∧
      (ks.foldl putStep o).extensible = o.extensible := by
  induction ks with
  | nil => intro o; exact ⟨rfl, rfl⟩
  | cons key ks ih =>
    intro o
    simp only [List.foldl]
    rw [(ih _).1, (ih _).2]
    exact putStep_inherited o key

theorem fold_find (ks : List String) (k : String) (hk : endsWithAsync k = false) :
    ∀ o : Obj, findProp (ks.foldl putStep o).own k = findProp o.own k := by
  induction ks with
  | nil => intro o; rfl
  | cons key ks ih =>
    intro o
    simp only [List.foldl]
    rw [ih, putStep_find o key k hk]

theorem fold_get (ks : List String) (k : String) (hk : endsWithAsync k = false) (o : Obj) :
    (ks.foldl putStep o).get k = o.get k :=
  Obj.get_congr o _ k (fold_find ks k hk o) (fold_inherited ks o).1

theorem fold_names_mono (ks : List String) (k : String) :
    ∀ o : Obj, k ∈ o.names → k ∈ (ks.foldl putStep o).names := by
  induction ks with
  | nil => intro o h; exact h
  | cons key ks ih =>
    intro o h
    simp only [List.foldl]
    exact ih _ (putStep_names_mono o key k h)

/-- A name that no visited function-valued property maps to is left as it
is. -/
theorem fold_untouched (ks : List String) (target : String) :
    ∀ o : Obj,
      (∀ k ∈ ks, k ++ "Async" = target →
        ¬ (isFunction (o.get k) = true ∧ endsWithAsync k = false)) →
      findProp (ks.foldl putStep o).own target = findProp o.own target := by
  induction ks with
  | nil => intro o _; rfl
  | cons key ks ih =>
    intro o h
    simp only [List.foldl]
    rw [ih]
    · rcases putStep_cases o key with hs | ⟨g1, g2, hs⟩
      · rw [hs]
      · rw [hs, Obj.put_find_other]
        intro e
        exact h key (List.mem_cons_self _ _) e.symm ⟨g1, g2⟩
    · intro k hk e hc
      by_cases hka : endsWithAsync k = false
      · rw [putStep_get o key k hka] at hc
        exact h k (List.mem_cons_of_mem _ hk) e hc
      · exact hka hc.2

theorem fold_keeps_adapted (ks : List String) (k : String) (hk : endsWithAsync k = false) :
    ∀ o : Obj, o.get (k ++ "Async") = .adapted (o.get k) →
      (ks.foldl putStep o).get (k ++ "Async") = .adapted (o.get k) := by
  induction ks with
  | nil => intro o h; exact h
  | cons key ks ih =>
    intro o h2
    simp only [List.foldl]
    have hg : (putStep o key).get k = o.get k := putStep_get o key k hk
    rw [← hg]
    refine ih _ ?_
    rw [hg]
    rcases putStep_cases o key with h | ⟨_, _, h⟩
    · rw [h]; exact h2
    · rw [h]
      by_cases e : key = k
      · subst e
        exact Obj.put_get_same _ _ _
      · rw [Obj.get_congr o _ _ (Obj.put_find_other _ _ _ _
          (fun e2 => e (append_Async_cancel _ _ e2).symm)) (Obj.put_inherited _ _ _).1]
        exact h2

theorem fold_adds (ks : List String) (k : String) (hk : endsWithAsync k = false) :
    ∀ o : Obj, k ∈ ks → isFunction (o.get k) = true →
      (ks.foldl putStep o).get (k ++ "Async") = .adapted (o.get k) ∧
      (k ++ "Async") ∈ (ks.foldl putStep o).names := by
  induction ks with
  | nil => intro o h; simp at h
  | cons key ks ih =>
    intro o hmem hf
    simp only [List.foldl]
    have hg : (putStep o key).get k = o.get k := putStep_get o key k hk
    by_cases e : key = k
    · subst e
      have hs : putStep o key = o.put (key ++ "Async") (.adapted (o.get key)) := by
        simp [putStep, hf, hk]
      constructor
      · rw [← hg]
        refine fold_keeps_adapted ks key hk _ ?_
        rw [hg, hs]
        exact Obj.put_get_same _ _ _
      · refine fold_names_mono ks _ _ ?_
        rw [hs]
        exact Obj.names_put_self _ _ _
    · have hmem' : k ∈ ks := by
        rcases List.mem_cons.mp hmem with h | h
        · exact absurd h.symm e
        · exact h
      rw [← hg]
      exact ih _ hmem' (by rw [hg]; exact hf)

theorem fold_names_origin (ks : List String) :
    ∀ (o : Obj) (key : String), key ∈ (ks.foldl putStep o).names →
      key ∈ o.names ∨ ∃ k ∈ ks, key = k ++ "Async" ∧ isFunction (o.get k) = true ∧
        endsWithAsync k = false := by
  induction ks with
  | nil => intro o key h; exact Or.inl h
  | cons k0 ks ih =>
    intro o key h
    simp only [List.foldl] at h
    rcases ih _ key h with h1 | ⟨k, hk, e1, e3, e4⟩
    · rcases putStep_cases o k0 with hs | ⟨g2, g3, hs⟩
      · rw [hs] at h1; exact Or.inl h1
      · rw [hs] at h1
        rcases Obj.mem_names_put _ _ _ _ h1 with h2 | h2
        · exact Or.inl h2
        · exact Or.inr ⟨k0, List.mem_cons_self _ _, h2, g2, g3⟩
    · rw [putStep_get o k0 k e4] at e3
      exact Or.inr ⟨k, List.mem_cons_of_mem _ hk, e1, e3, e4⟩

theorem fold_names_stable (ks : List String) :
    ∀ o : Obj, (∀ k ∈ ks, isFunction (o.get k) = true →
        endsWithAsync k = false → (k ++ "Async") ∈ o.names) →
      (ks.foldl putStep o).names = o.names := by
  induction ks with
  | nil => intro o _; rfl
  | cons k0 ks ih =>
    intro o h
    simp only [List.foldl]
    have hnames : (putStep o k0).names = o.names := by
      rcases putStep_cases o k0 with hs | ⟨g2, g3, hs⟩
      · rw [hs]
      · rw [hs]
        exact Obj.names_put_present _ _ _ (h k0 (List.mem_cons_self _ _) g2 g3)
    rw [ih, hnames]
    intro k hk g2 g3
    rw [hnames]
    rw [putStep_get o k0 k g3] at g2
    exact h k (List.mem_cons_of_mem _ hk) g2 g3

/-- The names that the loop visits: the names of the enumerable properties,
own or inherited. -/
theorem mem_forInKeys (ps : List (String × Property)) (k : String) :
    ∀ seen : List String, k ∈ forInKeys ps seen ↔
      k ∉ seen ∧ ∃ p, findProp ps k = some p ∧ p.enumerable = true := by
  induction ps with
  | nil => intro seen; simp [forInKeys, findProp_nil]
  | cons kv ps ih =>
    intro seen
    rw [findProp_cons]
    unfold forInKeys
    by_cases hs : kv.1 ∈ seen
    · have hc : seen.contains kv.1 = true := by simpa using hs
      rw [if_pos hc, ih]
      by_cases e : kv.1 = k
      · subst e
        simp [hs]
      · simp [e]
    · have hc : ¬ seen.contains kv.1 = true := by simpa using hs
      rw [if_neg hc]
      by_cases he : kv.2.enumerable = true
      · rw [if_pos he, List.mem_cons, ih]
        by_cases e : kv.1 = k
        · subst e
          simp [hs, he]
        · have e' : ¬ k = kv.1 := fun h => e h.symm
          simp [e, e']
      · rw [if_neg he, ih]
        by_cases e : kv.1 = k
        · subst e
          simp [he]
        · have e' : ¬ k = kv.1 := fun h => e h.symm
          simp [e, e']

theorem Obj.mem_forIn (o : Obj) (k : String) :
    k ∈ o.forIn ↔ ∃ p, o.getProp k = some p ∧ p.enumerable = true := by
  unfold Obj.forIn
  rw [mem_forInKeys, Obj.getProp_eq]
  simp

theorem Obj.getProp_congr (o o' : Obj) (k : String) (h1 : findProp o'.own k = findProp o.own k)
    (h2 : o'.inherited = o.inherited) : o'.getProp k = o.getProp k := by
  simp only [Obj.getProp, h1, h2]

/-- An exception ends the loop. -/
theorem fold_thrown (ks : List String) (o : Obj) (e : Value) :
    ks.foldl promisifyAllStep (o, some e) = (o, some e) := by
  induction ks with
  | nil => rfl
  | cons key ks ih =>
    simp only [List.foldl]
    exact ih

/-- On an object that is not extensible the loop adds no property, and it
throws a `TypeError` at the first visited function-valued property whose
adapted form has no own property to go to. -/
theorem fold_sealed (ks : List String) (key : String) (hk : endsWithAsync key = false) :
    ∀ o : Obj, o.extensible = false → key ∈ ks → isFunction (o.get key) = true →
      (key ++ "Async") ∉ o.names →
      (ks.foldl promisifyAllStep (o, none)).2 = some typeError := by
  induction ks with
  | nil => intro o _ h; simp at h
  | cons k0 ks ih =>
    intro o hext hmem hf hn
    simp only [List.foldl]
    have hnone : ∀ k, k ∉ o.names → findProp o.own k = none := by
      intro k hk0
      cases hfp : findProp o.own k with
      | none => rfl
      | some p => exact absurd ((mem_names_iff o.own k).mpr ⟨p, hfp⟩) hk0
    by_cases hstep : (isFunction (o.get k0) && !endsWithAsync k0) = true
    · have hset : o.set (k0 ++ "Async") (.adapted (o.get k0)) = .throw typeError ∨
          ∃ p, findProp o.own (k0 ++ "Async") = some p ∧
            o.set (k0 ++ "Async") (.adapted (o.get k0)) =
              .normal (o.put (k0 ++ "Async") (.adapted (o.get k0))) := by
        unfold Obj.set Obj.put
        cases hfp : findProp o.own (k0 ++ "Async") with
        | some p =>
          simp only
          by_cases hw : p.writable = true
          · rw [if_pos hw]; exact Or.inr ⟨p, rfl, rfl⟩
          · rw [if_neg hw]; exact Or.inl rfl
        | none =>
          simp only
          cases findProp o.inherited (k0 ++ "Async") with
          | some p => simp [hext]
          | none => simp [hext]
      rcases hset with hthrow | ⟨p, hp, hnorm⟩
      · simp only [promisifyAllStep, hstep, if_true, hthrow]
        rw [fold_thrown]
      · have hne : k0 ≠ key := by
          intro e
          rw [e] at hp
          rw [hnone _ hn] at hp
          exact Option.noConfusion hp
        have hmem' : key ∈ ks := by
          rcases List.mem_cons.mp hmem with h | h
          · exact absurd h.symm hne
          · exact h
        simp only [promisifyAllStep, hstep, if_true, hnorm]
        refine ih _ (by rw [(Obj.put_inherited _ _ _).2]; exact hext) hmem' ?_ ?_
        · rw [Obj.get_congr o _ key (Obj.put_find_other _ _ _ _ (fun e => by
            rw [e, endsWithAsync_append] at hk
            exact absurd hk (by simp))) (Obj.put_inherited _ _ _).1]
          exact hf
        · rw [Obj.names_put_present _ _ _ ((mem_names_iff o.own _).mpr ⟨p, hp⟩)]
          exact hn
    · have hne : k0 ≠ key := by
        intro e
        rw [e] at hstep
        exact hstep (by simp [hf, hk])
      have hmem' : key ∈ ks := by
        rcases List.mem_cons.mp hmem with h | h
        · exact absurd h.symm hne
        · exact h
      simp only [promisifyAllStep, hstep]
      exact ih o hext hmem' hf hn

/-- C15, refuted: on the frozen object `{foo: f}` the assignment
`obj.fooAsync = ...` throws a `TypeError`: `promisifyAll` does not return the
object and adds nothing.  And on an instance of `class { bar() {} }` the loop
does not visit the method `bar`, which is function-valued but not enumerable:
the object is returned without `barAsync`. -/
theorem promisifyAll_throws_on_frozen_object :
    (promisifyAll (fun _ => fooObj false) 0).2 = .throw typeError ∧
    ((promisifyAll (fun _ => fooObj false) 0).1 0).names = ["foo"] ∧
    isFunction (barObj.get "bar") = true ∧
    (promisifyAll (fun _ => barObj) 0).2 = .normal 0 ∧
    ((promisifyAll (fun _ => barObj) 0).1 0).names = ["n"] :=
  ⟨rfl, rfl, rfl, rfl, rfl⟩

/-- C15, amended: for an object that is extensible and whose properties, own
and inherited, are writable data properties, `promisifyAll(obj)` returns the
same object (the same reference, the other objects of the heap untouched, the
inherited properties and the extensibility as they were).  Every property whose
name does not end in `Async` is unchanged; for every property `foo` that the
loop visits (enumerable, own or inherited), that is function-valued and whose
name does not end in `Async`, `fooAsync` is an own property that holds the
adapted form of `foo`; every own property that differs from before is such a
`fooAsync`, so no property whose name ends in `Async` is adapted, and the loop
body does nothing at such a key; every name of the result is a name of `obj`
or such a `foo + 'Async'`; a property that the loop does not visit gets no
adapted form; and a second application returns the object again with exactly
the same property names and values.  Last part, for every object: when the
object is not extensible and a visited function-valued property `foo` (name not
ending in `Async`) has no own `fooAsync`, the call throws a `TypeError`. -/
theorem promisifyAll_adds_async_variants (heap : Nat → Obj) (obj : Nat)
    (ho : (heap obj).Open) :
    ((promisifyAll heap obj).2 = .normal obj ∧
      (∀ r, r ≠ obj → (promisifyAll heap obj).1 r = heap r) ∧
      ((promisifyAll heap obj).1 obj).inherited = (heap obj).inherited ∧
      ((promisifyAll heap obj).1 obj).extensible = (heap obj).extensible) ∧
    (∀ key, endsWithAsync key = false →
      findProp ((promisifyAll heap obj).1 obj).own key = findProp (heap obj).own key ∧
      ((promisifyAll heap obj).1 obj).get key = (heap obj).get key) ∧
    (∀ key, key ∈ (heap obj).forIn → isFunction ((heap obj).get key) = true →
      endsWithAsync key = false →
      ((promisifyAll heap obj).1 obj).get (key ++ "Async") = .adapted ((heap obj).get key) ∧
      (key ++ "Async") ∈ ((promisifyAll heap obj).1 obj).names) ∧
    (∀ key, findProp ((promisifyAll heap obj).1 obj).own key = findProp (heap obj).own key ∨
      ∃ k, k ∈ (heap obj).forIn ∧ key = k ++ "Async" ∧ endsWithAsync k = false ∧
        isFunction ((heap obj).get k) = true ∧
        ((promisifyAll heap obj).1 obj).get key = .adapted ((heap obj).get k)) ∧
    (∀ (acc : Obj × Option Value) (key : String), endsWithAsync key = true →
      promisifyAllStep acc key = acc) ∧
    (∀ key, key ∈ ((promisifyAll heap obj).1 obj).names →
      key ∈ (heap obj).names ∨ ∃ k, k ∈ (heap obj).forIn ∧ key = k ++ "Async" ∧
        isFunction ((heap obj).get k) = true ∧ endsWithAsync k = false) ∧
    (∀ key, key ∉ (heap obj).forIn → (key ++ "Async") ∉ (heap obj).names →
      (key ++ "Async") ∉ ((promisifyAll heap obj).1 obj).names) ∧
    ((promisifyAll (promisifyAll heap obj).1 obj).2 = .normal obj ∧
      ((promisifyAll (promisifyAll heap obj).1 obj).1 obj).names =
        ((promisifyAll heap obj).1 obj).names ∧
      (∀ key, ((promisifyAll (promisifyAll heap obj).1 obj).1 obj).get key =
        ((promisifyAll heap obj).1 obj).get key)) ∧
    (∀ (heap0 : Nat → Obj) (key : String), (heap0 obj).extensible = false →
      key ∈ (heap0 obj).forIn → isFunction ((heap0 obj).get key) = true →
      endsWithAsync key = false → (key ++ "Async") ∉ (heap0 obj).names →
      (promisifyAll heap0 obj).2 = .throw typeError) := by
  have hrun : ∀ (hp : Nat → Obj), (hp obj).Open →
      (promisifyAll hp obj).2 = .normal obj ∧
      (promisifyAll hp obj).1 obj = (hp obj).forIn.foldl putStep (hp obj) := by
    intro hp hop
    have := (fold_eq (hp obj).forIn (hp obj) hop).1
    simp [promisifyAll, this, setAt_apply]
  obtain ⟨hret, h1⟩ := hrun heap ho
  have hopen1 : ((promisifyAll heap obj).1 obj).Open := by
    rw [h1]; exact (fold_eq (heap obj).forIn (heap obj) ho).2
  obtain ⟨hret2, h2⟩ := hrun (promisifyAll heap obj).1 hopen1
  have hinh : ((promisifyAll heap obj).1 obj).inherited = (heap obj).inherited := by
    rw [h1]; exact (fold_inherited _ _).1
  have hfind : ∀ key, endsWithAsync key = false →
      findProp ((promisifyAll heap obj).1 obj).own key = findProp (heap obj).own key := by
    intro key hk
    rw [h1]; exact fold_find _ key hk _
  have hget : ∀ key, endsWithAsync key = false →
      ((promisifyAll heap obj).1 obj).get key = (heap obj).get key :=
    fun key hk => Obj.get_congr _ _ key (hfind key hk) hinh
  have hadds : ∀ key, key ∈ (heap obj).forIn → isFunction ((heap obj).get key) = true →
      endsWithAsync key = false →
      ((promisifyAll heap obj).1 obj).get (key ++ "Async") = .adapted ((heap obj).get key) ∧
      (key ++ "Async") ∈ ((promisifyAll heap obj).1 obj).names := by
    intro key hmem hf hk
    rw [h1]
    exact fold_adds _ key hk _ hmem hf
  have hforin : ∀ key, endsWithAsync key = false →
      key ∈ ((promisifyAll heap obj).1 obj).forIn → key ∈ (heap obj).forIn := by
    intro key hk hmem
    rw [Obj.mem_forIn] at hmem ⊢
    rwa [Obj.getProp_congr _ _ key (hfind key hk) hinh] at hmem
  have horigin : ∀ key, key ∈ ((promisifyAll heap obj).1 obj).names →
      key ∈ (heap obj).names ∨ ∃ k, k ∈ (heap obj).forIn ∧ key = k ++ "Async" ∧
        isFunction ((heap obj).get k) = true ∧ endsWithAsync k = false := by
    intro key hk
    rw [h1] at hk
    exact fold_names_origin _ _ key hk
  have hchange : ∀ (o : Obj) (key : String),
      findProp ((o.forIn.foldl putStep o)).own key = findProp o.own key ∨
      ∃ k, k ∈ o.forIn ∧ key = k ++ "Async" ∧ endsWithAsync k = false ∧
        isFunction (o.get k) = true ∧
        (o.forIn.foldl putStep o).get key = .adapted (o.get k) := by
    intro o key
    by_cases hex : ∃ k, k ∈ o.forIn ∧ k ++ "Async" = key ∧
        isFunction (o.get k) = true ∧ endsWithAsync k = false
    · obtain ⟨k, hk1, hk2, hk3, hk4⟩ := hex
      refine Or.inr ⟨k, hk1, hk2.symm, hk4, hk3, ?_⟩
      rw [← hk2]
      exact (fold_adds _ k hk4 _ hk1 hk3).1
    · refine Or.inl (fold_untouched _ key _ ?_)
      intro k hk1 hk2 hk3
      exact hex ⟨k, hk1, hk2, hk3.1, hk3.2⟩
  refine ⟨⟨hret, fun r hr => by simp [promisifyAll, setAt_apply, hr], hinh,
    by rw [h1]; exact (fold_inherited _ _).2⟩, fun key hk => ⟨hfind key hk, hget key hk⟩,
    hadds, ?_, ?_, horigin, ?_, ⟨hret2, ?_, ?_⟩, ?_⟩
  · intro key
    rw [h1]
    exact hchange (heap obj) key
  · intro acc key hk
    unfold promisifyAllStep
    split
    · rfl
    · simp [hk]
  · intro key hnot hn hmem
    rcases horigin _ hmem with h | ⟨k, hk1, hk2, _, _⟩
    · exact hn h
    · rw [append_Async_cancel _ _ hk2] at hnot
      exact hnot hk1
  · rw [h2]
    apply fold_names_stable
    intro k hk g2 g3
    rw [hget k g3] at g2
    exact (hadds k (hforin k g3 hk) g2 g3).2
  · intro key
    rw [h2]
    rcases hchange ((promisifyAll heap obj).1 obj) key with h | ⟨k, hk1, hk2, hk3, hk4, hk5⟩
    · exact Obj.get_congr _ _ key h (fold_inherited _ _).1
    · rw [hk5, hget k hk3, hk2]
      rw [hget k hk3] at hk4
      exact (hadds k (hforin k hk3 hk1) hk4 hk3).1.symm
  · intro heap0 key hext hmem hf hk hn
    have := fold_sealed (heap0 obj).forIn key hk (heap0 obj) hext hmem hf hn
    simp [promisifyAll, this]

/-- C15 amended, at the object `{foo: f, barAsync: g, n: 1}` with the inherited
enumerable method `baz`: `fooAsync` and `bazAsync` are added as the adapted
forms of `foo` and `baz`, nothing else changes, and a second application adds
nothing. -/
theorem promisifyAll_adds_async_variants_witness :
    ((promisifyAll (fun _ => sampleObj) 0).1 0).get "fooAsync" = .adapted (.plain (.func 0)) ∧
    ((promisifyAll (promisifyAll (fun _ => sampleObj) 0).1 0).1 0).names =
      ["foo", "barAsync", "n", "fooAsync", "bazAsync"] :=
  ⟨((promisifyAll_adds_async_variants (fun _ => sampleObj) 0
      ⟨rfl, by decide, by decide⟩).2.2.1 "foo" (by decide) rfl rfl).1,
    ((promisifyAll_adds_async_variants (fun _ => sampleObj) 0
      ⟨rfl, by decide, by decide⟩).2.2.2.2.2.2.2.1.2.1).trans rfl⟩

/-! ## The driver: the value returned by the computation -/

/-- The first job of the driver on a computation that yields plain values and
then returns `r`: the computation receives the yielded values in order, within
the job, and the promise `d` of the driver is resolved with
`Promise.resolve(r)`. -/
theorem first_job_returns (i : Nat) (r : Value) (vs : List Value) :
    ∀ (W0 : World) (v : Value) (d f : Nat),
      follows (W0.iters i).script ((W0.iters i).history ++ [.next v]) (vs.map Item.plain) (.ret r) →
      (∀ x ∈ vs, isPlain x = true) → vs.length < f →
      runJob f W0 (.reaction (.spawnNext (.iterator i)) v d) =
        some (resolvePromise (promiseResolve (fed W0 i (v :: vs)) r).1 d
          (promiseResolve (fed W0 i (v :: vs)) r).2) := by
  induction vs with
  | nil =>
    intro W0 v d f hs _ hf
    obtain ⟨f, rfl⟩ : ∃ g, f = g + 1 := ⟨f - 1, by simp at hf; omega⟩
    simp only [List.map_nil, follows] at hs
    simp only [runJob, runHandler, next_succ, iterNext_iterator, hs, outcomeNext, nextBody_done]
  | cons x xs ih =>
    intro W0 v d f hs hp hf
    obtain ⟨f, rfl⟩ : ∃ g, f = g + 1 := ⟨f - 1, by simp at hf; omega⟩
    obtain ⟨hs1, hs2⟩ := hs
    rw [runJob_plain i W0 v x d f hs1 (hp x (List.mem_cons_self _ _)),
      ih (fed W0 i [v]) x d f (by simpa [fed] using hs2)
        (fun y hy => hp y (List.mem_cons_of_mem _ hy)) (by simp at hf; omega), fed_fed]
    rfl

/-- C2, refuted: a computation that yields nothing and returns promise 0, which
is rejected with `boom`.  The promise returned by `spawn` (promise 2) is
rejected with `boom`, it is not fulfilled with the returned value; the
computation was stepped once, with `undefined`. -/
theorem returned_rejected_promise_rejects :
    (spawn (oneTaskWorld (fun _ => .ret (.promise 0)) (.rejected (.error "boom")))
      (.iterator 0)).2 = .promise 2 ∧
    (drain 1 3 (spawn (oneTaskWorld (fun _ => .ret (.promise 0)) (.rejected (.error "boom")))
      (.iterator 0)).1).map (fun w => (w.promises 2, (w.iters 0).history, w.queue)) =
      some (.rejected (.error "boom"), [.next .undefined], []) :=
  ⟨rfl, rfl⟩

/-- C2, amended: a stepped computation that yields only the plain values `vs`
and then returns `r` is stepped with `undefined` and then with each yielded
value, in order and within the first job, and `raise` is never called (second
part, for every `r`).  When `r` is not a promise, the promise returned by
`spawn` is fulfilled with `r` (third part).  When `r` is a promise `t`, the
promise returned by `spawn` follows it (last part): it is rejected with the
error of `t` when `t` is rejected, fulfilled with the value of `t` when `t` is
fulfilled, and pending with nothing left to run while `t` is pending. -/
theorem plain_values_fed_back (w : World) (i : Nat) (vs : List Value) (r : Value)
    (hq : w.queue = [])
    (hs : follows (w.iters i).script ((w.iters i).history ++ [.next .undefined])
      (vs.map Item.plain) (.ret r))
    (hp : ∀ v ∈ vs, isPlain v = true)
    (fuel : Nat) (hf : vs.length < fuel) :
    (spawn w (.iterator i)).2 = .promise (w.nextPromise + 1) ∧
    (∃ w1, drain fuel 1 (spawn w (.iterator i)).1 = some w1 ∧
      (w1.iters i).history = (w.iters i).history ++ (Value.undefined :: vs).map Resume.next) ∧
    (isPromise r = false →
      ∃ w2, drain fuel 3 (spawn w (.iterator i)).1 = some w2 ∧
        w2.queue = [] ∧
        w2.promises (w.nextPromise + 1) = .fulfilled r ∧
        (w2.iters i).history = (w.iters i).history ++ (Value.undefined :: vs).map Resume.next) ∧
    (∀ t, r = .promise t → t < w.nextPromise →
      (∀ e, w.promises t = .rejected e →
        ∃ w2, drain fuel 3 (spawn w (.iterator i)).1 = some w2 ∧
          w2.promises (w.nextPromise + 1) = .rejected e ∧
          (w2.iters i).history =
            (w.iters i).history ++ (Value.undefined :: vs).map Resume.next) ∧
      (∀ x, w.promises t = .fulfilled x → isPromise x = false →
        ∃ w2, drain fuel 3 (spawn w (.iterator i)).1 = some w2 ∧
          w2.promises (w.nextPromise + 1) = .fulfilled x ∧
          (w2.iters i).history =
            (w.iters i).history ++ (Value.undefined :: vs).map Resume.next) ∧
      (∀ rt, w.promises t = .pending rt →
        ∃ w2, drain fuel 2 (spawn w (.iterator i)).1 = some w2 ∧ w2.queue = [] ∧
          (w2.promises (w.nextPromise + 1)).isSettled = false ∧
          (w2.iters i).history =
            (w.iters i).history ++ (Value.undefined :: vs).map Resume.next)) := by
  have hjob := first_job_returns i r vs
    { w with
        promises := setAt (setAt w.promises w.nextPromise (.fulfilled .undefined))
          (w.nextPromise + 1) (.pending []),
        nextPromise := w.nextPromise + 1 + 1,
        queue := [] } .undefined (w.nextPromise + 1) fuel hs hp hf
  have htick : tick fuel (spawn w (.iterator i)).1 =
      some (resolvePromise (promiseResolve (fed { w with
        promises := setAt (setAt w.promises w.nextPromise (.fulfilled .undefined))
          (w.nextPromise + 1) (.pending []),
        nextPromise := w.nextPromise + 1 + 1,
        queue := [] } i (.undefined :: vs)) r).1 (w.nextPromise + 1)
        (promiseResolve (fed { w with
        promises := setAt (setAt w.promises w.nextPromise (.fulfilled .undefined))
          (w.nextPromise + 1) (.pending []),
        nextPromise := w.nextPromise + 1 + 1,
        queue := [] } i (.undefined :: vs)) r).2) := by
    rw [spawn_iterator]
    simp only [hq, List.nil_append]
    rw [tick_cons fuel _ _ [] rfl]
    exact hjob
  refine ⟨by rw [spawn_iterator], ?_, ?_, ?_⟩
  · refine ⟨_, by rw [drain_succ, htick]; rfl, ?_⟩
    rw [(resolvePromise_iters _ _ _).1, (promiseResolve_frame _ _).1]
    simp [fed, setAt_apply]
  · intro hr
    obtain ⟨w2, h1, h2, h3, h4, _⟩ := spawn_drives w i (vs.map Item.plain) (.ret r) hq hs
      (Ready_plain _ _ vs _ hp hr) fuel (by simpa using hf)
    rw [topTicks_plain] at h1
    refine ⟨w2, h1, h2, h3, ?_⟩
    rw [h4, resumesOf_plain]
    simp [Terminal.resumes]
  · intro t hrt htn
    subst hrt
    have hne : t ≠ w.nextPromise + 1 := by omega
    have hne0 : t ≠ w.nextPromise := by omega
    have hpr : ∀ W : World, promiseResolve W (.promise t) = (W, .promise t) := fun _ => rfl
    rw [hpr] at htick
    obtain ⟨_, h1, h2, h3⟩ := resolve_follows fuel
      (fed { w with
        promises := setAt (setAt w.promises w.nextPromise (.fulfilled .undefined))
          (w.nextPromise + 1) (.pending []),
        nextPromise := w.nextPromise + 1 + 1,
        queue := [] } i (.undefined :: vs)) (w.nextPromise + 1) t [] rfl
      (by simp [fed, setAt_apply]) (by simp [fed]) hne
    have hhist : ∀ W' : World, W'.iters = (fed { w with
        promises := setAt (setAt w.promises w.nextPromise (.fulfilled .undefined))
          (w.nextPromise + 1) (.pending []),
        nextPromise := w.nextPromise + 1 + 1,
        queue := [] } i (.undefined :: vs)).iters →
        (W'.iters i).history = (w.iters i).history ++ (Value.undefined :: vs).map Resume.next := by
      intro W' hW'
      rw [hW']
      simp [fed, setAt_apply]
    have hpt : (fed { w with
        promises := setAt (setAt w.promises w.nextPromise (.fulfilled .undefined))
          (w.nextPromise + 1) (.pending []),
        nextPromise := w.nextPromise + 1 + 1,
        queue := [] } i (.undefined :: vs)).promises t = w.promises t := by
      simp [fed, setAt_apply, hne, hne0]
    refine ⟨fun e he => ?_, fun x hx1 hx2 => ?_, fun rt hrt => ?_⟩
    · obtain ⟨w2, a, b, c, _⟩ := h1 e (by rw [hpt]; exact he)
      exact ⟨w2, by rw [drain_succ, htick]; exact a, b, hhist w2 c⟩
    · obtain ⟨w2, a, b, c, _⟩ := h2 x (by rw [hpt]; exact hx1) hx2
      exact ⟨w2, by rw [drain_succ, htick]; exact a, b, hhist w2 c⟩
    · obtain ⟨w2, a, b, c, d, _⟩ := h3 rt (by rw [hpt]; exact hrt)
      exact ⟨w2, by rw [drain_succ, htick]; exact a, b, c, hhist w2 d⟩

/-- C2 amended, at a computation that yields 1, yields 2 and returns 3. -/
theorem plain_values_fed_back_witness :
    ∃ w2, drain 3 3 (spawn (oneTaskWorld countScript (.pending [])) (.iterator 0)).1 = some w2 ∧
      w2.queue = [] ∧
      w2.promises 2 = .fulfilled (.num 3) ∧
      (w2.iters 0).history =
        [.next .undefined, .next (.num 1), .next (.num 2)] :=
  (plain_values_fed_back (oneTaskWorld countScript (.pending [])) 0 [.num 1, .num 2] (.num 3) rfl
    ⟨rfl, rfl, rfl⟩ (by intro v hv; simp at hv; rcases hv with rfl | rfl <;> rfl) 3
    (by decide)).2.2.1 rfl

/-! ## Ownership: who can act on a promise or on a computation -/

theorem Owner.step_pending (P : Nat → PState) (h : Nat) (r : Reaction)
    (hp : (P h).isSettled = false) : (Owner.waiting h r).step P = .waiting h r := by
  cases hs : P h <;> simp_all [Owner.step, Reaction.job, PState.isSettled]

theorem Owner.step_fulfilled (P : Nat → PState) (h : Nat) (r : Reaction) (v : Value)
    (hp : P h = .fulfilled v) :
    (Owner.waiting h r).step P = .queued (.reaction r.onFulfilled v r.derived) := by
  simp [Owner.step, Reaction.job, hp]

theorem Owner.step_rejected (P : Nat → PState) (h : Nat) (r : Reaction) (e : Value)
    (hp : P h = .rejected e) :
    (Owner.waiting h r).step P = .queued (.reaction r.onRejected e r.derived) := by
  simp [Owner.step, Reaction.job, hp]

theorem Owner.step_job (P : Nat → PState) (h : Nat) (r : Reaction) (j : Job)
    (hj : r.job (P h) = some j) : (Owner.waiting h r).step P = .queued j := by
  simp [Owner.step, hj]

theorem QueueFree_append (res : Res) (a b : List Job) :
    QueueFree res (a ++ b) ↔ QueueFree res a ∧ QueueFree res b := by
  simp only [QueueFree, List.mem_append]
  exact ⟨fun h => ⟨fun j hj => h j (Or.inl hj), fun j hj => h j (Or.inr hj)⟩,
    fun h j hj => hj.elim (h.1 j) (h.2 j)⟩

theorem ListFree_append (res : Res) (a b : List Reaction) :
    ListFree res (a ++ b) ↔ ListFree res a ∧ ListFree res b := by
  simp only [ListFree, List.mem_append]
  exact ⟨fun h => ⟨fun j hj => h j (Or.inl hj), fun j hj => h j (Or.inr hj)⟩,
    fun h j hj => hj.elim (h.1 j) (h.2 j)⟩

theorem QueueFree_nil (res : Res) : QueueFree res [] := fun _ h => absurd h (List.not_mem_nil _)

theorem ListFree_nil (res : Res) : ListFree res [] := fun _ h => absurd h (List.not_mem_nil _)

theorem QueueFree_singleton (res : Res) (j : Job) (h : res ∉ j.targets) : QueueFree res [j] := by
  intro k hk
  rw [List.mem_singleton] at hk
  rw [hk]
  exact h

theorem ListFree_singleton (res : Res) (r : Reaction) (h : res ∉ r.targets) :
    ListFree res [r] := by
  intro k hk
  rw [List.mem_singleton] at hk
  rw [hk]
  exact h

theorem Reaction.job_free (res : Res) (r : Reaction) (st : PState) (j : Job)
    (hr : res ∉ r.targets) (hj : r.job st = some j) : res ∉ j.targets := by
  simp only [Reaction.targets, List.mem_cons, List.mem_append, not_or] at hr
  cases st with
  | pending rs => simp [Reaction.job] at hj
  | fulfilled v =>
    simp only [Reaction.job, Option.some.injEq] at hj
    rw [← hj]
    simp only [Job.targets, List.mem_cons, not_or]
    exact ⟨hr.1, hr.2.1⟩
  | rejected e =>
    simp only [Reaction.job, Option.some.injEq] at hj
    rw [← hj]
    simp only [Job.targets, List.mem_cons, not_or]
    exact ⟨hr.1, hr.2.2⟩

theorem QueueFree_map (res : Res) (rs : List Reaction) (st : PState) (f : Reaction → Job)
    (hf : ∀ r, r.job st = some (f r)) (h : ListFree res rs) : QueueFree res (rs.map f) := by
  intro j hj
  obtain ⟨r, hr, rfl⟩ := List.mem_map.mp hj
  exact Reaction.job_free res r st _ (h r hr) (hf r)

theorem Owns_step_self (W : World) (res : Res) (o : Owner) (ho : Owns W res o) :
    o.step W.promises = o := by
  cases o with
  | nobody => rfl
  | queued j => rfl
  | waiting h r =>
    obtain ⟨_, _, ⟨r1, r2, hp, _⟩, _⟩ := ho
    exact Owner.step_pending _ _ _ (by rw [hp]; rfl)

/-- Code that settles no promise, adds only jobs and continuations that do not
act on `res`, leaves the owner of `res` where it is. -/
theorem Owns_mono (res : Res) (W W' : World) (ext : List Job) (o : Owner)
    (hq : W'.queue = W.queue ++ ext) (hext : QueueFree res ext)
    (hn : W.nextPromise ≤ W'.nextPromise)
    (hP : ∀ q, W'.promises q = W.promises q ∨
      (∃ rs add, W.promises q = .pending rs ∧ W'.promises q = .pending (rs ++ add) ∧
        ListFree res add) ∨
      (W.nextPromise ≤ q ∧ ∀ rs, W'.promises q = .pending rs → ListFree res rs))
    (ho : Owns W res o) : Owns W' res (o.step W'.promises) := by
  have hstore : ∀ skip, StoreFree res W.promises skip → StoreFree res W'.promises skip := by
    intro skip hs q rs hne hpq
    rcases hP q with h | ⟨rs0, add, h1, h2, h3⟩ | ⟨_, h⟩
    · exact hs q rs hne (by rw [← h]; exact hpq)
    · rw [h2] at hpq
      cases hpq
      exact (ListFree_append res rs0 add).mpr ⟨hs q rs0 hne h1, h3⟩
    · exact h rs hpq
  cases o with
  | nobody =>
    obtain ⟨h1, h2⟩ := ho
    exact ⟨by
      show QueueFree res W'.queue
      rw [hq]; exact (QueueFree_append res _ _).mpr ⟨h1, hext⟩, hstore none h2⟩
  | queued j =>
    obtain ⟨⟨q1, q2, h1, h2, h3⟩, h4⟩ := ho
    refine ⟨⟨q1, q2 ++ ext, ?_, h2, (QueueFree_append res _ _).mpr ⟨h3, hext⟩⟩, hstore none h4⟩
    show W'.queue = _
    rw [hq, h1]; simp
  | waiting h r =>
    obtain ⟨h1, h2, ⟨r1, r2, h3, h4, h5⟩, h6⟩ := ho
    have hdec : ∃ r2', W'.promises h = .pending (r1 ++ r :: r2') ∧ ListFree res r2' := by
      rcases hP h with e | ⟨rs0, add, e1, e2, e3⟩ | ⟨e, _⟩
      · exact ⟨r2, by rw [e, h3], h5⟩
      · rw [h3] at e1
        cases e1
        exact ⟨r2 ++ add, by rw [e2]; simp, (ListFree_append res _ _).mpr ⟨h5, e3⟩⟩
      · omega
    obtain ⟨r2', e1, e2⟩ := hdec
    rw [Owner.step_pending _ _ _ (by rw [e1]; rfl)]
    exact ⟨by
      show QueueFree res W'.queue
      rw [hq]; exact (QueueFree_append res _ _).mpr ⟨h1, hext⟩, by
      show h < W'.nextPromise
      omega, ⟨r1, r2', e1, h4, e2⟩, hstore (some h) h6⟩

/-- Settling a promise moves its continuations to the queue; the owner of
`res` moves with them. -/
theorem Owns_settle (res : Res) (W W' : World) (p : Nat) (rs : List Reaction) (st : PState)
    (f : Reaction → Job) (o : Owner)
    (hp : W.promises p = .pending rs) (hf : ∀ r, r.job st = some (f r))
    (hP : W'.promises = setAt W.promises p st)
    (hq : W'.queue = W.queue ++ rs.map f) (hn : W'.nextPromise = W.nextPromise)
    (ho : Owns W res o) : Owns W' res (o.step W'.promises) := by
  have hst : ∀ rs0, st ≠ .pending rs0 := by
    intro rs0 e
    have := hf ⟨.identity, .identity, 0⟩
    rw [e] at this
    simp [Reaction.job] at this
  have hsettled : ∀ rs0, W'.promises p ≠ .pending rs0 := by
    intro rs0 e
    rw [hP, setAt_same] at e
    exact hst rs0 e
  have hother : ∀ q, q ≠ p → W'.promises q = W.promises q := by
    intro q hne
    rw [hP, setAt_ne _ _ hne]
  have hstore : ∀ skip, StoreFree res W.promises skip → StoreFree res W'.promises skip := by
    intro skip hs q rs0 hne hpq
    by_cases e : q = p
    · subst e
      exact absurd hpq (hsettled rs0)
    · rw [hother q e] at hpq
      exact hs q rs0 hne hpq
  have hstoreP : StoreFree res W.promises (some p) → StoreFree res W'.promises none := by
    intro hs q rs0 _ hpq
    by_cases e : q = p
    · subst e
      exact absurd hpq (hsettled rs0)
    · rw [hother q e] at hpq
      exact hs q rs0 (by simpa using e) hpq
  cases o with
  | nobody =>
    obtain ⟨h1, h2⟩ := ho
    refine ⟨?_, hstore none h2⟩
    show QueueFree res W'.queue
    rw [hq]
    exact (QueueFree_append res _ _).mpr ⟨h1, QueueFree_map res rs st f hf (h2 p rs (by simp) hp)⟩
  | queued j =>
    obtain ⟨⟨q1, q2, h1, h2, h3⟩, h4⟩ := ho
    refine ⟨⟨q1, q2 ++ rs.map f, ?_, h2, (QueueFree_append res _ _).mpr
      ⟨h3, QueueFree_map res rs st f hf (h4 p rs (by simp) hp)⟩⟩, hstore none h4⟩
    show W'.queue = _
    rw [hq, h1]; simp
  | waiting h r =>
    obtain ⟨h1, h2, ⟨r1, r2, h3, h4, h5⟩, h6⟩ := ho
    by_cases e : h = p
    · subst e
      rw [hp] at h3
      cases h3
      have hj : r.job (W'.promises h) = some (f r) := by
        rw [hP, setAt_same]; exact hf r
      rw [Owner.step_job _ _ _ _ hj]
      refine ⟨⟨W.queue ++ r1.map f, r2.map f, ?_, (QueueFree_append res _ _).mpr
        ⟨h1, QueueFree_map res r1 st f hf h4⟩, QueueFree_map res r2 st f hf h5⟩, hstoreP h6⟩
      show W'.queue = _
      rw [hq]; simp
    · rw [Owner.step_pending _ _ _ (by rw [hother h e, h3]; rfl)]
      refine ⟨?_, by show h < W'.nextPromise; omega, ⟨r1, r2, by rw [hother h e, h3], h4, h5⟩,
        hstore (some h) h6⟩
      show QueueFree res W'.queue
      rw [hq]
      exact (QueueFree_append res _ _).mpr
        ⟨h1, QueueFree_map res rs st f hf (h6 p rs (by simpa using Ne.symm e) hp)⟩
/-! ## Code that does not act on a resource keeps its owner -/

theorem refs_promise (c : Nat) (y : Value) : Res.promise c ∉ refs y := by
  cases y <;> simp [refs]

theorem ScriptsClean_promise (c : Nat) (W : World) : ScriptsClean (.promise c) W :=
  ⟨fun _ _ x _ => ⟨refs_promise c x, fun v _ => refs_promise c v⟩,
    fun _ _ x _ => ⟨refs_promise c x, fun v _ => refs_promise c v⟩⟩

theorem Known_Later (res : Res) (W W' : World) (hk : Known res W) (hL : Later W W') :
    Known res W' := by
  cases res with
  | promise c => trivial
  | gen g => trivial
  | iter i => exact lt_of_lt_of_le hk hL.1

theorem Keeps_refl (res : Res) (W : World) : Keeps res W W := by
  refine ⟨Later_refl W, ⟨[], by simp⟩, id, id, fun _ =>
    ⟨?_, fun o ho => by rw [Owns_step_self W res o ho]; exact ho⟩⟩
  cases res with
  | promise c => exact fun _ h => h
  | iter i => exact rfl
  | gen g => exact fun _ h => h

theorem Owner.step_step (W2 W3 : World) (o : Owner) (hL : Later W2 W3)
    (hh : ∀ h r, o = .waiting h r → h < W2.nextPromise) :
    (o.step W2.promises).step W3.promises = o.step W3.promises := by
  cases o with
  | nobody => rfl
  | queued j => rfl
  | waiting h r =>
    cases hs : W2.promises h with
    | pending rs => rw [Owner.step_pending _ _ _ (by rw [hs]; rfl)]
    | fulfilled v =>
      have e := hL.2.2.2 h (hh h r rfl) (by rw [hs]; rfl)
      rw [Owner.step_fulfilled _ _ _ v hs, Owner.step_fulfilled _ _ _ v (by rw [e, hs])]
      rfl
    | rejected v =>
      have e := hL.2.2.2 h (hh h r rfl) (by rw [hs]; rfl)
      rw [Owner.step_rejected _ _ _ v hs, Owner.step_rejected _ _ _ v (by rw [e, hs])]
      rfl

theorem Owns_host_lt (W : World) (res : Res) (o : Owner) (ho : Owns W res o) :
    ∀ h r, o = .waiting h r → h < W.nextPromise := by
  intro h r e
  subst e
  exact ho.2.1

theorem Keeps_trans (res : Res) (W1 W2 W3 : World) (h12 : Keeps res W1 W2)
    (h23 : Keeps res W2 W3) : Keeps res W1 W3 := by
  obtain ⟨a1, ⟨e1, a2⟩, a3, a4, a5⟩ := h12
  obtain ⟨b1, ⟨e2, b2⟩, b3, b4, b5⟩ := h23
  refine ⟨Later_trans _ _ _ a1 b1, ⟨e1 ++ e2, by rw [b2, a2, List.append_assoc]⟩,
    fun h => b3 (a3 h), fun h => b4 (a4 h), ?_⟩
  intro hout
  have o12 : Outside res W1 W2 := by
    cases res with
    | promise c =>
      rcases hout with h | h
      · exact Or.inl h
      · exact Or.inr (le_trans b1.2.2.1 h)
    | iter i => trivial
    | gen g => trivial
  have o23 : Outside res W2 W3 := by
    cases res with
    | promise c =>
      rcases hout with h | h
      · exact Or.inl (lt_of_lt_of_le h a1.2.2.1)
      · exact Or.inr h
    | iter i => trivial
    | gen g => trivial
  obtain ⟨u1, k1⟩ := a5 o12
  obtain ⟨u2, k2⟩ := b5 o23
  refine ⟨?_, ?_⟩
  · cases res with
    | promise c =>
      intro hc hs
      exact u2 (lt_of_lt_of_le hc a1.2.2.1) (u1 hc hs)
    | iter i => exact Eq.trans u2 u1
    | gen g => exact fun i h => u1 i (u2 i h)
  · intro o ho
    have h3 := k2 _ (k1 o ho)
    rwa [Owner.step_step W2 W3 o b1 (fun h r e =>
      lt_of_lt_of_le (Owns_host_lt W1 res o ho h r e) a1.2.2.1)] at h3

/-- Code that leaves the computations alone keeps `res` when it keeps the
promise `res` pending and its owner in place. -/
theorem Keeps_of_promises (res : Res) (W W' : World)
    (hg : W'.gens = W.gens) (hi : W'.iters = W.iters)
    (hlog : ∀ g i, Event.instantiate g i ∈ W'.log → Event.instantiate g i ∈ W.log)
    (hL : Later W W') (hq : ∃ ext, W'.queue = W.queue ++ ext) (hN : NoNest W → NoNest W')
    (hU : ∀ c, res = .promise c → c < W.nextPromise → (W.promises c).isSettled = false →
      (W'.promises c).isSettled = false)
    (hO : Outside res W W' → ∀ o, Owns W res o → Owns W' res (o.step W'.promises)) :
    Keeps res W W' := by
  refine ⟨hL, hq, hN, ?_, fun ho => ⟨?_, hO ho⟩⟩
  · intro hs
    exact ⟨fun j h x => by rw [hi]; exact hs.1 j h x, fun g h x => by rw [hg]; exact hs.2 g h x⟩
  · cases res with
    | promise c => exact fun h1 h2 => hU c rfl h1 h2
    | iter i => exact congrFun hi i
    | gen g => exact fun i h => hlog g i h

/-- Code that leaves the promises and the queue alone keeps `res` when it
leaves the computation `res` alone. -/
theorem Keeps_of_store (res : Res) (W W' : World) (hq : W'.queue = W.queue)
    (hP : W'.promises = W.promises) (hn : W'.nextPromise = W.nextPromise) (hL : Later W W')
    (hS : ScriptsClean res W → ScriptsClean res W')
    (hU : ∀ c, res ≠ .promise c → Untouched res W W') : Keeps res W W' := by
  refine ⟨hL, ⟨[], by rw [hq]; simp⟩, ?_, hS, fun _ => ⟨?_, ?_⟩⟩
  · intro h q x hq1 hq2
    rw [hn] at hq1
    rw [hP] at hq2
    exact h q x hq1 hq2
  · cases res with
    | promise c =>
      intro _ h
      rw [hP]
      exact h
    | iter i => exact hU 0 (by simp)
    | gen g => exact hU 0 (by simp)
  · intro o ho
    have e : Owns W' res o := by
      unfold Owns
      rw [hq, hP, hn]
      exact ho
    rw [hP, Owns_step_self W res o ho]
    exact e

theorem Keeps_promiseResolve (res : Res) (w : World) (x : Value) :
    Keeps res w (promiseResolve w x).1 := by
  by_cases hx : isPromise x = true
  · cases x <;> simp [isPromise] at hx
    exact Keeps_refl _ _
  · have hx' : isPromise x = false := by simpa using hx
    rw [promiseResolve_plain w x hx']
    refine Keeps_of_promises _ _ _ rfl rfl (fun _ _ h => h) ?_ ⟨[], by simp [newPromise]⟩ ?_ ?_ ?_
    · rw [← promiseResolve_plain w x hx']
      exact Later_promiseResolve w x
    · intro hN q y hq hy
      simp only [newPromise, setAt_apply] at hq hy
      split at hy
      · cases hy
        exact hx'
      · rename_i hne
        exact hN q y (by omega) hy
    · intro c _ hc hs
      have : c ≠ w.nextPromise := by omega
      simpa [newPromise, setAt_apply, this] using hs
    · intro _ o ho
      refine Owns_mono res w _ [] o (by simp [newPromise]) (QueueFree_nil res)
        (by simp [newPromise]) ?_ ho
      intro q
      by_cases e : q = w.nextPromise
      · refine Or.inr (Or.inr ⟨by omega, fun rs h => ?_⟩)
        simp [newPromise, setAt_apply, e] at h
      · exact Or.inl (by simp [newPromise, setAt_apply, e])

theorem Keeps_enqueue (res : Res) (w : World) (js : List Job) (hjs : QueueFree res js) :
    Keeps res w (enqueue w js) :=
  Keeps_of_promises _ _ _ rfl rfl (fun _ _ h => h) (Later_enqueue w js) ⟨js, rfl⟩
    (fun h => h) (fun _ _ _ h => h)
    (fun _ o ho => Owns_mono res w _ js o rfl hjs (le_refl _) (fun _ => Or.inl rfl) ho)

theorem Keeps_fulfillPromise (res : Res) (w : World) (p : Nat) (v : Value)
    (hv : isPromise v = false) (hres : res ≠ .promise p) : Keeps res w (fulfillPromise w p v) := by
  cases hp : w.promises p with
  | fulfilled y =>
    have : fulfillPromise w p v = w := by simp [fulfillPromise, hp]
    rw [this]; exact Keeps_refl _ _
  | rejected y =>
    have : fulfillPromise w p v = w := by simp [fulfillPromise, hp]
    rw [this]; exact Keeps_refl _ _
  | pending rs =>
    have hw : fulfillPromise w p v = { w with
        promises := setAt w.promises p (.fulfilled v),
        queue := w.queue ++ rs.map (fun r => Job.reaction r.onFulfilled v r.derived),
        log := w.log ++ [Event.settled p] } := by
      simp [fulfillPromise, hp]
    refine Keeps_of_promises _ _ _ (by rw [hw]) (by rw [hw]) ?_ (Later_fulfillPromise w p v)
      ⟨_, by rw [hw]⟩ ?_ ?_ ?_
    · intro g i h
      rw [hw] at h
      simpa using h
    · intro hN q y hq hy
      rw [hw] at hq hy
      simp only [setAt_apply] at hy
      split at hy
      · cases hy
        exact hv
      · exact hN q y hq hy
    · intro c hc _ hs
      have : c ≠ p := by
        intro e
        exact hres (by rw [hc, e])
      rw [hw]
      simpa [setAt_apply, this] using hs
    · intro _ o ho
      exact Owns_settle res w _ p rs (.fulfilled v) _ o hp (fun r => rfl) (by rw [hw])
        (by rw [hw]) (by rw [hw]) ho

theorem Keeps_rejectPromise (res : Res) (w : World) (p : Nat) (e : Value)
    (hres : res ≠ .promise p) : Keeps res w (rejectPromise w p e) := by
  cases hp : w.promises p with
  | fulfilled y =>
    have : rejectPromise w p e = w := by simp [rejectPromise, hp]
    rw [this]; exact Keeps_refl _ _
  | rejected y =>
    have : rejectPromise w p e = w := by simp [rejectPromise, hp]
    rw [this]; exact Keeps_refl _ _
  | pending rs =>
    have hw : rejectPromise w p e = { w with
        promises := setAt w.promises p (.rejected e),
        queue := w.queue ++ rs.map (fun r => Job.reaction r.onRejected e r.derived),
        log := w.log ++ [Event.settled p] } := by
      simp [rejectPromise, hp]
    refine Keeps_of_promises _ _ _ (by rw [hw]) (by rw [hw]) ?_ (Later_rejectPromise w p e)
      ⟨_, by rw [hw]⟩ ?_ ?_ ?_
    · intro g i h
      rw [hw] at h
      simpa using h
    · intro hN q y hq hy
      rw [hw] at hq hy
      simp only [setAt_apply] at hy
      split at hy
      · cases hy
      · exact hN q y hq hy
    · intro c hc _ hs
      have : c ≠ p := by
        intro e
        exact hres (by rw [hc, e])
      rw [hw]
      simpa [setAt_apply, this] using hs
    · intro _ o ho
      exact Owns_settle res w _ p rs (.rejected e) _ o hp (fun r => rfl) (by rw [hw])
        (by rw [hw]) (by rw [hw]) ho

theorem Keeps_resolvePromise (res : Res) (w : World) (p : Nat) (x : Value)
    (hres : res ≠ .promise p) : Keeps res w (resolvePromise w p x) := by
  by_cases hx : isPromise x = true
  · cases x <;> simp [isPromise] at hx
    rename_i t
    rw [resolvePromise_promise]
    split
    · exact Keeps_rejectPromise res w p _ hres
    · refine Keeps_enqueue res w _ (QueueFree_singleton res _ ?_)
      simpa [Job.targets] using hres
  · have hx' : isPromise x = false := by simpa using hx
    rw [resolvePromise_plain w p x hx']
    exact Keeps_fulfillPromise res w p x hx' hres

theorem Keeps_promiseThen (res : Res) (w : World) (p : Nat) (onF onR : Handler)
    (hF : res ∉ onF.targets) (hR : res ∉ onR.targets) :
    Keeps res w (promiseThen w p onF onR).1 := by
  have hnew : Outside res w (promiseThen w p onF onR).1 → res ≠ .promise w.nextPromise := by
    intro ho e
    subst e
    have hn : (promiseThen w p onF onR).1.nextPromise = w.nextPromise + 1 := by
      unfold promiseThen
      simp only
      split <;> rfl
    rcases ho with h | h
    · exact absurd h (lt_irrefl _)
    · rw [hn] at h
      omega
  have hlog : (promiseThen w p onF onR).1.log = w.log := by
    unfold promiseThen
    simp only
    split <;> rfl
  refine Keeps_of_promises _ _ _ ?_ (promiseThen_frame w p onF onR).1 ?_
    (Later_promiseThen w p onF onR) ?_ ?_ ?_ ?_
  · unfold promiseThen
    simp only
    split <;> rfl
  · intro g i h
    rw [hlog] at h
    exact h
  · unfold promiseThen
    simp only
    split
    · exact ⟨[], by simp⟩
    · exact ⟨_, rfl⟩
    · exact ⟨_, rfl⟩
  · intro hN q y hq hy
    have hold : w.promises q = .fulfilled y := by
      unfold promiseThen at hy
      simp only at hy
      split at hy
      · simp only [setAt_apply] at hy
        split at hy
        · cases hy
        · split at hy
          · cases hy
          · exact hy
      · simp only [enqueue, setAt_apply] at hy
        split at hy
        · cases hy
        · exact hy
      · simp only [enqueue, setAt_apply] at hy
        split at hy
        · cases hy
        · exact hy
    by_cases e : q < w.nextPromise
    · exact hN q y e hold
    · exfalso
      have hn : (promiseThen w p onF onR).1.nextPromise = w.nextPromise + 1 := by
        unfold promiseThen
        simp only
        split <;> rfl
      rw [hn] at hq
      have e2 : q = w.nextPromise := by omega
      subst e2
      unfold promiseThen at hy
      simp only at hy
      split at hy
      · simp only [setAt_apply] at hy
        split at hy
        · cases hy
        · simp at hy
      · simp [enqueue, setAt_apply] at hy
      · simp [enqueue, setAt_apply] at hy
  · intro c _ hc hs
    have e2 : c ≠ w.nextPromise := by omega
    unfold promiseThen
    simp only
    split
    · simp only [setAt_apply]
      split
      · rfl
      · simpa [e2] using hs
    · simpa [enqueue, setAt_apply, e2] using hs
    · simpa [enqueue, setAt_apply, e2] using hs
  · intro hout o ho
    have hne := hnew hout
    have hfreeF : ∀ v, res ∉ (Job.reaction onF v w.nextPromise).targets := by
      intro v
      simp only [Job.targets, List.mem_cons, not_or]
      exact ⟨hne, hF⟩
    have hfreeR : ∀ v, res ∉ (Job.reaction onR v w.nextPromise).targets := by
      intro v
      simp only [Job.targets, List.mem_cons, not_or]
      exact ⟨hne, hR⟩
    have hfree : res ∉ (Reaction.mk onF onR w.nextPromise).targets := by
      simp only [Reaction.targets, List.mem_cons, List.mem_append, not_or]
      exact ⟨hne, hF, hR⟩
    cases hp : w.promises p with
    | pending rs =>
      have hw : (promiseThen w p onF onR).1 = { w with
          promises := setAt (setAt w.promises w.nextPromise (.pending [])) p
            (.pending (rs ++ [⟨onF, onR, w.nextPromise⟩])),
          nextPromise := w.nextPromise + 1 } := by
        simp [promiseThen, hp]
      rw [hw]
      refine Owns_mono res w _ [] o (by simp) (QueueFree_nil res) (by simp) ?_ ho
      intro q
      by_cases e1 : q = p
      · refine Or.inr (Or.inl ⟨rs, [⟨onF, onR, w.nextPromise⟩], by rw [e1, hp], ?_,
          ListFree_singleton res _ hfree⟩)
        simp [setAt_apply, e1]
      · by_cases e2 : q = w.nextPromise
        · refine Or.inr (Or.inr ⟨by omega, fun rs0 h => ?_⟩)
          simp only [setAt_apply, e1, e2, if_false, if_true] at h
          simp only [← e2, e1, if_false] at h
          cases h
          exact ListFree_nil res
        · exact Or.inl (by simp [setAt_apply, e1, e2])
    | fulfilled v =>
      have hw : (promiseThen w p onF onR).1 = enqueue { w with
          promises := setAt w.promises w.nextPromise (.pending []),
          nextPromise := w.nextPromise + 1 } [Job.reaction onF v w.nextPromise] := by
        simp [promiseThen, hp]
      rw [hw]
      refine Owns_mono res w _ [Job.reaction onF v w.nextPromise] o (by simp [enqueue])
        (QueueFree_singleton res _ (hfreeF v)) (by simp [enqueue]) ?_ ho
      intro q
      by_cases e2 : q = w.nextPromise
      · refine Or.inr (Or.inr ⟨by omega, fun rs0 h => ?_⟩)
        simp only [enqueue, setAt_apply, e2, if_true] at h
        cases h
        exact ListFree_nil res
      · exact Or.inl (by simp [enqueue, setAt_apply, e2])
    | rejected v =>
      have hw : (promiseThen w p onF onR).1 = enqueue { w with
          promises := setAt w.promises w.nextPromise (.pending []),
          nextPromise := w.nextPromise + 1 } [Job.reaction onR v w.nextPromise] := by
        simp [promiseThen, hp]
      rw [hw]
      refine Owns_mono res w _ [Job.reaction onR v w.nextPromise] o (by simp [enqueue])
        (QueueFree_singleton res _ (hfreeR v)) (by simp [enqueue]) ?_ ho
      intro q
      by_cases e2 : q = w.nextPromise
      · refine Or.inr (Or.inr ⟨by omega, fun rs0 h => ?_⟩)
        simp only [enqueue, setAt_apply, e2, if_true] at h
        cases h
        exact ListFree_nil res
      · exact Or.inl (by simp [enqueue, setAt_apply, e2])

theorem Keeps_step (res : Res) (w : World) (i : Nat) (r : Resume) (ev : Event)
    (hres : res ≠ .iter i) (hev : ∀ g j, ev ≠ .instantiate g j) :
    Keeps res w { w with
      iters := setAt w.iters i ⟨(w.iters i).script, (w.iters i).history ++ [r]⟩,
      log := w.log ++ [ev] } := by
  refine Keeps_of_store _ _ _ rfl rfl rfl (Later_step w i r _) ?_ ?_
  · intro hs
    refine ⟨fun j h x hx => hs.1 j h x ?_, hs.2⟩
    by_cases e : j = i
    · subst e
      simpa [setAt_apply] using hx
    · simpa [setAt_apply, e] using hx
  · intro _ _
    cases res with
    | promise c => exact fun _ h => h
    | iter i0 =>
      have e : i0 ≠ i := by
        intro e
        exact hres (by rw [e])
      show setAt w.iters i _ i0 = w.iters i0
      simp [setAt_apply, e]
    | gen g =>
      intro j h
      have h' : Event.instantiate g j ∈ w.log ++ [ev] := h
      rw [List.mem_append, List.mem_singleton] at h'
      rcases h' with h' | h'
      · exact h'
      · exact absurd h'.symm (hev g j)

theorem ne_iter_of_refs (res : Res) (i : Nat) (h : res ∉ refs (.iterator i)) : res ≠ .iter i := by
  intro e
  exact h (by simp [refs, e])

theorem ne_gen_of_refs (res : Res) (g : Nat) (h : res ∉ refs (.generator g)) : res ≠ .gen g := by
  intro e
  exact h (by simp [refs, e])

theorem Keeps_iterNext (res : Res) (w : World) (it v : Value) (hres : res ∉ refs it) :
    Keeps res w (iterNext w it v).1 := by
  unfold iterNext
  split
  · rename_i i
    simp only
    split <;> exact Keeps_step res w i _ _ (ne_iter_of_refs res i hres) (by intro g j; simp)
  · exact Keeps_refl _ _

theorem Keeps_iterThrow (res : Res) (w : World) (it e : Value) (hres : res ∉ refs it) :
    Keeps res w (iterThrow w it e).1 := by
  unfold iterThrow
  split
  · rename_i i
    simp only
    split <;> exact Keeps_step res w i _ _ (ne_iter_of_refs res i hres) (by intro g j; simp)
  · exact Keeps_refl _ _

theorem Keeps_instantiate (res : Res) (w : World) (it : Value) (hres : res ∉ refs it)
    (hk : Known res w) : Keeps res w (instantiate w it).1 := by
  unfold instantiate
  split
  · rename_i g
    refine Keeps_of_store _ _ _ rfl rfl rfl ?_ ?_ ?_
    · have := Later_instantiate w (.generator g)
      simpa [instantiate] using this
    · intro hs
      refine ⟨fun j h x hx => ?_, hs.2⟩
      by_cases e : j = w.nextIter
      · subst e
        simp only [setAt_same] at hx
        exact hs.2 g h x hx
      · simp only [setAt_apply, e, if_false] at hx
        exact hs.1 j h x hx
    · intro _ _
      cases res with
      | promise c => exact fun _ h => h
      | iter i0 =>
        have e : i0 ≠ w.nextIter := Nat.ne_of_lt hk
        show setAt w.iters w.nextIter _ i0 = w.iters i0
        simp [setAt_apply, e]
      | gen g0 =>
        intro j h
        have h' : Event.instantiate g0 j ∈ w.log ++ [Event.instantiate g w.nextIter] := h
        rw [List.mem_append, List.mem_singleton] at h'
        rcases h' with h' | h'
        · exact h'
        · exfalso
          have e : g0 = g := by
            injection h' with e1 e2
          exact ne_gen_of_refs _ g hres (by rw [e])
  · exact Keeps_refl _ _

theorem Keeps_valueThen (res : Res) (w : World) (x : Value) (onF onR : Handler)
    (hF : res ∉ onF.targets) (hR : res ∉ onR.targets) :
    Keeps res w (valueThen w x onF onR).1 := by
  unfold valueThen
  split
  · exact Keeps_promiseThen res w _ onF onR hF hR
  · exact Keeps_refl _ _

theorem not_mem_thrower (res : Res) : res ∉ Handler.thrower.targets := by
  simp [Handler.targets]

theorem spawn_isPromise (w : World) (it : Value) : ∃ d, (spawn w it).2 = .promise d := by
  unfold spawn
  simp only [promiseResolve, newPromise, valueThen]
  exact ⟨_, rfl⟩

theorem Keeps_spawn (res : Res) (w : World) (it : Value) (hres : res ∉ refs it)
    (hk : Known res w) : Keeps res w (spawn w it).1 := by
  unfold spawn
  simp only
  have h1 : Keeps res w (if isGenerator it = true then instantiate w it else (w, it)).1 ∧
      res ∉ refs (if isGenerator it = true then instantiate w it else (w, it)).2 := by
    split
    · rename_i hg
      refine ⟨Keeps_instantiate res w it hres hk, ?_⟩
      cases it <;> simp [isGenerator] at hg
      simp only [instantiate, refs, List.mem_singleton]
      intro e
      subst e
      exact absurd hk (lt_irrefl _)
    · exact ⟨Keeps_refl _ _, hres⟩
  refine Keeps_trans _ _ _ _ h1.1 (Keeps_trans _ _ _ _ (Keeps_promiseResolve _ _ _)
    (Keeps_valueThen _ _ _ _ _ ?_ (not_mem_thrower res)))
  simpa [Handler.targets] using h1.2

theorem Keeps_parallelStep (res : Res) (acc : World × Value) (v : Value) (hres : res ∉ refs v)
    (hk : Known res acc.1) : Keeps res acc.1 (parallelStep acc v).1 := by
  unfold parallelStep
  simp only
  refine Keeps_trans _ _ _ _ ?_ (Keeps_valueThen _ _ _ _ _ (by simp [Handler.targets])
    (not_mem_thrower res))
  split
  · exact Keeps_refl _ _
  · exact Keeps_spawn res _ v hres hk

theorem Keeps_foldl_parallelStep (res : Res) (arr : List Value) :
    ∀ acc : World × Value, (∀ v ∈ arr, res ∉ refs v) → Known res acc.1 →
      Keeps res acc.1 (arr.foldl parallelStep acc).1 := by
  induction arr with
  | nil => intro acc _ _; exact Keeps_refl _ _
  | cons v arr ih =>
    intro acc hres hk
    have h1 := Keeps_parallelStep res acc v (hres v (List.mem_cons_self _ _)) hk
    exact Keeps_trans _ _ _ _ h1 (ih _ (fun x hx => hres x (List.mem_cons_of_mem _ hx))
      (Known_Later res _ _ hk h1.1))

theorem Keeps_parallel (res : Res) (w : World) (arr : List Value)
    (hres : ∀ v ∈ arr, res ∉ refs v) (hk : Known res w) : Keeps res w (parallel w arr).1 := by
  have h1 := Keeps_promiseResolve res w .undefined
  exact Keeps_trans _ _ _ _ h1 (Keeps_foldl_parallelStep res arr _ hres
    (Known_Later res _ _ hk h1.1))

theorem Keeps_seriesStep (res : Res) (acc : World × Value) (v : Value) (hres : res ∉ refs v) :
    Keeps res acc.1 (seriesStep acc v).1 := by
  unfold seriesStep
  exact Keeps_valueThen _ _ _ _ _ (by simpa [Handler.targets] using hres) (not_mem_thrower res)

theorem Keeps_foldl_seriesStep (res : Res) (arr : List Value) :
    ∀ acc : World × Value, (∀ v ∈ arr, res ∉ refs v) →
      Keeps res acc.1 (arr.foldl seriesStep acc).1 := by
  induction arr with
  | nil => intro acc _; exact Keeps_refl _ _
  | cons v arr ih =>
    intro acc hres
    exact Keeps_trans _ _ _ _ (Keeps_seriesStep res acc v (hres v (List.mem_cons_self _ _)))
      (ih _ (fun x hx => hres x (List.mem_cons_of_mem _ hx)))

theorem iterNext_clean (res : Res) (w : World) (it v x : Value) (hs : ScriptsClean res w)
    (h : (iterNext w it v).2 = .normal (false, x)) : Clean res x := by
  unfold iterNext at h
  split at h
  · rename_i i
    simp only at h
    split at h
    · rename_i y hy
      simp only [Completion.normal.injEq, Prod.mk.injEq, true_and] at h
      rw [← h]
      exact hs.1 i _ y hy
    · simp at h
    · simp at h
  · simp at h

theorem Keeps_nextBody (res : Res) (rec : World → Value → Option (World × Completion Value))
    (hrec : ∀ w x w' c, Known res w → ScriptsClean res w → rec w x = some (w', c) →
      Keeps res w w')
    (it : Value) (hit : res ∉ refs it) (r : World × Completion (Bool × Value))
    (hk : Known res r.1) (hs : ScriptsClean res r.1)
    (hclean : ∀ x, r.2 = .normal (false, x) → Clean res x)
    (w' : World) (c : Completion Value) (h : nextBody rec it r = some (w', c)) :
    Keeps res r.1 w' := by
  obtain ⟨w1, r⟩ := r
  cases r with
  | throw e =>
    rw [nextBody_throw] at h
    cases h
    exact Keeps_refl _ _
  | normal dx =>
    obtain ⟨done, x⟩ := dx
    cases done with
    | true =>
      rw [nextBody_done] at h
      cases h
      exact Keeps_promiseResolve _ _ _
    | false =>
      have hc := hclean x rfl
      simp only [nextBody, Bool.false_eq_true, if_false] at h
      generalize hr2 : (if (isGenerator x || isIterator x) = true then spawn w1 x
        else (w1, x)) = r2 at h
      have h2 : Keeps res w1 r2.1 ∧ ∀ v ∈ arrayItems r2.2, res ∉ refs v := by
        rw [← hr2]
        split
        · refine ⟨Keeps_spawn res w1 x hc.1 hk, ?_⟩
          obtain ⟨d, hd⟩ := spawn_isPromise w1 x
          rw [hd]
          intro v hv
          simp [arrayItems] at hv
        · exact ⟨Keeps_refl _ _, hc.2⟩
      generalize hr3 : (if isYieldableArray r2.2 = true then parallel r2.1 (arrayItems r2.2)
        else r2) = r3 at h
      have h3 : Keeps res r2.1 r3.1 := by
        rw [← hr3]
        split
        · exact Keeps_parallel res _ _ h2.2 (Known_Later res _ _ hk h2.1.1)
        · exact Keeps_refl _ _
      have h13 := Keeps_trans _ _ _ _ h2.1 h3
      split at h
      · cases h
        exact Keeps_trans _ _ _ _ h13 (Keeps_valueThen _ _ _ _ _
          (by simpa [Handler.targets] using hit) (by simpa [Handler.targets] using hit))
      · exact Keeps_trans _ _ _ _ h13
          (hrec _ _ _ _ (Known_Later res _ _ hk h13.1) (h13.2.2.2.1 hs) h)

theorem Keeps_next (res : Res) (fuel : Nat) :
    ∀ (w : World) (it v : Value) (w' : World) (c : Completion Value), res ∉ refs it →
      Known res w → ScriptsClean res w → next fuel w it v = some (w', c) → Keeps res w w' := by
  induction fuel with
  | zero => intro w it v w' c _ _ _ h; simp [next] at h
  | succ fuel ih =>
    intro w it v w' c hit hk hs h
    rw [next_succ] at h
    have h1 := Keeps_iterNext res w it v hit
    exact Keeps_trans _ _ _ _ h1
      (Keeps_nextBody res _ (fun w x w' c hk hs h => ih w it x w' c hit hk hs h) it hit _
        (Known_Later res _ _ hk h1.1) (h1.2.2.2.1 hs)
        (fun x hx => iterNext_clean res w it v x hs hx) w' c h)

theorem Keeps_runHandler (res : Res) (fuel : Nat) (w : World) (h : Handler) (arg : Value)
    (w' : World) (c : Completion Value) (hh : res ∉ h.targets) (hk : Known res w)
    (hs : ScriptsClean res w) (hr : runHandler fuel w h arg = some (w', c)) : Keeps res w w' := by
  cases h with
  | spawnNext it => exact Keeps_next res fuel w it arg w' c hh hk hs hr
  | itThrow it =>
    simp only [runHandler, Option.some.injEq] at hr
    rw [show w' = (iterThrow w it arg).1 by rw [hr]]
    exact Keeps_iterThrow _ _ _ _ hh
  | parallelTask task =>
    simp only [runHandler, Option.some.injEq, Prod.mk.injEq] at hr
    rw [← hr.1]
    exact Keeps_refl _ _
  | seriesTask value =>
    simp only [runHandler] at hr
    split at hr
    · simp only [Option.some.injEq, Prod.mk.injEq] at hr
      rw [← hr.1]
      exact Keeps_refl _ _
    · simp only [Option.some.injEq, Prod.mk.injEq] at hr
      rw [← hr.1]
      exact Keeps_spawn _ _ _ hh hk
  | resolveFn p =>
    simp only [runHandler, Option.some.injEq, Prod.mk.injEq] at hr
    rw [← hr.1]
    exact Keeps_resolvePromise _ _ _ _ (by simpa [Handler.targets] using hh)
  | rejectFn p =>
    simp only [runHandler, Option.some.injEq, Prod.mk.injEq] at hr
    rw [← hr.1]
    exact Keeps_rejectPromise _ _ _ _ (by simpa [Handler.targets] using hh)
  | identity =>
    simp only [runHandler, Option.some.injEq, Prod.mk.injEq] at hr
    rw [← hr.1]
    exact Keeps_refl _ _
  | thrower =>
    simp only [runHandler, Option.some.injEq, Prod.mk.injEq] at hr
    rw [← hr.1]
    exact Keeps_refl _ _
  | mainLog =>
    have hlog : ∀ l : Value, Keeps res w { w with log := w.log ++ [Event.logged l] } := by
      intro l
      refine Keeps_of_store _ _ _ rfl rfl rfl
        (Later_of_promises _ _ rfl rfl (le_refl _) (fun _ _ _ => rfl)) (fun h => h) ?_
      intro _ _
      cases res with
      | promise c => exact fun _ h => h
      | iter i0 => exact rfl
      | gen g =>
        intro j h
        have h' : Event.instantiate g j ∈ w.log ++ [Event.logged l] := h
        simpa using h'
    simp only [runHandler] at hr
    split at hr <;> simp only [Option.some.injEq, Prod.mk.injEq] at hr <;> rw [← hr.1]
    · exact Keeps_refl _ _
    · exact Keeps_refl _ _
    · exact hlog _

/-- A job that does not act on `res` keeps `res`. -/
theorem Keeps_runJob (res : Res) (fuel : Nat) (w : World) (j : Job) (w' : World)
    (hj : res ∉ j.targets) (hk : Known res w) (hs : ScriptsClean res w)
    (hr : runJob fuel w j = some w') : Keeps res w w' := by
  cases j with
  | reaction h arg d =>
    simp only [Job.targets, List.mem_cons, not_or] at hj
    simp only [runJob] at hr
    split at hr
    · exact absurd hr (by simp)
    · rename_i w1 r hh
      simp only [Option.some.injEq] at hr
      rw [← hr]
      exact Keeps_trans _ _ _ _ (Keeps_runHandler res fuel w h arg w1 _ hj.2 hk hs hh)
        (Keeps_resolvePromise _ _ _ _ hj.1)
    · rename_i w1 e hh
      simp only [Option.some.injEq] at hr
      rw [← hr]
      exact Keeps_trans _ _ _ _ (Keeps_runHandler res fuel w h arg w1 _ hj.2 hk hs hh)
        (Keeps_rejectPromise _ _ _ _ hj.1)
  | resolveThenable p t =>
    simp only [Job.targets, List.mem_singleton] at hj
    simp only [runJob, Option.some.injEq] at hr
    rw [← hr]
    exact Keeps_promiseThen _ _ _ _ _ (by simpa [Handler.targets] using hj)
      (by simpa [Handler.targets] using hj)

/-- An external settlement of another promise keeps `res`. -/
theorem Keeps_settle (res : Res) (w : World) (ev : Settle) (N : Nat) (hok : ev.ok N)
    (hres : res ≠ .promise ev.target) : Keeps res w (settle w ev) := by
  cases ev with
  | fulfil q x => exact Keeps_fulfillPromise res w q x hok.2 hres
  | reject q e => exact Keeps_rejectPromise res w q e hres
/-! ## One link of a chain of `then` calls -/

theorem Owns_pop (W : World) (res : Res) (o : Owner) (j : Job) (rest : List Job)
    (hq : W.queue = j :: rest) (ho : Owns W res o) :
    (Owns { W with queue := rest } res o ∧ res ∉ j.targets) ∨
    (o = .queued j ∧ Owns { W with queue := rest } res .nobody) := by
  cases o with
  | nobody =>
    obtain ⟨h1, h2⟩ := ho
    have h1' : QueueFree res (j :: rest) := by rw [← hq]; exact h1
    exact Or.inl ⟨⟨fun k hk => h1' k (List.mem_cons_of_mem _ hk), h2⟩,
      h1' j (List.mem_cons_self _ _)⟩
  | waiting h r =>
    obtain ⟨h1, h2, h3, h4⟩ := ho
    have h1' : QueueFree res (j :: rest) := by rw [← hq]; exact h1
    exact Or.inl ⟨⟨fun k hk => h1' k (List.mem_cons_of_mem _ hk), h2, h3, h4⟩,
      h1' j (List.mem_cons_self _ _)⟩
  | queued j' =>
    obtain ⟨⟨q1, q2, h1, h2, h3⟩, h4⟩ := ho
    have h1' : j :: rest = q1 ++ j' :: q2 := by rw [← hq]; exact h1
    cases q1 with
    | nil =>
      simp only [List.nil_append, List.cons.injEq] at h1'
      obtain ⟨e1, e2⟩ := h1'
      subst e1
      subst e2
      exact Or.inr ⟨rfl, ⟨h3, h4⟩⟩
    | cons k q1 =>
      simp only [List.cons_append, List.cons.injEq] at h1'
      obtain ⟨e1, e2⟩ := h1'
      subst e1
      exact Or.inl ⟨⟨⟨q1, q2, e2, fun x hx => h2 x (List.mem_cons_of_mem _ hx), h3⟩, h4⟩,
        h2 j (List.mem_cons_self _ _)⟩

theorem tick_keeps (res : Res) (fuel : Nat) (W W' : World) (j : Job) (rest : List Job)
    (hq : W.queue = j :: rest) (hj : res ∉ j.targets) (hk : Known res W)
    (hs : ScriptsClean res W) (ht : tick fuel W = some W') :
    Keeps res { W with queue := rest } W' := by
  rw [tick_cons fuel W j rest hq] at ht
  exact Keeps_runJob res fuel _ j W' hj (by cases res <;> exact hk) hs ht

theorem tick_idle (fuel : Nat) (W : World) (h : W.queue = []) : tick fuel W = some W := by
  simp [tick, h]

/-- Running a job keeps the store free of references to promises that do not
exist yet. -/
theorem Fresh_tick (fuel : Nat) (W W' : World) (hF : Fresh W) (ht : tick fuel W = some W') :
    Fresh W' := by
  cases hq : W.queue with
  | nil =>
    rw [tick_idle fuel W hq] at ht
    cases ht
    exact hF
  | cons j rest =>
    intro c hc
    have hL := Later_tick fuel W W' ht
    have hc0 : W.nextPromise ≤ c := le_trans hL.2.2.1 hc
    have ho := hF c hc0
    rcases Owns_pop W (.promise c) .nobody j rest hq ho with ⟨h1, h2⟩ | ⟨h1, _⟩
    · have hK := tick_keeps (.promise c) fuel W W' j rest hq h2 trivial
        (ScriptsClean_promise c W) ht
      exact (hK.2.2.2.2 (Or.inr hc)).2 .nobody h1
    · cases h1

theorem NoNest_tick (fuel : Nat) (W W' : World) (hF : Fresh W) (hN : NoNest W)
    (ht : tick fuel W = some W') : NoNest W' := by
  cases hq : W.queue with
  | nil =>
    rw [tick_idle fuel W hq] at ht
    cases ht
    exact hN
  | cons j rest =>
    have ho := hF W.nextPromise (le_refl _)
    rcases Owns_pop W (.promise W.nextPromise) .nobody j rest hq ho with ⟨_, h2⟩ | ⟨h1, _⟩
    · have hK := tick_keeps (.promise W.nextPromise) fuel W W' j rest hq h2 trivial
        (ScriptsClean_promise _ W) ht
      exact hK.2.2.1 hN
    · cases h1

theorem Fresh_settle (W : World) (ev : Settle) (N : Nat) (hok : ev.ok N) (hN : N ≤ W.nextPromise)
    (hF : Fresh W) : Fresh (settle W ev) := by
  intro c hc
  have hL : Later W (settle W ev) := by
    cases ev
    · exact Later_fulfillPromise _ _ _
    · exact Later_rejectPromise _ _ _
  have hn : (settle W ev).nextPromise = W.nextPromise := by
    cases ev <;> simp only [settle, fulfillPromise, rejectPromise] <;> split <;> rfl
  rw [hn] at hc
  have ht : ev.target < N := by
    cases ev
    · exact hok.1
    · exact hok
  have hK := Keeps_settle (.promise c) W ev N hok (by
    intro e
    injection e with e
    omega)
  exact (hK.2.2.2.2 (Or.inr (by rw [hn]; exact hc))).2 .nobody (hF c hc)

theorem NoNest_settle (W : World) (ev : Settle) (N : Nat) (hok : ev.ok N) (hN : NoNest W) :
    NoNest (settle W ev) := by
  have hK := Keeps_settle (.gen 0) W ev N hok (by simp)
  exact hK.2.2.1 hN

theorem LinkDone_Later (W W' : World) (a : Nat) (T : Nat → Prop) (c : Nat) (hL : Later W W')
    (ha : a < W.nextPromise) (hc : c < W.nextPromise)
    (h : LinkDone W.promises W.nextPromise a T c) :
    LinkDone W'.promises W'.nextPromise a T c := by
  have hk := hL.2.2.2
  have hn := hL.2.2.1
  rcases h with ⟨t, y, x, h1, h2, h3, h4, h5⟩ | ⟨t, y, e, h1, h2, h3, h4, h5⟩ | ⟨e, h3, h5⟩
  · exact Or.inl ⟨t, y, x, h1, by omega, by rw [hk a ha (by rw [h3]; rfl), h3],
      by rw [hk t h2 (by rw [h4]; rfl), h4], by rw [hk c hc (by rw [h5]; rfl), h5]⟩
  · exact Or.inr (Or.inl ⟨t, y, e, h1, by omega, by rw [hk a ha (by rw [h3]; rfl), h3],
      by rw [hk t h2 (by rw [h4]; rfl), h4], by rw [hk c hc (by rw [h5]; rfl), h5]⟩)
  · exact Or.inr (Or.inr ⟨e, by rw [hk a ha (by rw [h3]; rfl), h3],
      by rw [hk c hc (by rw [h5]; rfl), h5]⟩)

theorem LinkShape_step (W W' : World) (a : Nat) (first : Handler) (T : Nat → Prop) (c : Nat)
    (o : Owner) (hL : Later W W') (ha : a < W.nextPromise)
    (ho : ∀ h r, o = .waiting h r → h < W.nextPromise)
    (hs : LinkShape W.promises W.nextPromise a first T c o) :
    LinkShape W'.promises W'.nextPromise a first T c (o.step W'.promises) := by
  have hk := hL.2.2.2
  have hn := hL.2.2.1
  have hafix : ∀ y, W.promises a = .fulfilled y → W'.promises a = .fulfilled y := by
    intro y h
    rw [hk a ha (by rw [h]; rfl), h]
  cases o with
  | nobody => exact hs
  | queued j =>
    rcases hs with ⟨y, h1, h2⟩ | ⟨e, h1, h2⟩ | ⟨t, y, h1, h2, h3, h4⟩ |
      ⟨t, y, x, tau, h1, h2, h3, h4, h5⟩ | ⟨t, y, e, tau, h1, h2, h3, h4, h5⟩
    · exact Or.inl ⟨y, hafix y h1, h2⟩
    · exact Or.inr (Or.inl ⟨e, by rw [hk a ha (by rw [h1]; rfl), h1], h2⟩)
    · exact Or.inr (Or.inr (Or.inl ⟨t, y, h1, by omega, hafix y h3, h4⟩))
    · exact Or.inr (Or.inr (Or.inr (Or.inl ⟨t, y, x, tau, h1, by omega, hafix y h3,
        by rw [hk t h2 (by rw [h4]; rfl), h4], h5⟩)))
    · exact Or.inr (Or.inr (Or.inr (Or.inr ⟨t, y, e, tau, h1, by omega, hafix y h3,
        by rw [hk t h2 (by rw [h4]; rfl), h4], h5⟩)))
  | waiting h r =>
    have hh : h < W.nextPromise := ho h r rfl
    cases hp : W'.promises h with
    | pending rs =>
      rw [Owner.step_pending _ _ _ (by rw [hp]; rfl)]
      rcases hs with h1 | ⟨h1, ⟨y, h2⟩, h3⟩
      · exact Or.inl h1
      · exact Or.inr ⟨h1, ⟨y, hafix y h2⟩, h3⟩
    | fulfilled v =>
      rw [Owner.step_fulfilled _ _ _ v hp]
      rcases hs with ⟨h1, h2⟩ | ⟨h1, ⟨y, h2⟩, tau, h3⟩
      · subst h1
        subst h2
        exact Or.inl ⟨v, hp, rfl⟩
      · subst h3
        exact Or.inr (Or.inr (Or.inr (Or.inl ⟨h, y, v, tau, h1, by omega, hafix y h2, hp, rfl⟩)))
    | rejected v =>
      rw [Owner.step_rejected _ _ _ v hp]
      rcases hs with ⟨h1, h2⟩ | ⟨h1, ⟨y, h2⟩, tau, h3⟩
      · subst h1
        subst h2
        exact Or.inr (Or.inl ⟨v, hp, rfl⟩)
      · subst h3
        exact Or.inr (Or.inr (Or.inr (Or.inr ⟨h, y, v, tau, h1, by omega, hafix y h2, hp, rfl⟩)))

/-- Code that does not act on the chain promise of a link leaves the link as it
is, or moves it on when the promise it waits for has settled. -/
theorem Link_keeps (W W' : World) (a : Nat) (first : Handler) (T : Nat → Prop) (c : Nat)
    (hK : Keeps (.promise c) W W') (h : Link W a first T c) : Link W' a first T c := by
  obtain ⟨ha, hc, hac, h⟩ := h
  have hL := hK.1
  have hn := hL.2.2.1
  refine ⟨by omega, by omega, hac, ?_⟩
  rcases h with ⟨h1, o, h2, h3⟩ | h
  · obtain ⟨hU, hO⟩ := hK.2.2.2.2 (Or.inl hc)
    exact Or.inl ⟨hU hc h1, o.step W'.promises, hO o h2, LinkShape_step W W' a first T c o hL ha
      (Owns_host_lt W _ o h2) h3⟩
  · exact Or.inr (LinkDone_Later W W' a T c hL ha hc h)

theorem Owns_enqueue_new (W : World) (res : Res) (j : Job) (ho : Owns W res .nobody) :
    Owns (enqueue W [j]) res (.queued j) :=
  ⟨⟨W.queue, [], rfl, ho.1, QueueFree_nil res⟩, ho.2⟩

theorem promiseThen_unsettled (w : World) (p : Nat) (onF onR : Handler) (c : Nat)
    (hc : c < w.nextPromise) (hs : (w.promises c).isSettled = false) :
    ((promiseThen w p onF onR).1.promises c).isSettled = false := by
  have e2 : c ≠ w.nextPromise := by omega
  unfold promiseThen
  simp only
  split
  · simp only [setAt_apply]
    split
    · rfl
    · simpa [e2] using hs
  · simpa [enqueue, setAt_apply, e2] using hs
  · simpa [enqueue, setAt_apply, e2] using hs

/-- Attaching a continuation to a promise when nothing yet acts on `res` makes
that continuation, or the job it becomes at once, the owner of `res`. -/
theorem Owns_promiseThen_new (W : World) (res : Res) (p : Nat) (onF onR : Handler)
    (ho : Owns W res .nobody) (hp : p < W.nextPromise) :
    Owns (promiseThen W p onF onR).1 res
      ((Owner.waiting p ⟨onF, onR, W.nextPromise⟩).step (promiseThen W p onF onR).1.promises) := by
  have hpn : p ≠ W.nextPromise := by omega
  obtain ⟨h1, h2⟩ := ho
  cases hs : W.promises p with
  | pending rs =>
    have hw : (promiseThen W p onF onR).1 = { W with
        promises := setAt (setAt W.promises W.nextPromise (.pending [])) p
          (.pending (rs ++ [⟨onF, onR, W.nextPromise⟩])),
        nextPromise := W.nextPromise + 1 } := by
      simp [promiseThen, hs]
    rw [hw, Owner.step_pending _ _ _ (by simp [PState.isSettled])]
    refine ⟨h1, by show p < W.nextPromise + 1; omega,
      ⟨rs, [], by simp, h2 p rs (by simp) hs, ListFree_nil res⟩, ?_⟩
    intro q rs0 hne hq
    have e1 : q ≠ p := by
      intro e
      exact hne (by rw [e])
    simp only [setAt_apply, e1, if_false] at hq
    split at hq
    · cases hq
      exact ListFree_nil res
    · exact h2 q rs0 (by simp) hq
  | fulfilled v =>
    have hw : (promiseThen W p onF onR).1 = enqueue { W with
        promises := setAt W.promises W.nextPromise (.pending []),
        nextPromise := W.nextPromise + 1 } [Job.reaction onF v W.nextPromise] := by
      simp [promiseThen, hs]
    rw [hw, Owner.step_fulfilled _ _ _ v (by simp [enqueue, setAt_apply, hpn, hs])]
    refine ⟨⟨W.queue, [], rfl, h1, QueueFree_nil res⟩, ?_⟩
    intro q rs0 _ hq
    simp only [enqueue, setAt_apply] at hq
    split at hq
    · cases hq
      exact ListFree_nil res
    · exact h2 q rs0 (by simp) hq
  | rejected v =>
    have hw : (promiseThen W p onF onR).1 = enqueue { W with
        promises := setAt W.promises W.nextPromise (.pending []),
        nextPromise := W.nextPromise + 1 } [Job.reaction onR v W.nextPromise] := by
      simp [promiseThen, hs]
    rw [hw, Owner.step_rejected _ _ _ v (by simp [enqueue, setAt_apply, hpn, hs])]
    refine ⟨⟨W.queue, [], rfl, h1, QueueFree_nil res⟩, ?_⟩
    intro q rs0 _ hq
    simp only [enqueue, setAt_apply] at hq
    split at hq
    · cases hq
      exact ListFree_nil res
    · exact h2 q rs0 (by simp) hq

theorem pending_of_unsettled (st : PState) (h : st.isSettled = false) : ∃ rs, st = .pending rs := by
  cases st with
  | pending rs => exact ⟨rs, rfl⟩
  | fulfilled v => simp [PState.isSettled] at h
  | rejected v => simp [PState.isSettled] at h

/-- The continuation of a link runs: the chain promise is resolved with the
task promise, which queues the job that makes it follow the task. -/
theorem Link_run_first (fuel : Nat) (W0 W' : World) (a : Nat) (first : Handler)
    (T : Nat → Prop) (c : Nat) (y : Value) (hY : Yields first T c)
    (ha : a < W0.nextPromise) (hc : c < W0.nextPromise) (hac : a ≠ c)
    (hu : (W0.promises c).isSettled = false) (ho : Owns W0 (.promise c) .nobody)
    (hay : W0.promises a = .fulfilled y)
    (hr : runJob fuel W0 (.reaction first y c) = some W') : Link W' a first T c := by
  obtain ⟨W1, t, hh, hT, htc, htn, hK⟩ := hY fuel W0 y hc
  simp only [runJob, hh, resolvePromise_promise, if_neg htc, Option.some.injEq] at hr
  obtain ⟨hU, hO⟩ := hK.2.2.2.2 (Or.inl hc)
  have hn := hK.1.2.2.1
  have hay1 : W1.promises a = .fulfilled y := by
    rw [hK.1.2.2.2 a ha (by rw [hay]; rfl), hay]
  rw [← hr]
  refine ⟨by show a < W1.nextPromise; omega, by show c < W1.nextPromise; omega, hac,
    Or.inl ⟨hU hc hu, .queued (.resolveThenable c t), Owns_enqueue_new W1 _ _ (hO .nobody ho),
      Or.inr (Or.inr (Or.inl ⟨t, y, hT, htn, hay1, rfl⟩))⟩⟩

/-- The rejection of the promise a link waits for is passed on to the chain
promise. -/
theorem Link_run_thrower (fuel : Nat) (W0 W' : World) (a : Nat) (first : Handler)
    (T : Nat → Prop) (c : Nat) (e : Value)
    (ha : a < W0.nextPromise) (hc : c < W0.nextPromise) (hac : a ≠ c)
    (hu : (W0.promises c).isSettled = false) (hae : W0.promises a = .rejected e)
    (hr : runJob fuel W0 (.reaction .thrower e c) = some W') : Link W' a first T c := by
  simp only [runJob, runHandler, Option.some.injEq] at hr
  obtain ⟨rs, hp⟩ := pending_of_unsettled _ hu
  have hL := Later_rejectPromise W0 c e
  rw [← hr]
  refine ⟨lt_of_lt_of_le ha hL.2.2.1, lt_of_lt_of_le hc hL.2.2.1, hac, Or.inr (Or.inr (Or.inr
    ⟨e, by rw [hL.2.2.2 a ha (by rw [hae]; rfl), hae], rejectPromise_pending W0 c rs e hp⟩))⟩

/-- The job that makes the chain promise follow the task promise runs: the
resolving functions of the chain promise wait for the task, or are queued when
the task has settled. -/
theorem Link_run_adopt (fuel : Nat) (W0 W' : World) (a : Nat) (first : Handler)
    (T : Nat → Prop) (c t : Nat) (y : Value)
    (ha : a < W0.nextPromise) (hc : c < W0.nextPromise) (hac : a ≠ c)
    (hu : (W0.promises c).isSettled = false) (ho : Owns W0 (.promise c) .nobody)
    (hay : W0.promises a = .fulfilled y) (hT : T t) (ht : t < W0.nextPromise)
    (hr : runJob fuel W0 (.resolveThenable c t) = some W') : Link W' a first T c := by
  simp only [runJob, Option.some.injEq] at hr
  have hL := Later_promiseThen W0 t (.resolveFn c) (.rejectFn c)
  rw [← hr]
  refine ⟨lt_of_lt_of_le ha hL.2.2.1, lt_of_lt_of_le hc hL.2.2.1, hac,
    Or.inl ⟨promiseThen_unsettled W0 t _ _ c hc hu, _,
      Owns_promiseThen_new W0 _ t (.resolveFn c) (.rejectFn c) ho ht, ?_⟩⟩
  refine LinkShape_step W0 _ a first T c (.waiting t ⟨.resolveFn c, .rejectFn c, W0.nextPromise⟩)
    hL ha ?_ (Or.inr ⟨hT, ⟨y, hay⟩, _, rfl⟩)
  intro h r e
  injection e with e1 e2
  omega

/-- The resolving function of the chain promise runs with the value of the
task: the chain promise is fulfilled with it. -/
theorem Link_run_resolveFn (fuel : Nat) (W0 W' : World) (a : Nat) (first : Handler)
    (T : Nat → Prop) (c t tau : Nat) (x y : Value)
    (ha : a < W0.nextPromise) (hc : c < W0.nextPromise) (hac : a ≠ c)
    (hu : (W0.promises c).isSettled = false)
    (hay : W0.promises a = .fulfilled y) (hT : T t) (ht : t < W0.nextPromise)
    (htx : W0.promises t = .fulfilled x) (hx : isPromise x = false)
    (hr : runJob fuel W0 (.reaction (.resolveFn c) x tau) = some W') : Link W' a first T c := by
  simp only [runJob, runHandler, resolvePromise_undefined, resolvePromise_plain _ _ _ hx,
    Option.some.injEq] at hr
  obtain ⟨rs, hp⟩ := pending_of_unsettled _ hu
  have hL1 := Later_fulfillPromise W0 c x
  have hL2 := Later_fulfillPromise (fulfillPromise W0 c x) tau .undefined
  have hL := Later_trans _ _ _ hL1 hL2
  have hc1 : (fulfillPromise W0 c x).promises c = .fulfilled x := fulfillPromise_pending W0 c rs x hp
  rw [← hr]
  refine ⟨lt_of_lt_of_le ha hL.2.2.1, lt_of_lt_of_le hc hL.2.2.1, hac, Or.inr (Or.inl
    ⟨t, y, x, hT, lt_of_lt_of_le ht hL.2.2.1, by rw [hL.2.2.2 a ha (by rw [hay]; rfl), hay],
      by rw [hL.2.2.2 t ht (by rw [htx]; rfl), htx],
      by rw [hL2.2.2.2 c (lt_of_lt_of_le hc hL1.2.2.1) (by rw [hc1]; rfl), hc1]⟩)⟩

/-- The rejecting function of the chain promise runs with the error of the
task: the chain promise is rejected with it. -/
theorem Link_run_rejectFn (fuel : Nat) (W0 W' : World) (a : Nat) (first : Handler)
    (T : Nat → Prop) (c t tau : Nat) (e y : Value)
    (ha : a < W0.nextPromise) (hc : c < W0.nextPromise) (hac : a ≠ c)
    (hu : (W0.promises c).isSettled = false)
    (hay : W0.promises a = .fulfilled y) (hT : T t) (ht : t < W0.nextPromise)
    (hte : W0.promises t = .rejected e)
    (hr : runJob fuel W0 (.reaction (.rejectFn c) e tau) = some W') : Link W' a first T c := by
  simp only [runJob, runHandler, resolvePromise_undefined, Option.some.injEq] at hr
  obtain ⟨rs, hp⟩ := pending_of_unsettled _ hu
  have hL1 := Later_rejectPromise W0 c e
  have hL2 := Later_fulfillPromise (rejectPromise W0 c e) tau .undefined
  have hL := Later_trans _ _ _ hL1 hL2
  have hc1 : (rejectPromise W0 c e).promises c = .rejected e := rejectPromise_pending W0 c rs e hp
  rw [← hr]
  refine ⟨lt_of_lt_of_le ha hL.2.2.1, lt_of_lt_of_le hc hL.2.2.1, hac, Or.inr (Or.inr (Or.inl
    ⟨t, y, e, hT, lt_of_lt_of_le ht hL.2.2.1, by rw [hL.2.2.2 a ha (by rw [hay]; rfl), hay],
      by rw [hL.2.2.2 t ht (by rw [hte]; rfl), hte],
      by rw [hL2.2.2.2 c (lt_of_lt_of_le hc hL1.2.2.1) (by rw [hc1]; rfl), hc1]⟩))⟩

/-- Running the oldest job keeps every link of a chain a link. -/
theorem Link_tick (fuel : Nat) (W W' : World) (a : Nat) (first : Handler) (T : Nat → Prop)
    (c : Nat) (hN : NoNest W) (hY : Yields first T c) (ht : tick fuel W = some W')
    (h : Link W a first T c) : Link W' a first T c := by
  cases hq : W.queue with
  | nil =>
    rw [tick_idle fuel W hq] at ht
    cases ht
    exact h
  | cons j rest =>
    obtain ⟨ha, hc, hac, h⟩ := h
    rcases h with ⟨h1, o, h2, h3⟩ | hdone
    · rcases Owns_pop W (.promise c) o j rest hq h2 with ⟨p1, p2⟩ | ⟨p1, p2⟩
      · exact Link_keeps _ _ a first T c
          (tick_keeps (.promise c) fuel W W' j rest hq p2 trivial (ScriptsClean_promise c W) ht)
          ⟨ha, hc, hac, Or.inl ⟨h1, o, p1, h3⟩⟩
      · subst p1
        rw [tick_cons fuel W j rest hq] at ht
        rcases h3 with ⟨y, k1, k2⟩ | ⟨e, k1, k2⟩ | ⟨t, y, k1, k2, k3, k4⟩ |
          ⟨t, y, x, tau, k1, k2, k3, k4, k5⟩ | ⟨t, y, e, tau, k1, k2, k3, k4, k5⟩
        · subst k2
          exact Link_run_first fuel { W with queue := rest } W' a first T c y hY ha hc hac h1 p2 k1 ht
        · subst k2
          exact Link_run_thrower fuel { W with queue := rest } W' a first T c e ha hc hac h1 k1 ht
        · subst k4
          exact Link_run_adopt fuel { W with queue := rest } W' a first T c t y ha hc hac h1 p2 k3 k1 k2 ht
        · subst k5
          exact Link_run_resolveFn fuel { W with queue := rest } W' a first T c t tau x y ha hc hac h1 k3 k1 k2 k4
            (hN t x k2 k4) ht
        · subst k5
          exact Link_run_rejectFn fuel { W with queue := rest } W' a first T c t tau e y ha hc hac h1 k3 k1 k2 k4 ht
    · exact ⟨lt_of_lt_of_le ha (Later_tick fuel W W' ht).2.2.1,
        lt_of_lt_of_le hc (Later_tick fuel W W' ht).2.2.1, hac,
        Or.inr (LinkDone_Later W W' a T c (Later_tick fuel W W' ht) ha hc hdone)⟩

/-- An external settlement of an older promise keeps every link a link. -/
theorem Link_settle (W : World) (ev : Settle) (N : Nat) (a : Nat) (first : Handler)
    (T : Nat → Prop) (c : Nat) (hok : ev.ok N) (hNc : N ≤ c) (h : Link W a first T c) :
    Link (settle W ev) a first T c := by
  have ht : ev.target < N := by
    cases ev
    · exact hok.1
    · exact hok
  exact Link_keeps _ _ a first T c (Keeps_settle (.promise c) W ev N hok (by
    intro e
    injection e with e
    omega)) h
/-! ## Chains of links -/

theorem Links_keeps (W W' : World) (L : List (Handler × (Nat → Prop) × Nat)) :
    ∀ a, (∀ x ∈ L, Keeps (.promise x.2.2) W W') → Links W a L → Links W' a L := by
  induction L with
  | nil => intro a _ _; trivial
  | cons x L ih =>
    intro a hK h
    obtain ⟨first, T, c⟩ := x
    obtain ⟨h1, h2, h3⟩ := h
    exact ⟨h1, Link_keeps W W' a first T c (hK _ (List.mem_cons_self _ _)) h2,
      ih c (fun y hy => hK y (List.mem_cons_of_mem _ hy)) h3⟩

theorem Links_tick (fuel : Nat) (W W' : World) (hN : NoNest W) (ht : tick fuel W = some W')
    (L : List (Handler × (Nat → Prop) × Nat)) : ∀ a, Links W a L → Links W' a L := by
  induction L with
  | nil => intro a _; trivial
  | cons x L ih =>
    intro a h
    obtain ⟨first, T, c⟩ := x
    obtain ⟨h1, h2, h3⟩ := h
    exact ⟨h1, Link_tick fuel W W' a first T c hN h1 ht h2, ih c h3⟩

theorem Links_settle (W : World) (ev : Settle) (N : Nat) (hok : ev.ok N)
    (L : List (Handler × (Nat → Prop) × Nat)) :
    ∀ a, (∀ x ∈ L, N ≤ x.2.2) → Links W a L → Links (settle W ev) a L := by
  induction L with
  | nil => intro a _ _; trivial
  | cons x L ih =>
    intro a hN h
    obtain ⟨first, T, c⟩ := x
    obtain ⟨h1, h2, h3⟩ := h
    exact ⟨h1, Link_settle W ev N a first T c hok (hN _ (List.mem_cons_self _ _)) h2,
      ih c (fun y hy => hN y (List.mem_cons_of_mem _ hy)) h3⟩

theorem Later_settle (W : World) (ev : Settle) : Later W (settle W ev) := by
  cases ev
  · exact Later_fulfillPromise _ _ _
  · exact Later_rejectPromise _ _ _

/-- What a run of jobs and external settlements of older promises keeps: no
reference to promises that do not exist yet, no promise held by a fulfilled
promise, and every link of the chain. -/
theorem run_keeps (fuel N : Nat) (a : Nat) (L : List (Handler × (Nat → Prop) × Nat))
    (hL : ∀ x ∈ L, N ≤ x.2.2) (steps : List Step) :
    ∀ W W', Fresh W → NoNest W → N ≤ W.nextPromise → Links W a L →
      (∀ ev, Step.event ev ∈ steps → ev.ok N) → runSteps fuel W steps = some W' →
      Fresh W' ∧ NoNest W' ∧ Links W' a L ∧ Later W W' := by
  induction steps with
  | nil =>
    intro W W' hF hN _ hl _ hr
    simp only [runSteps, Option.some.injEq] at hr
    rw [← hr]
    exact ⟨hF, hN, hl, Later_refl _⟩
  | cons s steps ih =>
    intro W W' hF hN hn hl hev hr
    cases s with
    | job =>
      simp only [runSteps] at hr
      cases ht : tick fuel W with
      | none => rw [ht] at hr; exact absurd hr (by simp)
      | some W1 =>
        rw [ht] at hr
        have hL1 := Later_tick fuel W W1 ht
        obtain ⟨r1, r2, r3, r4⟩ := ih W1 W' (Fresh_tick fuel W W1 hF ht)
          (NoNest_tick fuel W W1 hF hN ht) (le_trans hn hL1.2.2.1)
          (Links_tick fuel W W1 hN ht L a hl)
          (fun ev h => hev ev (List.mem_cons_of_mem _ h)) hr
        exact ⟨r1, r2, r3, Later_trans _ _ _ hL1 r4⟩
    | event ev =>
      simp only [runSteps] at hr
      have hok := hev ev (List.mem_cons_self _ _)
      have hL1 := Later_settle W ev
      obtain ⟨r1, r2, r3, r4⟩ := ih (settle W ev) W' (Fresh_settle W ev N hok hn hF)
        (NoNest_settle W ev N hok hN) (le_trans hn hL1.2.2.1)
        (Links_settle W ev N hok L a hL hl)
        (fun ev h => hev ev (List.mem_cons_of_mem _ h)) hr
      exact ⟨r1, r2, r3, Later_trans _ _ _ hL1 r4⟩

/-- While the promise a chain starts from is pending, so is its last chain
promise. -/
theorem Links_pending (W : World) (L : List (Handler × (Nat → Prop) × Nat)) :
    ∀ a, Links W a L → (W.promises a).isSettled = false →
      (W.promises (lastOf a L)).isSettled = false := by
  induction L with
  | nil => intro a _ h; exact h
  | cons x L ih =>
    intro a h hp
    obtain ⟨first, T, c⟩ := x
    obtain ⟨_, ⟨_, _, _, h2⟩, h3⟩ := h
    refine ih c h3 ?_
    rcases h2 with ⟨h2, _⟩ | ⟨t, y, x, _, _, k, _⟩ | ⟨t, y, e, _, _, k, _⟩ | ⟨e, k, _⟩
    · exact h2
    · rw [k] at hp; exact absurd hp (by simp [PState.isSettled])
    · rw [k] at hp; exact absurd hp (by simp [PState.isSettled])
    · rw [k] at hp; exact absurd hp (by simp [PState.isSettled])

/-- A rejection at the start of a chain is the only way its last chain promise
can settle. -/
theorem Links_rejected (W : World) (L : List (Handler × (Nat → Prop) × Nat)) (e : Value) :
    ∀ a, Links W a L → W.promises a = .rejected e →
      (W.promises (lastOf a L)).isSettled = true → W.promises (lastOf a L) = .rejected e := by
  induction L with
  | nil => intro a _ h _; exact h
  | cons x L ih =>
    intro a h hp hs
    obtain ⟨first, T, c⟩ := x
    obtain ⟨_, ⟨_, _, _, h2⟩, h3⟩ := h
    rcases h2 with ⟨h2, _⟩ | ⟨t, y, x, _, _, k, _⟩ | ⟨t, y, e1, _, _, k, _⟩ | ⟨e1, k, k2⟩
    · have := Links_pending W L c h3 h2
      rw [show lastOf a ((first, T, c) :: L) = lastOf c L from rfl] at hs
      rw [this] at hs
      exact absurd hs (by simp)
    · rw [k] at hp; cases hp
    · rw [k] at hp; cases hp
    · rw [k] at hp
      cases hp
      exact ih c h3 k2 hs

/-- At rest, a rejection at the start of a chain has reached its last chain
promise. -/
theorem Links_rejected_rest (W : World) (hq : W.queue = [])
    (L : List (Handler × (Nat → Prop) × Nat)) (e : Value) :
    ∀ a, Links W a L → W.promises a = .rejected e → W.promises (lastOf a L) = .rejected e := by
  induction L with
  | nil => intro a _ h; exact h
  | cons x L ih =>
    intro a h hp
    obtain ⟨first, T, c⟩ := x
    obtain ⟨_, ⟨_, _, _, h2⟩, h3⟩ := h
    rcases h2 with ⟨_, o, ho, hs⟩ | ⟨t, y, x, _, _, k, _⟩ | ⟨t, y, e1, _, _, k, _⟩ | ⟨e1, k, k2⟩
    · exfalso
      cases o with
      | nobody => exact hs
      | queued j =>
        obtain ⟨⟨q1, q2, h1, _⟩, _⟩ := ho
        have h1' : W.queue = q1 ++ j :: q2 := h1
        rw [hq] at h1'
        simp at h1'
      | waiting h r =>
        obtain ⟨_, _, ⟨r1, r2, k, _⟩, _⟩ := ho
        rcases hs with ⟨k1, _⟩ | ⟨_, ⟨y, k1⟩, _⟩
        · subst k1
          rw [hp] at k
          cases k
        · rw [hp] at k1
          cases k1
    · rw [k] at hp; cases hp
    · rw [k] at hp; cases hp
    · rw [k] at hp
      cases hp
      exact ih c h3 k2

theorem lastOf_parLinks_cons (a : Nat) (tc : Nat × Nat) (tcs : List (Nat × Nat)) :
    lastOf a (parLinks (tc :: tcs)) = lastOf tc.2 (parLinks tcs) := rfl

/-- The last promise of the chain of `parallel`, once settled, is in the state
that the tasks decide in the order of the sequence. -/
theorem parLinks_settled (W : World) (tcs : List (Nat × Nat)) :
    ∀ a v, Links W a (parLinks tcs) → W.promises a = .fulfilled v →
      (W.promises (lastOf a (parLinks tcs))).isSettled = true →
      W.promises (lastOf a (parLinks tcs)) = chainOutcome W.promises v (tcs.map Prod.fst) := by
  induction tcs with
  | nil => intro a v _ h _; exact h
  | cons tc tcs ih =>
    intro a v h hp hs
    obtain ⟨_, ⟨_, _, _, h2⟩, h3⟩ := h
    rw [lastOf_parLinks_cons] at hs ⊢
    rcases h2 with ⟨h2, _⟩ | ⟨t, y, x, k0, _, k, k1, k2⟩ | ⟨t, y, e1, k0, _, k, k1, k2⟩ |
      ⟨e1, k, k2⟩
    · have : (W.promises (lastOf tc.2 (parLinks tcs))).isSettled = false :=
        Links_pending W (parLinks tcs) tc.2 h3 h2
      rw [this] at hs
      exact absurd hs (by simp)
    · have k0' : t = tc.1 := k0
      subst k0'
      simp only [List.map_cons, chainOutcome, k1]
      exact ih tc.2 x h3 k2 hs
    · have k0' : t = tc.1 := k0
      subst k0'
      simp only [List.map_cons, chainOutcome, k1]
      exact Links_rejected W (parLinks tcs) e1 tc.2 h3 k2 hs
    · rw [k] at hp; cases hp

/-- At rest, the last promise of the chain of `parallel` is settled as the
tasks decide in the order of the sequence, and pending while the deciding task
is pending. -/
theorem parLinks_rest (W : World) (hq : W.queue = []) (tcs : List (Nat × Nat)) :
    ∀ a v, Links W a (parLinks tcs) → W.promises a = .fulfilled v →
      SameState (chainOutcome W.promises v (tcs.map Prod.fst))
        (W.promises (lastOf a (parLinks tcs))) := by
  induction tcs with
  | nil =>
    intro a v _ h
    rw [show lastOf a (parLinks []) = a from rfl, h]
    exact ⟨rfl, fun _ => rfl⟩
  | cons tc tcs ih =>
    intro a v h hp
    obtain ⟨_, ⟨_, _, _, h2⟩, h3⟩ := h
    rw [lastOf_parLinks_cons]
    rcases h2 with ⟨hu, o, ho, hs⟩ | ⟨t, y, x, k0, _, k, k1, k2⟩ | ⟨t, y, e1, k0, _, k, k1, k2⟩ |
      ⟨e1, k, k2⟩
    · have hlast : (W.promises (lastOf tc.2 (parLinks tcs))).isSettled = false :=
        Links_pending W (parLinks tcs) tc.2 h3 hu
      cases o with
      | nobody => exact absurd hs id
      | queued j =>
        exfalso
        obtain ⟨⟨q1, q2, h1, _⟩, _⟩ := ho
        have h1' : W.queue = q1 ++ j :: q2 := h1
        rw [hq] at h1'
        simp at h1'
      | waiting h r =>
        obtain ⟨_, _, ⟨r1, r2, k, _⟩, _⟩ := ho
        rcases hs with ⟨k1, _⟩ | ⟨k1, _, _⟩
        · subst k1
          rw [hp] at k
          cases k
        · have k1' : h = tc.1 := k1
          subst k1'
          simp only [List.map_cons, chainOutcome, k]
          exact ⟨by rw [hlast]; rfl, fun hc => absurd hc (by simp [PState.isSettled])⟩
    · have k0' : t = tc.1 := k0
      subst k0'
      simp only [List.map_cons, chainOutcome, k1]
      exact ih tc.2 x h3 k2
    · have k0' : t = tc.1 := k0
      subst k0'
      simp only [List.map_cons, chainOutcome, k1]
      rw [Links_rejected_rest W hq (parLinks tcs) e1 tc.2 h3 k2]
      exact ⟨rfl, fun _ => rfl⟩
    · rw [k] at hp; cases hp

/-! ## The chain that `parallel` builds -/

theorem spawn_alloc (w : World) (it : Value) :
    (spawn w it).2 = .promise (w.nextPromise + 1) ∧
    (spawn w it).1.nextPromise = w.nextPromise + 2 := by
  have hn : (if isGenerator it = true then instantiate w it else (w, it)).1.nextPromise =
      w.nextPromise := by
    split
    · unfold instantiate
      split <;> rfl
    · rfl
  unfold spawn
  refine ⟨?_, ?_⟩ <;>
    simp [promiseResolve, newPromise, valueThen, promiseThen, setAt_same, hn, enqueue]

theorem Fresh_of_Keeps (W W' : World) (hF : Fresh W)
    (hK : ∀ c, W'.nextPromise ≤ c → Keeps (.promise c) W W') : Fresh W' := by
  intro c hc
  have h := hK c hc
  exact (h.2.2.2.2 (Or.inr hc)).2 .nobody (hF c (le_trans h.1.2.2.1 hc))

theorem promiseThen_new_pending (w : World) (p : Nat) (onF onR : Handler)
    (hp : p ≠ w.nextPromise) :
    (promiseThen w p onF onR).1.promises w.nextPromise = .pending [] ∧
    (promiseThen w p onF onR).1.nextPromise = w.nextPromise + 1 ∧
    (promiseThen w p onF onR).2 = w.nextPromise := by
  unfold promiseThen
  simp only
  split
  · exact ⟨by simp [setAt_apply, Ne.symm hp], rfl, rfl⟩
  · exact ⟨by simp [enqueue], rfl, rfl⟩
  · exact ⟨by simp [enqueue], rfl, rfl⟩

/-- A continuation attached by `then` to the promise `a` starts a link whose
chain promise is the promise `then` returns. -/
theorem Link_new (W : World) (a : Nat) (first : Handler) (T : Nat → Prop)
    (ho : Owns W (.promise W.nextPromise) .nobody) (ha : a < W.nextPromise) :
    Link (promiseThen W a first .thrower).1 a first T W.nextPromise := by
  obtain ⟨h1, h2, _⟩ := promiseThen_new_pending W a first .thrower (Nat.ne_of_lt ha)
  have hL := Later_promiseThen W a first .thrower
  refine ⟨by omega, by omega, Nat.ne_of_lt ha, Or.inl ⟨by rw [h1]; rfl, _,
    Owns_promiseThen_new W _ a first .thrower ho ha, ?_⟩⟩
  refine LinkShape_step W _ a first T W.nextPromise (.waiting a ⟨first, .thrower, W.nextPromise⟩)
    hL ha ?_ (Or.inl ⟨rfl, rfl⟩)
  intro h r e
  injection e with e1 e2
  omega

theorem Yields_parallelTask (t c : Nat) (htc : t < c) :
    Yields (.parallelTask (.promise t)) (fun x => x = t) c := by
  intro fuel W x hc
  exact ⟨W, t, rfl, rfl, Nat.ne_of_lt htc, by omega, Keeps_refl _ _⟩

theorem taskOf_spec (acc : World × Value) (v : Value)
    (hv : ∀ p, v = .promise p → p < acc.1.nextPromise) :
    (taskOf acc v).2 = .promise (promiseId (taskOf acc v).2) ∧
    promiseId (taskOf acc v).2 < (taskOf acc v).1.nextPromise ∧
    ∀ res : Res, (∀ c, res = .promise c) ∨ True → res ∉ refs v → Known res acc.1 →
      Keeps res acc.1 (taskOf acc v).1 := by
  unfold taskOf
  split
  · rename_i h
    cases v <;> simp [isPromise] at h
    rename_i p
    exact ⟨rfl, hv p rfl, fun res _ _ _ => Keeps_refl _ _⟩
  · obtain ⟨h1, h2⟩ := spawn_alloc acc.1 v
    refine ⟨by rw [h1]; rfl, by rw [h1, h2]; simp [promiseId], fun res _ hr hk =>
      Keeps_spawn res acc.1 v hr hk⟩

theorem parallelStep_eq (acc : World × Value) (v : Value) (a : Nat) (ha : acc.2 = .promise a) :
    parallelStep acc v =
      ((promiseThen (taskOf acc v).1 a (.parallelTask (taskOf acc v).2) .thrower).1,
        .promise (promiseThen (taskOf acc v).1 a (.parallelTask (taskOf acc v).2) .thrower).2) := by
  simp only [parallelStep, taskOf, ha, valueThen]

/-- The store after `parallel` has gone through the sequence: every element
has its link in the chain. -/
theorem parallel_links (arr : List Value) :
    ∀ (acc : World × Value) (a : Nat), acc.2 = .promise a → a < acc.1.nextPromise →
      Fresh acc.1 → (∀ p, Value.promise p ∈ arr → p < acc.1.nextPromise) →
      Links (arr.foldl parallelStep acc).1 a (parLinks (parallelChain acc arr)) ∧
      (arr.foldl parallelStep acc).2 = .promise (lastOf a (parLinks (parallelChain acc arr))) ∧
      Fresh (arr.foldl parallelStep acc).1 ∧
      (∀ x ∈ parLinks (parallelChain acc arr), acc.1.nextPromise ≤ x.2.2) := by
  induction arr with
  | nil =>
    intro acc a ha _ hF _
    exact ⟨trivial, ha, hF, fun x hx => absurd hx (List.not_mem_nil _)⟩
  | cons v rest ih =>
    intro acc a ha han hF hold
    obtain ⟨k1, k2, k3⟩ := taskOf_spec acc v (fun p hp => hold p (by rw [hp]; exact List.mem_cons_self _ _))
    have hK1 : ∀ c, Keeps (.promise c) acc.1 (taskOf acc v).1 :=
      fun c => k3 _ (Or.inr trivial) (refs_promise c v) trivial
    have hF1 : Fresh (taskOf acc v).1 := Fresh_of_Keeps _ _ hF (fun c _ => hK1 c)
    have hn1 : acc.1.nextPromise ≤ (taskOf acc v).1.nextPromise := (hK1 0).1.2.2.1
    have ha1 : a < (taskOf acc v).1.nextPromise := lt_of_lt_of_le han hn1
    have hstep := parallelStep_eq acc v a ha
    obtain ⟨p1, p2, p3⟩ := promiseThen_new_pending (taskOf acc v).1 a
      (.parallelTask (taskOf acc v).2) .thrower (Nat.ne_of_lt ha1)
    have hlink := Link_new (taskOf acc v).1 a (.parallelTask (taskOf acc v).2)
      (fun t => t = promiseId (taskOf acc v).2) (hF1 _ (le_refl _)) ha1
    have hK2 : ∀ c, Keeps (.promise c) (taskOf acc v).1 (parallelStep acc v).1 := by
      intro c
      rw [hstep]
      exact Keeps_promiseThen _ _ _ _ _ (by simp [Handler.targets]) (by simp [Handler.targets])
    have hF2 : Fresh (parallelStep acc v).1 := Fresh_of_Keeps _ _ hF1 (fun c _ => hK2 c)
    have hn2 : (parallelStep acc v).1.nextPromise = (taskOf acc v).1.nextPromise + 1 := by
      rw [hstep]; exact p2
    have h2 : (parallelStep acc v).2 = .promise (taskOf acc v).1.nextPromise := by
      rw [hstep, p3]
    obtain ⟨r1, r2, r3, r4⟩ := ih (parallelStep acc v) (taskOf acc v).1.nextPromise h2
      (by rw [hn2]; omega) hF2
      (fun p hp => by
        have := hold p (List.mem_cons_of_mem _ hp)
        rw [hn2]; omega)
    have hKrest : Keeps (.promise (taskOf acc v).1.nextPromise) (parallelStep acc v).1
        (rest.foldl parallelStep (parallelStep acc v)).1 :=
      Keeps_foldl_parallelStep _ rest _ (fun x _ => refs_promise _ x) trivial
    have hlink' : Link (parallelStep acc v).1 a (.parallelTask (.promise (promiseId (taskOf acc v).2)))
        (fun t => t = promiseId (taskOf acc v).2) (taskOf acc v).1.nextPromise := by
      rw [hstep, ← k1]
      exact hlink
    refine ⟨⟨Yields_parallelTask _ _ k2, Link_keeps _ _ _ _ _ _ hKrest hlink', r1⟩, r2, r3, ?_⟩
    intro x hx
    simp only [parallelChain, parLinks, List.map_cons, List.mem_cons] at hx
    rcases hx with hx | hx
    · rw [hx]
      exact hn1
    · have := r4 x hx
      rw [hn2] at this
      omega

theorem parallel_eq (w : World) (arr : List Value) :
    parallel w arr =
      arr.foldl parallelStep ((newPromise w (.fulfilled .undefined)).1, .promise w.nextPromise) :=
  rfl

/-- What holds in every store that a run of jobs and external settlements
reaches after `parallel`: once the promise `parallel` returned is settled, it is
in the state that the tasks decide in the order of the sequence; and when no job
is left, it is pending exactly when the deciding task is pending. -/
theorem parallel_run (fuel : Nat) (w : World) (arr : List Value) (steps : List Step) (W' : World)
    (hF : Fresh w) (hN : NoNest w) (hold : ∀ p, Value.promise p ∈ arr → p < w.nextPromise)
    (hev : ∀ ev, Step.event ev ∈ steps → ev.ok w.nextPromise)
    (hr : runSteps fuel (parallel w arr).1 steps = some W') :
    (parallel w arr).2 = .promise (promiseId (parallel w arr).2) ∧
    ((W'.promises (promiseId (parallel w arr).2)).isSettled = true →
      W'.promises (promiseId (parallel w arr).2) =
        chainOutcome W'.promises .undefined (parallelTasks w arr)) ∧
    (W'.queue = [] →
      SameState (chainOutcome W'.promises .undefined (parallelTasks w arr))
        (W'.promises (promiseId (parallel w arr).2))) ∧
    (arr = [] → W'.promises (promiseId (parallel w arr).2) = .fulfilled .undefined) := by
  have hK0 : ∀ res, Keeps res w (newPromise w (.fulfilled .undefined)).1 := by
    intro res
    have := Keeps_promiseResolve res w .undefined
    rwa [promiseResolve_plain w .undefined rfl] at this
  have hF0 : Fresh (newPromise w (.fulfilled .undefined)).1 :=
    Fresh_of_Keeps _ _ hF (fun c _ => hK0 _)
  have hN0 : NoNest (newPromise w (.fulfilled .undefined)).1 := (hK0 (.gen 0)).2.2.1 hN
  obtain ⟨r1, r2, r3, r4⟩ := parallel_links arr
    ((newPromise w (.fulfilled .undefined)).1, .promise w.nextPromise) w.nextPromise rfl
    (by simp [newPromise]) hF0 (fun p hp => by
      have := hold p hp
      simp only [newPromise]
      omega)
  rw [← parallel_eq] at r1 r2 r3
  have hchain : parallelChain ((newPromise w (.fulfilled .undefined)).1, .promise w.nextPromise) arr =
      parallelChain (promiseResolve w .undefined) arr := rfl
  have hKp : ∀ res, (∀ v ∈ arr, res ∉ refs v) → Known res w → Keeps res w (parallel w arr).1 :=
    fun res h1 h2 => Keeps_parallel res w arr h1 h2
  have hKc := hKp (.promise 0) (fun v _ => refs_promise 0 v) trivial
  have hNp : NoNest (parallel w arr).1 := hKc.2.2.1 hN
  have hn0 : w.nextPromise ≤ (parallel w arr).1.nextPromise := hKc.1.2.2.1
  obtain ⟨s1, s2, s3, s4⟩ := run_keeps fuel w.nextPromise w.nextPromise _
    (fun x hx => by
      have := r4 x hx
      simp only [newPromise] at this
      omega) steps (parallel w arr).1 W' r3 hNp hn0 r1 hev hr
  have ha0 : (parallel w arr).1.promises w.nextPromise = .fulfilled .undefined := by
    have hL := Later_foldl_parallelStep arr
      ((newPromise w (.fulfilled .undefined)).1, .promise w.nextPromise)
    rw [← parallel_eq] at hL
    rw [hL.2.2.2 w.nextPromise (by simp [newPromise]) (by simp [newPromise, PState.isSettled])]
    simp [newPromise]
  have ha : W'.promises w.nextPromise = .fulfilled .undefined := by
    rw [s4.2.2.2 w.nextPromise (by
      have hL := Later_foldl_parallelStep arr
        ((newPromise w (.fulfilled .undefined)).1, .promise w.nextPromise)
      rw [← parallel_eq] at hL
      exact lt_of_lt_of_le (by simp [newPromise]) hL.2.2.1) (by rw [ha0]; rfl), ha0]
  have hid : promiseId (parallel w arr).2 =
      lastOf w.nextPromise (parLinks (parallelChain (promiseResolve w .undefined) arr)) := by
    rw [r2]
    rfl
  refine ⟨by rw [r2]; rfl, ?_, ?_, ?_⟩
  · intro hs
    rw [hid] at hs ⊢
    exact parLinks_settled W' _ w.nextPromise .undefined s3 ha hs
  · intro hq
    rw [hid]
    exact parLinks_rest W' hq _ w.nextPromise .undefined s3 ha
  · intro hnil
    rw [hid, hnil]
    exact ha
/-! ## `parallel`: any tasks, any run -/

theorem chainOutcome_rejected_inv (P : Nat → PState) (e : Value) (ts : List Nat) :
    ∀ v, chainOutcome P v ts = .rejected e →
      ∃ pre t post, ts = pre ++ t :: post ∧ (∀ s ∈ pre, ∃ y, P s = .fulfilled y) ∧
        P t = .rejected e := by
  induction ts with
  | nil => intro v h; simp [chainOutcome] at h
  | cons t rest ih =>
    intro v h
    cases hPt : P t with
    | fulfilled x =>
      simp only [chainOutcome, hPt] at h
      obtain ⟨pre, t1, post, h1, h2, h3⟩ := ih x h
      refine ⟨t :: pre, t1, post, by rw [h1]; rfl, ?_, h3⟩
      intro s hs
      rcases List.mem_cons.mp hs with rfl | hs
      · exact ⟨x, hPt⟩
      · exact h2 s hs
    | rejected e1 =>
      simp only [chainOutcome, hPt, PState.rejected.injEq] at h
      exact ⟨[], t, rest, rfl, fun s hs => absurd hs (List.not_mem_nil _), by rw [hPt, h]⟩
    | pending rs => simp [chainOutcome, hPt] at h

theorem chainOutcome_fulfilled_inv (P : Nat → PState) (x : Value) (ts : List Nat) :
    ∀ v, chainOutcome P v ts = .fulfilled x →
      (ts = [] ∧ x = v) ∨ ∃ pre t, ts = pre ++ [t] ∧ P t = .fulfilled x := by
  induction ts with
  | nil =>
    intro v h
    simp only [chainOutcome, PState.fulfilled.injEq] at h
    exact Or.inl ⟨rfl, h.symm⟩
  | cons t rest ih =>
    intro v h
    cases hPt : P t with
    | fulfilled y =>
      simp only [chainOutcome, hPt] at h
      rcases ih y h with ⟨h1, h2⟩ | ⟨pre, t1, h1, h2⟩
      · exact Or.inr ⟨[], t, by rw [h1]; rfl, by rw [hPt, h2]⟩
      · exact Or.inr ⟨t :: pre, t1, by rw [h1]; rfl, h2⟩
    | rejected e1 => simp [chainOutcome, hPt] at h
    | pending rs => simp [chainOutcome, hPt] at h

theorem parallelChain_promises (ts : List Nat) :
    ∀ acc : World × Value, (parallelChain acc (ts.map Value.promise)).map Prod.fst = ts := by
  induction ts with
  | nil => intro acc; rfl
  | cons t ts ih =>
    intro acc
    simp only [List.map_cons, parallelChain, ih]
    simp [taskOf, isPromise, promiseId]

theorem parallelChain_length (arr : List Value) :
    ∀ acc : World × Value, (parallelChain acc arr).length = arr.length := by
  induction arr with
  | nil => intro acc; rfl
  | cons v arr ih => intro acc; simp [parallelChain, ih]

/-- In a store with an empty queue and no stored continuation nothing acts on
anything. -/
theorem Owns_nobody_of_quiet (w : World) (res : Res) (hq : w.queue = [])
    (hP : ∀ q rs, w.promises q = .pending rs → rs = []) : Owns w res .nobody := by
  refine ⟨?_, ?_⟩
  · show QueueFree res w.queue
    rw [hq]
    exact QueueFree_nil res
  · intro q rs _ h
    rw [hP q rs h]
    exact ListFree_nil res

theorem SameState_settled (st st' : PState) (h : SameState st st') (hs : st.isSettled = true) :
    st' = st := (h.2 hs).symm

/-- C8, refuted as stated: `parallel` over the pending promises 0, 1 and 2,
of which task 1 is then rejected with `b` and task 2 with `c` while task 0 stays
pending.  Two tasks have rejected, yet the promise of `parallel` (promise 6) is
pending, and no job is left that could settle it. -/
theorem parallel_pending_behind_pending_task :
    ((drain 1 12 (parallel threePendingWorld [.promise 0, .promise 1, .promise 2]).1).bind
        (fun W0 => runEvents 1 12 W0 [.reject 1 (.error "b"), .reject 2 (.error "c")])).map
      (fun W => ((W.promises 0).isSettled, W.promises 1, W.promises 2, W.promises 6, W.queue)) =
    some (false, .rejected (.error "b"), .rejected (.error "c"), .pending [], []) := rfl

/-- C8, amended: `parallel` over any sequence `arr` of tasks, promises (older
than the call) and computations alike, in any store `W'` that a run of jobs and
external settlements of older promises reaches after the call.  `parallelTasks`
lists the promise that stands for each task: the task itself when it is a
promise, the promise `spawn` returns for it otherwise (first three parts).  At
any time: if the promise of `parallel` is fulfilled, every task is fulfilled;
if it is rejected with `e`, then `e` is the error of a rejected task and every
task before that one is fulfilled; and while the first task that is not
fulfilled is pending, the promise of `parallel` is pending, whatever the tasks
after it have done.  Once no job is left: if every task is fulfilled, so is the
promise of `parallel`; and if a task is rejected with `e` and every task
before it is fulfilled, the promise of `parallel` is rejected with `e`,
whatever the order of the settlements.  For promises `ts` as tasks in a store
at rest such a store without jobs is reached, for any external settlements
`evs` in any order.  Last part: two computations as tasks, where the result of
the second (promise 6) is rejected with `second` before the result of the first
(promise 3) is rejected with `first`; the promise of `parallel` (promise 7) is
rejected with `first`. -/
theorem parallel_settles_in_sequence_order (fuel : Nat) (w : World) (arr : List Value)
    (steps : List Step) (W' : World) (hF : Fresh w) (hN : NoNest w)
    (hold : ∀ p, Value.promise p ∈ arr → p < w.nextPromise)
    (hev : ∀ ev, Step.event ev ∈ steps → ev.ok w.nextPromise)
    (hr : runSteps fuel (parallel w arr).1 steps = some W') :
    (∀ (acc : World × Value) (v : Value),
      parallelStep acc v =
        valueThen (taskOf acc v).1 acc.2 (.parallelTask (taskOf acc v).2) .thrower) ∧
    (parallelTasks w arr).length = arr.length ∧
    (∀ ts : List Nat, parallelTasks w (ts.map Value.promise) = ts) ∧
    (parallel w arr).2 = .promise (promiseId (parallel w arr).2) ∧
    ((∃ x, W'.promises (promiseId (parallel w arr).2) = .fulfilled x) →
      ∀ t ∈ parallelTasks w arr, ∃ y, W'.promises t = .fulfilled y) ∧
    (∀ e, W'.promises (promiseId (parallel w arr).2) = .rejected e →
      ∃ pre t post, parallelTasks w arr = pre ++ t :: post ∧
        (∀ s ∈ pre, ∃ y, W'.promises s = .fulfilled y) ∧ W'.promises t = .rejected e) ∧
    (∀ (pre : List Nat) (t : Nat) (post : List Nat), parallelTasks w arr = pre ++ t :: post →
      (∀ s ∈ pre, ∃ y, W'.promises s = .fulfilled y) → (W'.promises t).isSettled = false →
      (W'.promises (promiseId (parallel w arr).2)).isSettled = false) ∧
    (W'.queue = [] → (∀ t ∈ parallelTasks w arr, ∃ y, W'.promises t = .fulfilled y) →
      ∃ x, W'.promises (promiseId (parallel w arr).2) = .fulfilled x) ∧
    (W'.queue = [] → ∀ (pre : List Nat) (t : Nat) (post : List Nat) (e : Value),
      parallelTasks w arr = pre ++ t :: post →
      (∀ s ∈ pre, ∃ y, W'.promises s = .fulfilled y) → W'.promises t = .rejected e →
      W'.promises (promiseId (parallel w arr).2) = .rejected e) ∧
    (∀ (ts : List Nat) (evs : List Settle), w.queue = [] → (∀ t ∈ ts, t < w.nextPromise) →
      (∀ q, q < w.nextPromise → ∀ rs, w.promises q = .pending rs → rs = []) →
      (∀ ev ∈ evs, ev.ok w.nextPromise) →
      ∃ W0 W1, drain fuel (3 * ts.length + 3) (parallel w (ts.map Value.promise)).1 = some W0 ∧
        runEvents fuel (3 * ts.length + 3) W0 evs = some W1 ∧ W1.queue = [] ∧
        Agrees w.nextPromise W1.promises (fun q => settledAs q (w.promises q) evs) ∧
        W1.promises (promiseId (parallel w (ts.map Value.promise)).2) =
          chainOutcome W1.promises .undefined ts) ∧
    (parallel twoFailWorld [.iterator 0, .iterator 1]).2 = .promise 7 ∧
    (drain 2 9 (parallel twoFailWorld [.iterator 0, .iterator 1]).1).map
        (fun W => (W.promises 3, W.promises 6, W.promises 7, settledOrder W, W.queue)) =
      some (.rejected (.error "first"), .rejected (.error "second"), .rejected (.error "first"),
        [6, 8, 3, 9, 4, 10, 7], []) := by
  obtain ⟨h1, h2, h3, _⟩ := parallel_run fuel w arr steps W' hF hN hold hev hr
  refine ⟨fun acc v => rfl, ?_, ?_, h1, ?_, ?_, ?_, ?_, ?_, ?_, rfl, rfl⟩
  · simp only [parallelTasks, List.length_map]
    exact parallelChain_length arr _
  · intro ts
    exact parallelChain_promises ts _
  · rintro ⟨x, hx⟩
    have hc := h2 (by rw [hx]; rfl)
    rw [hx] at hc
    exact (chainOutcome_fulfilled_iff W'.promises _ .undefined).mp ⟨x, hc.symm⟩
  · intro e he
    have hc := h2 (by rw [he]; rfl)
    rw [he] at hc
    exact chainOutcome_rejected_inv W'.promises e _ .undefined hc.symm
  · intro pre t post hts hpre ht
    cases hs : (W'.promises (promiseId (parallel w arr).2)).isSettled with
    | false => rfl
    | true =>
      have hc := h2 hs
      rw [hts, chainOutcome_pending W'.promises pre t post hpre ht .undefined] at hc
      rw [hc] at hs
      exact absurd hs (by simp [PState.isSettled])
  · intro hq hall
    obtain ⟨x, hx⟩ := (chainOutcome_fulfilled_iff W'.promises _ .undefined).mpr hall
    have := SameState_settled _ _ (h3 hq) (by rw [hx]; rfl)
    exact ⟨x, by rw [this, hx]⟩
  · intro hq pre t post e hts hpre ht
    have hx := chainOutcome_rejected W'.promises pre t post e hpre ht .undefined
    rw [← hts] at hx
    have := SameState_settled _ _ (h3 hq) (by rw [hx]; rfl)
    rw [this, hx]
  · intro ts evs hq hts hquiet hev1
    obtain ⟨k0, W0, W1, k1, k2, k3, k4, k5⟩ := parallel_chain fuel w ts evs hq hts
      (fun q q1 _ rs h => hquiet q q1 rs h)
      (fun q q1 y h => hN q y q1 h) hev1
    exact ⟨W0, W1, k1, k2, k3, k5, by rw [k0]; exact k4⟩

theorem Fresh_twoFailWorld : Fresh twoFailWorld := by
  intro c _
  refine Owns_nobody_of_quiet _ _ rfl ?_
  intro q rs h
  simp only [twoFailWorld, emptyWorld, setAt_apply] at h
  split at h
  · cases h
  · cases h
    rfl

theorem NoNest_twoFailWorld : NoNest twoFailWorld := by
  intro q x hq h
  simp only [twoFailWorld, emptyWorld, setAt_apply] at h
  split at h
  · cases h
    rfl
  · cases h

/-- C8 amended, at two computations as tasks: the second throws `second` at
once, the first awaits a promise and then throws `first`.  After nine jobs no
job is left, the result of the first task (promise 3) is rejected with `first`,
and so is the promise of `parallel` (promise 7). -/
theorem parallel_settles_in_sequence_order_witness :
    ∃ W', runSteps 2 (parallel twoFailWorld [.iterator 0, .iterator 1]).1
        (List.replicate 9 Step.job) = some W' ∧
      parallelTasks twoFailWorld [.iterator 0, .iterator 1] = [3, 6] ∧
      W'.promises 3 = .rejected (.error "first") ∧
      W'.promises 7 = .rejected (.error "first") := by
  have hsome : (runSteps 2 (parallel twoFailWorld [.iterator 0, .iterator 1]).1
      (List.replicate 9 Step.job)).isSome = true := rfl
  obtain ⟨W', hW⟩ := Option.isSome_iff_exists.mp hsome
  have hq : W'.queue = [] := by
    have : (runSteps 2 (parallel twoFailWorld [.iterator 0, .iterator 1]).1
      (List.replicate 9 Step.job)).map (fun W => W.queue) = some [] := rfl
    rw [hW] at this
    simpa using this
  have h3 : W'.promises 3 = .rejected (.error "first") := by
    have : (runSteps 2 (parallel twoFailWorld [.iterator 0, .iterator 1]).1
      (List.replicate 9 Step.job)).map (fun W => W.promises 3) =
        some (.rejected (.error "first")) := rfl
    rw [hW] at this
    simpa using this
  have hts : parallelTasks twoFailWorld [.iterator 0, .iterator 1] = [3, 6] := rfl
  obtain ⟨_, _, _, _, _, _, _, _, hrej, _⟩ :=
    parallel_settles_in_sequence_order 2 twoFailWorld [.iterator 0, .iterator 1]
      (List.replicate 9 Step.job) W' Fresh_twoFailWorld NoNest_twoFailWorld
      (by intro p hp; simp at hp)
      (by intro ev hev; simp [List.replicate] at hev) hW
  exact ⟨W', hW, hts, h3, hrej hq [] 3 [6] (.error "first") hts
    (fun s hs => absurd hs (List.not_mem_nil _)) h3⟩

/-- C9, amended: `parallel` over any sequence `arr` of tasks, promises (older
than the call) and computations alike, in any store `W'` that a run of jobs and
external settlements of older promises reaches after the call.  If the promise
of `parallel` is fulfilled with `x`, every task is fulfilled and `x` is the
value of the last task of the sequence (`undefined` when the sequence is
empty): no aggregate of the values is made, and the values of the other tasks
do not matter.  For the empty sequence the promise is fulfilled with
`undefined`.  Once no job is left and every task is fulfilled, the promise of
`parallel` is fulfilled with the value of the last task.  For promises `ts` as
tasks in a store at rest such a store without jobs is reached, for any external
settlements `evs` in any order. -/
theorem parallel_fulfils_with_last_value (fuel : Nat) (w : World) (arr : List Value)
    (steps : List Step) (W' : World) (hF : Fresh w) (hN : NoNest w)
    (hold : ∀ p, Value.promise p ∈ arr → p < w.nextPromise)
    (hev : ∀ ev, Step.event ev ∈ steps → ev.ok w.nextPromise)
    (hr : runSteps fuel (parallel w arr).1 steps = some W') :
    (parallel w arr).2 = .promise (promiseId (parallel w arr).2) ∧
    (∀ x, W'.promises (promiseId (parallel w arr).2) = .fulfilled x →
      (∀ t ∈ parallelTasks w arr, ∃ y, W'.promises t = .fulfilled y) ∧
      ((parallelTasks w arr = [] ∧ x = .undefined) ∨
        ∃ pre t, parallelTasks w arr = pre ++ [t] ∧ W'.promises t = .fulfilled x)) ∧
    (arr = [] → W'.promises (promiseId (parallel w arr).2) = .fulfilled .undefined) ∧
    (W'.queue = [] → ∀ (pre : List Nat) (t : Nat) (x : Value),
      parallelTasks w arr = pre ++ [t] →
      (∀ s ∈ pre, ∃ y, W'.promises s = .fulfilled y) → W'.promises t = .fulfilled x →
      W'.promises (promiseId (parallel w arr).2) = .fulfilled x) ∧
    (∀ (ts : List Nat) (evs : List Settle), w.queue = [] → (∀ t ∈ ts, t < w.nextPromise) →
      (∀ q, q < w.nextPromise → ∀ rs, w.promises q = .pending rs → rs = []) →
      (∀ ev ∈ evs, ev.ok w.nextPromise) →
      ∃ W0 W1, drain fuel (3 * ts.length + 3) (parallel w (ts.map Value.promise)).1 = some W0 ∧
        runEvents fuel (3 * ts.length + 3) W0 evs = some W1 ∧ W1.queue = [] ∧
        Agrees w.nextPromise W1.promises (fun q => settledAs q (w.promises q) evs) ∧
        ∀ (pre : List Nat) (t : Nat) (x : Value), ts = pre ++ [t] →
          (∀ s ∈ pre, ∃ y, W1.promises s = .fulfilled y) → W1.promises t = .fulfilled x →
          W1.promises (promiseId (parallel w (ts.map Value.promise)).2) = .fulfilled x) := by
  obtain ⟨h1, h2, h3, h4⟩ := parallel_run fuel w arr steps W' hF hN hold hev hr
  refine ⟨h1, ?_, h4, ?_, ?_⟩
  · intro x hx
    have hc := h2 (by rw [hx]; rfl)
    rw [hx] at hc
    exact ⟨(chainOutcome_fulfilled_iff W'.promises _ .undefined).mp ⟨x, hc.symm⟩,
      chainOutcome_fulfilled_inv W'.promises x _ .undefined hc.symm⟩
  · intro hq pre t x hts hpre ht
    have hx := chainOutcome_last W'.promises pre t x hpre ht .undefined
    rw [← hts] at hx
    have := SameState_settled _ _ (h3 hq) (by rw [hx]; rfl)
    rw [this, hx]
  · intro ts evs hq hts hquiet hev1
    obtain ⟨k0, W0, W1, k1, k2, k3, k4, k5⟩ := parallel_chain fuel w ts evs hq hts
      (fun q q1 _ rs h => hquiet q q1 rs h)
      (fun q q1 y h => hN q y q1 h) hev1
    refine ⟨W0, W1, k1, k2, k3, k5, ?_⟩
    intro pre t x hts1 hpre ht
    rw [k0]
    show W1.promises (w.nextPromise + ts.length) = _
    rw [k4, hts1]
    exact chainOutcome_last W1.promises pre t x hpre ht .undefined

theorem Fresh_threePendingWorld : Fresh threePendingWorld := by
  intro c _
  refine Owns_nobody_of_quiet _ _ rfl ?_
  intro q rs h
  simp only [threePendingWorld, emptyWorld] at h
  cases h
  rfl

theorem NoNest_threePendingWorld : NoNest threePendingWorld := by
  intro q x _ h
  simp only [threePendingWorld, emptyWorld] at h
  cases h

/-- C9 amended, at three pending promises as tasks: between the jobs task 2 is
fulfilled with 30, then task 0 with 10, then task 1 with 20; in the end no job
is left and the promise of `parallel` (promise 6) is fulfilled with 30, the
value of the last task. -/
theorem parallel_fulfils_with_last_value_witness :
    ∃ W', runSteps 1 (parallel threePendingWorld [.promise 0, .promise 1, .promise 2]).1
        (List.replicate 6 Step.job ++ [.event (.fulfil 2 (.num 30))] ++
          [.event (.fulfil 0 (.num 10)), .job, .job, .event (.fulfil 1 (.num 20))] ++
          List.replicate 6 Step.job) = some W' ∧
      W'.promises 1 = .fulfilled (.num 20) ∧
      W'.promises 2 = .fulfilled (.num 30) ∧
      W'.promises 6 = .fulfilled (.num 30) := by
  have hsome : (runSteps 1 (parallel threePendingWorld [.promise 0, .promise 1, .promise 2]).1
      (List.replicate 6 Step.job ++ [.event (.fulfil 2 (.num 30))] ++
        [.event (.fulfil 0 (.num 10)), .job, .job, .event (.fulfil 1 (.num 20))] ++
        List.replicate 6 Step.job)).isSome = true := rfl
  obtain ⟨W', hW⟩ := Option.isSome_iff_exists.mp hsome
  have hfacts : (W'.queue, W'.promises 0, W'.promises 1, W'.promises 2) =
      ([], .fulfilled (.num 10), .fulfilled (.num 20), .fulfilled (.num 30)) := by
    have : (runSteps 1 (parallel threePendingWorld [.promise 0, .promise 1, .promise 2]).1
      (List.replicate 6 Step.job ++ [.event (.fulfil 2 (.num 30))] ++
        [.event (.fulfil 0 (.num 10)), .job, .job, .event (.fulfil 1 (.num 20))] ++
        List.replicate 6 Step.job)).map
        (fun W => (W.queue, W.promises 0, W.promises 1, W.promises 2)) =
      some ([], .fulfilled (.num 10), .fulfilled (.num 20), .fulfilled (.num 30)) := rfl
    rw [hW] at this
    simpa using this
  simp only [Prod.mk.injEq] at hfacts
  obtain ⟨hq, h0, h1, h2⟩ := hfacts
  obtain ⟨_, _, _, hlast, _⟩ :=
    parallel_fulfils_with_last_value 1 threePendingWorld [.promise 0, .promise 1, .promise 2]
      (List.replicate 6 Step.job ++ [.event (.fulfil 2 (.num 30))] ++
        [.event (.fulfil 0 (.num 10)), .job, .job, .event (.fulfil 1 (.num 20))] ++
        List.replicate 6 Step.job) W' Fresh_threePendingWorld NoNest_threePendingWorld
      (by
        intro p hp
        simp only [List.mem_cons, Value.promise.injEq, List.mem_singleton, List.not_mem_nil,
          or_false] at hp
        show p < 3
        omega)
      (by
        intro ev hev
        simp only [List.replicate, List.cons_append, List.nil_append, List.mem_cons,
          Step.event.injEq, List.mem_singleton, List.not_mem_nil, or_false, false_or,
          reduceCtorEq] at hev
        rcases hev with rfl | rfl | rfl
        · exact ⟨(by decide : 2 < 3), rfl⟩
        · exact ⟨(by decide : 0 < 3), rfl⟩
        · exact ⟨(by decide : 1 < 3), rfl⟩) hW
  refine ⟨W', hW, h1, h2, hlast hq [0, 1] 2 (.num 30) rfl ?_ h2⟩
  intro s hs
  simp only [List.mem_cons, List.mem_singleton, List.not_mem_nil, or_false] at hs
  rcases hs with rfl | rfl
  · exact ⟨_, h0⟩
  · exact ⟨_, h1⟩
end Co6
